import Mathlib

/-!
# FLIC codec: a shallow embedding of the decoder and encoder

The definitions below follow `decoder.cpp`, `encoder.cpp` and `flic.h`.
Bytes, pixels and colour channels are natural numbers below 256; the 16 and
32 bit machine integers of the source are natural numbers reduced modulo
`2^16` and `2^32` where the source truncates, and signed values are integers.
Loops whose trip count is not fixed in advance take a fuel argument and
return `none` when the fuel runs out; every such loop comes with a theorem
giving a fuel that is enough.
-/

namespace flic

/-! ## Byte stream -/

/-- Modelled from the spec: the Byte Stream capability (`FileInterface` of
`flic.h` is abstract and no implementation is part of the sources).  A stream
is a finite sequence of bytes, a current position and the status flag.  A gap
left by seeking past the end and then writing reads as zero. -/
structure File where
  data : List Nat
  pos : Nat
  ok : Bool
deriving DecidableEq, Repr

/-- Store one byte at an absolute position, growing the sequence with zeros
when the position lies past its end. -/
def writeAt (d : List Nat) (p v : Nat) : List Nat :=
  if p < d.length then d.set p v
  else d ++ List.replicate (p - d.length) 0 ++ [v]

/-- Modelled from the spec: `ok()`, the status query. -/
def File.isOk (f : File) : Bool := f.ok

/-- Modelled from the spec: `tell()`, the current absolute position. -/
def File.tell (f : File) : Nat := f.pos

/-- Modelled from the spec: `seek(absPos)`, an absolute seek. -/
def File.seek (f : File) (p : Nat) : File := { f with pos := p }

/-- Modelled from the spec: `read8()`, the next byte, or 0 when the status is
invalid; a read past the end makes the status invalid. -/
def File.read8 (f : File) : Nat × File :=
  if f.ok = true ∧ f.pos < f.data.length then
    (f.data.getD f.pos 0 % 256, { f with pos := f.pos + 1 })
  else (0, { f with ok := false })

/-- Modelled from the spec: `write8(value)`, one byte written at the current
position, or nothing when the status is invalid. -/
def File.write8 (f : File) (v : Nat) : File :=
  if f.ok = true then
    { f with data := writeAt f.data f.pos (v % 256), pos := f.pos + 1 }
  else f

/-! ## Machine integers -/

/-- Conversion of an `int` to `uint8_t`. -/
def u8 (v : Int) : Nat := (v % 256).toNat

/-- Conversion of a byte to `int8_t`, widened to `int`. -/
def toInt8 (b : Nat) : Int := if b % 256 < 128 then (b % 256 : Nat) else (b % 256 : Nat) - 256

/-- Conversion of a 16 bit value to `int16_t`. -/
def toInt16 (v : Nat) : Int :=
  if v % 65536 < 32768 then (v % 65536 : Nat) else (v % 65536 : Nat) - 65536

/-- Conversion of a 32 bit value to `int`. -/
def toInt32 (v : Nat) : Int :=
  if v % 4294967296 < 2147483648 then (v % 4294967296 : Nat)
  else (v % 4294967296 : Nat) - 4294967296

/-- Result of an `int` computation, wrapped to 32 bits two's complement. -/
def wrapInt32 (v : Int) : Int := toInt32 (v % 4294967296).toNat

/-- Conversion of an `int` to `uint32_t`. -/
def u32 (v : Int) : Nat := (v % 4294967296).toNat

/-- Conversion of an `int` to `size_t` (64 bits). -/
def toSize (v : Int) : Nat := (v % 18446744073709551616).toNat

/-! ## Data model (`flic.h`) -/

/-- One palette entry, `struct Color`. -/
structure Color where
  r : Nat
  g : Nat
  b : Nat
deriving DecidableEq, Repr

/-- The 256 entry palette, `class Colormap`; only indices below 256 are used. -/
abbrev Colormap := Nat → Color

/-- `Colormap::operator==`: element-wise comparison of the 256 entries. -/
def Colormap.eq (a b : Colormap) : Bool :=
  (List.range 256).all (fun i => decide (a i = b i))

/-- Store one entry of a colormap. -/
def Colormap.set (c : Colormap) (i : Nat) (v : Color) : Colormap :=
  fun k => if k = i then v else c k

/-- `struct Header`. -/
structure Header where
  frames : Nat
  width : Nat
  height : Nat
  speed : Int

/-- `struct Frame`: the caller's pixel buffer, its row stride and the
colormap.  The field `oob` is a ghost flag: it is raised by a write whose
index lies outside the pixel buffer or outside the 256 colormap entries. -/
structure Frame where
  pixels : List Nat
  rowstride : Nat
  colormap : Colormap
  oob : Bool

/-- Index-checked store into the pixel buffer. -/
def Frame.setPixel (fr : Frame) (i v : Nat) : Frame :=
  if i < fr.pixels.length then { fr with pixels := fr.pixels.set i v }
  else { fr with oob := true }

/-- Index-checked store into the colormap, `Colormap::operator[]`. -/
def Frame.setColor (fr : Frame) (i : Nat) (c : Color) : Frame :=
  if i < 256 then { fr with colormap := fr.colormap.set i c }
  else { fr with oob := true }

/-- Load from the pixel buffer. -/
def Frame.px (fr : Frame) (i : Nat) : Nat := fr.pixels.getD i 0

/-- Byte offset of scanline `y`: the product `y*frame.rowstride` in
`uint32_t` arithmetic. -/
def Frame.rowOff (fr : Frame) (y : Nat) : Nat := (y * fr.rowstride) % 4294967296

/-- Pixel `(x, y)` of a frame, addressed the way the codec addresses it. -/
def Frame.pixelAt (fr : Frame) (x y : Nat) : Nat := fr.px (fr.rowOff y + x)

/-! ## Constants (`flic_details.h`) -/

def FLI_MAGIC_NUMBER : Nat := 0xAF11
def FLC_MAGIC_NUMBER : Nat := 0xAF12
def FLI_FRAME_MAGIC_NUMBER : Nat := 0xF1FA
def FLI_COLOR_256_CHUNK : Nat := 4
def FLI_DELTA_CHUNK : Nat := 7
def FLI_COLOR_64_CHUNK : Nat := 11
def FLI_LC_CHUNK : Nat := 12
def FLI_BLACK_CHUNK : Nat := 13
def FLI_BRUN_CHUNK : Nat := 15
def FLI_COPY_CHUNK : Nat := 16

/-! ## Decoder (`decoder.cpp`) -/

/-- `Decoder::read16`: two bytes, little endian; 0 when the stream is not ok
afterwards.  The two bytes occupy disjoint bits, so the bitwise or of the
source is their sum. -/
def read16 (f : File) : Nat × File :=
  let r1 := f.read8
  let r2 := r1.2.read8
  if r2.2.ok = true then (r2.1 * 256 + r1.1, r2.2) else (0, r2.2)

/-- `Decoder::read32`: four bytes, little endian; 0 when the stream is not ok
afterwards. -/
def read32 (f : File) : Nat × File :=
  let r1 := f.read8
  let r2 := r1.2.read8
  let r3 := r2.2.read8
  let r4 := r3.2.read8
  if r4.2.ok = true then
    (r4.1 * 16777216 + r3.1 * 65536 + r2.1 * 256 + r1.1, r4.2)
  else (0, r4.2)

/-- `class Decoder`: the stream and the private members. -/
structure Decoder where
  m_file : File
  m_width : Nat
  m_height : Nat
  m_frameCount : Int
  m_offsetFrame1 : Int
  m_offsetFrame2 : Int

/-- `Decoder::Decoder(file)`.  The source leaves `m_width` and `m_height`
uninitialised until `readHeader`; they are 0 here. -/
def Decoder.new (file : File) : Decoder :=
  { m_file := file, m_width := 0, m_height := 0, m_frameCount := 0,
    m_offsetFrame1 := 0, m_offsetFrame2 := 0 }

/-- `Decoder::readHeader`: the boolean result, the header and the decoder
afterwards.  On failure the header is returned as it was passed in. -/
def Decoder.readHeader (d : Decoder) (header : Header) : Bool × Header × Decoder :=
  let f := (read32 d.m_file).2
  let rm := read16 f
  let magic := rm.1
  if magic ≠ FLI_MAGIC_NUMBER ∧ magic ≠ FLC_MAGIC_NUMBER then
    (false, header, { d with m_file := rm.2 })
  else
    let rfr := read16 rm.2
    let rw := read16 rfr.2
    let rh := read16 rw.2
    let f := (read16 rh.2).2
    let f := (read16 f).2
    let rs := read32 f
    let speed : Int := toInt32 rs.1
    let speed : Int :=
      if magic = FLI_MAGIC_NUMBER then
        if speed = 0 then 70 else Int.tdiv (wrapInt32 (1000 * speed)) 70
      else speed
    let ro :=
      if magic = FLC_MAGIC_NUMBER then
        let r1 := read32 (rs.2.seek 80)
        let r2 := read32 r1.2
        (toInt32 r1.1, toInt32 r2.1, r2.2)
      else (d.m_offsetFrame1, d.m_offsetFrame2, rs.2)
    let width := if rw.1 = 0 then 320 else rw.1
    let height := if rh.1 = 0 then 200 else rh.1
    (true,
     { frames := rfr.1, width := width, height := height, speed := speed },
     { d with m_file := ro.2.2.seek 128, m_width := width, m_height := height,
              m_offsetFrame1 := ro.1, m_offsetFrame2 := ro.2.1 })

/-- Index-checked store at an offset computed in signed arithmetic. -/
def Frame.setPixelI (fr : Frame) (i : Int) (v : Nat) : Frame :=
  if 0 ≤ i ∧ i < fr.pixels.length then { fr with pixels := fr.pixels.set i.toNat v }
  else { fr with oob := true }

/-- `std::fill(frame.pixels + i, frame.pixels + i + n, 0)`. -/
def fillZero (fr : Frame) : Nat → Nat → Frame
  | _, 0 => fr
  | i, n + 1 => fillZero (fr.setPixel i 0) (i + 1) n

/-- `Decoder::readBlackChunk`; the size `frame.rowstride*m_height` is a
`uint32_t` product. -/
def readBlackChunk (h : Nat) (f : File) (fr : Frame) : File × Frame :=
  (f, fillZero fr 0 ((fr.rowstride * h) % 4294967296))

/-- The inner loop of `readCopyChunk`: `n` bytes read into consecutive pixels. -/
def copyBytes : Nat → Nat → File → Frame → File × Frame
  | 0, _, f, fr => (f, fr)
  | n + 1, it, f, fr =>
    let r := f.read8
    copyBytes n (it + 1) r.2 (fr.setPixel it r.1)

/-- The row loop of `readCopyChunk`, `n` rows starting at row `y`. -/
def copyRows : Nat → Nat → File → Frame → File × Frame
  | 0, _, f, fr => (f, fr)
  | n + 1, y, f, fr =>
    let r := copyBytes 320 (fr.rowOff y) f fr
    copyRows n (y + 1) r.1 r.2

/-- `Decoder::readCopyChunk`. -/
def readCopyChunk (w h : Nat) (f : File) (fr : Frame) : File × Frame :=
  if w = 320 ∧ h = 200 then copyRows 200 0 f fr else (f, fr)

/-- The colour loop of `readColorChunk`: `for (j; j<colors && i+j<256; ++j)`,
with `n` the number of colours still to read. -/
def colorLoop (oldColorChunk : Bool) (i : Nat) : Nat → Nat → File → Frame → File × Frame
  | 0, _, f, fr => (f, fr)
  | n + 1, j, f, fr =>
    if i + j < 256 then
      let r := f.read8
      let g := r.2.read8
      let b := g.2.read8
      let c : Color :=
        if oldColorChunk = true then
          { r := (255 * r.1 / 63) % 256, g := (255 * g.1 / 63) % 256,
            b := (255 * b.1 / 63) % 256 }
        else { r := r.1, g := g.1, b := b.1 }
      colorLoop oldColorChunk i n (j + 1) b.2 (fr.setColor (i + j) c)
    else (f, fr)

/-- The packet loop of `readColorChunk`: `while (npackets--)`. -/
def colorPackets (oldColorChunk : Bool) : Nat → Nat → File → Frame → File × Frame
  | 0, _, f, fr => (f, fr)
  | n + 1, i, f, fr =>
    let rs := f.read8
    let i := i + rs.1
    let rc := rs.2.read8
    let colors := if rc.1 = 0 then 256 else rc.1
    let r := colorLoop oldColorChunk i colors 0 rc.2 fr
    colorPackets oldColorChunk n i r.1 r.2

/-- `Decoder::readColorChunk`. -/
def readColorChunk (oldColorChunk : Bool) (f : File) (fr : Frame) : File × Frame :=
  let r := read16 f
  colorPackets oldColorChunk r.1 0 r.2 fr

/-- The repeat loop of `readBrunChunk`: `while (count-- != 0 && x < m_width)`. -/
def brunRepeat (w base color : Nat) : Nat → Nat → Frame → Nat × Frame
  | 0, x, fr => (x, fr)
  | n + 1, x, fr =>
    if x < w then brunRepeat w base color n (x + 1) (fr.setPixel (base + x) color)
    else (x, fr)

/-- The literal loop of `readBrunChunk`: `while (count++ != 0 && x < m_width)`. -/
def brunLiteral (w base : Nat) : Nat → Nat → File → Frame → Nat × File × Frame
  | 0, x, f, fr => (x, f, fr)
  | n + 1, x, f, fr =>
    if x < w then
      let r := f.read8
      brunLiteral w base n (x + 1) r.2 (fr.setPixel (base + x) r.1)
    else (x, f, fr)

/-- The packet loop of one row of `readBrunChunk`:
`while (m_file->ok() && x < m_width)`. -/
def brunRowLoop (w base : Nat) : Nat → Nat → File → Frame → Option (File × Frame)
  | 0, x, f, fr => if f.ok = true ∧ x < w then none else some (f, fr)
  | fuel + 1, x, f, fr =>
    if f.ok = true ∧ x < w then
      let rc := f.read8
      let count := toInt8 rc.1
      if 0 ≤ count then
        let rv := rc.2.read8
        let r := brunRepeat w base rv.1 count.toNat x fr
        brunRowLoop w base fuel r.1 rv.2 r.2
      else
        let r := brunLiteral w base (-count).toNat x rc.2 fr
        brunRowLoop w base fuel r.1 r.2.1 r.2.2
    else some (f, fr)

/-- One iteration of the row loop of `readBrunChunk`, for row `y`: the packet
count byte is read and ignored, then the packets are decoded.  Every packet
takes at least one byte from the stream or ends the loop, so the length of
the stream plus one is fuel enough. -/
def readBrunRow (w y : Nat) (f : File) (fr : Frame) : Option (File × Frame) :=
  brunRowLoop w (fr.rowOff y) (f.data.length + 1) 0 (f.read8).2 fr

/-- The row loop of `readBrunChunk`, `n` rows starting at row `y`. -/
def brunRows (w : Nat) : Nat → Nat → File → Frame → Option (File × Frame)
  | 0, _, f, fr => some (f, fr)
  | n + 1, y, f, fr =>
    match readBrunRow w y f fr with
    | none => none
    | some r => brunRows w n (y + 1) r.1 r.2

/-- `Decoder::readBrunChunk`. -/
def readBrunChunk (w h : Nat) (f : File) (fr : Frame) : Option (File × Frame) :=
  brunRows w h 0 f fr

/-- The literal loop of `readLcChunk`: `while (count-- != 0 && it < end)`,
where `it` is `base + x`. -/
def lcLiteral (base endOff : Nat) : Nat → Nat → File → Frame → Nat × File × Frame
  | 0, x, f, fr => (x, f, fr)
  | n + 1, x, f, fr =>
    if base + x < endOff then
      let r := f.read8
      lcLiteral base endOff n (x + 1) r.2 (fr.setPixel (base + x) r.1)
    else (x, f, fr)

/-- The repeat loop of `readLcChunk`: `while (count++ != 0 && x < m_width)`. -/
def lcRepeat (w base color : Nat) : Nat → Nat → Frame → Nat × Frame
  | 0, x, fr => (x, fr)
  | n + 1, x, fr =>
    if x < w then lcRepeat w base color n (x + 1) (fr.setPixel (base + x) color)
    else (x, fr)

/-- The packet loop of one line of `readLcChunk`:
`while (npackets-- && x < m_width)`.  The boolean of the result tells that the
decoder returned from the whole chunk (`it == end`). -/
def lcPackets (w base endOff : Nat) : Nat → Nat → File → Frame → Bool × File × Frame
  | 0, _, f, fr => (false, f, fr)
  | n + 1, x, f, fr =>
    if x < w then
      let rs := f.read8
      let x := x + rs.1
      let rc := rs.2.read8
      let count := toInt8 rc.1
      if 0 ≤ count then
        let r := lcLiteral base endOff count.toNat x rc.2 fr
        if base + r.1 = endOff then (true, r.2.1, r.2.2)
        else lcPackets w base endOff n r.1 r.2.1 r.2.2
      else
        let rv := rc.2.read8
        let r := lcRepeat w base rv.1 (-count).toNat x fr
        lcPackets w base endOff n r.1 rv.2 r.2
    else (false, f, fr)

/-- The line loop of `readLcChunk`, `n` lines starting at line `y`. -/
def lcLines (w h : Nat) : Nat → Nat → File → Frame → File × Frame
  | 0, _, f, fr => (f, fr)
  | n + 1, y, f, fr =>
    if y ≥ h then (f, fr)
    else
      let rn := f.read8
      let r := lcPackets w (fr.rowOff y) ((fr.rowstride * h) % 4294967296) rn.1 0 rn.2 fr
      if r.1 = true then (r.2.1, r.2.2)
      else lcLines w h n (y + 1) r.2.1 r.2.2

/-- `Decoder::readLcChunk`. -/
def readLcChunk (w h : Nat) (f : File) (fr : Frame) : File × Frame :=
  let rs := read16 f
  let rn := read16 rs.2
  lcLines w h rn.1 rs.1 rn.2 fr

/-- Byte offset of line `y` in `readDeltaChunk`, where `y` is an `int`:
`y*frame.rowstride` is computed in `uint32_t`. -/
def Frame.rowOffI (fr : Frame) (y : Int) : Nat := (u32 y * fr.rowstride) % 4294967296

/-- The two pixel writes shared by both packet kinds of `readDeltaChunk`. -/
def deltaPair (w base c1 c2 x : Nat) (fr : Frame) : Nat × Frame :=
  let fr := fr.setPixel (base + x) c1
  let x := x + 1
  if x < w then (x + 1, fr.setPixel (base + x) c2) else (x, fr)

/-- The literal loop of `readDeltaChunk`: `while (count-- != 0 && x < m_width)`. -/
def deltaLiteral (w base : Nat) : Nat → Nat → File → Frame → Nat × File × Frame
  | 0, x, f, fr => (x, f, fr)
  | n + 1, x, f, fr =>
    if x < w then
      let r1 := f.read8
      let r2 := r1.2.read8
      let r := deltaPair w base r1.1 r2.1 x fr
      deltaLiteral w base n r.1 r2.2 r.2
    else (x, f, fr)

/-- The repeat loop of `readDeltaChunk`: `while (count++ != 0 && x < m_width)`. -/
def deltaRepeat (w base c1 c2 : Nat) : Nat → Nat → Frame → Nat × Frame
  | 0, x, fr => (x, fr)
  | n + 1, x, fr =>
    if x < w then
      let r := deltaPair w base c1 c2 x fr
      deltaRepeat w base c1 c2 n r.1 r.2
    else (x, fr)

/-- The packet loop of one line of `readDeltaChunk`: `while (npackets-- != 0)`. -/
def deltaPackets (w base : Nat) : Nat → Nat → File → Frame → File × Frame
  | 0, _, f, fr => (f, fr)
  | n + 1, x, f, fr =>
    let rs := f.read8
    let x := x + rs.1
    let rc := rs.2.read8
    let count := toInt8 rc.1
    if 0 ≤ count then
      let r := deltaLiteral w base count.toNat x rc.2 fr
      deltaPackets w base n r.1 r.2.1 r.2.2
    else
      let r1 := rc.2.read8
      let r2 := r1.2.read8
      let r := deltaRepeat w base r1.1 r2.1 (-count).toNat x fr
      deltaPackets w base n r.1 r2.2 r.2

/-- Outcome of the control word loop of `readDeltaChunk`. -/
structure DeltaWords where
  returned : Bool
  npackets : Nat
  nlines : Nat
  y : Int
  file : File
  frame : Frame

/-- The control word loop of `readDeltaChunk`: `while (m_file->ok())`.  Bit 14
of the word is `(word / 16384) % 2` of its unsigned value; `y` is an `int`
and wraps. -/
def deltaWords (w h : Nat) : Nat → Nat → Int → File → Frame → Option DeltaWords
  | 0, nlines, y, f, fr =>
    if f.ok = true then none
    else some { returned := false, npackets := 0, nlines := nlines, y := y, file := f, frame := fr }
  | fuel + 1, nlines, y, f, fr =>
    if f.ok = true then
      let r := read16 f
      let word := toInt16 r.1
      if word < 0 then
        if (r.1 / 16384) % 2 = 1 then
          deltaWords w h fuel nlines (wrapInt32 (y + -word)) r.2 fr
        else
          let fr :=
            if 0 ≤ y ∧ y < h then fr.setPixelI ((fr.rowOffI y : Int) + w - 1) (r.1 % 256)
            else fr
          let y := wrapInt32 (y + 1)
          if nlines = 0 then
            some { returned := true, npackets := 0, nlines := nlines, y := y, file := r.2, frame := fr }
          else deltaWords w h fuel (nlines - 1) y r.2 fr
      else
        some { returned := false, npackets := word.toNat, nlines := nlines, y := y,
               file := r.2, frame := fr }
    else some { returned := false, npackets := 0, nlines := nlines, y := y, file := f, frame := fr }

/-- The line loop of `readDeltaChunk`: `while (nlines-- != 0)`.  The first
argument is the fuel handed to the control word loop, the second the fuel of
this loop. -/
def deltaLines (w h inner : Nat) : Nat → Nat → Int → File → Frame → Option (File × Frame)
  | 0, nlines, _, f, fr => if nlines = 0 then some (f, fr) else none
  | fuel + 1, nlines, y, f, fr =>
    if nlines = 0 then some (f, fr)
    else
      match deltaWords w h inner (nlines - 1) y f fr with
      | none => none
      | some r =>
        if r.returned = true then some (r.file, r.frame)
        else if r.y ≥ h then some (r.file, r.frame)
        else
          let p := deltaPackets w (r.frame.rowOffI r.y) r.npackets 0 r.file r.frame
          deltaLines w h inner fuel r.nlines (wrapInt32 (r.y + 1)) p.1 p.2

/-- `Decoder::readDeltaChunk`.  Every control word takes two bytes from the
stream, and every turn of the line loop lowers `nlines`. -/
def readDeltaChunk (w h : Nat) (f : File) (fr : Frame) : Option (File × Frame) :=
  let r := read16 f
  deltaLines w h (f.data.length + 1) (r.1 + 1) r.1 0 r.2 fr

/-- `Decoder::readChunk`: `chunkStartPos` and `chunkSize` are `uint32_t`, and
so is their sum. -/
def Decoder.readChunk (d : Decoder) (fr : Frame) : Option (Decoder × Frame) :=
  let chunkStartPos := d.m_file.tell % 4294967296
  let rs := read32 d.m_file
  let chunkSize := rs.1
  let rt := read16 rs.2
  let type := rt.1
  let r : Option (File × Frame) :=
    if type = FLI_COLOR_256_CHUNK then some (readColorChunk false rt.2 fr)
    else if type = FLI_DELTA_CHUNK then readDeltaChunk d.m_width d.m_height rt.2 fr
    else if type = FLI_COLOR_64_CHUNK then some (readColorChunk true rt.2 fr)
    else if type = FLI_LC_CHUNK then some (readLcChunk d.m_width d.m_height rt.2 fr)
    else if type = FLI_BLACK_CHUNK then some (readBlackChunk d.m_height rt.2 fr)
    else if type = FLI_BRUN_CHUNK then readBrunChunk d.m_width d.m_height rt.2 fr
    else if type = FLI_COPY_CHUNK then some (readCopyChunk d.m_width d.m_height rt.2 fr)
    else some (rt.2, fr)
  match r with
  | none => none
  | some p =>
    some ({ d with m_file := p.1.seek ((chunkStartPos + chunkSize) % 4294967296) }, p.2)

/-- The chunk loop of `readFrame`: `for (uint16_t i=0; i!=chunks; ++i)`. -/
def Decoder.readChunks : Nat → Decoder → Frame → Option (Decoder × Frame)
  | 0, d, fr => some (d, fr)
  | n + 1, d, fr =>
    match d.readChunk fr with
    | none => none
    | some r => Decoder.readChunks n r.1 r.2

/-- Eight calls of `read8`, the padding of the frame header. -/
def skip8 (f : File) : File :=
  (((((((f.read8.2).read8.2).read8.2).read8.2).read8.2).read8.2).read8.2).read8.2

/-- The `switch (m_frameCount)` of `readFrame`: the stream after the seek to
the loop anchor of frame 0 or frame 1, when one is recorded. -/
def Decoder.seekAnchor (d : Decoder) : File :=
  if d.m_frameCount = 0 then
    if d.m_offsetFrame1 ≠ 0 then d.m_file.seek (toSize d.m_offsetFrame1) else d.m_file
  else if d.m_frameCount = 1 then
    if d.m_offsetFrame2 ≠ 0 then d.m_file.seek (toSize d.m_offsetFrame2) else d.m_file
  else d.m_file

/-- `Decoder::readFrame`: the boolean result, the decoder and the frame
afterwards. -/
def Decoder.readFrame (d : Decoder) (fr : Frame) :
    Option (Bool × Decoder × Frame) :=
  let f := d.seekAnchor
  let frameStartPos := f.tell % 4294967296
  let rs := read32 f
  let frameSize := rs.1
  let rm := read16 rs.2
  let rc := read16 rm.2
  let chunks := rc.1
  let f := skip8 rc.2
  match Decoder.readChunks chunks { d with m_file := f } fr with
  | none => none
  | some r =>
    some (true,
          { r.1 with m_file := r.1.m_file.seek ((frameStartPos + frameSize) % 4294967296),
                     m_frameCount := wrapInt32 (r.1.m_frameCount + 1) },
          r.2)

/-! ## Run analyzer (`encoder.cpp`) -/

/-- The bytes `[off, off + n)` of a buffer, the window between two iterators. -/
def window (l : List Nat) (off n : Nat) : List Nat := (l.drop off).take n

/-- The loop of `count_consecutive_values`; `prev` is the value under the
previous iterator, `none` while that iterator is null. -/
def ccvLoop : Option Nat → Nat → List Nat → Nat
  | _, same, [] => same
  | prev, same, v :: rest =>
    if prev = none ∨ prev = some v then ccvLoop (some v) (same + 1) rest else same

/-- `count_consecutive_values(begin, end)`. -/
def count_consecutive_values (win : List Nat) : Nat := ccvLoop none 0 win

/-- The loop of `count_max_consecutive_values`; iterators are offsets from
`begin`, `none` for the null iterator.  The result is `max` and `*maxStart`. -/
def cmcvLoop : Option Nat → Option Nat → Option Nat → Nat → Nat → Nat → List Nat →
    Nat × Option Nat
  | _, _, maxStart, max, _, _, [] => (max, maxStart)
  | prev, curStart, maxStart, max, same, it, v :: rest =>
    if prev = none ∨ prev = some v then
      let curStart := if curStart = none then some it else curStart
      let same := same + 1
      if max < same then cmcvLoop (some v) curStart curStart same same (it + 1) rest
      else cmcvLoop (some v) curStart maxStart max same (it + 1) rest
    else cmcvLoop (some v) none maxStart max 0 (it + 1) rest

/-- `count_max_consecutive_values(begin, end, &maxStart)`. -/
def count_max_consecutive_values (win : List Nat) : Nat × Option Nat :=
  cmcvLoop none none none 0 0 0 win

/-- The loop of `count_max_consecutive_equal_values`. -/
def cmcevLoop : Option Nat → Option Nat → Nat → Nat → Nat → List Nat → List Nat →
    Nat × Option Nat
  | curStart, maxStart, max, same, it, v1 :: rest1, v2 :: rest2 =>
    if v1 = v2 then
      let curStart := if curStart = none then some it else curStart
      let same := same + 1
      if max < same then cmcevLoop curStart curStart same same (it + 1) rest1 rest2
      else cmcevLoop curStart maxStart max same (it + 1) rest1 rest2
    else cmcevLoop none maxStart max 0 (it + 1) rest1 rest2
  | _, maxStart, max, _, _, _, _ => (max, maxStart)

/-- `count_max_consecutive_equal_values(begin1, end1, begin2, end2, &maxStart)`. -/
def count_max_consecutive_equal_values (win1 win2 : List Nat) : Nat × Option Nat :=
  cmcevLoop none none 0 0 0 win1 win2

/-! ## Encoder (`encoder.cpp`) -/

/-- `Encoder::write16`; the argument is converted to `uint16_t`. -/
def write16 (f : File) (value : Nat) : File :=
  let v := value % 65536
  (f.write8 (v % 256)).write8 (v / 256)

/-- `Encoder::write32`; the argument is converted to `uint32_t`. -/
def write32 (f : File) (value : Nat) : File :=
  let v := value % 4294967296
  (((f.write8 (v % 256)).write8 (v / 256 % 256)).write8 (v / 65536 % 256)).write8 (v / 16777216)

/-- `class Encoder`: the stream and the private members. -/
structure Encoder where
  m_file : File
  m_width : Nat
  m_height : Nat
  m_prevColormap : Colormap
  m_prevFrameData : List Nat
  m_frameCount : Int
  m_offsetFrame1 : Int
  m_offsetFrame2 : Int

/-- `Color()`, the default colour. -/
def Color.zero : Color := { r := 0, g := 0, b := 0 }

/-- `Encoder::Encoder(file)`.  The source leaves `m_width` and `m_height`
uninitialised until `writeHeader`; they are 0 here. -/
def Encoder.new (file : File) : Encoder :=
  { m_file := file, m_width := 0, m_height := 0, m_prevColormap := fun _ => Color.zero,
    m_prevFrameData := [], m_frameCount := 0, m_offsetFrame1 := 0, m_offsetFrame2 := 0 }

/-- `Encoder::~Encoder`: the header is completed when the stream is ok. -/
def Encoder.destroy (e : Encoder) : File :=
  if e.m_file.ok = true then
    let size := e.m_file.tell % 4294967296
    let f := e.m_file.seek 0
    let f := write32 f size
    let f := write16 f FLC_MAGIC_NUMBER
    let f := write16 f (u32 e.m_frameCount)
    let f := f.seek 80
    let f := write32 f (u32 e.m_offsetFrame1)
    write32 f (u32 e.m_offsetFrame2)
  else e.m_file

/-- `Encoder::writeHeader`. -/
def Encoder.writeHeader (e : Encoder) (header : Header) : Encoder :=
  let f := write32 e.m_file 0
  let f := write16 f 0
  let f := write16 f 0
  let f := write16 f header.width
  let f := write16 f header.height
  let f := write16 f 8
  let f := write16 f 0
  let f := write32 f (u32 header.speed)
  { e with m_file := f.seek 128, m_width := header.width, m_height := header.height }

/-- The three bytes of one colormap entry. -/
def writeColor (f : File) (a : Color) : File :=
  ((f.write8 a.r).write8 a.g).write8 a.b

/-- The colour loop of `writeColorChunk`: `for (int j=i; j<ncolors; ++j)`,
with `n` the number of turns left. -/
def writeColors (cm : Colormap) : Nat → Nat → File → File
  | 0, _, f => f
  | n + 1, j, f => writeColors cm n (j + 1) (writeColor f (cm j))

/-- The count loop of `writeColorChunk`:
`for (int j=i+1; j<256; ++j) if (prev[j] != cur[j]) ++ncolors;`,
with `n` the number of turns left. -/
def countColors (prev cur : Colormap) : Nat → Nat → Nat → Nat
  | 0, _, ncolors => ncolors
  | n + 1, j, ncolors =>
    countColors prev cur n (j + 1) (if prev j ≠ cur j then ncolors + 1 else ncolors)

/-- The packet loop of `writeColorChunk`: `for (int i=0; i<256; )`.  Every
turn advances `i`, so 256 turns are enough. -/
def colorChunkLoop (first : Bool) (prev cur : Colormap) :
    Nat → Nat → Nat → Nat → File → Option (Nat × File)
  | 0, i, npackets, _, f => if i < 256 then none else some (npackets, f)
  | fuel + 1, i, npackets, skip, f =>
    if i < 256 then
      if first = true ∨ prev i ≠ cur i then
        let ncolors := if first = true then 256 else countColors prev cur (256 - (i + 1)) (i + 1) 1
        let f := f.write8 skip
        let f := f.write8 (if ncolors = 256 then 0 else ncolors)
        let f := writeColors cur (ncolors - i) i f
        colorChunkLoop first prev cur fuel (i + ncolors) (npackets + 1) 0 f
      else colorChunkLoop first prev cur fuel (i + 1) npackets (skip + 1) f
    else some (npackets, f)

/-- The chunk size patched into a chunk header: the distance from the chunk
start, made even. -/
def evenEnd (chunkBeginPos chunkEndPos : Nat) : Nat :=
  if (chunkEndPos - chunkBeginPos) % 2 = 1 then chunkEndPos + 1 else chunkEndPos

/-- `Encoder::writeColorChunk`. -/
def Encoder.writeColorChunk (e : Encoder) (frame : Frame) : Option Encoder :=
  let chunkBeginPos := e.m_file.tell
  let f := write32 e.m_file 0
  let f := write16 f 0
  let f := write16 f 0
  match colorChunkLoop (decide (e.m_frameCount = 0)) e.m_prevColormap frame.colormap 256 0 0 0 f with
  | none => none
  | some r =>
    let chunkEndPos := evenEnd chunkBeginPos r.2.tell
    let f := r.2.seek chunkBeginPos
    let f := write32 f (chunkEndPos - chunkBeginPos)
    let f := write16 f FLI_COLOR_256_CHUNK
    let f := write16 f r.1
    some { e with m_file := f.seek chunkEndPos, m_prevColormap := frame.colormap }

/-- The literal loop of both line writers:
`for (int i=0; i<remain; ++i, ++it) m_file->write8(*it);`. -/
def writePixels (fr : Frame) : Nat → Nat → File → File
  | 0, _, f => f
  | n + 1, it, f => writePixels fr n (it + 1) (f.write8 (fr.px it))

/-- The cut of a literal run at the start of a later run:
`if (maxSamePixels >= 4 && remain > (maxSameStart-it)) remain = (maxSameStart-it);`.
The start is null only when the maximum is 0, and then the test fails. -/
def cutRemain (limit : Nat) (scan : Nat × Option Nat) (remain : Nat) : Nat :=
  match scan.2 with
  | some st => if scan.1 ≥ limit ∧ remain > st then st else remain
  | none => remain

/-- The packet loop of `writeBrunLineChunk`: `for (int x=0; x<m_width; )`;
`it` is `base + x`.  The result is the packet count and the stream. -/
def brunLineLoop (w : Nat) (fr : Frame) (base : Nat) : Nat → Nat → Nat → File → Option (Nat × File)
  | 0, x, npackets, f => if x < w then none else some (npackets, f)
  | fuel + 1, x, npackets, f =>
    if x < w then
      let remain := w - x
      let win := window fr.pixels (base + x) remain
      let samePixels := count_consecutive_values win
      let scan := count_max_consecutive_values win
      let samePixels := if samePixels > 127 then 127 else samePixels
      if samePixels ≥ 4 then
        let f := f.write8 samePixels
        let f := f.write8 (fr.px (base + x))
        brunLineLoop w fr base fuel (x + samePixels) (npackets + 1) f
      else
        let remain := if remain > 128 then 128 else remain
        let remain := cutRemain 4 scan remain
        let f := f.write8 (u8 (-(remain : Int)))
        let f := writePixels fr remain (base + x) f
        brunLineLoop w fr base fuel (x + remain) (npackets + 1) f
    else some (npackets, f)

/-- `Encoder::writeBrunLineChunk`.  Every packet advances `x`, so `m_width`
turns are enough. -/
def writeBrunLineChunk (w : Nat) (fr : Frame) (y : Nat) (f : File) : Option File :=
  let npacketsPos := f.tell
  let f := f.write8 0
  match brunLineLoop w fr (fr.rowOff y) w 0 0 f with
  | none => none
  | some r =>
    let restorePos := r.2.tell
    let f := r.2.seek npacketsPos
    let f := f.write8 (if r.1 < 255 then r.1 else 255)
    some (f.seek restorePos)

/-- The row loop of `writeBrunChunk`, `n` rows starting at row `y`. -/
def brunLines (w : Nat) (fr : Frame) : Nat → Nat → File → Option File
  | 0, _, f => some f
  | n + 1, y, f =>
    match writeBrunLineChunk w fr y f with
    | none => none
    | some f => brunLines w fr n (y + 1) f

/-- `Encoder::writeBrunChunk`. -/
def Encoder.writeBrunChunk (e : Encoder) (frame : Frame) : Option Encoder :=
  let chunkBeginPos := e.m_file.tell
  let f := write32 e.m_file 0
  let f := write16 f FLI_BRUN_CHUNK
  match brunLines e.m_width frame e.m_height 0 f with
  | none => none
  | some f =>
    let chunkEndPos := evenEnd chunkBeginPos f.tell
    let f := f.seek chunkBeginPos
    let f := write32 f (chunkEndPos - chunkBeginPos)
    some { e with m_file := f.seek chunkEndPos }

/-- The comparison of one scanline with the retained snapshot in
`writeLcChunk`: true when some pixel `x < m_width` differs. -/
def lineDiffers (prev : List Nat) (fr : Frame) (base w : Nat) : Bool :=
  (List.range w).any (fun x => decide (prev.getD (base + x) 0 ≠ fr.px (base + x)))

/-- The first scan of `writeLcChunk`: the leading lines equal to the
snapshot, `n` lines left to look at. -/
def firstScan (prev : List Nat) (fr : Frame) (w : Nat) : Nat → Nat → Nat → Nat
  | 0, _, skipLines => skipLines
  | n + 1, y, skipLines =>
    if lineDiffers prev fr (fr.rowOff y) w = true then skipLines
    else firstScan prev fr w n (y + 1) (skipLines + 1)

/-- The second scan of `writeLcChunk`: the trailing lines equal to the
snapshot, from line `y` downwards, `n` lines left to look at. -/
def secondScan (prev : List Nat) (fr : Frame) (w : Nat) : Nat → Nat → Nat → Nat
  | 0, _, skipEndLines => skipEndLines
  | n + 1, y, skipEndLines =>
    if lineDiffers prev fr (fr.rowOff y) w = true then skipEndLines
    else secondScan prev fr w n (y - 1) (skipEndLines + 1)

/-- The filler loop of `writeLcLineChunk`: `while (skipPixels > 255)`.  The
result is the packet count, the remaining skip and the stream. -/
def lcFiller : Nat → Nat → Nat → File → Option (Nat × Nat × File)
  | 0, npackets, skipPixels, f => if skipPixels > 255 then none else some (npackets, skipPixels, f)
  | fuel + 1, npackets, skipPixels, f =>
    if skipPixels > 255 then
      let f := f.write8 255
      let f := f.write8 0
      lcFiller fuel (npackets + 1) (skipPixels - 255) f
    else some (npackets, skipPixels, f)

/-- The pixel loop of `writeLcLineChunk`: `for (int x=0; x<m_width; )`; both
iterators are `base + x`.  The result is the packet count, the pending skip
and the stream. -/
def lcLineLoop (w : Nat) (prev : List Nat) (fr : Frame) (base : Nat) :
    Nat → Nat → Nat → Nat → File → Option (Nat × Nat × File)
  | 0, x, npackets, skipPixels, f => if x < w then none else some (npackets, skipPixels, f)
  | fuel + 1, x, npackets, skipPixels, f =>
    if x < w then
      if prev.getD (base + x) 0 ≠ fr.px (base + x) then
        match lcFiller skipPixels npackets skipPixels f with
        | none => none
        | some r =>
          let npackets := r.1 + 1
          let f := r.2.2.write8 r.2.1
          let remain := w - x
          let remain := if remain > 128 then 128 else remain
          let unchanged := count_max_consecutive_equal_values
            (window prev (base + x) remain) (window fr.pixels (base + x) remain)
          let remain := cutRemain 5 unchanged remain
          let win := window fr.pixels (base + x) remain
          let samePixels := count_consecutive_values win
          let scan := count_max_consecutive_values win
          let samePixels := if samePixels > 128 then 128 else samePixels
          if samePixels ≥ 4 then
            let f := f.write8 (u8 (-(samePixels : Int)))
            let f := f.write8 (fr.px (base + x))
            lcLineLoop w prev fr base fuel (x + samePixels) npackets 0 f
          else
            let remain := if remain > 127 then 127 else remain
            let remain := cutRemain 4 scan remain
            let f := f.write8 remain
            let f := writePixels fr remain (base + x) f
            lcLineLoop w prev fr base fuel (x + remain) npackets 0 f
      else lcLineLoop w prev fr base fuel (x + 1) npackets (skipPixels + 1) f
    else some (npackets, skipPixels, f)

/-- `Encoder::writeLcLineChunk`.  Every turn advances `x`, so `m_width` turns
are enough. -/
def writeLcLineChunk (w : Nat) (prev : List Nat) (fr : Frame) (y : Nat) (f : File) :
    Option File :=
  let npacketsPos := f.tell
  let f := f.write8 0
  match lcLineLoop w prev fr (fr.rowOff y) w 0 0 0 f with
  | none => none
  | some r =>
    if r.2.1 ≠ w then
      let restorePos := r.2.2.tell
      let f := r.2.2.seek npacketsPos
      let f := f.write8 (if r.1 < 255 then r.1 else 255)
      some (f.seek restorePos)
    else some r.2.2

/-- The line loop of `writeLcChunk`, `n` lines starting at line `y`. -/
def lcChunkLines (w : Nat) (prev : List Nat) (fr : Frame) : Nat → Nat → File → Option File
  | 0, _, f => some f
  | n + 1, y, f =>
    match writeLcLineChunk w prev fr y f with
    | none => none
    | some f => lcChunkLines w prev fr n (y + 1) f

/-- `std::copy(frame.pixels + a, frame.pixels + b, m_prevFrameData.begin() + a)`. -/
def copyRange (prev : List Nat) (fr : Frame) (a b : Nat) : List Nat :=
  (List.range prev.length).map (fun i => if a ≤ i ∧ i < b then fr.px i else prev.getD i 0)

/-- `Encoder::writeLcChunk`.  The comparison `maxUnchangedPixels > 4` of the
line writer is `cutRemain 5`. -/
def Encoder.writeLcChunk (e : Encoder) (frame : Frame) : Option Encoder :=
  let skipLines := firstScan e.m_prevFrameData frame e.m_width e.m_height 0 0
  let skipEndLines :=
    secondScan e.m_prevFrameData frame e.m_width (e.m_height - 1 - skipLines) (e.m_height - 1) 0
  let nlines := e.m_height - skipEndLines - skipLines
  let chunkBeginPos := e.m_file.tell
  let f := write32 e.m_file 0
  let f := write16 f FLI_LC_CHUNK
  let f := write16 f skipLines
  let f := write16 f nlines
  match lcChunkLines e.m_width e.m_prevFrameData frame nlines skipLines f with
  | none => none
  | some f =>
    let prev :=
      if nlines > 0 then
        copyRange e.m_prevFrameData frame (frame.rowOff skipLines) (frame.rowOff (skipLines + nlines))
      else e.m_prevFrameData
    let chunkEndPos := evenEnd chunkBeginPos f.tell
    let f := f.seek chunkBeginPos
    let f := write32 f (chunkEndPos - chunkBeginPos)
    some { e with m_file := f.seek chunkEndPos, m_prevFrameData := prev }

/-- `Encoder::writeFrame`. -/
def Encoder.writeFrame (e : Encoder) (frame : Frame) : Option Encoder :=
  let frameStartPos := e.m_file.tell % 4294967296
  let e :=
    if e.m_frameCount = 0 then { e with m_offsetFrame1 := toInt32 frameStartPos }
    else if e.m_frameCount = 1 then { e with m_offsetFrame2 := toInt32 frameStartPos }
    else e
  let f := write32 e.m_file 0
  let f := write16 f 0
  let f := write16 f 0
  let f := write32 f 0
  let f := write32 f 0
  let e := { e with m_file := f }
  let r1 : Option (Encoder × Nat) :=
    if e.m_frameCount = 0 ∨ Colormap.eq e.m_prevColormap frame.colormap = false then
      match e.writeColorChunk frame with
      | none => none
      | some e => some (e, 1)
    else some (e, 0)
  match r1 with
  | none => none
  | some (e, nchunks) =>
    let r2 : Option Encoder :=
      if e.m_frameCount = 0 then
        match e.writeBrunChunk frame with
        | none => none
        | some e =>
          some { e with m_prevFrameData :=
            (List.range ((e.m_height * frame.rowstride) % 4294967296)).map frame.px }
      else e.writeLcChunk frame
    match r2 with
    | none => none
    | some e =>
      let nchunks := nchunks + 1
      let frameEndPos := e.m_file.tell
      let f := e.m_file.seek frameStartPos
      let f := write32 f (u32 ((frameEndPos : Int) - (frameStartPos : Int)))
      let f := write16 f FLI_FRAME_MAGIC_NUMBER
      let f := write16 f nchunks
      some { e with m_file := f.seek frameEndPos, m_frameCount := wrapInt32 (e.m_frameCount + 1) }

/-- `Encoder::writeRingFrame`. -/
def Encoder.writeRingFrame (e : Encoder) (frame : Frame) : Option Encoder :=
  match e.writeFrame frame with
  | none => none
  | some e => some { e with m_frameCount := wrapInt32 (e.m_frameCount - 1) }


/-! ## Auxiliary notions used by the theorems -/

/-- What is left to read: the bytes after the position and one failing
read, or nothing once the stream is not ok. -/
def room (f : File) : Nat := if f.ok = true then f.data.length - f.pos + 1 else 0

/-- Byte `i` of a byte sequence, 0 past the end. -/
def byteAt (d : List Nat) (i : Nat) : Nat := d.getD i 0 % 256

/-- The little-endian 16 bit value stored at bytes `i` and `i + 1`. -/
def le16At (d : List Nat) (i : Nat) : Nat := byteAt d i + 256 * byteAt d (i + 1)

/-- The little-endian 32 bit value stored at bytes `i` to `i + 3`. -/
def le32At (d : List Nat) (i : Nat) : Nat :=
  byteAt d i + 256 * byteAt d (i + 1) + 65536 * byteAt d (i + 2) + 16777216 * byteAt d (i + 3)

/-- A stream and a frame used to instantiate general statements. -/
def exStream : File := { data := [10, 0, 0, 0, 99, 0, 1, 2], pos := 0, ok := true }

/-- A one pixel frame used to instantiate general statements. -/
def exFrame : Frame := { pixels := [0], rowstride := 1, colormap := fun _ => Color.zero, oob := false }

/-- A legacy header with stored width 0, height 7 and speed 35, used to
instantiate general statements. -/
def exHeaderStream : File :=
  { data := [0, 0, 0, 0, 0x11, 0xAF, 3, 0, 0, 0, 7, 0, 8, 0, 0, 0, 35, 0, 0, 0], pos := 0, ok := true }

/-- A header value passed to `readHeader`. -/
def exHeader : Header := { frames := 0, width := 0, height := 0, speed := 0 }

/-- The speed stored in a header: the 32 bit field at bytes 16..19, as the
`int` that `Header::speed` is. -/
def storedSpeed (data : List Nat) : Int := toInt32 (le32At data 16)

/-- A current-format header with stored speed 35, used to instantiate general
statements. -/
def exHeaderStreamFlc : File :=
  { data := [0, 0, 0, 0, 0x12, 0xAF, 3, 0, 0, 0, 7, 0, 8, 0, 0, 0, 35, 0, 0, 0], pos := 0, ok := true }

/-- The type tag of the chunk that starts at the position of the stream. -/
def chunkTag (f : File) : Nat := (read16 (read32 f).2).1

/-- The size declared by the chunk that starts at the position of the stream. -/
def chunkDeclaredSize (f : File) : Nat := (read32 f).1

/-- The tags `readChunk` dispatches on. -/
def knownTags : List Nat := [4, 7, 11, 12, 13, 15, 16]

/-- A decoder on a stream whose chunk at position 1 declares the size
`0xFFFFFFFF` and carries the unknown tag 99. -/
def exWrapDecoder : Decoder :=
  Decoder.new { data := [0, 255, 255, 255, 255, 99, 0], pos := 1, ok := true }

/-- The bytes `bs` stand in `d` from position `p` on. -/
def HoldsAt (d : List Nat) (p : Nat) (bs : List Nat) : Prop :=
  p + bs.length ≤ d.length ∧ ∀ j, j < bs.length → d.getD (p + j) 0 = bs.getD j 0

/-- The byte sequence `d2` is `d1` with the bytes `bs` stored from position
`p` on (a gap before `p` reads as zero). -/
def Wrote (d1 d2 : List Nat) (p : Nat) (bs : List Nat) : Prop :=
  (∀ i, d2.getD i 0 = if p ≤ i ∧ i < p + bs.length then bs.getD (i - p) 0 else d1.getD i 0) ∧
  d2.length = if bs.length = 0 then d1.length else max d1.length (p + bs.length)

/-- The stream `f2` is the ok stream `f1` after writing the bytes `bs` at its
position. -/
def FW (f1 f2 : File) (bs : List Nat) : Prop :=
  f2.ok = true ∧ f2.pos = f1.pos + bs.length ∧ Wrote f1.data f2.data f1.pos bs

/-- The frame `dst2` is `dst1` with the pixels `[dbase + a, dbase + b)` copied
from `src` at `[sbase + a, sbase + b)`, nothing else changed and no write out
of bounds. -/
def Blit (dst1 dst2 : Frame) (dbase : Nat) (src : Frame) (sbase a b : Nat) : Prop :=
  dst2.pixels.length = dst1.pixels.length ∧ dst2.rowstride = dst1.rowstride ∧
  dst2.colormap = dst1.colormap ∧ dst2.oob = dst1.oob ∧
  ∀ i, dst2.px i =
    if dbase + a ≤ i ∧ i < dbase + b then src.px (sbase + (i - dbase)) else dst1.px i

/-- The two bytes `write16` stores. -/
def le16 (v : Nat) : List Nat := [v % 65536 % 256, v % 65536 / 256 % 256]

/-- The four bytes `write32` stores. -/
def le32 (v : Nat) : List Nat :=
  [v % 4294967296 % 256, v % 4294967296 / 256 % 256, v % 4294967296 / 65536 % 256,
   v % 4294967296 / 16777216 % 256]

/-- The bytes of `n` pixels of a frame from offset `it` on, as `writePixels`
stores them. -/
def pxBytes (fr : Frame) : Nat → Nat → List Nat
  | 0, _ => []
  | n + 1, it => (fr.px it % 256) :: pxBytes fr n (it + 1)

/-- Every pixel of the buffer is a byte. -/
def Frame.Bytes (fr : Frame) : Prop := ∀ p ∈ fr.pixels, p < 256

/-- The bytes `bs` are a BRUN encoding of the pixels `[x, w)` of the source
row at `sbase`: the packet loop of the decoder, started at column `x` on any
ok stream that holds `bs` at its position, consumes exactly `bs` and copies
these pixels into the destination row. -/
def BrunRowCode (w : Nat) (src : Frame) (sbase x : Nat) (bs : List Nat) : Prop :=
  ∀ (s : File) (dfuel : Nat) (dst : Frame) (dbase : Nat),
    s.ok = true → HoldsAt s.data s.pos bs → room s ≤ dfuel → dbase + w ≤ dst.pixels.length →
    ∃ dst2, brunRowLoop w dbase dfuel x s dst = some ({ s with pos := s.pos + bs.length }, dst2) ∧
      Blit dst dst2 dbase src sbase x w

/-- The bytes `bs` are the BRUN encoding of the `w` pixels of the source row
at `sbase`: one row iteration of `readBrunChunk`, on any ok stream that holds
`bs` at its position, consumes exactly `bs` and copies the row into row `y`
of the destination. -/
def BrunLineCode (w : Nat) (src : Frame) (sbase : Nat) (bs : List Nat) : Prop :=
  ∀ (s : File) (dst : Frame) (y : Nat),
    s.ok = true → HoldsAt s.data s.pos bs → dst.rowOff y + w ≤ dst.pixels.length →
    ∃ dst2, readBrunRow w y s dst = some ({ s with pos := s.pos + bs.length }, dst2) ∧
      Blit dst dst2 (dst.rowOff y) src sbase 0 w

/-- A three pixel row with a run, used to instantiate general statements. -/
def exRowFrame : Frame :=
  { pixels := [7, 7, 7, 7, 7, 9, 200, 3], rowstride := 8, colormap := fun _ => Color.zero,
    oob := false }

/-- An empty stream. -/
def emptyFile : File := { data := [], pos := 0, ok := true }

/-- The bytes `bs` are the BRUN encoding of the rows `[y, y + n)` of the
source: the row loop of `readBrunChunk`, on any ok stream that holds `bs` at
its position and any destination buffer that has these rows within 32 bit
offsets, consumes exactly `bs` and copies the rows, leaving the rows before
`y` and the other fields of the frame as they were. -/
def BrunRowsCode (w : Nat) (src : Frame) (n y : Nat) (bs : List Nat) : Prop :=
  ∀ (s : File) (dst : Frame), s.ok = true → HoldsAt s.data s.pos bs →
    w ≤ dst.rowstride → (y + n) * dst.rowstride ≤ dst.pixels.length →
    (y + n) * dst.rowstride ≤ 4294967296 →
    ∃ dst2, brunRows w n y s dst = some ({ s with pos := s.pos + bs.length }, dst2) ∧
      dst2.pixels.length = dst.pixels.length ∧ dst2.rowstride = dst.rowstride ∧
      dst2.colormap = dst.colormap ∧ dst2.oob = dst.oob ∧
      (∀ y2 x, y ≤ y2 → y2 < y + n → x < w →
        dst2.px (y2 * dst.rowstride + x) = src.px (src.rowOff y2 + x)) ∧
      (∀ i, i < y * dst.rowstride → dst2.px i = dst.px i)

/-- The bytes of `n` colormap entries from index `j` on, as `writeColors`
stores them. -/
def colorBytes (cm : Colormap) : Nat → Nat → List Nat
  | 0, _ => []
  | n + 1, j => (cm j).r % 256 :: (cm j).g % 256 :: (cm j).b % 256 :: colorBytes cm n (j + 1)

/-- Every channel of the 256 entries is a byte. -/
def Colormap.Bytes (cm : Colormap) : Prop :=
  ∀ i, i < 256 → (cm i).r < 256 ∧ (cm i).g < 256 ∧ (cm i).b < 256

/-- The bytes of all 256 colormap entries. -/
def allColors (cm : Colormap) : List Nat := colorBytes cm 256 0

/-- The bytes of the colormap chunk of a first frame: the chunk header, one
packet with skip 0 and count 0 (256 colours), and the 256 entries. -/
def firstColorChunk (cm : Colormap) : List Nat :=
  le32 778 ++ (le16 FLI_COLOR_256_CHUNK ++ (le16 1 ++ (0 :: 0 :: allColors cm)))

/-- The bytes of a first frame: the frame header with two chunks, the full
colormap chunk, and a BRUN chunk with the encoded rows `rows`. -/
def firstFrameBytes (fsize bsize : Nat) (cm : Colormap) (rows : List Nat) : List Nat :=
  (le32 fsize ++ (le16 FLI_FRAME_MAGIC_NUMBER ++ le16 2)) ++ ((le32 0 ++ le32 0) ++
    (firstColorChunk cm ++ (le32 bsize ++ (le16 FLI_BRUN_CHUNK ++ rows))))

/-- The twelve bytes of the file header after the frame count, as
`writeHeader` stores them. -/
def headerTail (header : Header) : List Nat :=
  le16 header.width ++ (le16 header.height ++ (le16 8 ++ (le16 0 ++ le32 (u32 header.speed))))

/-- The grayscale ramp colormap. -/
def rampColormap : Colormap := fun i => { r := i, g := i, b := i }

/-- The 10x10 frame whose pixels are all 5, with the grayscale ramp. -/
def exFrame10 : Frame :=
  { pixels := List.replicate 100 5, rowstride := 10, colormap := rampColormap, oob := false }

/-- A 10x10 destination buffer. -/
def exBuffer10 : Frame :=
  { pixels := List.replicate 100 0, rowstride := 10, colormap := fun _ => Color.zero, oob := false }

/-- The header of a 10x10 animation. -/
def exHeader10 : Header := { frames := 0, width := 10, height := 10, speed := 35 }

/-- The colormap whose entries are all `(0, 0, 0)`. -/
def blackColormap : Colormap := fun _ => Color.zero

/-- The colormap that differs from `blackColormap` at index 1 only. -/
def changedColormap : Colormap :=
  fun i => if i = 1 then { r := 1, g := 2, b := 3 } else Color.zero

/-- A one pixel frame with the black colormap. -/
def exFrameBlack : Frame :=
  { pixels := [5], rowstride := 1, colormap := blackColormap, oob := false }

/-- The same one pixel frame with the changed colormap. -/
def exFrameChanged : Frame :=
  { pixels := [5], rowstride := 1, colormap := changedColormap, oob := false }

/-- An encoder that has written `exFrameBlack` as frame 0 of a 1x1 animation,
on a fresh stream. -/
def exEncoderAfterFrame0 : Encoder :=
  { m_file := emptyFile, m_width := 1, m_height := 1, m_prevColormap := blackColormap,
    m_prevFrameData := [5], m_frameCount := 1, m_offsetFrame1 := 128, m_offsetFrame2 := 0 }

/-- A decoder that has decoded frame 0 of a 1x1 animation, placed on a stream
that starts with the next frame. -/
def exDecoderAfterFrame0 (data : List Nat) : Decoder :=
  { m_file := { data := data, pos := 0, ok := true }, m_width := 1, m_height := 1,
    m_frameCount := 1, m_offsetFrame1 := 128, m_offsetFrame2 := 0 }

/-- The bytes `writeFrame` emits for `exFrameChanged` as frame 1 after
`exFrameBlack`: the frame header, a colormap chunk with one packet (skip 1,
count 1) and no colour bytes, and an empty line-change chunk. -/
def exSecondFrameBytes : List Nat :=
  [36, 0, 0, 0, 250, 241, 2, 0, 0, 0, 0, 0, 0, 0, 0, 0,
   10, 0, 0, 0, 4, 0, 1, 0, 1, 1,
   10, 0, 0, 0, 12, 0, 1, 0, 0, 0]

/-- The bytes of `q` filler packets of `writeLcLineChunk`: skip 255, count 0. -/
def fillerBytes : Nat → List Nat
  | 0 => []
  | q + 1 => 255 :: 0 :: fillerBytes q

/-- The `k` packets `bs` are an LC encoding of the pixels `[xd, w)` of the
source row at `sbase` against the snapshot `prev`: the packet loop of the
decoder, started at column `xd` with the packet count `k` on any ok stream
that holds `bs` at its position and on a destination row that holds the
snapshot, consumes exactly `bs` and leaves the source pixels in the row; it
returns from the chunk only when the row ends the buffer. -/
def LcRowCode (w : Nat) (prev : List Nat) (src : Frame) (sbase xd k : Nat) (bs : List Nat) :
    Prop :=
  ∀ (s : File) (dst : Frame) (dbase endOff : Nat),
    s.ok = true → HoldsAt s.data s.pos bs → dbase + w ≤ endOff → endOff ≤ dst.pixels.length →
    (∀ j, xd ≤ j → j < w → dst.px (dbase + j) = prev.getD (sbase + j) 0) →
    ∃ b dst2, lcPackets w dbase endOff k xd s dst =
        (b, { s with pos := s.pos + bs.length }, dst2) ∧
      (b = true → dbase + w = endOff) ∧ Blit dst dst2 dbase src sbase xd w

/-- The number of packets `writeLcLineChunk` emits for line `y`. -/
def lcPacketCount (w : Nat) (prev : List Nat) (src : Frame) (y : Nat) : Nat :=
  match lcLineLoop w prev src (src.rowOff y) w 0 0 0 emptyFile with
  | some r => r.1
  | none => 0

/-- The bytes `bs` are the LC encoding of the lines `[y, y + n)` of the source
against the snapshot `prev`: the line loop of `readLcChunk`, on any ok stream
that holds `bs` at its position and any destination buffer of `h` rows within
32 bit offsets whose lines `[y, y + n)` hold the snapshot, consumes exactly
`bs` and leaves the source pixels in these lines, the other lines and the
other fields of the frame as they were. -/
def LcRowsCode (w h : Nat) (prev : List Nat) (src : Frame) (n y : Nat) (bs : List Nat) : Prop :=
  ∀ (s : File) (dst : Frame), s.ok = true → HoldsAt s.data s.pos bs →
    w ≤ dst.rowstride → h * dst.rowstride ≤ dst.pixels.length →
    h * dst.rowstride < 4294967296 →
    (∀ y2 x, y ≤ y2 → y2 < y + n → x < w →
      dst.px (y2 * dst.rowstride + x) = prev.getD (src.rowOff y2 + x) 0) →
    ∃ dst2, lcLines w h n y s dst = ({ s with pos := s.pos + bs.length }, dst2) ∧
      dst2.pixels.length = dst.pixels.length ∧ dst2.rowstride = dst.rowstride ∧
      dst2.colormap = dst.colormap ∧ dst2.oob = dst.oob ∧
      (∀ y2 x, y ≤ y2 → y2 < y + n → x < w →
        dst2.px (y2 * dst.rowstride + x) = src.px (src.rowOff y2 + x)) ∧
      (∀ i, i < y * dst.rowstride ∨ (y + n) * dst.rowstride ≤ i → dst2.px i = dst.px i)

/-- A 4 by 3 frame that differs from the snapshot `exLcEncoder` retains in
one pixel of its middle line. -/
def exLcNew : Frame :=
  { pixels := [1, 1, 1, 1, 2, 9, 2, 2, 3, 3, 3, 3], rowstride := 4, colormap := blackColormap,
    oob := false }

/-- An encoder of 4 by 3 frames, one frame written, with a retained snapshot. -/
def exLcEncoder : Encoder :=
  { m_file := emptyFile, m_width := 4, m_height := 3, m_prevColormap := blackColormap,
    m_prevFrameData := [1, 1, 1, 1, 2, 2, 2, 2, 3, 3, 3, 3], m_frameCount := 1,
    m_offsetFrame1 := 128, m_offsetFrame2 := 0 }

/-- A decoder buffer of 3 lines with row stride 5 that holds the snapshot of
`exLcEncoder`. -/
def exLcOld : Frame :=
  { pixels := [1, 1, 1, 1, 0, 2, 2, 2, 2, 0, 3, 3, 3, 3, 0], rowstride := 5,
    colormap := blackColormap, oob := false }

/-- A one line frame of `c + 1` pixels: zero up to the last pixel, which is 9. -/
def lcFarNew (c : Nat) : Frame :=
  { pixels := List.replicate c 0 ++ [9], rowstride := c + 1, colormap := blackColormap,
    oob := false }

/-- A one line buffer of `c + 1` zero pixels. -/
def lcFarOld (c : Nat) : Frame :=
  { pixels := List.replicate (c + 1) 0, rowstride := c + 1, colormap := blackColormap,
    oob := false }

/-- An encoder of one line frames of `c + 1` pixels, one frame written, whose
retained snapshot is all zero. -/
def lcFarEncoder (c : Nat) : Encoder :=
  { m_file := emptyFile, m_width := c + 1, m_height := 1, m_prevColormap := blackColormap,
    m_prevFrameData := List.replicate (c + 1) 0, m_frameCount := 1, m_offsetFrame1 := 128,
    m_offsetFrame2 := 0 }

/-- The bytes of `k` control words `0xC000` of a delta chunk; each of them
skips 16384 lines. -/
def skipWords : Nat → List Nat
  | 0 => []
  | k + 1 => 0 :: 192 :: skipWords k

/-- The payload of a delta chunk of one line: `k + 1` control words `0xC000`,
the packet count 1 and one packet (skip 0, count 1, the colours 7 and 7). -/
def deltaWrapStream (k : Nat) : File :=
  { data := [1, 0] ++ (skipWords k ++ [0, 192, 1, 0, 0, 1, 7, 7]), pos := 0, ok := true }

/-- The colormap that differs from `blackColormap` at the indices 10, 11 and
200 only. -/
def threeChangedColormap : Colormap :=
  fun i =>
    if i = 10 then { r := 1, g := 2, b := 3 }
    else if i = 11 then { r := 4, g := 5, b := 6 }
    else if i = 200 then { r := 7, g := 8, b := 9 }
    else Color.zero

/-- A one pixel frame with `threeChangedColormap`. -/
def exFrameThree : Frame :=
  { pixels := [5], rowstride := 1, colormap := threeChangedColormap, oob := false }

/-- A 2 by 2 buffer of zero pixels. -/
def exDeltaFrame : Frame :=
  { pixels := [0, 0, 0, 0], rowstride := 2, colormap := blackColormap, oob := false }

/-- A stream that holds the control word `0x8007` of a delta chunk. -/
def exDeltaWordStream : File := { data := [7, 128], pos := 0, ok := true }

/-- One packet of a colormap chunk: the skip byte, the count byte and the RGB
triples that follow them in the stream. -/
structure ColorPacket where
  skip : Nat
  count : Nat
  colors : List Color

/-- The number of colours a count byte announces: 0 stands for 256. -/
def ColorPacket.ncolors (p : ColorPacket) : Nat := if p.count = 0 then 256 else p.count

/-- The channel the decoder stores for the raw value `v`: `v` itself, or in
the 6 bit variant `255 * v / 63` converted to `uint8_t`. -/
def scaleChannel (old : Bool) (v : Nat) : Nat := if old = true then (255 * v / 63) % 256 else v

/-- The colour the decoder stores for a raw triple. -/
def scaleColor (old : Bool) (c : Color) : Color :=
  { r := scaleChannel old c.r, g := scaleChannel old c.g, b := scaleChannel old c.b }

/-- The effect of one packet as the specification words it: with `i` the
running index before the packet, the entries `i + skip + j` for `j` below the
count and `i + skip + j < 256` take the `j`-th triple of the packet, every
other entry stays. -/
def applyColorPacket (old : Bool) (i : Nat) (p : ColorPacket) (cm : Colormap) : Colormap :=
  fun k =>
    if i + p.skip ≤ k ∧ k < i + p.skip + p.ncolors ∧ k < 256 then
      scaleColor old (p.colors.getD (k - (i + p.skip)) Color.zero)
    else cm k

/-- The effect of a packet list as the specification words it: the packets
are applied in order and the running index advances by the skip bytes only. -/
def applyColorPackets (old : Bool) : Nat → List ColorPacket → Colormap → Colormap
  | _, [], cm => cm
  | i, p :: ps, cm => applyColorPackets old (i + p.skip) ps (applyColorPacket old i p cm)

/-- The bytes of a list of RGB triples. -/
def colorTriples : List Color → List Nat
  | [] => []
  | c :: cs => c.r :: c.g :: c.b :: colorTriples cs

/-- The bytes of a packet list. -/
def colorPacketsBytes : List ColorPacket → List Nat
  | [] => []
  | p :: ps => p.skip :: p.count :: (colorTriples p.colors ++ colorPacketsBytes ps)

/-- The packets are made of bytes, and each of them carries one triple for
every entry below 256 that it announces, and no other triple; `i` is the
running index before the first packet. -/
def ColorPacketsOk : Nat → List ColorPacket → Prop
  | _, [] => True
  | i, p :: ps =>
    p.skip < 256 ∧ p.count < 256 ∧ p.colors.length = min p.ncolors (256 - (i + p.skip)) ∧
    (∀ c ∈ p.colors, c.r < 256 ∧ c.g < 256 ∧ c.b < 256) ∧ ColorPacketsOk (i + p.skip) ps

/-- A 6 bit colormap chunk payload with one packet of one colour whose red
channel has the raw value 64. -/
def exOldColorStream : File := { data := [1, 0, 0, 1, 64, 0, 63], pos := 0, ok := true }

/-- Two packets: the first one starts at entry 255 and announces two colours,
the second one announces one colour for the same entry. -/
def exOverflowPackets : List ColorPacket :=
  [{ skip := 255, count := 2, colors := [{ r := 1, g := 2, b := 3 }, { r := 4, g := 5, b := 6 }] },
   { skip := 0, count := 1, colors := [{ r := 7, g := 8, b := 9 }] }]

/-- A colormap chunk payload that holds the packet count 2 and the bytes of
`exOverflowPackets`. -/
def exOverflowStream : File :=
  { data := [2, 0] ++ colorPacketsBytes exOverflowPackets, pos := 0, ok := true }

/-- Two packets that stay within the 256 entries. -/
def exColorPackets : List ColorPacket :=
  [{ skip := 3, count := 2, colors := [{ r := 1, g := 2, b := 3 }, { r := 4, g := 5, b := 6 }] },
   { skip := 1, count := 1, colors := [{ r := 7, g := 8, b := 9 }] }]

/-- A colormap chunk payload that holds the packet count 2 and the bytes of
`exColorPackets`. -/
def exColorStream : File :=
  { data := [2, 0] ++ colorPacketsBytes exColorPackets, pos := 0, ok := true }

/-- A row of 14 pixels: a run of five 2s after the first pixel and a longer
run of seven 4s further on. -/
def exRunFrame : Frame :=
  { pixels := [1, 2, 2, 2, 2, 2, 3, 4, 4, 4, 4, 4, 4, 4], rowstride := 14,
    colormap := blackColormap, oob := false }

/-- A row of 5 pixels: a run of four 2s after the first pixel. -/
def exShortRunFrame : Frame :=
  { pixels := [1, 2, 2, 2, 2], rowstride := 5, colormap := blackColormap, oob := false }

/-- The size a chunk with the payload `bs` declares: the six header bytes and
the payload, made even. -/
def chunkSize (bs : List Nat) : Nat := 6 + bs.length + (6 + bs.length) % 2

/-- The stream `f2` is the ok stream `f1` after one chunk was written at its
position: the size field, the tag and the payload `bs` stand there, nothing
else was stored, and the position is the start of the chunk plus the declared
size. -/
def ChunkWritten (f1 f2 : File) (tag : Nat) (bs : List Nat) : Prop :=
  f2.ok = true ∧ f2.pos = f1.pos + chunkSize bs ∧
  Wrote f1.data f2.data f1.pos (le32 (chunkSize bs) ++ (le16 tag ++ bs))

/-- The chunks `cs`, given by tag and payload, stand in `d` one after the
other from position `p` on, each at the start of the one before plus its
declared size. -/
def ChunksAt (d : List Nat) : Nat → List (Nat × List Nat) → Prop
  | _, [] => True
  | p, c :: cs =>
    HoldsAt d p (le32 (chunkSize c.2) ++ (le16 c.1 ++ c.2)) ∧ ChunksAt d (p + chunkSize c.2) cs

/-- The sum of the declared sizes of the chunks. -/
def chunksSize : List (Nat × List Nat) → Nat
  | [] => 0
  | c :: cs => chunkSize c.2 + chunksSize cs

/-- A frame record with the chunks `cs` stands in `d` at position `p`: the
size field, the magic number, the chunk count, eight zero bytes and the
chunks. -/
def FrameAt (d : List Nat) (p : Nat) (cs : List (Nat × List Nat)) : Prop :=
  HoldsAt d p (le32 (16 + chunksSize cs) ++ (le16 FLI_FRAME_MAGIC_NUMBER ++
    (le16 cs.length ++ [0, 0, 0, 0, 0, 0, 0, 0]))) ∧
  ChunksAt d (p + 16) cs

/-- The tags of the chunks `writeFrame` emits: tag 4 and tag 15 for the first
frame, tag 12 after that, with tag 4 before it when the colormap differs from
the one written last. -/
def frameTags (e : Encoder) (frame : Frame) : List Nat :=
  if e.m_frameCount = 0 then [FLI_COLOR_256_CHUNK, FLI_BRUN_CHUNK]
  else if Colormap.eq e.m_prevColormap frame.colormap = true then [FLI_LC_CHUNK]
  else [FLI_COLOR_256_CHUNK, FLI_LC_CHUNK]

/-- The stream `f2` is the stream `f1` after the chunks `cs`, given by tag
and payload, were written one after the other. -/
def ChunksWritten : File → File → List (Nat × List Nat) → Prop
  | f1, f2, [] => f2 = f1
  | f1, f3, c :: cs => ∃ f2, ChunkWritten f1 f2 c.1 c.2 ∧ ChunksWritten f2 f3 cs

/-- A call of the encoder that writes a frame record: `writeFrame(frame)` or
`writeRingFrame(frame)`. -/
inductive FrameCall where
  | frame (fr : Frame)
  | ring (fr : Frame)

/-- The frame a call is given. -/
def FrameCall.arg : FrameCall → Frame
  | .frame fr => fr
  | .ring fr => fr

/-- One call on an encoder. -/
def Encoder.call (e : Encoder) : FrameCall → Option Encoder
  | .frame fr => e.writeFrame fr
  | .ring fr => e.writeRingFrame fr

/-- A sequence of calls on an encoder, in order. -/
def Encoder.calls : Encoder → List FrameCall → Option Encoder
  | e, [] => some e
  | e, c :: cs =>
    match e.call c with
    | none => none
    | some e2 => e2.calls cs

/-- The number of `writeFrame` calls in a sequence of calls. -/
def countFrames : List FrameCall → Nat
  | [] => 0
  | .frame _ :: cs => countFrames cs + 1
  | .ring _ :: cs => countFrames cs

/-- The calls `writeFrame(fr)` for the frames of a list, in order. -/
def Encoder.writeFrames : Encoder → List Frame → Option Encoder
  | e, [] => some e
  | e, fr :: frs =>
    match e.writeFrame fr with
    | none => none
    | some e2 => e2.writeFrames frs

/-- The bytes of `k` BRUN repeat packets of count zero and value `c`. -/
def zeroRepeatPackets : Nat → Nat → List Nat
  | 0, _ => []
  | k + 1, c => 0 :: c :: zeroRepeatPackets k c

/-- A stream that holds one row of a BRUN chunk and ends there: the packet
count byte, then `k` repeat packets of count zero. -/
def zeroRepeatStream (k c : Nat) : File :=
  { data := 0 :: zeroRepeatPackets k c, pos := 0, ok := true }

/-- The value `skipLines` of `writeLcChunk` after its first scan. -/
def lcSkipLines (prev : List Nat) (fr : Frame) (w h : Nat) : Nat :=
  firstScan prev fr w h 0 0

/-- The value `nlines` of `writeLcChunk` after its second scan. -/
def lcLineCount (prev : List Nat) (fr : Frame) (w h : Nat) : Nat :=
  h - secondScan prev fr w (h - 1 - lcSkipLines prev fr w h) (h - 1) 0 - lcSkipLines prev fr w h

/-- The snapshot `m_prevFrameData` as `writeLcChunk` leaves it: the lines of
the range copied from the frame when the range is not empty. -/
def lcRetained (prev : List Nat) (fr : Frame) (w h : Nat) : List Nat :=
  if lcLineCount prev fr w h > 0 then
    copyRange prev fr (fr.rowOff (lcSkipLines prev fr w h))
      (fr.rowOff (lcSkipLines prev fr w h + lcLineCount prev fr w h))
  else prev

/-- Scanline `y` of the snapshot `prev` and of the frame agree in their first
`w` pixels. -/
def LineSame (prev : List Nat) (fr : Frame) (w y : Nat) : Prop :=
  ∀ x, x < w → prev.getD (y * fr.rowstride + x) 0 = fr.px (y * fr.rowstride + x)

/-- The encoder retains the frame `fr`: its snapshot has the size of the
frames, holds the pixel of `fr` at every `(x, y)` with `x < m_width` and
`y < m_height`, and its previous colormap has the 256 entries of the colormap
of `fr`. -/
def Encoder.Retains (e : Encoder) (fr : Frame) : Prop :=
  e.m_prevFrameData.length = e.m_height * fr.rowstride ∧
  (∀ x y, x < e.m_width → y < e.m_height →
    e.m_prevFrameData.getD (y * fr.rowstride + x) 0 = fr.px (y * fr.rowstride + x)) ∧
  ∀ i, i < 256 → e.m_prevColormap i = fr.colormap i

/-- A packet of a BRUN scanline: a repeat packet (count byte, value byte) or
a literal packet (the pixel bytes it carries). -/
inductive BrunPacket where
  | rep (count value : Nat)
  | lit (bytes : List Nat)

/-- The number of pixels a packet covers. -/
def BrunPacket.len : BrunPacket → Nat
  | .rep count _ => count
  | .lit bytes => bytes.length

/-- The pixels a packet stands for. -/
def BrunPacket.pixels : BrunPacket → List Nat
  | .rep count value => List.replicate count value
  | .lit bytes => bytes

/-- The bytes of a packet in the stream: the count and the value, or the
negated length as a byte followed by the pixel bytes. -/
def BrunPacket.bytes : BrunPacket → List Nat
  | .rep count value => [count, value]
  | .lit bytes => (256 - bytes.length) :: bytes

/-- A repeat packet of 4 to 127 pixels with a byte value, or a literal packet
of 1 to 128 pixels. -/
def BrunPacket.WellFormed : BrunPacket → Prop
  | .rep count value => 4 ≤ count ∧ count ≤ 127 ∧ value < 256
  | .lit bytes => 1 ≤ bytes.length ∧ bytes.length ≤ 128

/-- The bytes of a sequence of packets. -/
def brunPacketsBytes : List BrunPacket → List Nat
  | [] => []
  | p :: ps => p.bytes ++ brunPacketsBytes ps

/-- The pixels a sequence of packets stands for. -/
def brunPacketsPixels : List BrunPacket → List Nat
  | [] => []
  | p :: ps => p.pixels ++ brunPacketsPixels ps

/-- The number of pixels a sequence of packets covers. -/
def brunPacketsLen : List BrunPacket → Nat
  | [] => 0
  | p :: ps => p.len + brunPacketsLen ps

/-- A row of 6 pixels: a run of five 2s after the first pixel, the only run
of the row. -/
def exRunSixFrame : Frame :=
  { pixels := [1, 2, 2, 2, 2, 2], rowstride := 6, colormap := blackColormap, oob := false }

/-! # Theorems -/

/-! ## Reading never changes the bytes of the stream -/

@[simp] theorem File.read8_data (f : File) : (f.read8).2.data = f.data := by
  unfold File.read8; split <;> rfl

@[simp] theorem read16_data (f : File) : (read16 f).2.data = f.data := by
  unfold read16; simp only []; split <;> simp

@[simp] theorem read32_data (f : File) : (read32 f).2.data = f.data := by
  unfold read32; simp only []; split <;> simp

@[simp] theorem File.seek_data (f : File) (p : Nat) : (f.seek p).data = f.data := rfl
@[simp] theorem File.seek_pos (f : File) (p : Nat) : (f.seek p).pos = p := rfl
@[simp] theorem File.seek_ok (f : File) (p : Nat) : (f.seek p).ok = f.ok := rfl

theorem room_le (f : File) : room f ≤ f.data.length + 1 := by
  unfold room; split <;> omega

theorem room_read8_le (f : File) : room (f.read8).2 ≤ room f := by
  unfold File.read8 room
  by_cases h : f.ok = true ∧ f.pos < f.data.length
  · simp [h]; omega
  · simp [h]

theorem room_read8_lt (f : File) (h : f.ok = true) : room (f.read8).2 < room f := by
  unfold File.read8 room
  by_cases h2 : f.pos < f.data.length
  · simp [h, h2]; omega
  · simp [h, h2]

theorem room_read16_le (f : File) : room (read16 f).2 ≤ room f := by
  have h1 := room_read8_le f
  have h2 := room_read8_le (f.read8).2
  unfold read16; simp only []; split <;> simp only [] <;> omega

theorem room_read16_lt (f : File) (h : f.ok = true) : room (read16 f).2 < room f := by
  have h1 := room_read8_lt f h
  have h2 := room_read8_le (f.read8).2
  unfold read16; simp only []; split <;> simp only [] <;> omega

/-! ## Every chunk decoder returns -/

theorem brunLiteral_room (w base : Nat) : ∀ (n x : Nat) (f : File) (fr : Frame),
    room (brunLiteral w base n x f fr).2.1 ≤ room f := by
  intro n
  induction n with
  | zero => intro x f fr; simp [brunLiteral]
  | succ n ih =>
    intro x f fr
    unfold brunLiteral
    split
    · exact Nat.le_trans (ih _ _ _) (room_read8_le f)
    · exact Nat.le_refl _

theorem brunRowLoop_some (w base : Nat) : ∀ (fuel x : Nat) (f : File) (fr : Frame),
    room f ≤ fuel → ∃ r, brunRowLoop w base fuel x f fr = some r := by
  intro fuel
  induction fuel with
  | zero =>
    intro x f fr h
    have hok : f.ok = false := by
      unfold room at h
      cases hf : f.ok
      · rfl
      · simp [hf] at h
    simp [brunRowLoop, hok]
  | succ fuel ih =>
    intro x f fr h
    unfold brunRowLoop
    by_cases hc : f.ok = true ∧ x < w
    · rw [if_pos hc]
      have h1 := room_read8_lt f hc.1
      simp only []
      split
      · apply ih
        have h2 := room_read8_le (f.read8).2
        omega
      · apply ih
        have h2 := brunLiteral_room w base (-toInt8 f.read8.1).toNat x f.read8.2 fr
        omega
    · rw [if_neg hc]; exact ⟨_, rfl⟩

theorem readBrunRow_some (w y : Nat) (f : File) (fr : Frame) :
    ∃ r, readBrunRow w y f fr = some r := by
  unfold readBrunRow
  apply brunRowLoop_some
  have h := room_le (f.read8).2
  simpa using h

theorem brunRows_some (w : Nat) : ∀ (n y : Nat) (f : File) (fr : Frame),
    ∃ r, brunRows w n y f fr = some r := by
  intro n
  induction n with
  | zero => intro y f fr; exact ⟨_, rfl⟩
  | succ n ih =>
    intro y f fr
    obtain ⟨r, hr⟩ := readBrunRow_some w y f fr
    unfold brunRows
    rw [hr]
    exact ih _ _ _

theorem readBrunChunk_some (w h : Nat) (f : File) (fr : Frame) :
    ∃ r, readBrunChunk w h f fr = some r := brunRows_some w h 0 f fr

theorem deltaLiteral_data (w base : Nat) : ∀ (n x : Nat) (f : File) (fr : Frame),
    (deltaLiteral w base n x f fr).2.1.data = f.data := by
  intro n
  induction n with
  | zero => intro x f fr; simp [deltaLiteral]
  | succ n ih =>
    intro x f fr
    unfold deltaLiteral
    split
    · simp [ih]
    · rfl

theorem deltaPackets_data (w base : Nat) : ∀ (n x : Nat) (f : File) (fr : Frame),
    (deltaPackets w base n x f fr).1.data = f.data := by
  intro n
  induction n with
  | zero => intro x f fr; simp [deltaPackets]
  | succ n ih =>
    intro x f fr
    unfold deltaPackets
    simp only []
    split
    · simp [ih, deltaLiteral_data]
    · simp [ih]

theorem deltaWords_some (w h : Nat) : ∀ (fuel nlines : Nat) (y : Int) (f : File) (fr : Frame),
    room f ≤ fuel →
    ∃ r, deltaWords w h fuel nlines y f fr = some r ∧ r.nlines ≤ nlines ∧
      r.file.data = f.data := by
  intro fuel
  induction fuel with
  | zero =>
    intro nlines y f fr hr
    have hok : f.ok = false := by
      unfold room at hr
      cases hf : f.ok
      · rfl
      · simp [hf] at hr
    simp [deltaWords, hok]
  | succ fuel ih =>
    intro nlines y f fr hr
    unfold deltaWords
    by_cases hc : f.ok = true
    · rw [if_pos hc]
      have h1 := room_read16_lt f hc
      simp only []
      split
      · split
        · obtain ⟨r, h2, h3, h4⟩ := ih nlines (wrapInt32 (y + -toInt16 (read16 f).1)) (read16 f).2 fr
            (by omega)
          exact ⟨r, h2, h3, by simpa using h4⟩
        · split
          · exact ⟨_, rfl, Nat.le_refl _, by simp⟩
          · obtain ⟨r, h2, h3, h4⟩ := ih (nlines - 1) (wrapInt32 (y + 1)) (read16 f).2
              (if 0 ≤ y ∧ y < (h : Int) then
                fr.setPixelI ((fr.rowOffI y : Int) + w - 1) ((read16 f).1 % 256) else fr)
              (by omega)
            exact ⟨r, h2, by omega, by simpa using h4⟩
      · exact ⟨_, rfl, Nat.le_refl _, by simp⟩
    · rw [if_neg hc]; exact ⟨_, rfl, Nat.le_refl _, rfl⟩

theorem deltaLines_some (w h inner : Nat) : ∀ (fuel nlines : Nat) (y : Int) (f : File) (fr : Frame),
    nlines ≤ fuel → f.data.length + 1 ≤ inner →
    ∃ r, deltaLines w h inner fuel nlines y f fr = some r := by
  intro fuel
  induction fuel with
  | zero =>
    intro nlines y f fr h1 _
    have : nlines = 0 := by omega
    simp [deltaLines, this]
  | succ fuel ih =>
    intro nlines y f fr h1 h2
    unfold deltaLines
    by_cases hn : nlines = 0
    · rw [if_pos hn]; exact ⟨_, rfl⟩
    · rw [if_neg hn]
      obtain ⟨r, hr, hr2, hr3⟩ := deltaWords_some w h inner (nlines - 1) y f fr
        (Nat.le_trans (room_le f) h2)
      rw [hr]
      simp only []
      split
      · exact ⟨_, rfl⟩
      · split
        · exact ⟨_, rfl⟩
        · apply ih
          · omega
          · rw [deltaPackets_data, hr3]; exact h2

theorem readDeltaChunk_some (w h : Nat) (f : File) (fr : Frame) :
    ∃ r, readDeltaChunk w h f fr = some r := by
  unfold readDeltaChunk
  apply deltaLines_some
  · omega
  · simp

theorem readChunk_some (d : Decoder) (fr : Frame) :
    ∃ r, d.readChunk fr = some r ∧
      r.1.m_file.pos = (d.m_file.pos + (read32 d.m_file).1) % 4294967296 ∧
      r.1.m_width = d.m_width ∧ r.1.m_height = d.m_height ∧
      r.1.m_frameCount = d.m_frameCount ∧
      r.1.m_offsetFrame1 = d.m_offsetFrame1 ∧ r.1.m_offsetFrame2 = d.m_offsetFrame2 := by
  unfold Decoder.readChunk
  simp only [File.tell]
  have key : ∀ (o : Option (File × Frame)) (p : Nat), (∃ r, o = some r) →
      ∃ r, (match o with
        | none => none
        | some q => some ({ d with m_file := q.1.seek p }, q.2) : Option (Decoder × Frame)) = some r ∧
        r.1.m_file.pos = p ∧ r.1.m_width = d.m_width ∧ r.1.m_height = d.m_height ∧
        r.1.m_frameCount = d.m_frameCount ∧
        r.1.m_offsetFrame1 = d.m_offsetFrame1 ∧ r.1.m_offsetFrame2 = d.m_offsetFrame2 := by
    intro o p ⟨r, hr⟩
    subst hr
    exact ⟨_, rfl, rfl, rfl, rfl, rfl, rfl, rfl⟩
  have hmod : (d.m_file.pos % 4294967296 + (read32 d.m_file).1) % 4294967296 =
      (d.m_file.pos + (read32 d.m_file).1) % 4294967296 := by omega
  rw [← hmod]
  apply key
  split
  · exact ⟨_, rfl⟩
  · split
    · exact readDeltaChunk_some _ _ _ _
    · split
      · exact ⟨_, rfl⟩
      · split
        · exact ⟨_, rfl⟩
        · split
          · exact ⟨_, rfl⟩
          · split
            · exact readBrunChunk_some _ _ _ _
            · split
              · exact ⟨_, rfl⟩
              · exact ⟨_, rfl⟩

/-! ## Reading little-endian values -/

theorem byteAt_lt (d : List Nat) (i : Nat) : byteAt d i < 256 := by
  unfold byteAt; omega

theorem byteAt_eq_zero (d : List Nat) (i : Nat) (h : d.length ≤ i) : byteAt d i = 0 := by
  unfold byteAt
  rw [List.getD_eq_default _ _ h]

theorem File.read8_ok (f : File) (hok : f.ok = true) (h : f.pos < f.data.length) :
    f.read8 = (byteAt f.data f.pos, { f with pos := f.pos + 1 }) := by
  unfold File.read8 byteAt
  simp [hok, h]

theorem File.read8_fail (f : File) (h : ¬(f.ok = true ∧ f.pos < f.data.length)) :
    f.read8 = (0, { f with ok := false }) := by
  unfold File.read8
  rw [if_neg h]

theorem File.read8_notok (f : File) (h : f.ok = false) : f.read8 = (0, f) := by
  rw [File.read8_fail f (by simp [h])]
  cases f
  simp_all

theorem File.read8_mk (d : List Nat) (p : Nat) (h : p < d.length) :
    File.read8 { data := d, pos := p, ok := true } =
      (byteAt d p, { data := d, pos := p + 1, ok := true }) := by
  rw [File.read8_ok _ rfl h]

theorem read16_ok (f : File) (hok : f.ok = true) (h : f.pos + 2 ≤ f.data.length) :
    read16 f = (le16At f.data f.pos, { f with pos := f.pos + 2 }) := by
  obtain ⟨d, p, ok⟩ := f
  simp only at hok h
  subst hok
  unfold read16
  simp only []
  rw [File.read8_mk d p (by omega)]
  simp only []
  rw [File.read8_mk d (p + 1) (by omega)]
  simp [le16At]
  omega

theorem read16_fail (f : File) (h : ¬(f.ok = true ∧ f.pos + 2 ≤ f.data.length)) :
    (read16 f).1 = 0 ∧ (read16 f).2.ok = false := by
  unfold read16
  by_cases h1 : f.ok = true ∧ f.pos < f.data.length
  · have h2 : ¬(f.pos + 2 ≤ f.data.length) := fun hh => h ⟨h1.1, hh⟩
    rw [File.read8_ok f h1.1 h1.2]
    simp only []
    rw [File.read8_fail _ (by simp only [not_and]; intro _; omega)]
    simp
  · rw [File.read8_fail f h1]
    simp only []
    rw [File.read8_notok _ rfl]
    simp

theorem read32_ok (f : File) (hok : f.ok = true) (h : f.pos + 4 ≤ f.data.length) :
    read32 f = (le32At f.data f.pos, { f with pos := f.pos + 4 }) := by
  obtain ⟨d, p, ok⟩ := f
  simp only at hok h
  subst hok
  unfold read32
  simp only []
  rw [File.read8_mk d p (by omega)]
  simp only []
  rw [File.read8_mk d (p + 1) (by omega)]
  simp only []
  rw [File.read8_mk d (p + 1 + 1) (by omega)]
  simp only []
  rw [File.read8_mk d (p + 1 + 1 + 1) (by omega)]
  have e2 : p + 1 + 1 = p + 2 := rfl
  have e3 : p + 1 + 1 + 1 = p + 3 := rfl
  have e4 : p + 1 + 1 + 1 + 1 = p + 4 := rfl
  simp only [e2, e3, e4, le32At, if_true]
  congr 1
  omega

theorem read32_fail (f : File) (h : ¬(f.ok = true ∧ f.pos + 4 ≤ f.data.length)) :
    (read32 f).1 = 0 ∧ (read32 f).2.ok = false := by
  have h8 : ∀ g : File, g.ok = false → (g.read8).2.ok = false := by
    intro g hg; rw [File.read8_notok g hg]; exact hg
  have hstep : ∀ g : File, (g.read8).2.ok = false ∨
      ((g.read8).2.ok = true ∧ g.ok = true ∧ g.pos < g.data.length ∧
        (g.read8).2.pos = g.pos + 1) := by
    intro g
    by_cases hg : g.ok = true ∧ g.pos < g.data.length
    · right; rw [File.read8_ok g hg.1 hg.2]; exact ⟨hg.1, hg.1, hg.2, rfl⟩
    · left; rw [File.read8_fail g hg]
  have hfin : (f.read8.2.read8.2.read8.2.read8).2.ok = false := by
    rcases hstep f with h1 | ⟨h1, h1a, h1b, h1c⟩
    · exact h8 _ (h8 _ (h8 _ h1))
    · rcases hstep f.read8.2 with h2 | ⟨h2, _, h2b, h2c⟩
      · exact h8 _ (h8 _ h2)
      · rcases hstep f.read8.2.read8.2 with h3 | ⟨h3, _, h3b, h3c⟩
        · exact h8 _ h3
        · rcases hstep f.read8.2.read8.2.read8.2 with h4 | ⟨h4, _, h4b, h4c⟩
          · exact h4
          · exfalso
            apply h
            simp only [File.read8_data] at h2b h3b h4b
            exact ⟨h1a, by omega⟩
  unfold read32
  simp only []
  rw [if_neg (by rw [hfin]; decide)]
  exact ⟨rfl, hfin⟩
theorem readChunks_succ (n : Nat) (d : Decoder) (fr : Frame) :
    Decoder.readChunks (n + 1) d fr =
      match d.readChunk fr with
      | none => none
      | some r => Decoder.readChunks n r.1 r.2 := rfl


theorem readChunks_some : ∀ (n : Nat) (d : Decoder) (fr : Frame),
    ∃ r, Decoder.readChunks n d fr = some r ∧ r.1.m_frameCount = d.m_frameCount := by
  intro n
  induction n with
  | zero => intro d fr; exact ⟨_, rfl, rfl⟩
  | succ n ih =>
    intro d fr
    obtain ⟨r, hr, _, _, _, hc, _⟩ := readChunk_some d fr
    obtain ⟨r2, hr2, hc2⟩ := ih r.1 r.2
    refine ⟨r2, ?_, by rw [hc2, hc]⟩
    rw [readChunks_succ, hr]
    exact hr2

theorem wrapInt32_id (v : Int) (h1 : -2147483648 ≤ v) (h2 : v < 2147483648) :
    wrapInt32 v = v := by
  unfold wrapInt32 toInt32
  split <;> omega


/-! ## The header -/

/-- The magic number `readHeader` looks at. -/
theorem readHeader_result (d : Decoder) (header : Header) :
    ((d.readHeader header).1 = true ↔
      ((read16 (read32 d.m_file).2).1 = FLI_MAGIC_NUMBER ∨
       (read16 (read32 d.m_file).2).1 = FLC_MAGIC_NUMBER)) ∧
    ((d.readHeader header).1 = true →
      (d.readHeader header).2.2.m_file.pos = 128 ∧
      (d.readHeader header).2.1.width =
        (if (read16 (read16 (read16 (read32 d.m_file).2).2).2).1 = 0 then 320
         else (read16 (read16 (read16 (read32 d.m_file).2).2).2).1) ∧
      (d.readHeader header).2.1.height =
        (if (read16 (read16 (read16 (read16 (read32 d.m_file).2).2).2).2).1 = 0 then 200
         else (read16 (read16 (read16 (read16 (read32 d.m_file).2).2).2).2).1)) := by
  unfold Decoder.readHeader
  simp only []
  by_cases hm : (read16 (read32 d.m_file).2).1 ≠ FLI_MAGIC_NUMBER ∧
      (read16 (read32 d.m_file).2).1 ≠ FLC_MAGIC_NUMBER
  · rw [if_pos hm]
    simp only [Bool.false_eq_true, false_iff, false_implies, and_true, not_or]
    exact hm
  · rw [if_neg hm]
    simp only [true_iff, true_implies, File.seek_pos, and_self, and_true]
    by_cases h1 : (read16 (read32 d.m_file).2).1 = FLI_MAGIC_NUMBER
    · exact Or.inl h1
    · right
      by_contra h2
      exact hm ⟨h1, h2⟩

theorem le16At_short (data : List Nat) (i v : Nat) (h : data.length < i + 2) (hv : 256 ≤ v) :
    le16At data i ≠ v := by
  unfold le16At
  have h1 := byteAt_eq_zero data (i + 1) (by omega)
  have h2 := byteAt_lt data i
  omega

theorem read16_mk (d : List Nat) (p : Nat) (h : p + 2 ≤ d.length) :
    read16 { data := d, pos := p, ok := true } =
      (le16At d p, { data := d, pos := p + 2, ok := true }) :=
  read16_ok _ rfl h

theorem read32_mk (d : List Nat) (p : Nat) (h : p + 4 ≤ d.length) :
    read32 { data := d, pos := p, ok := true } =
      (le32At d p, { data := d, pos := p + 4, ok := true }) :=
  read32_ok _ rfl h

/-! ## Byte sequences -/

theorem writeAt_getD (d : List Nat) (p v i : Nat) :
    (writeAt d p v).getD i 0 = if i = p then v else d.getD i 0 := by
  unfold writeAt
  by_cases hp : p < d.length
  · rw [if_pos hp]
    simp only [List.getD_eq_getElem?_getD, List.getElem?_set]
    by_cases hi : i = p
    · subst hi; simp [hp]
    · have : ¬ p = i := fun h => hi h.symm
      simp [hi, this]
  · rw [if_neg hp]
    simp only [List.getD_eq_getElem?_getD]
    by_cases hi : i = p
    · subst hi
      rw [List.getElem?_append_right (by simp; omega)]
      simp
      have : i - (d.length + (i - d.length)) = 0 := by omega
      simp [this]
    · simp only [hi, if_false]
      by_cases h1 : i < d.length
      · rw [List.append_assoc, List.getElem?_append_left h1]
      · rw [List.getElem?_eq_none (by omega : d.length ≤ i)]
        by_cases h2 : i < p
        · rw [List.getElem?_append_left (by simp; omega)]
          rw [List.getElem?_append_right (by omega)]
          rw [List.getElem?_replicate]
          split <;> rfl
        · rw [List.getElem?_eq_none (by simp; omega)]

theorem writeAt_length (d : List Nat) (p v : Nat) :
    (writeAt d p v).length = max d.length (p + 1) := by
  unfold writeAt
  split
  · simp; omega
  · simp; omega

theorem wrote_nil (d : List Nat) (p : Nat) : Wrote d d p [] := by
  constructor
  · intro i; rw [if_neg (by simp)]
  · simp

theorem wrote_append {d1 d2 d3 : List Nat} {p : Nat} {as bs : List Nat}
    (h1 : Wrote d1 d2 p as) (h2 : Wrote d2 d3 (p + as.length) bs) :
    Wrote d1 d3 p (as ++ bs) := by
  obtain ⟨g1, l1⟩ := h1
  obtain ⟨g2, l2⟩ := h2
  constructor
  · intro i
    rw [g2 i, g1 i]
    simp only [List.length_append, List.getD_eq_getElem?_getD]
    by_cases ha : p ≤ i ∧ i < p + as.length
    · rw [if_neg (by omega), if_pos ha, if_pos (by omega)]
      rw [List.getElem?_append_left (by omega)]
    · by_cases hb : p + as.length ≤ i ∧ i < p + as.length + bs.length
      · rw [if_pos hb, if_pos (by omega)]
        rw [List.getElem?_append_right (by omega)]
        congr 2
        omega
      · rw [if_neg hb, if_neg ha, if_neg (by omega)]
  · rw [l2, l1]
    simp only [List.length_append]
    split_ifs <;> omega

theorem wrote_patch {d1 d2 d3 : List Nat} {p : Nat} {as bs cs : List Nat}
    (h1 : Wrote d1 d2 p (as ++ bs)) (h2 : Wrote d2 d3 p cs) (hlen : cs.length = as.length) :
    Wrote d1 d3 p (cs ++ bs) := by
  obtain ⟨g1, l1⟩ := h1
  obtain ⟨g2, l2⟩ := h2
  constructor
  · intro i
    rw [g2 i, g1 i]
    simp only [List.length_append, List.getD_eq_getElem?_getD]
    by_cases ha : p ≤ i ∧ i < p + cs.length
    · rw [if_pos ha, if_pos (by omega)]
      rw [List.getElem?_append_left (by omega)]
    · rw [if_neg ha]
      by_cases hb : p ≤ i ∧ i < p + (as.length + bs.length)
      · rw [if_pos hb, if_pos (by omega)]
        rw [List.getElem?_append_right (by omega), List.getElem?_append_right (by omega)]
        rw [hlen]
      · rw [if_neg hb, if_neg (by omega)]
  · rw [l2, l1]
    simp only [List.length_append]
    split_ifs <;> omega

theorem holdsAt_of_wrote {d1 d2 : List Nat} {p : Nat} {bs : List Nat}
    (h : Wrote d1 d2 p bs) (hne : bs ≠ []) : HoldsAt d2 p bs := by
  obtain ⟨g, l⟩ := h
  have hl : bs.length ≠ 0 := by
    intro h0; exact hne (List.length_eq_zero.mp h0)
  constructor
  · rw [l, if_neg hl]; omega
  · intro j hj
    rw [g (p + j), if_pos (by omega)]
    congr 1
    omega

theorem holdsAt_append {d : List Nat} {p : Nat} {as bs : List Nat}
    (h : HoldsAt d p (as ++ bs)) : HoldsAt d p as ∧ HoldsAt d (p + as.length) bs := by
  obtain ⟨l, g⟩ := h
  simp only [List.length_append] at l g
  constructor
  · constructor
    · omega
    · intro j hj
      rw [g j (by omega)]
      simp only [List.getD_eq_getElem?_getD]
      rw [List.getElem?_append_left hj]
  · constructor
    · omega
    · intro j hj
      have := g (as.length + j) (by omega)
      rw [← Nat.add_assoc] at this
      rw [this]
      simp only [List.getD_eq_getElem?_getD]
      rw [List.getElem?_append_right (by omega)]
      congr 2
      omega

theorem holdsAt_cons {d : List Nat} {p b : Nat} {bs : List Nat}
    (h : HoldsAt d p (b :: bs)) : p < d.length ∧ d.getD p 0 = b ∧ HoldsAt d (p + 1) bs := by
  have h2 := @holdsAt_append d p [b] bs h
  obtain ⟨⟨l1, g1⟩, h3⟩ := h2
  refine ⟨by simp at l1; omega, ?_, h3⟩
  have := g1 0 (by simp)
  simpa using this

/-! ## Writing to the stream -/

theorem FW_refl (f : File) (h : f.ok = true) : FW f f [] :=
  ⟨h, by simp, wrote_nil _ _⟩

theorem FW_write8 (f : File) (v : Nat) (h : f.ok = true) : FW f (f.write8 v) [v % 256] := by
  unfold File.write8
  rw [if_pos h]
  refine ⟨h, by simp, ?_, ?_⟩
  · intro i
    simp only [writeAt_getD, List.length_singleton]
    by_cases hi : i = f.pos
    · subst hi; simp
    · rw [if_neg hi, if_neg (by omega)]
  · simp only [writeAt_length, List.length_singleton]
    simp

theorem FW_trans {f1 f2 f3 : File} {as bs : List Nat}
    (h1 : FW f1 f2 as) (h2 : FW f2 f3 bs) : FW f1 f3 (as ++ bs) := by
  obtain ⟨_, p1, w1⟩ := h1
  obtain ⟨o2, p2, w2⟩ := h2
  refine ⟨o2, by rw [p2, p1, List.length_append]; omega, ?_⟩
  rw [p1] at w2
  exact wrote_append w1 w2

theorem FW_write16 (f : File) (v : Nat) (h : f.ok = true) : FW f (write16 f v) (le16 v) := by
  unfold write16 le16
  have h1 := FW_write8 f (v % 65536 % 256) h
  have h2 := FW_write8 (f.write8 (v % 65536 % 256)) (v % 65536 / 256) h1.1
  have h3 := FW_trans h1 h2
  simpa using h3

theorem FW_write32 (f : File) (v : Nat) (h : f.ok = true) : FW f (write32 f v) (le32 v) := by
  unfold write32 le32
  have h1 := FW_write8 f (v % 4294967296 % 256) h
  have h2 := FW_write8 _ (v % 4294967296 / 256 % 256) h1.1
  have h3 := FW_write8 _ (v % 4294967296 / 65536 % 256) h2.1
  have h4 := FW_write8 _ (v % 4294967296 / 16777216) h3.1
  have h5 := FW_trans (FW_trans (FW_trans h1 h2) h3) h4
  have e : v % 4294967296 / 16777216 % 256 = v % 4294967296 / 16777216 := by omega
  simp only [List.append_assoc, List.singleton_append, Nat.mod_mod, List.nil_append,
    List.cons_append, e] at h5 ⊢
  exact h5

theorem FW_patch {f1 f2 g : File} {as bs cs : List Nat}
    (h1 : FW f1 f2 (as ++ bs)) (h2 : FW (f2.seek f1.pos) g cs) (hlen : cs.length = as.length) :
    FW f1 (g.seek f2.pos) (cs ++ bs) := by
  obtain ⟨_, p1, w1⟩ := h1
  obtain ⟨o2, _, w2⟩ := h2
  refine ⟨o2, ?_, ?_⟩
  · simp only [File.seek_pos, p1, List.length_append, hlen]
  · exact wrote_patch w1 w2 hlen

theorem FW_ok {f1 f2 : File} {bs : List Nat} (h : FW f1 f2 bs) : f2.ok = true := h.1

theorem FW_pos {f1 f2 : File} {bs : List Nat} (h : FW f1 f2 bs) :
    f2.pos = f1.pos + bs.length := h.2.1

/-! ## Reading what a stream holds -/

theorem read8_holds (s : File) (b : Nat) (bs : List Nat) (hok : s.ok = true)
    (h : HoldsAt s.data s.pos (b :: bs)) :
    s.read8 = (b % 256, { s with pos := s.pos + 1 }) ∧
      HoldsAt s.data (s.pos + 1) bs := by
  obtain ⟨h1, h2, h3⟩ := holdsAt_cons h
  refine ⟨?_, h3⟩
  rw [File.read8_ok s hok h1]
  unfold byteAt
  rw [h2]

/-! ## Pixel stores -/

theorem setPixel_px (fr : Frame) (i v k : Nat) (h : i < fr.pixels.length) :
    (fr.setPixel i v).px k = if k = i then v else fr.px k := by
  unfold Frame.setPixel Frame.px
  rw [if_pos h]
  simp only [List.getD_eq_getElem?_getD, List.getElem?_set]
  by_cases hk : k = i
  · subst hk; simp [h]
  · have : ¬ i = k := fun e => hk e.symm
    simp [hk, this]

theorem setPixel_fields (fr : Frame) (i v : Nat) (h : i < fr.pixels.length) :
    (fr.setPixel i v).pixels.length = fr.pixels.length ∧
    (fr.setPixel i v).rowstride = fr.rowstride ∧
    (fr.setPixel i v).colormap = fr.colormap ∧ (fr.setPixel i v).oob = fr.oob := by
  unfold Frame.setPixel
  rw [if_pos h]
  simp

theorem blit_refl (dst : Frame) (dbase : Nat) (src : Frame) (sbase a b : Nat) (h : b ≤ a) :
    Blit dst dst dbase src sbase a b := by
  refine ⟨rfl, rfl, rfl, rfl, ?_⟩
  intro i
  rw [if_neg (by omega)]

theorem blit_trans {d1 d2 d3 : Frame} {dbase : Nat} {src : Frame} {sbase a b c : Nat}
    (h1 : Blit d1 d2 dbase src sbase a b) (h2 : Blit d2 d3 dbase src sbase b c)
    (hab : a ≤ b) (hbc : b ≤ c) : Blit d1 d3 dbase src sbase a c := by
  obtain ⟨l1, r1, c1, o1, p1⟩ := h1
  obtain ⟨l2, r2, c2, o2, p2⟩ := h2
  refine ⟨by rw [l2, l1], by rw [r2, r1], by rw [c2, c1], by rw [o2, o1], ?_⟩
  intro i
  rw [p2 i, p1 i]
  by_cases hb : dbase + b ≤ i ∧ i < dbase + c
  · rw [if_pos hb, if_pos (by omega)]
  · rw [if_neg hb]
    by_cases ha : dbase + a ≤ i ∧ i < dbase + b
    · rw [if_pos ha, if_pos (by omega)]
    · rw [if_neg ha, if_neg (by omega)]

/-! ## The window between two iterators -/

theorem window_length (l : List Nat) (off n : Nat) :
    (window l off n).length = min n (l.length - off) := by
  unfold window; simp

theorem window_getD (l : List Nat) (off n j : Nat) (h : j < n) :
    (window l off n).getD j 0 = l.getD (off + j) 0 := by
  unfold window
  simp only [List.getD_eq_getElem?_getD, List.getElem?_take, List.getElem?_drop]
  rw [if_pos h]

/-! ## Run analyzer -/

theorem ccvLoop_bounds : ∀ (rest : List Nat) (prev : Option Nat) (same : Nat),
    same ≤ ccvLoop prev same rest ∧ ccvLoop prev same rest ≤ same + rest.length := by
  intro rest
  induction rest with
  | nil => intro prev same; simp [ccvLoop]
  | cons v rest ih =>
    intro prev same
    unfold ccvLoop
    split
    · have := ih (some v) (same + 1)
      simp only [List.length_cons]
      omega
    · simp

theorem ccvLoop_equal : ∀ (rest : List Nat) (p same j : Nat),
    same + j < ccvLoop (some p) same rest → rest.getD j 0 = p := by
  intro rest
  induction rest with
  | nil => intro p same j h; simp [ccvLoop] at h
  | cons v rest ih =>
    intro p same j h
    unfold ccvLoop at h
    by_cases hv : p = v
    · subst hv
      simp only [Option.some.injEq, reduceCtorEq, false_or, if_true] at h
      cases j with
      | zero => simp
      | succ j =>
        have := ih p (same + 1) j (by omega)
        simpa using this
    · have hne : ¬((some p : Option Nat) = none ∨ (some p : Option Nat) = some v) := by
        simp [hv]
      rw [if_neg hne] at h
      omega

theorem ccv_le_length (win : List Nat) : count_consecutive_values win ≤ win.length := by
  have := (ccvLoop_bounds win none 0).2
  unfold count_consecutive_values
  omega

theorem ccv_equal (win : List Nat) (j : Nat) (h : j < count_consecutive_values win) :
    win.getD j 0 = win.getD 0 0 := by
  unfold count_consecutive_values at h
  cases win with
  | nil => simp [ccvLoop] at h
  | cons v rest =>
    cases j with
    | zero => rfl
    | succ j =>
      unfold ccvLoop at h
      simp only [true_or, if_true, Nat.zero_add] at h
      have := ccvLoop_equal rest v 1 j (by omega)
      simpa using this

theorem cmcvLoop_later : ∀ (rest : List Nat) (prev cs ms : Option Nat) (max same it bound : Nat),
    cs ≠ some 0 → it ≠ 0 → (ms = some 0 → max ≤ bound) →
    (cmcvLoop prev cs ms max same it rest).2 = some 0 →
    (cmcvLoop prev cs ms max same it rest).1 ≤ bound := by
  intro rest
  induction rest with
  | nil => intro prev cs ms max same it bound _ _ h3 h4; simpa [cmcvLoop] using h3 h4
  | cons v rest ih =>
    intro prev cs ms max same it bound h1 h2 h3
    unfold cmcvLoop
    have hcs : (if cs = none then some it else cs) ≠ some 0 := by
      split
      · simp; exact h2
      · exact h1
    split
    · simp only []
      split
      · exact ih _ _ _ _ _ _ bound hcs (by omega) (fun h => absurd h hcs)
      · exact ih _ _ _ _ _ _ bound hcs (by omega) h3
    · exact ih _ _ _ _ _ _ bound (by simp) (by omega) h3

theorem cmcvLoop_leading : ∀ (rest : List Nat) (prev : Option Nat) (n : Nat),
    (n = 0 ↔ prev = none) →
    (cmcvLoop prev (if n = 0 then none else some 0) (if n = 0 then none else some 0) n n n rest).2
      = some 0 →
    (cmcvLoop prev (if n = 0 then none else some 0) (if n = 0 then none else some 0) n n n rest).1
      ≤ ccvLoop prev n rest := by
  intro rest
  induction rest with
  | nil => intro prev n _ _; simp [cmcvLoop, ccvLoop]
  | cons v rest ih =>
    intro prev n hn
    unfold cmcvLoop ccvLoop
    by_cases hp : prev = none ∨ prev = some v
    · rw [if_pos hp, if_pos hp]
      have hcs : (if (if n = 0 then none else some 0 : Option Nat) = none then some n
          else (if n = 0 then none else some 0)) = some 0 := by
        by_cases h0 : n = 0
        · simp [h0]
        · simp [h0]
      simp only [hcs, Nat.lt_succ_self, if_true]
      have := ih (some v) (n + 1) (by simp)
      simpa using this
    · rw [if_neg hp, if_neg hp]
      have h0 : n ≠ 0 := by
        intro h; exact hp (Or.inl (hn.mp h))
      simp only [h0, if_false]
      exact cmcvLoop_later rest (some v) none (some 0) n 0 (n + 1) n (by simp) (by omega)
        (fun _ => Nat.le_refl _)

theorem cmcv_start (win : List Nat)
    (h : (count_max_consecutive_values win).2 = some 0) :
    (count_max_consecutive_values win).1 ≤ count_consecutive_values win := by
  unfold count_max_consecutive_values count_consecutive_values at *
  have := cmcvLoop_leading win none 0 (by simp)
  simp only [if_true] at this
  exact this h

theorem cmcevLoop_later : ∀ (l1 l2 : List Nat) (cs ms : Option Nat) (max same it : Nat),
    cs ≠ some 0 → it ≠ 0 → ms ≠ some 0 →
    (cmcevLoop cs ms max same it l1 l2).2 ≠ some 0 := by
  intro l1
  induction l1 with
  | nil => intro l2 cs ms max same it _ _ h3; simpa [cmcevLoop] using h3
  | cons v1 r1 ih =>
    intro l2 cs ms max same it h1 h2 h3
    cases l2 with
    | nil => simpa [cmcevLoop] using h3
    | cons v2 r2 =>
      unfold cmcevLoop
      have hcs : (if cs = none then some it else cs) ≠ some 0 := by
        split
        · simp; exact h2
        · exact h1
      split
      · simp only []
        split
        · exact ih _ _ _ _ _ _ hcs (by omega) hcs
        · exact ih _ _ _ _ _ _ hcs (by omega) h3
      · exact ih _ _ _ _ _ _ (by simp) (by omega) h3

theorem cmcev_start (win1 win2 : List Nat) (h : win1.getD 0 0 ≠ win2.getD 0 0) :
    (count_max_consecutive_equal_values win1 win2).2 ≠ some 0 := by
  unfold count_max_consecutive_equal_values
  cases win1 with
  | nil => simp [cmcevLoop]
  | cons v1 r1 =>
    cases win2 with
    | nil => simp [cmcevLoop]
    | cons v2 r2 =>
      unfold cmcevLoop
      have hv : ¬ v1 = v2 := by simpa using h
      rw [if_neg hv]
      exact cmcevLoop_later _ _ _ _ _ _ _ (by simp) (by omega) (by simp)

theorem cutRemain_le (limit : Nat) (scan : Nat × Option Nat) (remain : Nat) :
    cutRemain limit scan remain ≤ remain := by
  unfold cutRemain
  split
  · split <;> omega
  · omega

theorem cutRemain_pos (limit : Nat) (scan : Nat × Option Nat) (remain : Nat)
    (h : scan.1 ≥ limit → scan.2 ≠ some 0) (hr : 0 < remain) :
    0 < cutRemain limit scan remain := by
  unfold cutRemain
  split
  · rename_i st hst
    split
    · rename_i hc
      have := h hc.1
      rw [hst] at this
      have : st ≠ 0 := fun e => this (by rw [e])
      omega
    · exact hr
  · exact hr

/-! ## Intraframe run-length coding of one scanline -/

theorem px_lt (fr : Frame) (h : fr.Bytes) (i : Nat) : fr.px i < 256 := by
  unfold Frame.px
  by_cases hi : i < fr.pixels.length
  · rw [List.getD_eq_getElem _ _ hi]
    exact h _ (List.getElem_mem hi)
  · rw [List.getD_eq_default _ _ (by omega)]
    decide

theorem pxBytes_length (fr : Frame) : ∀ (n it : Nat), (pxBytes fr n it).length = n := by
  intro n
  induction n with
  | zero => intro it; rfl
  | succ n ih => intro it; simp [pxBytes, ih]

theorem pxBytes_getD (fr : Frame) : ∀ (n it j : Nat), j < n →
    (pxBytes fr n it).getD j 0 = fr.px (it + j) % 256 := by
  intro n
  induction n with
  | zero => intro it j h; omega
  | succ n ih =>
    intro it j h
    cases j with
    | zero => simp [pxBytes]
    | succ j =>
      have := ih (it + 1) j (by omega)
      simp only [pxBytes, List.getD_cons_succ]
      rw [this]
      congr 2
      omega

theorem writePixels_FW (fr : Frame) : ∀ (n it : Nat) (f : File), f.ok = true →
    FW f (writePixels fr n it f) (pxBytes fr n it) := by
  intro n
  induction n with
  | zero => intro it f h; exact FW_refl f h
  | succ n ih =>
    intro it f h
    have h1 := FW_write8 f (fr.px it) h
    have h2 := ih (it + 1) _ h1.1
    exact FW_trans h1 h2

theorem toInt8_small (b : Nat) (h : b < 128) : toInt8 b = (b : Int) := by
  unfold toInt8
  have : b % 256 = b := by omega
  rw [this, if_pos h]

theorem toInt8_big (b : Nat) (h1 : 128 ≤ b) (h2 : b < 256) : toInt8 b = (b : Int) - 256 := by
  unfold toInt8
  have : b % 256 = b := by omega
  rw [this, if_neg (by omega)]

theorem u8_neg (r : Nat) (h1 : 0 < r) (h2 : r ≤ 256) : u8 (-(r : Int)) = 256 - r := by
  unfold u8
  omega

theorem brunRepeat_spec (w dbase color : Nat) : ∀ (n x : Nat) (dst : Frame),
    x + n ≤ w → dbase + w ≤ dst.pixels.length →
    (brunRepeat w dbase color n x dst).1 = x + n ∧
    (brunRepeat w dbase color n x dst).2.pixels.length = dst.pixels.length ∧
    (brunRepeat w dbase color n x dst).2.rowstride = dst.rowstride ∧
    (brunRepeat w dbase color n x dst).2.colormap = dst.colormap ∧
    (brunRepeat w dbase color n x dst).2.oob = dst.oob ∧
    ∀ i, (brunRepeat w dbase color n x dst).2.px i =
      if dbase + x ≤ i ∧ i < dbase + x + n then color else dst.px i := by
  intro n
  induction n with
  | zero =>
    intro x dst _ _
    unfold brunRepeat
    refine ⟨rfl, rfl, rfl, rfl, rfl, ?_⟩
    intro i
    rw [if_neg (by omega)]
  | succ n ih =>
    intro x dst h1 h2
    unfold brunRepeat
    rw [if_pos (by omega)]
    have hf := setPixel_fields dst (dbase + x) color (by omega)
    obtain ⟨a1, a2, a3, a4, a5, a6⟩ := ih (x + 1) (dst.setPixel (dbase + x) color) (by omega)
      (by rw [hf.1]; exact h2)
    refine ⟨by rw [a1]; omega, by rw [a2, hf.1], by rw [a3, hf.2.1], by rw [a4, hf.2.2.1],
      by rw [a5, hf.2.2.2], ?_⟩
    intro i
    rw [a6 i, setPixel_px _ _ _ _ (by omega)]
    by_cases hi : i = dbase + x
    · subst hi
      rw [if_neg (by omega), if_pos rfl, if_pos (by omega)]
    · rw [if_neg hi]
      by_cases h3 : dbase + (x + 1) ≤ i ∧ i < dbase + (x + 1) + n
      · rw [if_pos h3, if_pos (by omega)]
      · rw [if_neg h3, if_neg (by omega)]

theorem brunLiteral_spec (w dbase : Nat) : ∀ (n x : Nat) (s : File) (dst : Frame) (bs : List Nat),
    bs.length = n → HoldsAt s.data s.pos bs → s.ok = true →
    x + n ≤ w → dbase + w ≤ dst.pixels.length →
    (brunLiteral w dbase n x s dst).1 = x + n ∧
    (brunLiteral w dbase n x s dst).2.1 = { s with pos := s.pos + n } ∧
    (brunLiteral w dbase n x s dst).2.2.pixels.length = dst.pixels.length ∧
    (brunLiteral w dbase n x s dst).2.2.rowstride = dst.rowstride ∧
    (brunLiteral w dbase n x s dst).2.2.colormap = dst.colormap ∧
    (brunLiteral w dbase n x s dst).2.2.oob = dst.oob ∧
    ∀ i, (brunLiteral w dbase n x s dst).2.2.px i =
      if dbase + x ≤ i ∧ i < dbase + x + n then bs.getD (i - (dbase + x)) 0 % 256
      else dst.px i := by
  intro n
  induction n with
  | zero =>
    intro x s dst bs _ _ _ _ _
    unfold brunLiteral
    refine ⟨rfl, rfl, rfl, rfl, rfl, rfl, ?_⟩
    intro i
    rw [if_neg (by omega)]
  | succ n ih =>
    intro x s dst bs hl hh hok h1 h2
    cases bs with
    | nil => simp at hl
    | cons b bs =>
      obtain ⟨hr, hh2⟩ := read8_holds s b bs hok hh
      unfold brunLiteral
      rw [if_pos (by omega), hr]
      simp only []
      have hf := setPixel_fields dst (dbase + x) (b % 256) (by omega)
      obtain ⟨a1, a2, a3, a4, a5, a6, a7⟩ := ih (x + 1) { s with pos := s.pos + 1 }
        (dst.setPixel (dbase + x) (b % 256)) bs (by simpa using hl) hh2 hok (by omega)
        (by rw [hf.1]; exact h2)
      refine ⟨by rw [a1]; omega, ?_, by rw [a3, hf.1], by rw [a4, hf.2.1],
        by rw [a5, hf.2.2.1], by rw [a6, hf.2.2.2], ?_⟩
      · rw [a2]
        simp only [File.mk.injEq, true_and, and_true]
        omega
      · intro i
        rw [a7 i, setPixel_px _ _ _ _ (by omega)]
        by_cases hi : i = dbase + x
        · subst hi
          rw [if_neg (by omega), if_pos rfl, if_pos (by omega)]
          simp
        · rw [if_neg hi]
          by_cases h3 : dbase + (x + 1) ≤ i ∧ i < dbase + (x + 1) + n
          · rw [if_pos h3, if_pos (by omega)]
            have : i - (dbase + x) = (i - (dbase + (x + 1))) + 1 := by omega
            rw [this, List.getD_cons_succ]
          · rw [if_neg h3, if_neg (by omega)]

theorem brunRowLoop_succ (w base fuel x : Nat) (f : File) (fr : Frame) :
    brunRowLoop w base (fuel + 1) x f fr =
      if f.ok = true ∧ x < w then
        if 0 ≤ toInt8 f.read8.1 then
          brunRowLoop w base fuel
            (brunRepeat w base f.read8.2.read8.1 (toInt8 f.read8.1).toNat x fr).1 f.read8.2.read8.2
            (brunRepeat w base f.read8.2.read8.1 (toInt8 f.read8.1).toNat x fr).2
        else
          brunRowLoop w base fuel
            (brunLiteral w base (-toInt8 f.read8.1).toNat x f.read8.2 fr).1
            (brunLiteral w base (-toInt8 f.read8.1).toNat x f.read8.2 fr).2.1
            (brunLiteral w base (-toInt8 f.read8.1).toNat x f.read8.2 fr).2.2
      else some (f, fr) := rfl

theorem brunRowLoop_done (w base fuel x : Nat) (f : File) (fr : Frame) (h : w ≤ x) :
    brunRowLoop w base fuel x f fr = some (f, fr) := by
  cases fuel with
  | zero => unfold brunRowLoop; rw [if_neg (by omega)]
  | succ n => rw [brunRowLoop_succ, if_neg (by omega)]

theorem brunLineLoop_succ (w : Nat) (fr : Frame) (base fuel x npackets : Nat) (f : File) :
    brunLineLoop w fr base (fuel + 1) x npackets f =
      if x < w then
        if (if count_consecutive_values (window fr.pixels (base + x) (w - x)) > 127 then 127
            else count_consecutive_values (window fr.pixels (base + x) (w - x))) ≥ 4 then
          brunLineLoop w fr base fuel
            (x + (if count_consecutive_values (window fr.pixels (base + x) (w - x)) > 127 then 127
              else count_consecutive_values (window fr.pixels (base + x) (w - x))))
            (npackets + 1)
            ((f.write8 (if count_consecutive_values (window fr.pixels (base + x) (w - x)) > 127
              then 127 else count_consecutive_values (window fr.pixels (base + x) (w - x)))).write8
              (fr.px (base + x)))
        else
          brunLineLoop w fr base fuel
            (x + cutRemain 4 (count_max_consecutive_values (window fr.pixels (base + x) (w - x)))
              (if w - x > 128 then 128 else w - x))
            (npackets + 1)
            (writePixels fr
              (cutRemain 4 (count_max_consecutive_values (window fr.pixels (base + x) (w - x)))
                (if w - x > 128 then 128 else w - x))
              (base + x)
              (f.write8 (u8 (-((cutRemain 4
                (count_max_consecutive_values (window fr.pixels (base + x) (w - x)))
                (if w - x > 128 then 128 else w - x) : Nat) : Int)))))
      else some (npackets, f) := rfl

theorem room_pos (s : File) (h : s.ok = true) : 0 < room s := by
  unfold room; rw [if_pos h]; omega

theorem room_advance (s : File) (n : Nat) (h : s.ok = true) (hn : s.pos + n ≤ s.data.length) :
    room { s with pos := s.pos + n } + n = room s := by
  unfold room
  simp only [h, if_true]
  omega

theorem file_pos_zero (s : File) : ({ s with pos := s.pos + 0 } : File) = s := by
  cases s; rfl

theorem brunLineLoop_sim (w : Nat) (src : Frame) (sbase : Nat) (hpx : src.Bytes) :
    ∀ (fuel x np : Nat) (f : File), w - x ≤ fuel → f.ok = true →
    ∃ np2 f2 bs, brunLineLoop w src sbase fuel x np f = some (np2, f2) ∧ FW f f2 bs ∧
      BrunRowCode w src sbase x bs := by
  intro fuel
  induction fuel with
  | zero =>
    intro x np f hf hok
    refine ⟨np, f, [], ?_, FW_refl f hok, ?_⟩
    · unfold brunLineLoop; rw [if_neg (by omega)]
    · intro s dfuel dst dbase hsok hh hroom hfit
      refine ⟨dst, ?_, blit_refl _ _ _ _ _ _ (by omega)⟩
      rw [brunRowLoop_done _ _ _ _ _ _ (by omega)]
      simp only [List.length_nil, file_pos_zero]
  | succ fuel ih =>
    intro x np f hf hok
    by_cases hx : x < w
    · rw [brunLineLoop_succ, if_pos hx]
      obtain ⟨win, hwin⟩ : ∃ win, win = window src.pixels (sbase + x) (w - x) := ⟨_, rfl⟩
      have hwl : win.length ≤ w - x := by rw [hwin, window_length]; omega
      have hwg : ∀ j, j < w - x → win.getD j 0 = src.px (sbase + x + j) := by
        intro j hj; rw [hwin, window_getD _ _ _ _ hj]; rfl
      rw [← hwin]
      obtain ⟨c, hc⟩ : ∃ c, c = (if count_consecutive_values win > 127 then 127
          else count_consecutive_values win) := ⟨_, rfl⟩
      rw [← hc]
      have hccv := ccv_le_length win
      by_cases hc4 : c ≥ 4
      · rw [if_pos hc4]
        have hcl : c ≤ w - x := by rw [hc]; split <;> omega
        have hc127 : c ≤ 127 := by rw [hc]; split <;> omega
        have hcc : c ≤ count_consecutive_values win := by rw [hc]; split <;> omega
        have h1 := FW_write8 f c hok
        have h2 := FW_write8 _ (src.px (sbase + x)) h1.1
        obtain ⟨np2, f2, bs, he, hfw, hcode⟩ := ih (x + c) (np + 1) _ (by omega) h2.1
        refine ⟨np2, f2, [c % 256] ++ [src.px (sbase + x) % 256] ++ bs, he,
          FW_trans (FW_trans h1 h2) hfw, ?_⟩
        intro s dfuel dst dbase hsok hh hroom hfit
        simp only [List.singleton_append, List.cons_append, List.nil_append] at hh
        have hlen := hh.1
        simp only [List.length_cons] at hlen
        obtain ⟨hr1, hh1⟩ := read8_holds s _ _ hsok hh
        obtain ⟨hr2, hh2⟩ := read8_holds { s with pos := s.pos + 1 } _ _ hsok hh1
        have hrp := room_pos s hsok
        cases dfuel with
        | zero => omega
        | succ k =>
          have e1 : c % 256 % 256 = c := by omega
          have hcolor : src.px (sbase + x) % 256 % 256 = src.px (sbase + x) := by
            have := px_lt src hpx (sbase + x); omega
          rw [brunRowLoop_succ, if_pos ⟨hsok, hx⟩, hr1]
          simp only [e1]
          rw [toInt8_small c (by omega), if_pos (by omega), hr2]
          simp only [Int.toNat_ofNat, hcolor]
          obtain ⟨a1, a2, a3, a4, a5, a6⟩ := brunRepeat_spec w dbase (src.px (sbase + x)) c x dst
            (by omega) hfit
          rw [a1]
          have hroom2 : room { s with pos := s.pos + 1 + 1 } < room s := by
            unfold room; simp only [hsok, if_true]; omega
          obtain ⟨dst2, hd, hb⟩ := hcode { s with pos := s.pos + 1 + 1 } k
            (brunRepeat w dbase (src.px (sbase + x)) c x dst).2 dbase hsok hh2
            (by omega) (by rw [a2]; exact hfit)
          refine ⟨dst2, ?_, ?_⟩
          · rw [hd]
            simp only [List.length_cons, List.singleton_append, List.cons_append, List.nil_append,
              Option.some.injEq, Prod.mk.injEq, File.mk.injEq, true_and, and_true]
            omega
          · refine blit_trans (b := x + c) ⟨a2, a3, a4, a5, ?_⟩ hb (by omega) (by omega)
            intro i
            rw [a6 i]
            by_cases hi : dbase + x ≤ i ∧ i < dbase + x + c
            · rw [if_pos hi, if_pos (by omega)]
              have hj : i - dbase - x < count_consecutive_values win := by omega
              have e2 := ccv_equal win (i - dbase - x) hj
              rw [hwg _ (by omega), hwg 0 (by omega)] at e2
              rw [Nat.add_zero] at e2
              rw [← e2]
              congr 1
              omega
            · rw [if_neg hi, if_neg (by omega)]
      · rw [if_neg hc4]
        obtain ⟨r, hr⟩ : ∃ r, r = cutRemain 4 (count_max_consecutive_values win)
            (if w - x > 128 then 128 else w - x) := ⟨_, rfl⟩
        rw [← hr]
        have hm : (if w - x > 128 then 128 else w - x) ≤ 128 ∧
            (if w - x > 128 then 128 else w - x) ≤ w - x ∧
            0 < (if w - x > 128 then 128 else w - x) := by split <;> omega
        have hrle : r ≤ (if w - x > 128 then 128 else w - x) := by
          rw [hr]; exact cutRemain_le _ _ _
        have hccv4 : count_consecutive_values win < 4 := by
          have : c < 4 := by omega
          rw [hc] at this
          split at this <;> omega
        have hrpos : 0 < r := by
          rw [hr]
          apply cutRemain_pos _ _ _ _ hm.2.2
          intro hge hst
          have := cmcv_start win hst
          omega
        have h1 := FW_write8 f (u8 (-(r : Int))) hok
        have h2 := writePixels_FW src r (sbase + x) _ h1.1
        obtain ⟨np2, f2, bs, he, hfw, hcode⟩ := ih (x + r) (np + 1) _ (by omega) h2.1
        refine ⟨np2, f2, [u8 (-(r : Int)) % 256] ++ pxBytes src r (sbase + x) ++ bs, he,
          FW_trans (FW_trans h1 h2) hfw, ?_⟩
        intro s dfuel dst dbase hsok hh hroom hfit
        simp only [List.singleton_append, List.cons_append, List.append_assoc,
          List.nil_append] at hh
        have hlen := hh.1
        simp only [List.length_cons, List.length_append, pxBytes_length] at hlen
        obtain ⟨hr1, hh1⟩ := read8_holds s _ _ hsok hh
        obtain ⟨hh2, hh3⟩ := holdsAt_append hh1
        rw [pxBytes_length] at hh3
        have hrp := room_pos s hsok
        cases dfuel with
        | zero => omega
        | succ k =>
          have e1 : u8 (-(r : Int)) % 256 % 256 = 256 - r := by
            rw [u8_neg r hrpos (by omega)]; omega
          rw [brunRowLoop_succ, if_pos ⟨hsok, hx⟩, hr1]
          simp only [e1]
          rw [toInt8_big (256 - r) (by omega) (by omega), if_neg (by omega)]
          have e2 : (-(((256 - r : Nat) : Int) - 256)).toNat = r := by omega
          rw [e2]
          obtain ⟨a1, a2, a3, a4, a5, a6, a7⟩ := brunLiteral_spec w dbase r x
            { s with pos := s.pos + 1 } dst (pxBytes src r (sbase + x)) (pxBytes_length _ _ _)
            hh2 hsok (by omega) hfit
          rw [a1, a2]
          have hroom2 : room { s with pos := s.pos + 1 + r } < room s := by
            unfold room; simp only [hsok, if_true]; omega
          obtain ⟨dst2, hd, hb⟩ := hcode { s with pos := s.pos + 1 + r } k
            (brunLiteral w dbase r x { s with pos := s.pos + 1 } dst).2.2 dbase hsok hh3
            (by omega) (by rw [a3]; exact hfit)
          refine ⟨dst2, ?_, ?_⟩
          · rw [hd]
            simp only [List.length_cons, List.singleton_append, List.cons_append,
              List.length_append, pxBytes_length, List.append_assoc, List.nil_append,
              List.length_nil, Option.some.injEq, Prod.mk.injEq, File.mk.injEq, true_and, and_true]
            omega
          · refine blit_trans (b := x + r) ⟨a3, a4, a5, a6, ?_⟩ hb (by omega) (by omega)
            intro i
            rw [a7 i]
            by_cases hi : dbase + x ≤ i ∧ i < dbase + x + r
            · rw [if_pos hi, if_pos (by omega)]
              rw [pxBytes_getD _ _ _ _ (by omega)]
              have := px_lt src hpx (sbase + x + (i - (dbase + x)))
              have e3 : sbase + x + (i - (dbase + x)) = sbase + (i - dbase) := by omega
              rw [e3] at this ⊢
              omega
            · rw [if_neg hi, if_neg (by omega)]
    · refine ⟨np, f, [], ?_, FW_refl f hok, ?_⟩
      · rw [brunLineLoop_succ, if_neg hx]
      · intro s dfuel dst dbase hsok hh hroom hfit
        refine ⟨dst, ?_, blit_refl _ _ _ _ _ _ (by omega)⟩
        rw [brunRowLoop_done _ _ _ _ _ _ (by omega)]
        simp only [List.length_nil, file_pos_zero]

theorem writeBrunLineChunk_code (w : Nat) (src : Frame) (y : Nat) (f : File)
    (hok : f.ok = true) (hpx : src.Bytes) :
    ∃ f2 bs, writeBrunLineChunk w src y f = some f2 ∧ FW f f2 bs ∧ bs ≠ [] ∧
      BrunLineCode w src (src.rowOff y) bs := by
  have h1 := FW_write8 f 0 hok
  obtain ⟨np, f2, bs, he, hfw, hcode⟩ :=
    brunLineLoop_sim w src (src.rowOff y) hpx w 0 0 (f.write8 0) (by omega) h1.1
  have h2 := FW_trans h1 hfw
  have h3 := FW_write8 (f2.seek f.pos) (if np < 255 then np else 255) h2.1
  have h4 := FW_patch h2 h3 rfl
  refine ⟨_, [(if np < 255 then np else 255) % 256] ++ bs, ?_, h4, by simp, ?_⟩
  · unfold writeBrunLineChunk
    simp only [File.tell]
    rw [he]
  · intro s dst y2 hsok hh hfit
    simp only [List.singleton_append] at hh
    obtain ⟨hr, hh1⟩ := read8_holds s _ _ hsok hh
    unfold readBrunRow
    rw [hr]
    simp only []
    obtain ⟨dst2, hd, hb⟩ := hcode { s with pos := s.pos + 1 } (s.data.length + 1) dst
      (dst.rowOff y2) hsok hh1 (room_le _) hfit
    refine ⟨dst2, ?_, hb⟩
    rw [hd]
    simp only [List.singleton_append, List.length_cons, Option.some.injEq, Prod.mk.injEq,
      File.mk.injEq, true_and, and_true]
    omega

/-! ## Reading little-endian values that a stream holds -/

theorem holdsAt_join {d : List Nat} {p : Nat} {as bs : List Nat}
    (h1 : HoldsAt d p as) (h2 : HoldsAt d (p + as.length) bs) : HoldsAt d p (as ++ bs) := by
  obtain ⟨l1, g1⟩ := h1
  obtain ⟨l2, g2⟩ := h2
  constructor
  · simp only [List.length_append]; omega
  · intro j hj
    simp only [List.length_append] at hj
    simp only [List.getD_eq_getElem?_getD] at g1 g2 ⊢
    by_cases ha : j < as.length
    · rw [List.getElem?_append_left ha]
      exact g1 j ha
    · rw [List.getElem?_append_right (by omega)]
      have := g2 (j - as.length) (by omega)
      rw [← this]
      congr 2
      omega

theorem holdsAt_keep {d1 d2 : List Nat} {p q : Nat} {bs cs : List Nat}
    (hw : Wrote d1 d2 p bs) (h : HoldsAt d1 q cs)
    (hd : q + cs.length ≤ p ∨ p + bs.length ≤ q) : HoldsAt d2 q cs := by
  obtain ⟨g, l⟩ := hw
  obtain ⟨l1, g1⟩ := h
  constructor
  · rw [l]; split <;> omega
  · intro j hj
    rw [g (q + j), if_neg (by omega)]
    exact g1 j hj

theorem read16_holds (s : File) (v : Nat) (rest : List Nat) (hok : s.ok = true)
    (h : HoldsAt s.data s.pos (le16 v ++ rest)) :
    read16 s = (v % 65536, { s with pos := s.pos + 2 }) ∧ HoldsAt s.data (s.pos + 2) rest := by
  unfold le16 at h
  simp only [List.cons_append, List.nil_append] at h
  obtain ⟨hr1, h1⟩ := read8_holds s _ _ hok h
  obtain ⟨hr2, h2⟩ := read8_holds { s with pos := s.pos + 1 } _ _ hok h1
  refine ⟨?_, h2⟩
  unfold read16
  simp only [hr1, hr2]
  rw [if_pos hok, Prod.mk.injEq]
  exact ⟨by omega, rfl⟩

theorem read32_holds (s : File) (v : Nat) (rest : List Nat) (hok : s.ok = true)
    (h : HoldsAt s.data s.pos (le32 v ++ rest)) :
    read32 s = (v % 4294967296, { s with pos := s.pos + 4 }) ∧
      HoldsAt s.data (s.pos + 4) rest := by
  unfold le32 at h
  simp only [List.cons_append, List.nil_append] at h
  obtain ⟨hr1, h1⟩ := read8_holds s _ _ hok h
  obtain ⟨hr2, h2⟩ := read8_holds { s with pos := s.pos + 1 } _ _ hok h1
  obtain ⟨hr3, h3⟩ := read8_holds { s with pos := s.pos + 1 + 1 } _ _ hok h2
  obtain ⟨hr4, h4⟩ := read8_holds { s with pos := s.pos + 1 + 1 + 1 } _ _ hok h3
  refine ⟨?_, h4⟩
  unfold read32
  simp only [hr1, hr2, hr3, hr4]
  rw [if_pos hok, Prod.mk.injEq]
  exact ⟨by omega, rfl⟩

/-! ## The BRUN chunk -/

theorem rowOff_eq (fr : Frame) (y H : Nat) (h : H * fr.rowstride ≤ 4294967296) (hy : y < H) :
    fr.rowOff y = y * fr.rowstride := by
  unfold Frame.rowOff
  apply Nat.mod_eq_of_lt
  by_cases h0 : fr.rowstride = 0
  · rw [h0]; simp
  · have h1 : (y + 1) * fr.rowstride ≤ H * fr.rowstride := Nat.mul_le_mul_right _ hy
    rw [Nat.add_mul] at h1
    omega

theorem brunRows_succ (w n y : Nat) (f : File) (fr : Frame) :
    brunRows w (n + 1) y f fr =
      match readBrunRow w y f fr with
      | none => none
      | some r => brunRows w n (y + 1) r.1 r.2 := rfl

theorem brunLines_succ (w : Nat) (fr : Frame) (n y : Nat) (f : File) :
    brunLines w fr (n + 1) y f =
      match writeBrunLineChunk w fr y f with
      | none => none
      | some f => brunLines w fr n (y + 1) f := rfl

theorem brunLines_code (w : Nat) (src : Frame) (hpx : src.Bytes) :
    ∀ (n y : Nat) (f : File), f.ok = true →
    ∃ f2 bs, brunLines w src n y f = some f2 ∧ FW f f2 bs ∧ BrunRowsCode w src n y bs := by
  intro n
  induction n with
  | zero =>
    intro y f hok
    refine ⟨f, [], rfl, FW_refl f hok, ?_⟩
    intro s dst hsok hh hw hfit hnw
    refine ⟨dst, ?_, rfl, rfl, rfl, rfl, ?_, fun _ _ => rfl⟩
    · simp only [brunRows, List.length_nil, file_pos_zero]
    · intro y2 x h1 h2; omega
  | succ n ih =>
    intro y f hok
    obtain ⟨f1, bs1, he1, hfw1, _, hcode1⟩ := writeBrunLineChunk_code w src y f hok hpx
    obtain ⟨f2, bs2, he2, hfw2, hcode2⟩ := ih (y + 1) f1 hfw1.1
    refine ⟨f2, bs1 ++ bs2, ?_, FW_trans hfw1 hfw2, ?_⟩
    · rw [brunLines_succ, he1]
      exact he2
    · intro s dst hsok hh hw hfit hnw
      obtain ⟨hh1, hh2⟩ := holdsAt_append hh
      have hro := rowOff_eq dst y (y + (n + 1)) hnw (by omega)
      have e1 : (y + (n + 1)) * dst.rowstride = y * dst.rowstride + dst.rowstride +
          n * dst.rowstride := by rw [Nat.add_mul, Nat.add_mul]; omega
      have e2 : (y + 1 + n) * dst.rowstride = (y + (n + 1)) * dst.rowstride := by
        congr 1; omega
      have e3 : (y + 1) * dst.rowstride = y * dst.rowstride + dst.rowstride := by
        rw [Nat.add_mul]; omega
      obtain ⟨dst1, hd1, hl1, hr1, hc1, ho1, hp1⟩ := hcode1 s dst y hsok hh1 (by rw [hro]; omega)
      obtain ⟨dst2, hd2, hl2, hr2, hc2, ho2, hp2, hq2⟩ := hcode2 { s with pos := s.pos + bs1.length }
        dst1 hsok hh2 (by rw [hr1]; exact hw) (by rw [hr1, hl1, e2]; exact hfit)
        (by rw [hr1, e2]; exact hnw)
      refine ⟨dst2, ?_, by rw [hl2, hl1], by rw [hr2, hr1], by rw [hc2, hc1], by rw [ho2, ho1],
        ?_, ?_⟩
      · rw [brunRows_succ, hd1]
        simp only []
        rw [hd2]
        simp only [List.length_append, Option.some.injEq, Prod.mk.injEq, File.mk.injEq,
          true_and, and_true]
        omega
      · intro y2 x h1 h2 hx
        by_cases hy : y2 = y
        · subst hy
          rw [hq2 _ (by rw [hr1, e3]; omega), hp1, hro, if_pos (by omega)]
          congr 1
          omega
        · have := hp2 y2 x (by omega) (by omega) hx
          rw [hr1] at this
          exact this
      · intro i hi
        rw [hq2 i (by rw [hr1, e3]; omega), hp1, hro, if_neg (by omega)]

theorem evenEnd_ge (a b : Nat) : b ≤ evenEnd a b := by
  unfold evenEnd; split <;> omega

/-- What `writeBrunChunk` leaves: the chunk header, with the tag 15, followed
by the encoded rows. -/
theorem writeBrunChunk_code (e : Encoder) (src : Frame) (hok : e.m_file.ok = true)
    (hpx : src.Bytes) :
    ∃ e2 size bs, e.writeBrunChunk src = some e2 ∧ e2.m_file.ok = true ∧
      Wrote e.m_file.data e2.m_file.data e.m_file.pos (le32 size ++ (le16 FLI_BRUN_CHUNK ++ bs)) ∧
      e.m_file.pos + (6 + bs.length) ≤ e2.m_file.pos ∧
      BrunRowsCode e.m_width src e.m_height 0 bs ∧
      e2.m_width = e.m_width ∧ e2.m_height = e.m_height ∧ e2.m_frameCount = e.m_frameCount ∧
      e2.m_offsetFrame1 = e.m_offsetFrame1 ∧ e2.m_offsetFrame2 = e.m_offsetFrame2 ∧
      e2.m_prevColormap = e.m_prevColormap := by
  have h1 := FW_write32 e.m_file 0 hok
  have h2 := FW_write16 _ FLI_BRUN_CHUNK h1.1
  obtain ⟨f3, bs, he, hfw, hcode⟩ := brunLines_code e.m_width src hpx e.m_height 0 _ h2.1
  have h3 := FW_trans h1 (FW_trans h2 hfw)
  have h4 := FW_write32 (f3.seek e.m_file.pos)
    (evenEnd e.m_file.pos f3.pos - e.m_file.pos) h3.1
  have h5 := wrote_patch h3.2.2 h4.2.2 rfl
  refine ⟨{ e with m_file := (write32 (f3.seek e.m_file.pos)
      (evenEnd e.m_file.pos f3.pos - e.m_file.pos)).seek (evenEnd e.m_file.pos f3.pos) },
    _, bs, ?_, ?_, h5, ?_, hcode, rfl, rfl, rfl, rfl, rfl, rfl⟩
  · unfold Encoder.writeBrunChunk
    simp only [File.tell]
    rw [he]
  · exact h4.1
  · have := evenEnd_ge e.m_file.pos f3.pos
    have hp := h3.2.1
    simp only [List.length_append, le32, le16, List.length_cons, List.length_nil] at hp
    simp only [File.seek_pos]
    omega

/-! ## The colormap chunk of the first frame -/

theorem colorBytes_length (cm : Colormap) : ∀ (n j : Nat), (colorBytes cm n j).length = 3 * n := by
  intro n
  induction n with
  | zero => intro j; rfl
  | succ n ih => intro j; simp only [colorBytes, List.length_cons, ih]; omega

theorem writeColors_FW (cm : Colormap) : ∀ (n j : Nat) (f : File), f.ok = true →
    FW f (writeColors cm n j f) (colorBytes cm n j) := by
  intro n
  induction n with
  | zero => intro j f h; exact FW_refl f h
  | succ n ih =>
    intro j f h
    have h1 := FW_write8 f (cm j).r h
    have h2 := FW_write8 _ (cm j).g h1.1
    have h3 := FW_write8 _ (cm j).b h2.1
    have h4 := ih (j + 1) _ h3.1
    have h5 := FW_trans (FW_trans (FW_trans h1 h2) h3) h4
    simpa [colorBytes, writeColors, writeColor] using h5

theorem colorChunkLoop_first (prev cur : Colormap) (f : File) :
    colorChunkLoop true prev cur 256 0 0 0 f =
      some (1, writeColors cur 256 0 ((f.write8 0).write8 0)) := by
  rfl

theorem setColor_fields (fr : Frame) (i : Nat) (c : Color) (h : i < 256) :
    (fr.setColor i c).pixels = fr.pixels ∧ (fr.setColor i c).rowstride = fr.rowstride ∧
    (fr.setColor i c).oob = fr.oob ∧
    ∀ k, (fr.setColor i c).colormap k = if k = i then c else fr.colormap k := by
  unfold Frame.setColor
  rw [if_pos h]
  exact ⟨rfl, rfl, rfl, fun k => rfl⟩

theorem colorLoop_spec (cm : Colormap) (hcm : cm.Bytes) (i : Nat) :
    ∀ (n j : Nat) (s : File) (dst : Frame) (rest : List Nat),
    s.ok = true → HoldsAt s.data s.pos (colorBytes cm n (i + j) ++ rest) → i + j + n ≤ 256 →
    (colorLoop false i n j s dst).1 = { s with pos := s.pos + 3 * n } ∧
    (colorLoop false i n j s dst).2.pixels = dst.pixels ∧
    (colorLoop false i n j s dst).2.rowstride = dst.rowstride ∧
    (colorLoop false i n j s dst).2.oob = dst.oob ∧
    ∀ k, (colorLoop false i n j s dst).2.colormap k =
      if i + j ≤ k ∧ k < i + j + n then cm k else dst.colormap k := by
  intro n
  induction n with
  | zero =>
    intro j s dst rest _ _ _
    unfold colorLoop
    refine ⟨by simp [file_pos_zero], rfl, rfl, rfl, ?_⟩
    intro k
    rw [if_neg (by omega)]
  | succ n ih =>
    intro j s dst rest hok hh hle
    simp only [colorBytes, List.cons_append] at hh
    obtain ⟨hr1, h1⟩ := read8_holds s _ _ hok hh
    obtain ⟨hr2, h2⟩ := read8_holds { s with pos := s.pos + 1 } _ _ hok h1
    obtain ⟨hr3, h3⟩ := read8_holds { s with pos := s.pos + 1 + 1 } _ _ hok h2
    unfold colorLoop
    rw [if_pos (by omega)]
    simp only [hr1, hr2, hr3, Bool.false_eq_true, if_false]
    obtain ⟨hb1, hb2, hb3⟩ := hcm (i + j) (by omega)
    have e1 : (cm (i + j)).r % 256 % 256 = (cm (i + j)).r := by omega
    have e2 : (cm (i + j)).g % 256 % 256 = (cm (i + j)).g := by omega
    have e3 : (cm (i + j)).b % 256 % 256 = (cm (i + j)).b := by omega
    rw [e1, e2, e3]
    obtain ⟨f1, f2, f3, f4⟩ := setColor_fields dst (i + j)
      { r := (cm (i + j)).r, g := (cm (i + j)).g, b := (cm (i + j)).b } (by omega)
    obtain ⟨a1, a2, a3, a4, a5⟩ := ih (j + 1) { s with pos := s.pos + 1 + 1 + 1 }
      (dst.setColor (i + j) { r := (cm (i + j)).r, g := (cm (i + j)).g, b := (cm (i + j)).b })
      rest hok (by rw [← Nat.add_assoc]; exact h3) (by omega)
    refine ⟨?_, by rw [a2, f1], by rw [a3, f2], by rw [a4, f3], ?_⟩
    · rw [a1]
      simp only [File.mk.injEq, true_and, and_true]
      omega
    · intro k
      rw [a5 k, f4 k]
      by_cases hk : k = i + j
      · subst hk
        rw [if_neg (by omega), if_pos rfl, if_pos (by omega)]
      · rw [if_neg hk]
        by_cases h4 : i + (j + 1) ≤ k ∧ k < i + (j + 1) + n
        · rw [if_pos h4, if_pos (by omega)]
        · rw [if_neg h4, if_neg (by omega)]

theorem allColors_length (cm : Colormap) : (allColors cm).length = 768 := by
  unfold allColors; rw [colorBytes_length]

theorem firstColorChunk_length (cm : Colormap) : (firstColorChunk cm).length = 778 := by
  simp [firstColorChunk, le32, le16, allColors_length]

theorem colorChunkLoop_first_FW (prev cur : Colormap) (f : File) (hok : f.ok = true) :
    ∃ g, colorChunkLoop true prev cur 256 0 0 0 f = some (1, g) ∧
      FW f g (0 :: 0 :: allColors cur) := by
  have h4 := FW_write8 f 0 hok
  have h5 := FW_write8 _ 0 h4.1
  have h6 := writeColors_FW cur 256 0 _ h5.1
  exact ⟨_, colorChunkLoop_first prev cur f, FW_trans (FW_trans h4 h5) h6⟩

theorem writeColorChunk_first (e : Encoder) (src : Frame) (hok : e.m_file.ok = true)
    (hfirst : e.m_frameCount = 0) :
    ∃ e2, e.writeColorChunk src = some e2 ∧ e2.m_file.ok = true ∧
      Wrote e.m_file.data e2.m_file.data e.m_file.pos (firstColorChunk src.colormap) ∧
      e2.m_file.pos = e.m_file.pos + 778 ∧
      e2.m_width = e.m_width ∧ e2.m_height = e.m_height ∧ e2.m_frameCount = e.m_frameCount ∧
      e2.m_offsetFrame1 = e.m_offsetFrame1 ∧ e2.m_offsetFrame2 = e.m_offsetFrame2 := by
  have h1 := FW_write32 e.m_file 0 hok
  have h2 := FW_write16 _ 0 h1.1
  have h3 := FW_write16 _ 0 h2.1
  obtain ⟨g, hg, h6⟩ := colorChunkLoop_first_FW e.m_prevColormap src.colormap _ h3.1
  have h7 := FW_trans h1 (FW_trans h2 (FW_trans h3 h6))
  have hpos := h7.2.1
  simp only [List.length_append, le32, le16, List.length_cons, List.length_nil,
    allColors_length] at hpos
  have hev : evenEnd e.m_file.pos g.pos = e.m_file.pos + 778 := by
    unfold evenEnd
    rw [hpos]
    split <;> omega
  have g1 := FW_write32 (g.seek e.m_file.pos) 778 h7.1
  have g2 := FW_write16 _ FLI_COLOR_256_CHUNK g1.1
  have g3 := FW_write16 _ 1 g2.1
  have g4 := FW_trans g1 (FW_trans g2 g3)
  have h8 : Wrote e.m_file.data
      (write16 (write16 (write32 (g.seek e.m_file.pos) 778) FLI_COLOR_256_CHUNK) 1).data
      e.m_file.pos
      ((le32 778 ++ (le16 FLI_COLOR_256_CHUNK ++ le16 1)) ++ (0 :: 0 :: allColors src.colormap)) := by
    refine @wrote_patch _ _ _ _ (le32 0 ++ (le16 0 ++ le16 0)) _ _ ?_ g4.2.2 rfl
    have := h7.2.2
    simp only [List.append_assoc] at this ⊢
    exact this
  refine ⟨{ e with
      m_file := (write16 (write16 (write32 (g.seek e.m_file.pos) 778) FLI_COLOR_256_CHUNK)
        1).seek (e.m_file.pos + 778),
      m_prevColormap := src.colormap }, ?_, g3.1, ?_, rfl, rfl, rfl, rfl, rfl, rfl⟩
  · unfold Encoder.writeColorChunk
    simp only [File.tell, hfirst, decide_True, hg, hev]
    have : e.m_file.pos + 778 - e.m_file.pos = 778 := by omega
    rw [this]
  · simp only [File.seek_data]
    unfold firstColorChunk
    simp only [List.append_assoc] at h8
    exact h8

theorem colorPackets_one (cm : Colormap) (hcm : cm.Bytes) (n : Nat) (hn : n = 256)
    (s : File) (dst : Frame) (rest : List Nat) (hok : s.ok = true)
    (hh : HoldsAt s.data s.pos (0 :: 0 :: (colorBytes cm n 0 ++ rest))) :
    (colorPackets false 1 0 s dst).1 = { s with pos := s.pos + 770 } ∧
    (colorPackets false 1 0 s dst).2.pixels = dst.pixels ∧
    (colorPackets false 1 0 s dst).2.rowstride = dst.rowstride ∧
    (colorPackets false 1 0 s dst).2.oob = dst.oob ∧
    ∀ k, k < 256 → (colorPackets false 1 0 s dst).2.colormap k = cm k := by
  obtain ⟨hr2, h2⟩ := read8_holds s _ _ hok hh
  obtain ⟨hr3, h3⟩ := read8_holds { s with pos := s.pos + 1 } _ _ hok h2
  obtain ⟨a1, a2, a3, a4, a5⟩ := colorLoop_spec cm hcm 0 n 0 { s with pos := s.pos + 1 + 1 }
    dst rest hok h3 (by omega)
  unfold colorPackets
  simp only [hr2, hr3]
  unfold colorPackets
  simp only [Nat.zero_mod, Nat.add_zero, if_true] at a1 a2 a3 a4 a5 ⊢
  rw [← hn]
  refine ⟨?_, a2, a3, a4, ?_⟩
  · rw [a1]
    simp only [File.mk.injEq, true_and, and_true]
    omega
  · intro k hk
    rw [a5 k, if_pos (by omega)]

theorem readColorChunk_first (cm : Colormap) (hcm : cm.Bytes) (s : File) (dst : Frame)
    (rest : List Nat) (hok : s.ok = true)
    (hh : HoldsAt s.data s.pos (le16 1 ++ (0 :: 0 :: (allColors cm ++ rest)))) :
    (readColorChunk false s dst).1 = { s with pos := s.pos + 772 } ∧
    (readColorChunk false s dst).2.pixels = dst.pixels ∧
    (readColorChunk false s dst).2.rowstride = dst.rowstride ∧
    (readColorChunk false s dst).2.oob = dst.oob ∧
    ∀ k, k < 256 → (readColorChunk false s dst).2.colormap k = cm k := by
  obtain ⟨hr1, h1⟩ := read16_holds s 1 _ hok hh
  obtain ⟨a1, a2, a3, a4, a5⟩ := colorPackets_one cm hcm 256 rfl { s with pos := s.pos + 2 }
    dst rest hok h1
  unfold readColorChunk
  simp only [hr1, Nat.reduceMod]
  exact ⟨a1, a2, a3, a4, a5⟩

/-! ## The first frame -/

theorem toInt32_small (v : Nat) (h : v < 2147483648) : toInt32 v = (v : Int) := by
  unfold toInt32
  have : v % 4294967296 = v := by omega
  rw [this, if_pos h]

theorem u32_nat (v : Nat) (h : v < 4294967296) : u32 (v : Int) = v := by
  unfold u32
  omega

theorem writeFrame_first (e : Encoder) (src : Frame) (hok : e.m_file.ok = true)
    (hfirst : e.m_frameCount = 0) (hpos : e.m_file.pos < 4294967296) (hpx : src.Bytes) :
    ∃ e2 fsize bsize rows, e.writeFrame src = some e2 ∧ e2.m_file.ok = true ∧
      Wrote e.m_file.data e2.m_file.data e.m_file.pos
        (firstFrameBytes fsize bsize src.colormap rows) ∧
      BrunRowsCode e.m_width src e.m_height 0 rows ∧
      e.m_file.pos + (firstFrameBytes fsize bsize src.colormap rows).length ≤ e2.m_file.pos ∧
      e2.m_frameCount = 1 ∧ e2.m_offsetFrame1 = toInt32 e.m_file.pos ∧
      e2.m_offsetFrame2 = e.m_offsetFrame2 := by
  have hmod : e.m_file.pos % 4294967296 = e.m_file.pos := Nat.mod_eq_of_lt hpos
  -- the placeholder frame header
  have h1 := FW_write32 e.m_file 0 hok
  have h2 := FW_write16 _ 0 h1.1
  have h3 := FW_write16 _ 0 h2.1
  have h4 := FW_write32 _ 0 h3.1
  have h5 := FW_write32 _ 0 h4.1
  have h6 := FW_trans (FW_trans h1 (FW_trans h2 h3)) (FW_trans h4 h5)
  obtain ⟨fh, hfh⟩ : ∃ fh, fh = write32 (write32 (write16 (write16 (write32 e.m_file 0) 0) 0) 0) 0 :=
    ⟨_, rfl⟩
  rw [← hfh] at h6
  have hp6 : fh.pos = e.m_file.pos + 16 := by
    rw [h6.2.1]; simp [le32, le16]
  -- the colormap chunk
  obtain ⟨e2, he2, hok2, hw2, hp2, hwd2, hht2, hfc2, ho12, ho22⟩ :=
    writeColorChunk_first
      { e with
        m_offsetFrame1 := toInt32 (e.m_file.pos % 4294967296)
        m_file := fh } src h6.1 hfirst
  simp only at hw2 hp2 hwd2 hht2 hfc2 ho12 ho22
  -- the BRUN chunk
  obtain ⟨e3, bsize, rows, he3, hok3, hw3, hp3, hcode, hwd3, hht3, hfc3, ho13, ho23, _⟩ :=
    writeBrunChunk_code e2 src hok2 hpx
  rw [hwd2, hht2] at hcode
  have hw23 := wrote_append hw2 (by rw [firstColorChunk_length, ← hp2]; exact hw3)
  have hw123 := wrote_append h6.2.2 (by
    have : e.m_file.pos + ((le32 0 ++ (le16 0 ++ le16 0)) ++ (le32 0 ++ le32 0)).length = fh.pos := by
      rw [hp6]; simp [le32, le16]
    rw [this]; exact hw23)
  -- the patch of the frame header
  have g1 := FW_write32 (e3.m_file.seek e.m_file.pos)
    (u32 ((e3.m_file.pos : Int) - (e.m_file.pos : Int))) hok3
  have g2 := FW_write16 _ FLI_FRAME_MAGIC_NUMBER g1.1
  have g3 := FW_write16 _ 2 g2.1
  have g4 := FW_trans g1 (FW_trans g2 g3)
  have hw5 : Wrote e.m_file.data
      (write16 (write16 (write32 (e3.m_file.seek e.m_file.pos)
        (u32 ((e3.m_file.pos : Int) - (e.m_file.pos : Int)))) FLI_FRAME_MAGIC_NUMBER) 2).data
      e.m_file.pos
      ((le32 (u32 ((e3.m_file.pos : Int) - (e.m_file.pos : Int))) ++
        (le16 FLI_FRAME_MAGIC_NUMBER ++ le16 2)) ++ ((le32 0 ++ le32 0) ++
          (firstColorChunk src.colormap ++ (le32 bsize ++ (le16 FLI_BRUN_CHUNK ++ rows))))) := by
    refine @wrote_patch _ _ _ _ (le32 0 ++ (le16 0 ++ le16 0)) _ _ ?_ g4.2.2 rfl
    have := hw123
    simp only [List.append_assoc] at this ⊢
    exact this
  refine ⟨{ e3 with
      m_file := (write16 (write16 (write32 (e3.m_file.seek e.m_file.pos)
        (u32 ((e3.m_file.pos : Int) - (e.m_file.pos : Int)))) FLI_FRAME_MAGIC_NUMBER) 2).seek
        e3.m_file.pos,
      m_prevFrameData :=
        (List.range ((e3.m_height * src.rowstride) % 4294967296)).map src.px,
      m_frameCount := wrapInt32 (e3.m_frameCount + 1) },
    u32 ((e3.m_file.pos : Int) - (e.m_file.pos : Int)), bsize, rows, ?_, g3.1, hw5, hcode, ?_,
    ?_, ?_, ?_⟩
  · unfold Encoder.writeFrame
    simp only [File.tell, hmod]
    rw [if_pos hfirst, ← hfh]
    rw [hmod] at he2
    simp only [if_pos (Or.inl hfirst : e.m_frameCount = 0 ∨ _), he2]
    rw [if_pos (hfc2.trans hfirst), he3]
  · simp only [File.seek_pos]
    have : (firstFrameBytes (u32 ((e3.m_file.pos : Int) - (e.m_file.pos : Int))) bsize src.colormap
        rows).length = 16 + 778 + (6 + rows.length) := by
      simp only [firstFrameBytes, List.length_append, firstColorChunk_length]
      simp [le32, le16]
      omega
    rw [this]
    omega
  · simp only [hfc3, hfc2, hfirst]
    rfl
  · simp only [ho13, ho12, hmod]
  · simp only [ho23, ho22]

/-! ## The file header -/

theorem writeHeader_code (e : Encoder) (header : Header) (hok : e.m_file.ok = true) :
    (e.writeHeader header).m_file.ok = true ∧ (e.writeHeader header).m_file.pos = 128 ∧
    Wrote e.m_file.data (e.writeHeader header).m_file.data e.m_file.pos
      ((le32 0 ++ (le16 0 ++ le16 0)) ++ headerTail header) ∧
    (e.writeHeader header).m_width = header.width ∧
    (e.writeHeader header).m_height = header.height ∧
    (e.writeHeader header).m_frameCount = e.m_frameCount ∧
    (e.writeHeader header).m_offsetFrame1 = e.m_offsetFrame1 ∧
    (e.writeHeader header).m_offsetFrame2 = e.m_offsetFrame2 := by
  have h1 := FW_write32 e.m_file 0 hok
  have h2 := FW_write16 _ 0 h1.1
  have h3 := FW_write16 _ 0 h2.1
  have h4 := FW_write16 _ header.width h3.1
  have h5 := FW_write16 _ header.height h4.1
  have h6 := FW_write16 _ 8 h5.1
  have h7 := FW_write16 _ 0 h6.1
  have h8 := FW_write32 _ (u32 header.speed) h7.1
  have h9 := FW_trans (FW_trans h1 (FW_trans h2 h3))
    (FW_trans h4 (FW_trans h5 (FW_trans h6 (FW_trans h7 h8))))
  unfold Encoder.writeHeader
  exact ⟨h9.1, rfl, h9.2.2, rfl, rfl, rfl, rfl, rfl⟩

theorem destroy_code (e : Encoder) (hok : e.m_file.ok = true) :
    e.destroy.ok = true ∧
    ∃ d, Wrote e.m_file.data d 0
        (le32 (e.m_file.pos % 4294967296) ++ (le16 FLC_MAGIC_NUMBER ++ le16 (u32 e.m_frameCount))) ∧
      Wrote d e.destroy.data 80 (le32 (u32 e.m_offsetFrame1) ++ le32 (u32 e.m_offsetFrame2)) := by
  have h1 := FW_write32 (e.m_file.seek 0) (e.m_file.pos % 4294967296) hok
  have h2 := FW_write16 _ FLC_MAGIC_NUMBER h1.1
  have h3 := FW_write16 _ (u32 e.m_frameCount) h2.1
  have h4 := FW_trans h1 (FW_trans h2 h3)
  have g1 := FW_write32 ((write16 (write16 (write32 (e.m_file.seek 0) (e.m_file.pos % 4294967296))
    FLC_MAGIC_NUMBER) (u32 e.m_frameCount)).seek 80) (u32 e.m_offsetFrame1) h3.1
  have g2 := FW_write32 _ (u32 e.m_offsetFrame2) g1.1
  have g3 := FW_trans g1 g2
  unfold Encoder.destroy
  rw [if_pos hok]
  exact ⟨g2.1, _, h4.2.2, g3.2.2⟩

theorem le32_zero : le32 0 = [0, 0, 0, 0] := by decide

theorem skip8_holds (s : File) (rest : List Nat) (hok : s.ok = true)
    (h : HoldsAt s.data s.pos ((le32 0 ++ le32 0) ++ rest)) :
    skip8 s = { s with pos := s.pos + 8 } ∧ HoldsAt s.data (s.pos + 8) rest := by
  rw [le32_zero] at h
  simp only [List.cons_append, List.nil_append] at h
  obtain ⟨r1, h1⟩ := read8_holds s _ _ hok h
  obtain ⟨r2, h2⟩ := read8_holds { s with pos := s.pos + 1 } _ _ hok h1
  obtain ⟨r3, h3⟩ := read8_holds { s with pos := s.pos + 1 + 1 } _ _ hok h2
  obtain ⟨r4, h4⟩ := read8_holds { s with pos := s.pos + 1 + 1 + 1 } _ _ hok h3
  obtain ⟨r5, h5⟩ := read8_holds { s with pos := s.pos + 1 + 1 + 1 + 1 } _ _ hok h4
  obtain ⟨r6, h6⟩ := read8_holds { s with pos := s.pos + 1 + 1 + 1 + 1 + 1 } _ _ hok h5
  obtain ⟨r7, h7⟩ := read8_holds { s with pos := s.pos + 1 + 1 + 1 + 1 + 1 + 1 } _ _ hok h6
  obtain ⟨r8, h8⟩ := read8_holds { s with pos := s.pos + 1 + 1 + 1 + 1 + 1 + 1 + 1 } _ _ hok h7
  refine ⟨?_, h8⟩
  unfold skip8
  simp only [r1, r2, r3, r4, r5, r6, r7, r8]

theorem readHeader_holds (s : File) (header0 : Header) (size frames w h rest5 speed : Nat)
    (hok : s.ok = true) (hpos : s.pos = 0) (hw : 1 ≤ w ∧ w ≤ 65535) (hh : 1 ≤ h ∧ h ≤ 65535)
    (h1 : HoldsAt s.data 0 ((le32 size ++ (le16 FLC_MAGIC_NUMBER ++ le16 frames)) ++
      (le16 w ++ (le16 h ++ (le16 8 ++ (le16 rest5 ++ le32 speed))))))
    (h2 : HoldsAt s.data 80 (le32 128 ++ le32 0)) :
    ((Decoder.new s).readHeader header0).1 = true ∧
    ((Decoder.new s).readHeader header0).2.1.frames = frames % 65536 ∧
    ((Decoder.new s).readHeader header0).2.1.width = w ∧
    ((Decoder.new s).readHeader header0).2.1.height = h ∧
    ((Decoder.new s).readHeader header0).2.2 =
      { m_file := { s with pos := 128 }, m_width := w, m_height := h, m_frameCount := 0,
        m_offsetFrame1 := 128, m_offsetFrame2 := 0 } := by
  obtain ⟨data, pos, ok⟩ := s
  simp only at hok hpos h1 h2
  subst hok hpos
  simp only [List.append_assoc] at h1
  obtain ⟨r1, a1⟩ := read32_holds { data := data, pos := 0, ok := true } size _ rfl h1
  obtain ⟨r2, a2⟩ := read16_holds { data := data, pos := 0 + 4, ok := true } _ _ rfl a1
  obtain ⟨r3, a3⟩ := read16_holds { data := data, pos := 0 + 4 + 2, ok := true } _ _ rfl a2
  obtain ⟨r4, a4⟩ := read16_holds { data := data, pos := 0 + 4 + 2 + 2, ok := true } _ _ rfl a3
  obtain ⟨r5, a5⟩ := read16_holds { data := data, pos := 0 + 4 + 2 + 2 + 2, ok := true } _ _ rfl a4
  obtain ⟨r6, a6⟩ := read16_holds { data := data, pos := 0 + 4 + 2 + 2 + 2 + 2, ok := true } _ _
    rfl a5
  obtain ⟨r7, a7⟩ := read16_holds { data := data, pos := 0 + 4 + 2 + 2 + 2 + 2 + 2, ok := true }
    _ _ rfl a6
  obtain ⟨r8, _⟩ := read32_holds { data := data, pos := 0 + 4 + 2 + 2 + 2 + 2 + 2 + 2, ok := true }
    speed [] rfl (by simpa using a7)
  obtain ⟨r9, a9⟩ := read32_holds { data := data, pos := 80, ok := true } 128 _ rfl h2
  obtain ⟨r10, _⟩ := read32_holds { data := data, pos := 80 + 4, ok := true } 0 [] rfl
    (by simpa using a9)
  have ew : w % 65536 = w := by omega
  have eh : h % 65536 = h := by omega
  have ew0 : ¬ w = 0 := by omega
  have eh0 : ¬ h = 0 := by omega
  unfold Decoder.readHeader Decoder.new
  simp only [r1, r2, r3, r4, r5, r6, r7, r8, File.seek, r9, r10, ew, eh, ew0, eh0, if_false,
    FLC_MAGIC_NUMBER, FLI_MAGIC_NUMBER]
  simp only [Nat.reduceMod, ne_eq, not_true_eq_false, and_false, if_false, if_true, true_and,
    Nat.reduceEqDiff]
  have t1 : toInt32 128 = 128 := by decide
  have t2 : toInt32 0 = 0 := by decide
  rw [t1, t2]

/-! ## Decoding the first frame -/

theorem readChunk_color_first (d : Decoder) (dst : Frame) (cm : Colormap) (rest : List Nat)
    (hok : d.m_file.ok = true) (hpos : d.m_file.pos + 778 < 4294967296)
    (hh : HoldsAt d.m_file.data d.m_file.pos (firstColorChunk cm ++ rest)) (hcm : cm.Bytes) :
    ∃ dst2, d.readChunk dst =
        some ({ d with m_file := { d.m_file with pos := d.m_file.pos + 778 } }, dst2) ∧
      dst2.pixels = dst.pixels ∧ dst2.rowstride = dst.rowstride ∧ dst2.oob = dst.oob ∧
      ∀ k, k < 256 → dst2.colormap k = cm k := by
  obtain ⟨⟨data, pos, ok⟩, mw, mh, mc, o1, o2⟩ := d
  simp only at hok hpos hh ⊢
  subst hok
  unfold firstColorChunk at hh
  simp only [List.append_assoc, List.cons_append] at hh
  obtain ⟨r1, a1⟩ := read32_holds { data := data, pos := pos, ok := true } 778 _ rfl hh
  obtain ⟨r2, a2⟩ := read16_holds { data := data, pos := pos + 4, ok := true } _ _ rfl a1
  obtain ⟨b1, b2, b3, b4, b5⟩ := readColorChunk_first cm hcm
    { data := data, pos := pos + 4 + 2, ok := true } dst rest rfl a2
  obtain ⟨res, hres⟩ : ∃ res, res = readColorChunk false
    { data := data, pos := pos + 4 + 2, ok := true } dst := ⟨_, rfl⟩
  rw [← hres] at b1 b2 b3 b4 b5
  refine ⟨res.2, ?_, b2, b3, b4, b5⟩
  unfold Decoder.readChunk
  simp only [r1, r2, File.tell, FLI_COLOR_256_CHUNK, Nat.reduceMod, if_true]
  rw [← hres, b1]
  simp only [File.seek, Option.some.injEq, Prod.mk.injEq, and_true, Decoder.mk.injEq,
    File.mk.injEq, true_and]
  omega

theorem readChunk_brun (d : Decoder) (dst src : Frame) (bsize : Nat) (rows : List Nat)
    (hok : d.m_file.ok = true)
    (hh : HoldsAt d.m_file.data d.m_file.pos (le32 bsize ++ (le16 FLI_BRUN_CHUNK ++ rows)))
    (hcode : BrunRowsCode d.m_width src d.m_height 0 rows)
    (hw : d.m_width ≤ dst.rowstride)
    (hfit : d.m_height * dst.rowstride ≤ dst.pixels.length)
    (hnw : d.m_height * dst.rowstride ≤ 4294967296) :
    ∃ d2 dst2, d.readChunk dst = some (d2, dst2) ∧ d2.m_frameCount = d.m_frameCount ∧
      dst2.pixels.length = dst.pixels.length ∧ dst2.rowstride = dst.rowstride ∧
      dst2.colormap = dst.colormap ∧ dst2.oob = dst.oob ∧
      ∀ y x, y < d.m_height → x < d.m_width →
        dst2.px (y * dst.rowstride + x) = src.px (src.rowOff y + x) := by
  obtain ⟨⟨data, pos, ok⟩, mw, mh, mc, o1, o2⟩ := d
  simp only at hok hh hcode hw hfit hnw ⊢
  subst hok
  obtain ⟨r1, a1⟩ := read32_holds { data := data, pos := pos, ok := true } bsize _ rfl hh
  obtain ⟨r2, a2⟩ := read16_holds { data := data, pos := pos + 4, ok := true } _ _ rfl a1
  obtain ⟨dst2, c1, c2, c3, c4, c5, c6, _⟩ := hcode { data := data, pos := pos + 4 + 2, ok := true }
    dst rfl a2 hw (by rw [Nat.zero_add]; exact hfit) (by rw [Nat.zero_add]; exact hnw)
  refine ⟨{ m_file := { data := data,
                        pos := (pos % 4294967296 + bsize % 4294967296) % 4294967296, ok := true },
            m_width := mw, m_height := mh, m_frameCount := mc, m_offsetFrame1 := o1,
            m_offsetFrame2 := o2 }, dst2, ?_, rfl, c2, c3, c4, c5, ?_⟩
  · unfold Decoder.readChunk
    simp only [r1, r2, File.tell, FLI_COLOR_256_CHUNK, FLI_DELTA_CHUNK, FLI_COLOR_64_CHUNK,
      FLI_LC_CHUNK, FLI_BLACK_CHUNK, FLI_BRUN_CHUNK, Nat.reduceMod, Nat.reduceEqDiff, if_false,
      if_true, readBrunChunk, c1, File.seek]
  · intro y x hy hx
    exact c6 y x (by omega) (by omega) hx

theorem readChunks_zero (d : Decoder) (fr : Frame) :
    Decoder.readChunks 0 d fr = some (d, fr) := rfl

theorem readFrame_first (d : Decoder) (dst src : Frame) (fsize bsize : Nat) (rows : List Nat)
    (hok : d.m_file.ok = true) (hcount : d.m_frameCount = 0) (hoff : d.m_offsetFrame1 = 128)
    (hh : HoldsAt d.m_file.data 128 (firstFrameBytes fsize bsize src.colormap rows))
    (hcm : src.colormap.Bytes)
    (hcode : BrunRowsCode d.m_width src d.m_height 0 rows)
    (hw : d.m_width ≤ dst.rowstride)
    (hfit : d.m_height * dst.rowstride ≤ dst.pixels.length)
    (hnw : d.m_height * dst.rowstride ≤ 4294967296) :
    ∃ d2 dst2, d.readFrame dst = some (true, d2, dst2) ∧
      dst2.pixels.length = dst.pixels.length ∧ dst2.rowstride = dst.rowstride ∧
      dst2.oob = dst.oob ∧ (∀ k, k < 256 → dst2.colormap k = src.colormap k) ∧
      ∀ y x, y < d.m_height → x < d.m_width →
        dst2.px (y * dst.rowstride + x) = src.px (src.rowOff y + x) := by
  obtain ⟨⟨data, pos, ok⟩, mw, mh, mc, o1, o2⟩ := d
  simp only at hok hcount hoff hh hcode hw hfit hnw ⊢
  subst hok hcount hoff
  unfold firstFrameBytes at hh
  simp only [List.append_assoc] at hh
  obtain ⟨r1, a1⟩ := read32_holds { data := data, pos := 128, ok := true } fsize _ rfl hh
  obtain ⟨r2, a2⟩ := read16_holds { data := data, pos := 128 + 4, ok := true } _ _ rfl a1
  obtain ⟨r3, a3⟩ := read16_holds { data := data, pos := 128 + 4 + 2, ok := true } _ _ rfl a2
  obtain ⟨r4, a4⟩ := skip8_holds { data := data, pos := 128 + 4 + 2 + 2, ok := true } _ rfl
    (by simpa only [List.append_assoc] using a3)
  simp only [Nat.reduceAdd] at r1 r2 r3 r4 a4
  -- the colormap chunk
  obtain ⟨dst1, e1, e2, e3, e4, e5⟩ := readChunk_color_first
    { m_file := { data := data, pos := 144, ok := true }, m_width := mw, m_height := mh,
      m_frameCount := 0, m_offsetFrame1 := 128, m_offsetFrame2 := o2 }
    dst src.colormap _ rfl (by simp only []; omega) a4 hcm
  simp only [Nat.reduceAdd] at e1
  -- the BRUN chunk
  have a5 := (holdsAt_append a4).2
  rw [firstColorChunk_length] at a5
  simp only [Nat.reduceAdd] at a5
  obtain ⟨d2, dst2, g1, g2, g3, g4, g5, g6, g7⟩ := readChunk_brun
    { m_file := { data := data, pos := 922, ok := true }, m_width := mw, m_height := mh,
      m_frameCount := 0, m_offsetFrame1 := 128, m_offsetFrame2 := o2 }
    dst1 src bsize rows rfl a5 hcode (by rw [e3]; exact hw)
    (by rw [e3, e2]; exact hfit) (by rw [e3]; exact hnw)
  simp only at g2 g7
  refine ⟨{ d2 with
      m_file := d2.m_file.seek ((128 + fsize % 4294967296) % 4294967296)
      m_frameCount := wrapInt32 (d2.m_frameCount + 1) },
    dst2, ?_, by rw [g3, e2], by rw [g4, e3], by rw [g6, e4], ?_, ?_⟩
  · unfold Decoder.readFrame
    have hs : Decoder.seekAnchor
        { m_file := { data := data, pos := pos, ok := true },
          m_width := mw, m_height := mh, m_frameCount := 0, m_offsetFrame1 := 128,
          m_offsetFrame2 := o2 } = { data := data, pos := 128, ok := true } := by
      unfold Decoder.seekAnchor
      simp only [if_true, ne_eq, OfNat.ofNat_ne_zero, not_false_eq_true, File.seek]
      rfl
    simp only [hs, r1, r2, r3, r4, File.tell, Nat.reduceMod]
    rw [readChunks_succ, e1]
    simp only []
    rw [readChunks_succ, g1]
    simp only [readChunks_zero]
  · intro k hk
    rw [g5]
    exact e5 k hk
  · intro y x hy hx
    have := g7 y x hy hx
    rw [e3] at this
    exact this

/-- The whole first-frame pipeline: header, first frame, finalization, then
`readHeader` and `readFrame`. -/
theorem first_frame_pipeline (f0 : File) (header header0 : Header) (src dst : Frame)
    (hok : f0.ok = true) (hpos : f0.pos = 0)
    (hw : 1 ≤ header.width ∧ header.width ≤ 65535)
    (hh : 1 ≤ header.height ∧ header.height ≤ 65535)
    (hpx : src.Bytes) (hcm : src.colormap.Bytes)
    (hdw : header.width ≤ dst.rowstride)
    (hdl : dst.pixels.length = dst.rowstride * header.height)
    (hdn : dst.rowstride * header.height < 4294967296) :
    ∃ e, ((Encoder.new f0).writeHeader header).writeFrame src = some e ∧
      ((Decoder.new (e.destroy.seek 0)).readHeader header0).1 = true ∧
      ((Decoder.new (e.destroy.seek 0)).readHeader header0).2.1.width = header.width ∧
      ((Decoder.new (e.destroy.seek 0)).readHeader header0).2.1.height = header.height ∧
      ((Decoder.new (e.destroy.seek 0)).readHeader header0).2.1.frames = 1 ∧
      ∃ d2 dst2,
        ((Decoder.new (e.destroy.seek 0)).readHeader header0).2.2.readFrame dst =
          some (true, d2, dst2) ∧
        (∀ x y, x < header.width → y < header.height → dst2.pixelAt x y = src.pixelAt x y) ∧
        (∀ k, k < 256 → dst2.colormap k = src.colormap k) ∧
        dst2.oob = dst.oob ∧ dst2.pixels.length = dst.pixels.length := by
  obtain ⟨k1, k2, k3, k4, k5, k6, k7, k8⟩ := writeHeader_code (Encoder.new f0) header hok
  obtain ⟨e1, he1⟩ : ∃ e1, e1 = (Encoder.new f0).writeHeader header := ⟨_, rfl⟩
  rw [← he1] at k1 k2 k3 k4 k5 k6 k7 k8 ⊢
  have hn0 : (Encoder.new f0).m_file = f0 := rfl
  rw [hn0, hpos] at k3
  have hfc : e1.m_frameCount = 0 := by rw [k6]; rfl
  obtain ⟨e2, fsize, bsize, rows, m1, m2, m3, m4, m5, m6, m7, m8⟩ :=
    writeFrame_first e1 src k1 hfc (by rw [k2]; decide) hpx
  rw [k2] at m3 m5 m7
  rw [k4, k5] at m4
  have ho2 : e2.m_offsetFrame2 = 0 := by rw [m8, k8]; rfl
  obtain ⟨n1, D, n2, n3⟩ := destroy_code e2 m2
  rw [m6] at n2
  rw [m7, ho2] at n3
  have t1 : u32 (toInt32 128) = 128 := by decide
  have t2 : u32 0 = 0 := by decide
  have t3 : u32 1 = 1 := by decide
  rw [t1, t2] at n3
  rw [t3] at n2
  -- what the final stream holds
  have hlenF : 0 < (firstFrameBytes fsize bsize src.colormap rows).length := by
    simp [firstFrameBytes, le32]
  have F3 : HoldsAt e2.destroy.data 128 (firstFrameBytes fsize bsize src.colormap rows) := by
    have a := holdsAt_of_wrote m3 (by intro h; rw [h] at hlenF; exact absurd hlenF (by decide))
    have b := holdsAt_keep n2 a (Or.inr (by simp [le32, le16]))
    exact holdsAt_keep n3 b (Or.inr (by simp [le32]))
  have F2 : HoldsAt e2.destroy.data 80 (le32 128 ++ le32 0) :=
    holdsAt_of_wrote n3 (by simp [le32])
  have F1 : HoldsAt e2.destroy.data 0
      ((le32 (e2.m_file.pos % 4294967296) ++ (le16 FLC_MAGIC_NUMBER ++ le16 1)) ++
        (le16 header.width ++ (le16 header.height ++ (le16 8 ++ (le16 0 ++
          le32 (u32 header.speed)))))) := by
    have a := holdsAt_of_wrote k3 (by simp [le32])
    have a2 := (holdsAt_append a).2
    have b := holdsAt_keep m3 a2 (Or.inl (by simp [headerTail, le32, le16]))
    have c := holdsAt_keep n2 b (Or.inr (by simp [le32, le16]))
    have d := holdsAt_keep n3 c (Or.inl (by simp [headerTail, le32, le16]))
    have p := holdsAt_of_wrote n2 (by simp [le32])
    have p2 := holdsAt_keep n3 p (Or.inl (by simp [le32, le16]))
    refine holdsAt_join p2 ?_
    have e : (0 : Nat) + (le32 (e2.m_file.pos % 4294967296) ++
        (le16 FLC_MAGIC_NUMBER ++ le16 1)).length = 0 + (le32 0 ++ (le16 0 ++ le16 0)).length := by
      simp [le32, le16]
    rw [e]
    exact d
  obtain ⟨q1, q2, q3, q4, q5⟩ := readHeader_holds (e2.destroy.seek 0) header0 _ 1 header.width
    header.height 0 (u32 header.speed) n1 rfl hw hh F1 F2
  refine ⟨e2, m1, q1, q3, q4, by rw [q2], ?_⟩
  rw [q5]
  obtain ⟨d2, dst2, s1, s2, s3, s4, s5, s6⟩ := readFrame_first
    { m_file := { e2.destroy.seek 0 with pos := 128 }, m_width := header.width,
      m_height := header.height, m_frameCount := 0, m_offsetFrame1 := 128, m_offsetFrame2 := 0 }
    dst src fsize bsize rows n1 rfl rfl F3 hcm m4 hdw
    (by simp only []; rw [hdl, Nat.mul_comm])
    (by simp only []; rw [Nat.mul_comm]; omega)
  refine ⟨d2, dst2, s1, ?_, s5, s4, s2⟩
  intro x y hx hy
  unfold Frame.pixelAt
  rw [rowOff_eq dst2 y header.height (by rw [s3, Nat.mul_comm]; omega) hy, s3]
  exact s6 y x hy hx

/-! ## The line writer of the LC chunk -/

theorem lcFiller_spec : ∀ (fuel np skip : Nat) (f : File), skip ≤ fuel → f.ok = true →
    ∃ q f2, lcFiller fuel np skip f = some (np + q, skip - 255 * q, f2) ∧
      FW f f2 (fillerBytes q) ∧ q = (skip - 1) / 255 := by
  intro fuel
  induction fuel with
  | zero =>
    intro np skip f h hok
    refine ⟨0, f, ?_, FW_refl f hok, by omega⟩
    unfold lcFiller
    rw [if_neg (by omega)]
    rfl
  | succ fuel ih =>
    intro np skip f h hok
    unfold lcFiller
    by_cases hs : skip > 255
    · rw [if_pos hs]
      have h1 := FW_write8 f 255 hok
      have h2 := FW_write8 _ 0 h1.1
      obtain ⟨q, f2, he, hfw, hq⟩ := ih (np + 1) (skip - 255) _ (by omega) h2.1
      refine ⟨q + 1, f2, ?_, FW_trans (FW_trans h1 h2) hfw, by omega⟩
      simp only []
      rw [he]
      simp only [Option.some.injEq, Prod.mk.injEq, and_true]
      omega
    · rw [if_neg hs]
      refine ⟨0, f, rfl, FW_refl f hok, by omega⟩

theorem lcLineLoop_succ (w : Nat) (prev : List Nat) (fr : Frame) (base fuel x np skip : Nat)
    (f : File) :
    lcLineLoop w prev fr base (fuel + 1) x np skip f =
      if x < w then
        if prev.getD (base + x) 0 ≠ fr.px (base + x) then
          match lcFiller skip np skip f with
          | none => none
          | some r =>
            let npackets := r.1 + 1
            let f := r.2.2.write8 r.2.1
            let remain := w - x
            let remain := if remain > 128 then 128 else remain
            let unchanged := count_max_consecutive_equal_values
              (window prev (base + x) remain) (window fr.pixels (base + x) remain)
            let remain := cutRemain 5 unchanged remain
            let win := window fr.pixels (base + x) remain
            let samePixels := count_consecutive_values win
            let scan := count_max_consecutive_values win
            let samePixels := if samePixels > 128 then 128 else samePixels
            if samePixels ≥ 4 then
              let f := f.write8 (u8 (-(samePixels : Int)))
              let f := f.write8 (fr.px (base + x))
              lcLineLoop w prev fr base fuel (x + samePixels) npackets 0 f
            else
              let remain := if remain > 127 then 127 else remain
              let remain := cutRemain 4 scan remain
              let f := f.write8 remain
              let f := writePixels fr remain (base + x) f
              lcLineLoop w prev fr base fuel (x + remain) npackets 0 f
        else lcLineLoop w prev fr base fuel (x + 1) np (skip + 1) f
      else some (np, skip, f) := rfl

theorem lcLineLoop_skip (w : Nat) (prev : List Nat) (fr : Frame) (base : Nat) :
    ∀ (m fuel x np skip : Nat) (f : File), x + m ≤ w →
    (∀ j, j < m → prev.getD (base + (x + j)) 0 = fr.px (base + (x + j))) →
    lcLineLoop w prev fr base (fuel + m) x np skip f =
      lcLineLoop w prev fr base fuel (x + m) np (skip + m) f := by
  intro m
  induction m with
  | zero => intro fuel x np skip f _ _; rfl
  | succ m ih =>
    intro fuel x np skip f hx hsame
    have e : fuel + (m + 1) = (fuel + m) + 1 := rfl
    rw [e, lcLineLoop_succ, if_pos (by omega), if_neg (by
      have := hsame 0 (by omega)
      rw [Nat.add_zero] at this
      exact not_not.mpr this)]
    rw [ih fuel (x + 1) np (skip + 1) f (by omega) (by
      intro j hj
      have := hsame (j + 1) (by omega)
      have e2 : x + (j + 1) = x + 1 + j := by omega
      rw [e2] at this
      exact this)]
    have e3 : x + 1 + m = x + (m + 1) := by omega
    have e4 : skip + 1 + m = skip + (m + 1) := by omega
    rw [e3, e4]

theorem lcLineLoop_changed (w : Nat) (prev : List Nat) (fr : Frame) (base fuel x np skip : Nat)
    (f : File) (hx : x < w) (hne : prev.getD (base + x) 0 ≠ fr.px (base + x))
    (hok : f.ok = true) :
    ∃ q f2 len pk, q = (skip - 1) / 255 ∧
      lcLineLoop w prev fr base (fuel + 1) x np skip f =
        lcLineLoop w prev fr base fuel (x + len) (np + q + 1) 0 f2 ∧
      FW f f2 (fillerBytes q ++ ((skip - 255 * q) :: pk)) ∧ 0 < len ∧ x + len ≤ w ∧
      ((4 ≤ len ∧ len ≤ 128 ∧ pk = [256 - len, fr.px (base + x) % 256] ∧
          ∀ j, j < len → fr.px (base + x + j) = fr.px (base + x)) ∨
        (len ≤ 127 ∧ pk = len :: pxBytes fr len (base + x))) := by
  obtain ⟨q, f1, hfill, hfw1, hq⟩ := lcFiller_spec skip np skip f (Nat.le_refl _) hok
  rw [lcLineLoop_succ, if_pos hx, if_pos hne, hfill]
  simp only []
  obtain ⟨rem0, hrem0⟩ : ∃ r, r = (if w - x > 128 then 128 else w - x) := ⟨_, rfl⟩
  rw [← hrem0]
  have hm : rem0 ≤ 128 ∧ rem0 ≤ w - x ∧ 0 < rem0 := by rw [hrem0]; split <;> omega
  obtain ⟨rem1, hrem1⟩ : ∃ r, r = cutRemain 5 (count_max_consecutive_equal_values
      (window prev (base + x) rem0) (window fr.pixels (base + x) rem0)) rem0 := ⟨_, rfl⟩
  rw [← hrem1]
  have hr1le : rem1 ≤ rem0 := by rw [hrem1]; exact cutRemain_le _ _ _
  have hr1pos : 0 < rem1 := by
    rw [hrem1]
    apply cutRemain_pos _ _ _ _ hm.2.2
    intro _
    apply cmcev_start
    rw [window_getD _ _ _ _ hm.2.2, window_getD _ _ _ _ hm.2.2]
    exact hne
  obtain ⟨win, hwin⟩ : ∃ win, win = window fr.pixels (base + x) rem1 := ⟨_, rfl⟩
  rw [← hwin]
  have hwl : win.length ≤ rem1 := by rw [hwin, window_length]; omega
  have hwg : ∀ j, j < rem1 → win.getD j 0 = fr.px (base + x + j) := by
    intro j hj; rw [hwin, window_getD _ _ _ _ hj]; rfl
  obtain ⟨c, hc⟩ : ∃ c, c = (if count_consecutive_values win > 128 then 128
      else count_consecutive_values win) := ⟨_, rfl⟩
  rw [← hc]
  have hccv := ccv_le_length win
  have hs1 : (skip - 255 * q) % 256 = skip - 255 * q := by omega
  have h0 := FW_write8 f1 (skip - 255 * q) hfw1.1
  rw [hs1] at h0
  by_cases hc4 : c ≥ 4
  · rw [if_pos hc4]
    have hcl : c ≤ rem1 := by rw [hc]; split <;> omega
    have hcc : c ≤ count_consecutive_values win := by rw [hc]; split <;> omega
    have h1 := FW_write8 _ (u8 (-(c : Int))) h0.1
    have h2 := FW_write8 _ (fr.px (base + x)) h1.1
    have e1 : u8 (-(c : Int)) % 256 = 256 - c := by
      rw [u8_neg c (by omega) (by omega)]; omega
    rw [e1] at h1
    refine ⟨q, _, c, [256 - c, fr.px (base + x) % 256], hq, rfl, ?_, by omega, by omega,
      Or.inl ⟨hc4, by omega, rfl, ?_⟩⟩
    · have := FW_trans hfw1 (FW_trans h0 (FW_trans h1 h2))
      simpa using this
    · intro j hj
      have e2 := ccv_equal win j (by omega)
      rw [hwg _ (by omega), hwg 0 (by omega)] at e2
      rw [Nat.add_zero] at e2
      exact e2
  · rw [if_neg hc4]
    obtain ⟨r, hr⟩ : ∃ r, r = cutRemain 4 (count_max_consecutive_values win)
        (if rem1 > 127 then 127 else rem1) := ⟨_, rfl⟩
    rw [← hr]
    have hm2 : (if rem1 > 127 then 127 else rem1) ≤ 127 ∧
        (if rem1 > 127 then 127 else rem1) ≤ rem1 ∧
        0 < (if rem1 > 127 then 127 else rem1) := by split <;> omega
    have hrle : r ≤ (if rem1 > 127 then 127 else rem1) := by
      rw [hr]; exact cutRemain_le _ _ _
    have hccv4 : count_consecutive_values win < 4 := by
      have : c < 4 := by omega
      rw [hc] at this
      split at this <;> omega
    have hrpos : 0 < r := by
      rw [hr]
      apply cutRemain_pos _ _ _ _ hm2.2.2
      intro hge hst
      have := cmcv_start win hst
      omega
    have h1 := FW_write8 _ r h0.1
    have h2 := writePixels_FW fr r (base + x) _ h1.1
    have e1 : r % 256 = r := by omega
    rw [e1] at h1
    refine ⟨q, _, r, r :: pxBytes fr r (base + x), hq, rfl, ?_, hrpos, by omega,
      Or.inr ⟨by omega, rfl⟩⟩
    have := FW_trans hfw1 (FW_trans h0 (FW_trans h1 h2))
    simpa using this

/-! ## The packet loop of the LC decoder -/

theorem lcRepeat_spec (w dbase color : Nat) : ∀ (n x : Nat) (dst : Frame),
    x + n ≤ w → dbase + w ≤ dst.pixels.length →
    (lcRepeat w dbase color n x dst).1 = x + n ∧
    (lcRepeat w dbase color n x dst).2.pixels.length = dst.pixels.length ∧
    (lcRepeat w dbase color n x dst).2.rowstride = dst.rowstride ∧
    (lcRepeat w dbase color n x dst).2.colormap = dst.colormap ∧
    (lcRepeat w dbase color n x dst).2.oob = dst.oob ∧
    ∀ i, (lcRepeat w dbase color n x dst).2.px i =
      if dbase + x ≤ i ∧ i < dbase + x + n then color else dst.px i := by
  intro n
  induction n with
  | zero =>
    intro x dst _ _
    unfold lcRepeat
    refine ⟨rfl, rfl, rfl, rfl, rfl, ?_⟩
    intro i
    rw [if_neg (by omega)]
  | succ n ih =>
    intro x dst h1 h2
    unfold lcRepeat
    rw [if_pos (by omega)]
    have hf := setPixel_fields dst (dbase + x) color (by omega)
    obtain ⟨a1, a2, a3, a4, a5, a6⟩ := ih (x + 1) (dst.setPixel (dbase + x) color) (by omega)
      (by rw [hf.1]; exact h2)
    refine ⟨by rw [a1]; omega, by rw [a2, hf.1], by rw [a3, hf.2.1], by rw [a4, hf.2.2.1],
      by rw [a5, hf.2.2.2], ?_⟩
    intro i
    rw [a6 i, setPixel_px _ _ _ _ (by omega)]
    by_cases hi : i = dbase + x
    · subst hi
      rw [if_neg (by omega), if_pos rfl, if_pos (by omega)]
    · rw [if_neg hi]
      by_cases h3 : dbase + (x + 1) ≤ i ∧ i < dbase + (x + 1) + n
      · rw [if_pos h3, if_pos (by omega)]
      · rw [if_neg h3, if_neg (by omega)]

theorem lcLiteral_spec (dbase endOff : Nat) :
    ∀ (n x : Nat) (s : File) (dst : Frame) (bs : List Nat),
    bs.length = n → HoldsAt s.data s.pos bs → s.ok = true →
    dbase + x + n ≤ endOff → endOff ≤ dst.pixels.length →
    (lcLiteral dbase endOff n x s dst).1 = x + n ∧
    (lcLiteral dbase endOff n x s dst).2.1 = { s with pos := s.pos + n } ∧
    (lcLiteral dbase endOff n x s dst).2.2.pixels.length = dst.pixels.length ∧
    (lcLiteral dbase endOff n x s dst).2.2.rowstride = dst.rowstride ∧
    (lcLiteral dbase endOff n x s dst).2.2.colormap = dst.colormap ∧
    (lcLiteral dbase endOff n x s dst).2.2.oob = dst.oob ∧
    ∀ i, (lcLiteral dbase endOff n x s dst).2.2.px i =
      if dbase + x ≤ i ∧ i < dbase + x + n then bs.getD (i - (dbase + x)) 0 % 256
      else dst.px i := by
  intro n
  induction n with
  | zero =>
    intro x s dst bs _ _ _ _ _
    unfold lcLiteral
    refine ⟨rfl, rfl, rfl, rfl, rfl, rfl, ?_⟩
    intro i
    rw [if_neg (by omega)]
  | succ n ih =>
    intro x s dst bs hl hh hok h1 h2
    cases bs with
    | nil => simp at hl
    | cons b bs =>
      obtain ⟨hr, hh2⟩ := read8_holds s b bs hok hh
      unfold lcLiteral
      rw [if_pos (by omega), hr]
      simp only []
      have hf := setPixel_fields dst (dbase + x) (b % 256) (by omega)
      obtain ⟨a1, a2, a3, a4, a5, a6, a7⟩ := ih (x + 1) { s with pos := s.pos + 1 }
        (dst.setPixel (dbase + x) (b % 256)) bs (by simpa using hl) hh2 hok (by omega)
        (by rw [hf.1]; exact h2)
      refine ⟨by rw [a1]; omega, ?_, by rw [a3, hf.1], by rw [a4, hf.2.1],
        by rw [a5, hf.2.2.1], by rw [a6, hf.2.2.2], ?_⟩
      · rw [a2]
        simp only [File.mk.injEq, true_and, and_true]
        omega
      · intro i
        rw [a7 i, setPixel_px _ _ _ _ (by omega)]
        by_cases hi : i = dbase + x
        · subst hi
          rw [if_neg (by omega), if_pos rfl, if_pos (by omega)]
          simp
        · rw [if_neg hi]
          by_cases h3 : dbase + (x + 1) ≤ i ∧ i < dbase + (x + 1) + n
          · rw [if_pos h3, if_pos (by omega)]
            have : i - (dbase + x) = (i - (dbase + (x + 1))) + 1 := by omega
            rw [this, List.getD_cons_succ]
          · rw [if_neg h3, if_neg (by omega)]

theorem lcPackets_succ (w base endOff n x : Nat) (f : File) (fr : Frame) :
    lcPackets w base endOff (n + 1) x f fr =
      if x < w then
        if 0 ≤ toInt8 f.read8.2.read8.1 then
          if base + (lcLiteral base endOff (toInt8 f.read8.2.read8.1).toNat (x + f.read8.1)
              f.read8.2.read8.2 fr).1 = endOff then
            (true, (lcLiteral base endOff (toInt8 f.read8.2.read8.1).toNat (x + f.read8.1)
                f.read8.2.read8.2 fr).2.1,
              (lcLiteral base endOff (toInt8 f.read8.2.read8.1).toNat (x + f.read8.1)
                f.read8.2.read8.2 fr).2.2)
          else
            lcPackets w base endOff n
              (lcLiteral base endOff (toInt8 f.read8.2.read8.1).toNat (x + f.read8.1)
                f.read8.2.read8.2 fr).1
              (lcLiteral base endOff (toInt8 f.read8.2.read8.1).toNat (x + f.read8.1)
                f.read8.2.read8.2 fr).2.1
              (lcLiteral base endOff (toInt8 f.read8.2.read8.1).toNat (x + f.read8.1)
                f.read8.2.read8.2 fr).2.2
        else
          lcPackets w base endOff n
            (lcRepeat w base f.read8.2.read8.2.read8.1 (-toInt8 f.read8.2.read8.1).toNat
              (x + f.read8.1) fr).1
            f.read8.2.read8.2.read8.2
            (lcRepeat w base f.read8.2.read8.2.read8.1 (-toInt8 f.read8.2.read8.1).toNat
              (x + f.read8.1) fr).2
      else (false, f, fr) := rfl

theorem lcPackets_zero (w base endOff x : Nat) (f : File) (fr : Frame) :
    lcPackets w base endOff 0 x f fr = (false, f, fr) := rfl

theorem lcPackets_fillers (w base endOff : Nat) (rest : List Nat) :
    ∀ (q n x : Nat) (s : File) (fr : Frame), s.ok = true →
    HoldsAt s.data s.pos (fillerBytes q ++ rest) → x + 255 * q < w → base + w ≤ endOff →
    lcPackets w base endOff (q + n) x s fr =
        lcPackets w base endOff n (x + 255 * q) { s with pos := s.pos + 2 * q } fr ∧
      HoldsAt s.data (s.pos + 2 * q) rest := by
  intro q
  induction q with
  | zero =>
    intro n x s fr _ hh _ _
    simp only [fillerBytes, List.nil_append] at hh
    refine ⟨?_, hh⟩
    rw [Nat.zero_add, Nat.mul_zero, Nat.add_zero]
    rfl
  | succ q ih =>
    intro n x s fr hok hh hx hfit
    simp only [fillerBytes, List.cons_append] at hh
    obtain ⟨hr1, hh1⟩ := read8_holds s _ _ hok hh
    obtain ⟨hr2, hh2⟩ := read8_holds { s with pos := s.pos + 1 } _ _ hok hh1
    have e : q + 1 + n = (q + n) + 1 := by omega
    rw [e, lcPackets_succ, if_pos (by omega), hr1]
    simp only []
    rw [hr2]
    simp only [Nat.zero_mod, Nat.reduceMod]
    rw [toInt8_small 0 (by omega), if_pos (by simp)]
    simp only [Int.toNat_ofNat, Nat.cast_zero, Int.toNat_zero, lcLiteral]
    rw [if_neg (by omega)]
    obtain ⟨h1, h2⟩ := ih n (x + 255) { s with pos := s.pos + 1 + 1 } fr hok hh2 (by omega) hfit
    refine ⟨?_, ?_⟩
    · rw [h1]
      congr 1
      · omega
      · simp only [File.mk.injEq, true_and, and_true]
        omega
    · have e2 : s.pos + 2 * (q + 1) = s.pos + 1 + 1 + 2 * q := by omega
      rw [e2]
      exact h2

theorem blit_extend {d1 d2 : Frame} {dbase : Nat} {src : Frame} {sbase a b c : Nat}
    (h : Blit d1 d2 dbase src sbase b c) (hab : a ≤ b)
    (hsame : ∀ j, a ≤ j → j < b → d1.px (dbase + j) = src.px (sbase + j)) :
    Blit d1 d2 dbase src sbase a c := by
  obtain ⟨l1, r1, c1, o1, p1⟩ := h
  refine ⟨l1, r1, c1, o1, ?_⟩
  intro i
  rw [p1 i]
  by_cases hb : dbase + b ≤ i ∧ i < dbase + c
  · rw [if_pos hb, if_pos (by omega)]
  · rw [if_neg hb]
    by_cases ha : dbase + a ≤ i ∧ i < dbase + c
    · rw [if_pos ha]
      have := hsame (i - dbase) (by omega) (by omega)
      have e : dbase + (i - dbase) = i := by omega
      rw [e] at this
      exact this
    · rw [if_neg ha]

theorem lcPackets_packet (w : Nat) (src : Frame) (sbase : Nat) (hpx : src.Bytes)
    (dbase endOff n xd x sk len : Nat) (pk rest : List Nat) (s : File) (dst : Frame)
    (hok : s.ok = true) (hh : HoldsAt s.data s.pos (sk :: (pk ++ rest))) (hsk : sk ≤ 255)
    (hxd : xd + sk = x) (hlen : 0 < len) (hxl : x + len ≤ w) (hfit : dbase + w ≤ endOff)
    (hend : endOff ≤ dst.pixels.length)
    (hpk : (4 ≤ len ∧ len ≤ 128 ∧ pk = [256 - len, src.px (sbase + x) % 256] ∧
          ∀ j, j < len → src.px (sbase + x + j) = src.px (sbase + x)) ∨
        (len ≤ 127 ∧ pk = len :: pxBytes src len (sbase + x))) :
    ∃ dst1, Blit dst dst1 dbase src sbase x (x + len) ∧
      HoldsAt s.data (s.pos + (1 + pk.length)) rest ∧
      (lcPackets w dbase endOff (n + 1) xd s dst =
          lcPackets w dbase endOff n (x + len) { s with pos := s.pos + (1 + pk.length) } dst1 ∨
        (dbase + (x + len) = endOff ∧
          lcPackets w dbase endOff (n + 1) xd s dst =
            (true, { s with pos := s.pos + (1 + pk.length) }, dst1))) := by
  obtain ⟨hr1, hh1⟩ := read8_holds s _ _ hok hh
  have esk : sk % 256 = sk := by omega
  rcases hpk with ⟨h4, h128, hpk, hrun⟩ | ⟨h127, hpk⟩
  · subst hpk
    simp only [List.cons_append, List.nil_append] at hh1
    obtain ⟨hr2, hh2⟩ := read8_holds { s with pos := s.pos + 1 } _ _ hok hh1
    obtain ⟨hr3, hh3⟩ := read8_holds { s with pos := s.pos + 1 + 1 } _ _ hok hh2
    have hcolor : src.px (sbase + x) % 256 % 256 = src.px (sbase + x) := by
      have := px_lt src hpx (sbase + x); omega
    have e1 : (256 - len) % 256 = 256 - len := by omega
    obtain ⟨a1, a2, a3, a4, a5, a6⟩ := lcRepeat_spec w dbase (src.px (sbase + x)) len x dst
      (by omega) (by omega)
    refine ⟨(lcRepeat w dbase (src.px (sbase + x)) len x dst).2, ⟨a2, a3, a4, a5, ?_⟩, ?_,
      Or.inl ?_⟩
    · intro i
      rw [a6 i]
      by_cases hi : dbase + x ≤ i ∧ i < dbase + x + len
      · rw [if_pos hi, if_pos (by omega)]
        have := hrun (i - dbase - x) (by omega)
        rw [← this]
        congr 1
        omega
      · rw [if_neg hi, if_neg (by omega)]
    · simp only [List.length_cons, List.length_nil]
      have e : s.pos + (1 + (0 + 1 + 1)) = s.pos + 1 + 1 + 1 := by omega
      rw [e]
      exact hh3
    · rw [lcPackets_succ, if_pos (by omega), hr1]
      simp only []
      rw [hr2]
      simp only []
      rw [hr3]
      simp only [e1, esk, hxd, hcolor]
      rw [toInt8_big (256 - len) (by omega) (by omega), if_neg (by omega)]
      have e2 : (-(((256 - len : Nat) : Int) - 256)).toNat = len := by omega
      rw [e2, a1]
      simp only [List.length_cons, List.length_nil]
  · subst hpk
    simp only [List.cons_append] at hh1
    obtain ⟨hr2, hh2⟩ := read8_holds { s with pos := s.pos + 1 } _ _ hok hh1
    obtain ⟨hh3, hh4⟩ := holdsAt_append hh2
    rw [pxBytes_length] at hh4
    have e1 : len % 256 = len := by omega
    obtain ⟨a1, a2, a3, a4, a5, a6, a7⟩ := lcLiteral_spec dbase endOff len x
      { s with pos := s.pos + 1 + 1 } dst (pxBytes src len (sbase + x)) (pxBytes_length _ _ _)
      hh3 hok (by omega) hend
    have epos : ({ s with pos := s.pos + 1 + 1 + len } : File) =
        { s with pos := s.pos + (1 + (len + 1)) } := by
      simp only [File.mk.injEq, true_and, and_true]
      omega
    have hstep : lcPackets w dbase endOff (n + 1) xd s dst =
        if dbase + (x + len) = endOff then
          (true, { s with pos := s.pos + (1 + (len + 1)) },
            (lcLiteral dbase endOff len x { s with pos := s.pos + 1 + 1 } dst).2.2)
        else lcPackets w dbase endOff n (x + len) { s with pos := s.pos + (1 + (len + 1)) }
            (lcLiteral dbase endOff len x { s with pos := s.pos + 1 + 1 } dst).2.2 := by
      rw [lcPackets_succ, if_pos (by omega), hr1]
      simp only []
      rw [hr2]
      simp only [e1, esk, hxd]
      rw [toInt8_small len (by omega), if_pos (by omega)]
      simp only [Int.toNat_ofNat]
      rw [a1, a2]
      simp only [epos]
    refine ⟨(lcLiteral dbase endOff len x { s with pos := s.pos + 1 + 1 } dst).2.2,
      ⟨a3, a4, a5, a6, ?_⟩, ?_, ?_⟩
    · intro i
      rw [a7 i]
      by_cases hi : dbase + x ≤ i ∧ i < dbase + x + len
      · rw [if_pos hi, if_pos (by omega)]
        rw [pxBytes_getD _ _ _ _ (by omega)]
        have := px_lt src hpx (sbase + x + (i - (dbase + x)))
        have e3 : sbase + x + (i - (dbase + x)) = sbase + (i - dbase) := by omega
        rw [e3] at this ⊢
        omega
      · rw [if_neg hi, if_neg (by omega)]
    · simp only [List.length_cons, pxBytes_length]
      have e : s.pos + (1 + (len + 1)) = s.pos + 1 + 1 + len := by omega
      rw [e]
      exact hh4
    · simp only [List.length_cons, pxBytes_length]
      by_cases he : dbase + (x + len) = endOff
      · rw [if_pos he] at hstep
        exact Or.inr ⟨he, hstep⟩
      · rw [if_neg he] at hstep
        exact Or.inl hstep

theorem blit_same (d : Frame) (dbase : Nat) (src : Frame) (sbase a b : Nat)
    (hsame : ∀ j, a ≤ j → j < b → d.px (dbase + j) = src.px (sbase + j)) :
    Blit d d dbase src sbase a b := by
  refine ⟨rfl, rfl, rfl, rfl, ?_⟩
  intro i
  by_cases ha : dbase + a ≤ i ∧ i < dbase + b
  · rw [if_pos ha]
    have := hsame (i - dbase) (by omega) (by omega)
    have e : dbase + (i - dbase) = i := by omega
    rw [e] at this
    exact this
  · rw [if_neg ha]

theorem lcRowCode_nil (w : Nat) (prev : List Nat) (src : Frame) (sbase x skip : Nat)
    (hx : w ≤ x)
    (hinv : ∀ j, x - skip ≤ j → j < x → prev.getD (sbase + j) 0 = src.px (sbase + j)) :
    LcRowCode w prev src sbase (x - skip) 0 [] := by
  intro s dst dbase endOff _ _ _ _ hrow
  refine ⟨false, dst, ?_, by simp, ?_⟩
  · rw [lcPackets_zero]
    simp only [List.length_nil, file_pos_zero]
  · apply blit_same
    intro j h1 h2
    rw [hrow j h1 h2]
    exact hinv j h1 (by omega)

theorem lcLineLoop_sim (w : Nat) (prev : List Nat) (src : Frame) (sbase : Nat)
    (hpx : src.Bytes) :
    ∀ (fuel x np skip : Nat) (f : File), w - x ≤ fuel → f.ok = true → skip ≤ x → x ≤ w →
    (∀ j, x - skip ≤ j → j < x → prev.getD (sbase + j) 0 = src.px (sbase + j)) →
    ∃ k skip2 f2 bs, lcLineLoop w prev src sbase fuel x np skip f = some (np + k, skip2, f2) ∧
      FW f f2 bs ∧ skip2 ≤ skip + (w - x) ∧ (0 < k → skip2 < w) ∧ (w ≤ x → k = 0 ∧ bs = []) ∧
      LcRowCode w prev src sbase (x - skip) k bs := by
  intro fuel
  induction fuel with
  | zero =>
    intro x np skip f hf hok hsk hxw hinv
    refine ⟨0, skip, f, [], ?_, FW_refl f hok, by omega, by omega, fun _ => ⟨rfl, rfl⟩,
      lcRowCode_nil w prev src sbase x skip (by omega) hinv⟩
    unfold lcLineLoop; rw [if_neg (by omega)]; rfl
  | succ fuel ih =>
    intro x np skip f hf hok hsk hxw hinv
    by_cases hx : x < w
    · by_cases hne : prev.getD (sbase + x) 0 ≠ src.px (sbase + x)
      · obtain ⟨q, f2, len, pk, hq, hstep, hfw, hlen, hxl, hpk⟩ :=
          lcLineLoop_changed w prev src sbase fuel x np skip f hx hne hok
        obtain ⟨k, skip2, f3, bs, he, hfw2, hs2, _, hdone, hcode⟩ :=
          ih (x + len) (np + q + 1) 0 f2 (by omega) hfw.1 (by omega) hxl
            (by intro j h1 h2; omega)
        rw [Nat.sub_zero] at hcode
        refine ⟨q + (k + 1), skip2, f3, (fillerBytes q ++ ((skip - 255 * q) :: pk)) ++ bs, ?_,
          FW_trans hfw hfw2, by omega, fun _ => by omega, fun h => by omega, ?_⟩
        · rw [hstep, he]
          simp only [Option.some.injEq, Prod.mk.injEq, and_true]
          omega
        · intro s dst dbase endOff hsok hh hfit hend hrow
          rw [List.append_assoc, List.cons_append] at hh
          obtain ⟨e1, hh1⟩ := lcPackets_fillers w dbase endOff _ q (k + 1) (x - skip) s dst hsok
            hh (by omega) hfit
          obtain ⟨dst1, hb1, hh2, hcase⟩ := lcPackets_packet w src sbase hpx dbase endOff k
            (x - skip + 255 * q) x (skip - 255 * q) len pk bs { s with pos := s.pos + 2 * q } dst
            hsok hh1 (by omega) (by omega) hlen hxl hfit hend hpk
          simp only [] at hh2 hcase
          have hflen : ∀ n, (fillerBytes n).length = 2 * n := by
            intro n
            induction n with
            | zero => rfl
            | succ n ihn => simp only [fillerBytes, List.length_cons, ihn]; omega
          have hleft : ∀ j, x - skip ≤ j → j < x → dst.px (dbase + j) = src.px (sbase + j) := by
            intro j h1 h2
            rw [hrow j h1 (by omega)]
            exact hinv j h1 h2
          rcases hcase with hc | ⟨hce, hc⟩
          · obtain ⟨b, dst2, he2, hbend, hb2⟩ := hcode
              { s with pos := s.pos + 2 * q + (1 + pk.length) } dst1 dbase endOff hsok hh2 hfit
              (by rw [hb1.1]; exact hend)
              (by
                intro j h1 h2
                rw [hb1.2.2.2.2 (dbase + j), if_neg (by omega)]
                exact hrow j (by omega) h2)
            refine ⟨b, dst2, ?_, hbend, ?_⟩
            · rw [e1, hc, he2]
              simp only [List.length_append, List.length_cons, hflen, Prod.mk.injEq,
                File.mk.injEq, true_and, and_true]
              omega
            · exact blit_extend (blit_trans hb1 hb2 (by omega) hxl) (by omega) hleft
          · have hxe : x + len = w := by omega
            obtain ⟨hk0, hbs0⟩ := hdone (by omega)
            subst hk0
            subst hbs0
            refine ⟨true, dst1, ?_, fun _ => by omega, ?_⟩
            · rw [e1, hc]
              simp only [List.length_append, List.length_cons, hflen, List.length_nil,
                Prod.mk.injEq, File.mk.injEq, true_and, and_true]
              omega
            · rw [hxe] at hb1
              exact blit_extend hb1 (by omega) hleft
      · have heq : prev.getD (sbase + x) 0 = src.px (sbase + x) := not_not.mp hne
        obtain ⟨k, skip2, f2, bs, he, hfw, hs2, hk, _, hcode⟩ :=
          ih (x + 1) np (skip + 1) f (by omega) hok (by omega) (by omega)
            (by
              intro j h1 h2
              by_cases hj : j = x
              · subst hj; exact heq
              · exact hinv j (by omega) (by omega))
        have e : x + 1 - (skip + 1) = x - skip := by omega
        rw [e] at hcode
        refine ⟨k, skip2, f2, bs, ?_, hfw, by omega, hk, fun h => by omega, hcode⟩
        rw [lcLineLoop_succ, if_pos hx, if_neg hne, he]
    · refine ⟨0, skip, f, [], ?_, FW_refl f hok, by omega, by omega, fun _ => ⟨rfl, rfl⟩,
        lcRowCode_nil w prev src sbase x skip (by omega) hinv⟩
      rw [lcLineLoop_succ, if_neg hx]; rfl

theorem lcFiller_count : ∀ (fuel np skip : Nat) (f g : File),
    (lcFiller fuel np skip f).map (fun r => (r.1, r.2.1)) =
      (lcFiller fuel np skip g).map (fun r => (r.1, r.2.1)) := by
  intro fuel
  induction fuel with
  | zero =>
    intro np skip f g
    unfold lcFiller
    split <;> rfl
  | succ fuel ih =>
    intro np skip f g
    unfold lcFiller
    split
    · exact ih _ _ _ _
    · rfl

theorem lcLineLoop_count (w : Nat) (prev : List Nat) (fr : Frame) (base : Nat) :
    ∀ (fuel x np skip : Nat) (f g : File),
    (lcLineLoop w prev fr base fuel x np skip f).map (fun r => (r.1, r.2.1)) =
      (lcLineLoop w prev fr base fuel x np skip g).map (fun r => (r.1, r.2.1)) := by
  intro fuel
  induction fuel with
  | zero =>
    intro x np skip f g
    unfold lcLineLoop
    split <;> rfl
  | succ fuel ih =>
    intro x np skip f g
    rw [lcLineLoop_succ, lcLineLoop_succ]
    by_cases hx : x < w
    · rw [if_pos hx, if_pos hx]
      by_cases hne : prev.getD (base + x) 0 ≠ fr.px (base + x)
      · rw [if_pos hne, if_pos hne]
        have hfc := lcFiller_count skip np skip f g
        cases hf : lcFiller skip np skip f with
        | none =>
          cases hg : lcFiller skip np skip g with
          | none => rfl
          | some r2 => rw [hf, hg] at hfc; simp at hfc
        | some r1 =>
          cases hg : lcFiller skip np skip g with
          | none => rw [hf, hg] at hfc; simp at hfc
          | some r2 =>
            rw [hf, hg] at hfc
            simp only [Option.map_some', Option.some.injEq, Prod.mk.injEq] at hfc
            obtain ⟨h1, _⟩ := hfc
            simp only []
            rw [h1]
            generalize (if w - x > 128 then 128 else w - x) = rem0
            generalize cutRemain 5 (count_max_consecutive_equal_values
              (window prev (base + x) rem0) (window fr.pixels (base + x) rem0)) rem0 = rem1
            generalize window fr.pixels (base + x) rem1 = win
            generalize (if count_consecutive_values win > 128 then 128
              else count_consecutive_values win) = c
            by_cases hc : c ≥ 4
            · rw [if_pos hc, if_pos hc]
              exact ih _ _ _ _ _
            · rw [if_neg hc, if_neg hc]
              exact ih _ _ _ _ _
      · rw [if_neg hne, if_neg hne]
        exact ih _ _ _ _ _
    · rw [if_neg hx, if_neg hx]
      rfl

theorem writeLcLineChunk_code (w : Nat) (prev : List Nat) (src : Frame) (y : Nat) (f : File)
    (hok : f.ok = true) (hpx : src.Bytes) (hcnt : lcPacketCount w prev src y ≤ 255) :
    ∃ f2 k bs, writeLcLineChunk w prev src y f = some f2 ∧ FW f f2 (k :: bs) ∧ k ≤ 255 ∧
      LcRowCode w prev src (src.rowOff y) 0 k bs := by
  have h1 := FW_write8 f 0 hok
  obtain ⟨k, skip2, f2, bs, he, hfw, _, hk, _, hcode⟩ :=
    lcLineLoop_sim w prev src (src.rowOff y) hpx w 0 0 0 (f.write8 0) (by omega) h1.1
      (Nat.le_refl _) (Nat.zero_le _) (by intro j _ h2; omega)
  rw [Nat.zero_add] at he
  rw [Nat.sub_zero] at hcode
  have hk255 : k ≤ 255 := by
    have hc := lcLineLoop_count w prev src (src.rowOff y) w 0 0 0 (f.write8 0) emptyFile
    rw [he] at hc
    unfold lcPacketCount at hcnt
    cases hg : lcLineLoop w prev src (src.rowOff y) w 0 0 0 emptyFile with
    | none => rw [hg] at hc; simp at hc
    | some r =>
      rw [hg] at hc hcnt
      simp only [Option.map_some', Option.some.injEq, Prod.mk.injEq] at hc
      simp only [] at hcnt
      omega
  have h2 := FW_trans h1 hfw
  by_cases hsw : skip2 ≠ w
  · have h3 := FW_write8 (f2.seek f.pos) (if k < 255 then k else 255) h2.1
    have h4 := FW_patch h2 h3 rfl
    have e : (if k < 255 then k else 255) % 256 = k := by split <;> omega
    rw [e] at h4
    refine ⟨_, k, bs, ?_, h4, hk255, hcode⟩
    unfold writeLcLineChunk
    simp only [File.tell]
    rw [he]
    simp only []
    rw [if_pos hsw]
  · have hk0 : k = 0 := by omega
    subst hk0
    refine ⟨f2, 0, bs, ?_, h2, hk255, hcode⟩
    unfold writeLcLineChunk
    simp only [File.tell]
    rw [he]
    simp only []
    rw [if_neg hsw]

theorem lcLines_succ (w h n y : Nat) (f : File) (fr : Frame) :
    lcLines w h (n + 1) y f fr =
      if y ≥ h then (f, fr)
      else
        if (lcPackets w (fr.rowOff y) ((fr.rowstride * h) % 4294967296) f.read8.1 0 f.read8.2
            fr).1 = true then
          ((lcPackets w (fr.rowOff y) ((fr.rowstride * h) % 4294967296) f.read8.1 0 f.read8.2
              fr).2.1,
            (lcPackets w (fr.rowOff y) ((fr.rowstride * h) % 4294967296) f.read8.1 0 f.read8.2
              fr).2.2)
        else
          lcLines w h n (y + 1)
            (lcPackets w (fr.rowOff y) ((fr.rowstride * h) % 4294967296) f.read8.1 0 f.read8.2
              fr).2.1
            (lcPackets w (fr.rowOff y) ((fr.rowstride * h) % 4294967296) f.read8.1 0 f.read8.2
              fr).2.2 := rfl

theorem lcChunkLines_succ (w : Nat) (prev : List Nat) (fr : Frame) (n y : Nat) (f : File) :
    lcChunkLines w prev fr (n + 1) y f =
      match writeLcLineChunk w prev fr y f with
      | none => none
      | some f => lcChunkLines w prev fr n (y + 1) f := rfl

theorem lcChunkLines_code (w h : Nat) (prev : List Nat) (src : Frame) (hpx : src.Bytes)
    (hw : 0 < w) (hcnt : ∀ y, y < h → lcPacketCount w prev src y ≤ 255) :
    ∀ (n y : Nat) (f : File), f.ok = true → y + n ≤ h →
    ∃ f2 bs, lcChunkLines w prev src n y f = some f2 ∧ FW f f2 bs ∧ (n = 0 → bs = []) ∧
      LcRowsCode w h prev src n y bs := by
  intro n
  induction n with
  | zero =>
    intro y f hok _
    refine ⟨f, [], rfl, FW_refl f hok, fun _ => rfl, ?_⟩
    intro s dst hsok hh hrs hfit hnw hrow
    refine ⟨dst, ?_, rfl, rfl, rfl, rfl, ?_, fun _ _ => rfl⟩
    · simp only [lcLines, List.length_nil, file_pos_zero]
    · intro y2 x h1 h2; omega
  | succ n ih =>
    intro y f hok hyn
    obtain ⟨f1, k, bs1, he1, hfw1, hk, hcode1⟩ :=
      writeLcLineChunk_code w prev src y f hok hpx (hcnt y (by omega))
    obtain ⟨f2, bs2, he2, hfw2, hnil2, hcode2⟩ := ih (y + 1) f1 hfw1.1 (by omega)
    refine ⟨f2, (k :: bs1) ++ bs2, ?_, FW_trans hfw1 hfw2, fun h0 => by omega, ?_⟩
    · rw [lcChunkLines_succ, he1]
      exact he2
    · intro s dst hsok hh hrs hfit hnw hrow
      rw [List.cons_append] at hh
      obtain ⟨hr, hh0⟩ := read8_holds s _ _ hsok hh
      obtain ⟨hh1, hh2⟩ := holdsAt_append hh0
      have hro := rowOff_eq dst y h (by omega) (by omega)
      have hend : (dst.rowstride * h) % 4294967296 = h * dst.rowstride := by
        rw [Nat.mul_comm]; exact Nat.mod_eq_of_lt hnw
      have hyh : (y + (n + 1)) * dst.rowstride ≤ h * dst.rowstride :=
        Nat.mul_le_mul_right _ hyn
      have e1 : (y + (n + 1)) * dst.rowstride = y * dst.rowstride + dst.rowstride +
          n * dst.rowstride := by rw [Nat.add_mul, Nat.add_mul]; omega
      have e3 : (y + 1) * dst.rowstride = y * dst.rowstride + dst.rowstride := by
        rw [Nat.add_mul]; omega
      have e2 : (y + 1 + n) * dst.rowstride = (y + (n + 1)) * dst.rowstride := by
        congr 1; omega
      have ek : k % 256 = k := by omega
      obtain ⟨b, dst1, hd1, hb, hl1, hr1, hc1, ho1, hp1⟩ := hcode1 { s with pos := s.pos + 1 }
        dst (y * dst.rowstride) (h * dst.rowstride) hsok hh1 (by omega) hfit
        (by intro j _ hj; exact hrow y j (Nat.le_refl _) (by omega) hj)
      rw [lcLines_succ, if_neg (by omega), hr]
      simp only [ek, hro, hend]
      rw [hd1]
      simp only []
      cases b with
      | true =>
        have hbe := hb rfl
        have hn0 : n = 0 := by
          by_contra hn
          have : dst.rowstride ≤ n * dst.rowstride := Nat.le_mul_of_pos_left _ (by omega)
          omega
        subst hn0
        have hb2 := hnil2 rfl
        subst hb2
        rw [if_pos rfl]
        refine ⟨dst1, ?_, hl1, hr1, hc1, ho1, ?_, ?_⟩
        · simp only [List.length_cons, List.length_append, List.length_nil, Prod.mk.injEq,
            File.mk.injEq, true_and, and_true]
          omega
        · intro y2 x h1 h2 hx
          have hy : y2 = y := by omega
          subst hy
          rw [hp1, if_pos (by omega)]
          congr 1
          omega
        · intro i hi
          rw [hp1, if_neg (by omega)]
      | false =>
        rw [if_neg (by simp)]
        obtain ⟨dst2, hd2, hl2, hr2, hc2, ho2, hp2, hq2⟩ := hcode2
          { s with pos := s.pos + 1 + bs1.length } dst1 hsok hh2 (by rw [hr1]; exact hrs)
          (by rw [hr1, hl1]; exact hfit) (by rw [hr1]; exact hnw)
          (by
            intro y2 x h1 h2 hx
            have hge : (y + 1) * dst.rowstride ≤ y2 * dst.rowstride :=
              Nat.mul_le_mul_right _ h1
            rw [hr1, hp1, if_neg (by omega)]
            exact hrow y2 x (by omega) (by omega) hx)
        refine ⟨dst2, ?_, by rw [hl2, hl1], by rw [hr2, hr1], by rw [hc2, hc1],
          by rw [ho2, ho1], ?_, ?_⟩
        · rw [hd2]
          simp only [List.length_cons, List.length_append, Prod.mk.injEq, File.mk.injEq,
            true_and, and_true]
          omega
        · intro y2 x h1 h2 hx
          by_cases hy : y2 = y
          · subst hy
            rw [hq2 _ (Or.inl (by rw [hr1, e3]; omega)), hp1, if_pos (by omega)]
            congr 1
            omega
          · have := hp2 y2 x (by omega) (by omega) hx
            rw [hr1] at this
            exact this
        · intro i hi
          rw [hq2 i (by rw [hr1, e3, e2]; omega), hp1, if_neg (by omega)]

/-! ## The LC chunk -/

theorem lineDiffers_false (prev : List Nat) (fr : Frame) (base w : Nat)
    (h : lineDiffers prev fr base w = false) :
    ∀ x, x < w → prev.getD (base + x) 0 = fr.px (base + x) := by
  intro x hx
  unfold lineDiffers at h
  rw [List.any_eq_false] at h
  have := h x (List.mem_range.mpr hx)
  simpa using this

theorem firstScan_spec (prev : List Nat) (fr : Frame) (w : Nat) :
    ∀ (n y sk : Nat), ∃ m, firstScan prev fr w n y sk = sk + m ∧ m ≤ n ∧
      ∀ j, j < m → lineDiffers prev fr (fr.rowOff (y + j)) w = false := by
  intro n
  induction n with
  | zero =>
    intro y sk
    exact ⟨0, rfl, Nat.le_refl _, fun j hj => by omega⟩
  | succ n ih =>
    intro y sk
    unfold firstScan
    by_cases hd : lineDiffers prev fr (fr.rowOff y) w = true
    · rw [if_pos hd]
      exact ⟨0, rfl, Nat.zero_le _, fun j hj => by omega⟩
    · rw [if_neg hd]
      obtain ⟨m, he, hm, hall⟩ := ih (y + 1) (sk + 1)
      refine ⟨m + 1, by rw [he]; omega, by omega, ?_⟩
      intro j hj
      cases j with
      | zero => simpa using hd
      | succ j =>
        have := hall j (by omega)
        have e : y + 1 + j = y + (j + 1) := by omega
        rw [e] at this
        exact this

theorem secondScan_spec (prev : List Nat) (fr : Frame) (w : Nat) :
    ∀ (n y sk : Nat), n ≤ y → ∃ m, secondScan prev fr w n y sk = sk + m ∧ m ≤ n ∧
      ∀ j, j < m → lineDiffers prev fr (fr.rowOff (y - j)) w = false := by
  intro n
  induction n with
  | zero =>
    intro y sk _
    exact ⟨0, rfl, Nat.le_refl _, fun j hj => by omega⟩
  | succ n ih =>
    intro y sk hy
    unfold secondScan
    by_cases hd : lineDiffers prev fr (fr.rowOff y) w = true
    · rw [if_pos hd]
      exact ⟨0, rfl, Nat.zero_le _, fun j hj => by omega⟩
    · rw [if_neg hd]
      obtain ⟨m, he, hm, hall⟩ := ih (y - 1) (sk + 1) (by omega)
      refine ⟨m + 1, by rw [he]; omega, by omega, ?_⟩
      intro j hj
      cases j with
      | zero => simpa using hd
      | succ j =>
        have := hall j (by omega)
        have e : y - 1 - j = y - (j + 1) := by omega
        rw [e] at this
        exact this

/-- What `writeLcChunk` leaves: the chunk header, with the tag 12, the line
range and the encoded lines; the lines outside the range equal the snapshot. -/
theorem writeLcChunk_code (e : Encoder) (src : Frame) (hok : e.m_file.ok = true)
    (hpx : src.Bytes) (hw : 0 < e.m_width)
    (hcnt : ∀ y, y < e.m_height → lcPacketCount e.m_width e.m_prevFrameData src y ≤ 255) :
    ∃ e2 size sl nl bs, e.writeLcChunk src = some e2 ∧ e2.m_file.ok = true ∧
      Wrote e.m_file.data e2.m_file.data e.m_file.pos
        (le32 size ++ (le16 FLI_LC_CHUNK ++ (le16 sl ++ (le16 nl ++ bs)))) ∧
      sl + nl ≤ e.m_height ∧
      LcRowsCode e.m_width e.m_height e.m_prevFrameData src nl sl bs ∧
      (∀ y x, y < e.m_height → (y < sl ∨ sl + nl ≤ y) → x < e.m_width →
        e.m_prevFrameData.getD (src.rowOff y + x) 0 = src.px (src.rowOff y + x)) := by
  obtain ⟨m1, hs1, hm1, hall1⟩ :=
    firstScan_spec e.m_prevFrameData src e.m_width e.m_height 0 0
  rw [Nat.zero_add] at hs1
  obtain ⟨m2, hs2, hm2, hall2⟩ :=
    secondScan_spec e.m_prevFrameData src e.m_width (e.m_height - 1 - m1) (e.m_height - 1) 0
      (by omega)
  rw [Nat.zero_add] at hs2
  have h1 := FW_write32 e.m_file 0 hok
  have h2 := FW_write16 _ FLI_LC_CHUNK h1.1
  have h2a := FW_write16 _ m1 h2.1
  have h2b := FW_write16 _ (e.m_height - m2 - m1) h2a.1
  obtain ⟨f3, bs, he, hfw, _, hcode⟩ := lcChunkLines_code e.m_width e.m_height
    e.m_prevFrameData src hpx hw hcnt (e.m_height - m2 - m1) m1 _ h2b.1 (by omega)
  have h3 := FW_trans h1 (FW_trans h2 (FW_trans h2a (FW_trans h2b hfw)))
  have h4 := FW_write32 (f3.seek e.m_file.pos)
    (evenEnd e.m_file.pos f3.pos - e.m_file.pos) h3.1
  have h5 := wrote_patch h3.2.2 h4.2.2 rfl
  refine ⟨{ e with
      m_file := (write32 (f3.seek e.m_file.pos)
        (evenEnd e.m_file.pos f3.pos - e.m_file.pos)).seek (evenEnd e.m_file.pos f3.pos),
      m_prevFrameData :=
        if e.m_height - m2 - m1 > 0 then
          copyRange e.m_prevFrameData src (src.rowOff m1)
            (src.rowOff (m1 + (e.m_height - m2 - m1)))
        else e.m_prevFrameData },
    _, m1, e.m_height - m2 - m1, bs, ?_, ?_, h5, by omega, hcode, ?_⟩
  · unfold Encoder.writeLcChunk
    simp only [File.tell]
    rw [hs1, hs2, he]
  · exact h4.1
  · intro y x hy hout hx
    rcases hout with h | h
    · have := hall1 y h
      rw [Nat.zero_add] at this
      exact lineDiffers_false _ _ _ _ this x hx
    · have := hall2 (e.m_height - 1 - y) (by omega)
      have e1 : e.m_height - 1 - (e.m_height - 1 - y) = y := by omega
      rw [e1] at this
      exact lineDiffers_false _ _ _ _ this x hx

/-! ## A line that needs 256 packets -/

theorem replicate_getD_zero (n i : Nat) : (List.replicate n 0).getD i 0 = 0 := by
  rw [List.getD_eq_getElem?_getD, List.getElem?_replicate]
  split <;> rfl

theorem lcFarNew_px_lt (c j : Nat) (h : j < c) : (lcFarNew c).px j = 0 := by
  unfold Frame.px lcFarNew
  simp only []
  rw [List.getD_eq_getElem?_getD, List.getElem?_append_left (by simpa using h),
    List.getElem?_replicate, if_pos h]
  rfl

theorem lcFarNew_px_last (c : Nat) : (lcFarNew c).px c = 9 := by
  unfold Frame.px lcFarNew
  simp only []
  rw [List.getD_eq_getElem?_getD, List.getElem?_append_right (by simp)]
  simp

theorem lineDiffers_true (prev : List Nat) (fr : Frame) (base w x : Nat) (hx : x < w)
    (h : prev.getD (base + x) 0 ≠ fr.px (base + x)) : lineDiffers prev fr base w = true := by
  unfold lineDiffers
  rw [List.any_eq_true]
  exact ⟨x, List.mem_range.mpr hx, by simpa using h⟩

theorem lcFar_loop (c : Nat) (hc : c = 65026) (f : File) (hok : f.ok = true) :
    ∃ f2, lcLineLoop (c + 1) (List.replicate (c + 1) 0) (lcFarNew c) 0 (c + 1) 0 0 0 f =
        some (256, 0, f2) ∧
      FW f f2 (fillerBytes 255 ++ [1, 1, 9]) := by
  have hne : (List.replicate (c + 1) 0).getD (0 + c) 0 ≠ (lcFarNew c).px (0 + c) := by
    rw [replicate_getD_zero, Nat.zero_add, lcFarNew_px_last]
    decide
  have h1 := lcLineLoop_skip (c + 1) (List.replicate (c + 1) 0) (lcFarNew c) 0 c 1 0 0 0
    f (by omega) (by
      intro j hj
      rw [replicate_getD_zero, Nat.zero_add, Nat.zero_add, lcFarNew_px_lt c j hj])
  rw [Nat.add_comm 1 c, Nat.zero_add] at h1
  obtain ⟨q, f2, len, pk, hq, hstep, hfw, hlen, hxl, hpk⟩ :=
    lcLineLoop_changed (c + 1) (List.replicate (c + 1) 0) (lcFarNew c) 0 0 c 0 c f
      (by omega) hne hok
  have hlen1 : len = 1 := by omega
  subst hlen1
  have hq255 : q = 255 := by omega
  subst hq255
  have hpk2 : pk = [1, 9] := by
    rcases hpk with ⟨h4, _⟩ | ⟨_, h⟩
    · omega
    · rw [h]
      simp only [pxBytes, Nat.zero_add, lcFarNew_px_last]
  subst hpk2
  have hs : c - 255 * 255 = 1 := by omega
  rw [hs] at hfw
  refine ⟨f2, ?_, hfw⟩
  rw [h1, hstep]
  unfold lcLineLoop
  rw [if_neg (by omega)]

theorem lcFarNew_rowOff (c : Nat) : (lcFarNew c).rowOff 0 = 0 := by
  unfold Frame.rowOff; simp

theorem lcFar_line (c : Nat) (hc : c = 65026) (f : File) (hok : f.ok = true) :
    ∃ f2, writeLcLineChunk (c + 1) (List.replicate (c + 1) 0) (lcFarNew c) 0 f = some f2 ∧
      FW f f2 (255 :: (fillerBytes 255 ++ [1, 1, 9])) := by
  have h0 := FW_write8 f 0 hok
  obtain ⟨f2, hloop, hfw⟩ := lcFar_loop c hc (f.write8 0) h0.1
  have h2 := FW_trans h0 hfw
  have h3 := FW_write8 (f2.seek f.pos) 255 h2.1
  have h4 := FW_patch h2 h3 rfl
  refine ⟨_, ?_, h4⟩
  unfold writeLcLineChunk
  simp only [File.tell]
  rw [lcFarNew_rowOff, hloop]
  simp only []
  rw [if_pos (by omega), if_neg (by omega)]

theorem lcFar_count (c : Nat) (hc : c = 65026) :
    lcPacketCount (c + 1) (List.replicate (c + 1) 0) (lcFarNew c) 0 = 256 := by
  obtain ⟨f2, hloop, _⟩ := lcFar_loop c hc emptyFile rfl
  unfold lcPacketCount
  rw [lcFarNew_rowOff, hloop]

theorem lcFar_chunk (c : Nat) (hc : c = 65026) :
    ∃ e2, (lcFarEncoder c).writeLcChunk (lcFarNew c) = some e2 ∧
      HoldsAt e2.m_file.data 6
        (le16 0 ++ (le16 1 ++ (255 :: (fillerBytes 255 ++ [1, 1, 9])))) := by
  have hfs : firstScan (List.replicate (c + 1) 0) (lcFarNew c) (c + 1) 1 0 0 = 0 := by
    unfold firstScan
    rw [if_pos (lineDiffers_true _ _ _ _ c (by omega) (by
      rw [replicate_getD_zero, lcFarNew_rowOff, Nat.zero_add, lcFarNew_px_last]
      decide))]
  have h1 := FW_write32 emptyFile 0 rfl
  have h2 := FW_write16 _ FLI_LC_CHUNK h1.1
  have h2a := FW_write16 _ 0 h2.1
  have h2b := FW_write16 _ 1 h2a.1
  obtain ⟨f3, he, hfw⟩ := lcFar_line c hc _ h2b.1
  have h3 := FW_trans h1 (FW_trans h2 (FW_trans h2a (FW_trans h2b hfw)))
  have h4 := FW_write32 (f3.seek emptyFile.pos)
    (evenEnd emptyFile.pos f3.pos - emptyFile.pos) h3.1
  have h5 := wrote_patch h3.2.2 h4.2.2 rfl
  have hh0 := holdsAt_of_wrote h5 (by simp [le32])
  obtain ⟨_, hh1⟩ := holdsAt_append hh0
  obtain ⟨_, hh2⟩ := holdsAt_append hh1
  refine ⟨{ lcFarEncoder c with
      m_file := (write32 (f3.seek emptyFile.pos)
        (evenEnd emptyFile.pos f3.pos - emptyFile.pos)).seek (evenEnd emptyFile.pos f3.pos),
      m_prevFrameData :=
        copyRange (List.replicate (c + 1) 0) (lcFarNew c) ((lcFarNew c).rowOff 0)
          ((lcFarNew c).rowOff 1) },
    ?_, hh2⟩
  unfold Encoder.writeLcChunk
  simp only [lcFarEncoder, File.tell]
  rw [hfs]
  simp only [Nat.sub_self, Nat.sub_zero, secondScan]
  rw [lcChunkLines_succ, he]
  simp only [lcChunkLines]
  rfl

theorem lcFar_decode (c w : Nat) (hc : c = 65026) (hw : w = c + 1) (s : File)
    (hok : s.ok = true)
    (hh : HoldsAt s.data s.pos (le16 0 ++ (le16 1 ++ (255 :: (fillerBytes 255 ++ [1, 1, 9]))))) :
    (readLcChunk w 1 s (lcFarOld c)).2 = lcFarOld c := by
  subst hw
  obtain ⟨hr1, hh1⟩ := read16_holds s 0 _ hok hh
  obtain ⟨hr2, hh2⟩ := read16_holds { s with pos := s.pos + 2 } 1 _ hok hh1
  obtain ⟨hr3, hh3⟩ := read8_holds { s with pos := s.pos + 2 + 2 } _ _ hok hh2
  have hf := lcPackets_fillers (c + 1) 0 (c + 1) [1, 1, 9] 255 0 0
    { s with pos := s.pos + 2 + 2 + 1 } (lcFarOld c) hok hh3 (by omega) (by omega)
  rw [Nat.add_zero, lcPackets_zero] at hf
  have hro : (lcFarOld c).rowOff 0 = 0 := by unfold Frame.rowOff; simp
  have hend : ((lcFarOld c).rowstride * 1) % 4294967296 = c + 1 := by
    unfold lcFarOld
    simp only [Nat.mul_one]
    omega
  unfold readLcChunk
  rw [hr1]
  simp only []
  rw [hr2]
  simp only [Nat.zero_mod, Nat.reduceMod]
  rw [lcLines_succ, if_neg (by omega), hr3]
  simp only [Nat.reduceMod, hro, hend]
  rw [hf.1]
  simp only [lcLines, Bool.false_eq_true, if_false]

theorem lcFar_fails (c w : Nat) (hc : c = 65026) (hw : w = c + 1) :
    (∀ x, x < w → (lcFarOld c).pixelAt x 0 =
      (lcFarEncoder c).m_prevFrameData.getD ((lcFarNew c).rowOff 0 + x) 0) ∧
    lcPacketCount w (lcFarEncoder c).m_prevFrameData (lcFarNew c) 0 = 256 ∧
    ∃ e2, (lcFarEncoder c).writeLcChunk (lcFarNew c) = some e2 ∧
      (readLcChunk w 1 { data := e2.m_file.data, pos := 6, ok := true }
        (lcFarOld c)).2.pixelAt c 0 = 0 ∧
      (lcFarNew c).pixelAt c 0 = 9 := by
  have hold : ∀ x, (lcFarOld c).pixelAt x 0 = 0 := by
    intro x
    unfold Frame.pixelAt Frame.px lcFarOld
    exact replicate_getD_zero _ _
  refine ⟨?_, ?_, ?_⟩
  · intro x _
    rw [hold x]
    unfold lcFarEncoder
    exact (replicate_getD_zero _ _).symm
  · rw [hw]
    exact lcFar_count c hc
  · obtain ⟨e2, he, hh⟩ := lcFar_chunk c hc
    refine ⟨e2, he, ?_, ?_⟩
    · rw [lcFar_decode c w hc hw { data := e2.m_file.data, pos := 6, ok := true } rfl hh]
      exact hold c
    · unfold Frame.pixelAt
      rw [lcFarNew_rowOff, Nat.zero_add]
      exact lcFarNew_px_last c

/-! ## The line counter of the delta decoder -/

theorem deltaWords_succ (w h fuel nlines : Nat) (y : Int) (f : File) (fr : Frame) :
    deltaWords w h (fuel + 1) nlines y f fr =
      if f.ok = true then
        if toInt16 (read16 f).1 < 0 then
          if ((read16 f).1 / 16384) % 2 = 1 then
            deltaWords w h fuel nlines (wrapInt32 (y + -toInt16 (read16 f).1)) (read16 f).2 fr
          else
            if nlines = 0 then
              some { returned := true, npackets := 0, nlines := nlines, y := wrapInt32 (y + 1),
                     file := (read16 f).2,
                     frame := if 0 ≤ y ∧ y < h then
                         fr.setPixelI ((fr.rowOffI y : Int) + w - 1) ((read16 f).1 % 256)
                       else fr }
            else deltaWords w h fuel (nlines - 1) (wrapInt32 (y + 1)) (read16 f).2
                (if 0 ≤ y ∧ y < h then
                  fr.setPixelI ((fr.rowOffI y : Int) + w - 1) ((read16 f).1 % 256)
                else fr)
        else
          some { returned := false, npackets := (toInt16 (read16 f).1).toNat, nlines := nlines,
                 y := y, file := (read16 f).2, frame := fr }
      else some { returned := false, npackets := 0, nlines := nlines, y := y, file := f,
                  frame := fr } := rfl

theorem deltaWords_read (w h fuel nlines : Nat) (y : Int) (f : File) (fr : Frame) (v : Nat)
    (f2 : File) (hok : f.ok = true) (hr : read16 f = (v, f2)) :
    deltaWords w h (fuel + 1) nlines y f fr =
      if toInt16 v < 0 then
        if (v / 16384) % 2 = 1 then
          deltaWords w h fuel nlines (wrapInt32 (y + -toInt16 v)) f2 fr
        else
          if nlines = 0 then
            some { returned := true, npackets := 0, nlines := nlines, y := wrapInt32 (y + 1),
                   file := f2,
                   frame := if 0 ≤ y ∧ y < h then
                       fr.setPixelI ((fr.rowOffI y : Int) + w - 1) (v % 256)
                     else fr }
          else deltaWords w h fuel (nlines - 1) (wrapInt32 (y + 1)) f2
              (if 0 ≤ y ∧ y < h then
                fr.setPixelI ((fr.rowOffI y : Int) + w - 1) (v % 256)
              else fr)
      else
        some { returned := false, npackets := (toInt16 v).toNat, nlines := nlines,
               y := y, file := f2, frame := fr } := by
  rw [deltaWords_succ, if_pos hok, hr]

theorem deltaWords_skip_one (w h fuel nlines : Nat) (y : Int) (s : File) (fr : Frame)
    (rest : List Nat) (hok : s.ok = true) (hh : HoldsAt s.data s.pos (0 :: 192 :: rest)) :
    deltaWords w h (fuel + 1) nlines y s fr =
        deltaWords w h fuel nlines (wrapInt32 (y + 16384)) { s with pos := s.pos + 2 } fr ∧
      HoldsAt s.data (s.pos + 2) rest := by
  have e0 : le16 49152 = [0, 192] := by
    unfold le16
    simp only [Nat.reduceMod, Nat.reduceDiv]
  have hh2 : HoldsAt s.data s.pos (le16 49152 ++ rest) := by
    rw [e0]
    exact hh
  obtain ⟨hr, hh3⟩ := read16_holds s 49152 rest hok hh2
  refine ⟨?_, hh3⟩
  have e1 : toInt16 49152 = -16384 := by
    unfold toInt16
    omega
  have e2 : 49152 % 65536 = 49152 := by omega
  have e3 : 49152 / 16384 % 2 = 1 := by omega
  rw [e2] at hr
  rw [deltaWords_read w h fuel nlines y s fr _ _ hok hr, e1, if_pos (by omega), if_pos e3,
    Int.neg_neg]

theorem deltaWords_skips (w h : Nat) (rest : List Nat) :
    ∀ (k fuel nlines : Nat) (y : Int) (s : File) (fr : Frame), s.ok = true →
    HoldsAt s.data s.pos (skipWords k ++ rest) → 0 ≤ y → y + 16384 * (k : Int) < 2147483648 →
    deltaWords w h (fuel + k) nlines y s fr =
        deltaWords w h fuel nlines (y + 16384 * (k : Int)) { s with pos := s.pos + 2 * k } fr ∧
      HoldsAt s.data (s.pos + 2 * k) rest := by
  intro k
  induction k with
  | zero =>
    intro fuel nlines y s fr _ hh _ _
    simp only [skipWords, List.nil_append] at hh
    refine ⟨?_, hh⟩
    simp only [Nat.cast_zero, Int.mul_zero, Int.add_zero, Nat.add_zero, Nat.mul_zero]
  | succ k ih =>
    intro fuel nlines y s fr hok hh hy hlt
    simp only [skipWords, List.cons_append] at hh
    have ef : fuel + (k + 1) = (fuel + k) + 1 := rfl
    obtain ⟨h1, hh1⟩ := deltaWords_skip_one w h (fuel + k) nlines y s fr _ hok hh
    push_cast at hlt
    obtain ⟨h2, hh2⟩ := ih fuel nlines (y + 16384) { s with pos := s.pos + 2 } fr hok hh1
      (by omega) (by omega)
    rw [wrapInt32_id _ (by omega) (by omega)] at h1
    refine ⟨?_, ?_⟩
    · rw [ef, h1, h2]
      push_cast
      congr 1
      · omega
      · simp only [File.mk.injEq, true_and, and_true]
        omega
    · have e2 : s.pos + 2 * (k + 1) = s.pos + 2 + 2 * k := by omega
      rw [e2]
      exact hh2

theorem skipWords_length : ∀ k, (skipWords k).length = 2 * k := by
  intro k
  induction k with
  | zero => rfl
  | succ k ih => simp only [skipWords, List.length_cons, ih]; omega

theorem holdsAt_self (d : List Nat) : HoldsAt d 0 d :=
  ⟨by omega, fun j _ => by rw [Nat.zero_add]⟩

theorem readDeltaChunk_read (w h : Nat) (f : File) (fr : Frame) (v : Nat) (f2 : File)
    (hr : read16 f = (v, f2)) :
    readDeltaChunk w h f fr = deltaLines w h (f.data.length + 1) (v + 1) v 0 f2 fr := by
  unfold readDeltaChunk
  rw [hr]

theorem deltaLines_succ (w h inner fuel nlines : Nat) (y : Int) (f : File) (fr : Frame) :
    deltaLines w h inner (fuel + 1) nlines y f fr =
      if nlines = 0 then some (f, fr)
      else
        match deltaWords w h inner (nlines - 1) y f fr with
        | none => none
        | some r =>
          if r.returned = true then some (r.file, r.frame)
          else if r.y ≥ h then some (r.file, r.frame)
          else
            deltaLines w h inner fuel r.nlines (wrapInt32 (r.y + 1))
              (deltaPackets w (r.frame.rowOffI r.y) r.npackets 0 r.file r.frame).1
              (deltaPackets w (r.frame.rowOffI r.y) r.npackets 0 r.file r.frame).2 := rfl

theorem deltaPackets_one (base : Nat) (s : File) (fr : Frame) (c1 c2 : Nat)
    (hok : s.ok = true) (hh : HoldsAt s.data s.pos [0, 1, c1, c2]) :
    (deltaPackets 1 base 1 0 s fr).2 = fr.setPixel base (c1 % 256) := by
  obtain ⟨hr1, hh1⟩ := read8_holds s _ _ hok hh
  obtain ⟨hr2, hh2⟩ := read8_holds { s with pos := s.pos + 1 } _ _ hok hh1
  obtain ⟨hr3, hh3⟩ := read8_holds { s with pos := s.pos + 1 + 1 } _ _ hok hh2
  obtain ⟨hr4, _⟩ := read8_holds { s with pos := s.pos + 1 + 1 + 1 } _ _ hok hh3
  have e1 : toInt8 (1 % 256) = 1 := by
    unfold toInt8
    omega
  unfold deltaPackets
  rw [hr1]
  simp only []
  rw [hr2]
  simp only []
  rw [e1, if_pos (by omega)]
  have e2 : (1 : Int).toNat = 1 := rfl
  rw [e2]
  unfold deltaLiteral
  rw [if_pos (by omega), hr3]
  simp only []
  rw [hr4]
  simp only [deltaPair, deltaLiteral, deltaPackets, Nat.add_zero, Nat.lt_irrefl, if_false]
  have e3 : base + (0 + 0 % 256) = base := by omega
  rw [e3]

theorem deltaWrap_oob (k : Nat) (hk : k = 131071) (fr : Frame) (hl : fr.pixels.length = 1)
    (hrs : fr.rowstride = 1) :
    (readDeltaChunk 1 1 (deltaWrapStream k) fr).map (fun r => r.2.oob) = some true := by
  obtain ⟨data, hd⟩ : ∃ data, data = [1, 0] ++ (skipWords k ++ [0, 192, 1, 0, 0, 1, 7, 7]) :=
    ⟨_, rfl⟩
  have hs : deltaWrapStream k = { data := data, pos := 0, ok := true } := by
    rw [hd]; rfl
  have hlen : data.length = 2 * k + 10 := by
    rw [hd]
    simp only [List.length_append, List.length_cons, List.length_nil, skipWords_length]
    omega
  have e16 : le16 1 = [1, 0] := by
    unfold le16
    simp only [Nat.reduceMod, Nat.reduceDiv]
  have em : 1 % 65536 = 1 := by omega
  have hh0 : HoldsAt data 0 (le16 1 ++ (skipWords k ++ [0, 192, 1, 0, 0, 1, 7, 7])) := by
    rw [e16, ← hd]
    exact holdsAt_self _
  obtain ⟨hr0, hh1⟩ := read16_holds { data := data, pos := 0, ok := true } 1 _ rfl hh0
  rw [em] at hr0
  obtain ⟨hw1, hh2⟩ := deltaWords_skips 1 1 _ k (k + 11) 0 0
    { data := data, pos := 0 + 2, ok := true } fr rfl hh1 (by omega) (by omega)
  obtain ⟨hw2, hh3⟩ := deltaWords_skip_one 1 1 (k + 10) 0 (0 + 16384 * (k : Int))
    { data := data, pos := 0 + 2 + 2 * k, ok := true } fr _ rfl hh2
  have ey : wrapInt32 (0 + 16384 * (k : Int) + 16384) = -2147483648 := by
    unfold wrapInt32 toInt32
    omega
  rw [ey] at hw2
  have hh3b : HoldsAt data (0 + 2 + 2 * k + 2) (le16 1 ++ [0, 1, 7, 7]) := by
    rw [e16]
    exact hh3
  obtain ⟨hr3, hh4⟩ := read16_holds { data := data, pos := 0 + 2 + 2 * k + 2, ok := true } 1 _
    rfl hh3b
  rw [em] at hr3
  have et : toInt16 1 = 1 := by
    unfold toInt16
    omega
  have hw3 := deltaWords_read 1 1 (k + 9) 0 (-2147483648)
    { data := data, pos := 0 + 2 + 2 * k + 2, ok := true } fr _ _ rfl hr3
  rw [et, if_neg (by omega)] at hw3
  have ef : data.length + 1 = k + 11 + k := by omega
  have hp := deltaPackets_one (fr.rowOffI (-2147483648))
    { data := data, pos := 0 + 2 + 2 * k + 2 + 2, ok := true } fr 7 7 rfl hh4
  have hoff : fr.rowOffI (-2147483648) = 2147483648 := by
    unfold Frame.rowOffI u32
    rw [hrs]
    omega
  have e1 : (1 : Int).toNat = 1 := rfl
  rw [hs, readDeltaChunk_read 1 1 _ fr _ _ hr0]
  simp only []
  rw [ef, deltaLines_succ, if_neg (by omega)]
  rw [hw1, hw2, hw3]
  simp only []
  rw [if_neg (by simp), if_neg (by omega), deltaLines_succ, if_pos rfl]
  simp only [Option.map_some', Option.some.injEq]
  rw [e1, hp, hoff]
  unfold Frame.setPixel
  rw [if_neg (by omega)]

/-! ## The control words of the delta decoder -/

theorem File.read8_lt (f : File) : f.read8.1 < 256 := by
  unfold File.read8
  split
  · exact Nat.mod_lt _ (by omega)
  · exact Nat.zero_lt_succ _

theorem read16_lt (f : File) : (read16 f).1 < 65536 := by
  unfold read16
  simp only []
  split
  · have h1 := File.read8_lt f
    have h2 := File.read8_lt f.read8.2
    simp only []
    omega
  · exact Nat.zero_lt_succ _

theorem setPixelI_nat (fr : Frame) (k v : Nat) : fr.setPixelI (k : Int) v = fr.setPixel k v := by
  unfold Frame.setPixelI Frame.setPixel
  by_cases h : k < fr.pixels.length
  · rw [if_pos ⟨by omega, by omega⟩, if_pos h]
    simp only [Int.toNat_ofNat]
  · rw [if_neg (by omega), if_neg h]

theorem rowOffI_nat (fr : Frame) (y : Int) (h0 : 0 ≤ y) (h1 : y < 4294967296) :
    fr.rowOffI y = fr.rowOff y.toNat := by
  unfold Frame.rowOffI Frame.rowOff u32
  have : (y % 4294967296).toNat = y.toNat := by omega
  rw [this]

/-! ## The packets of the colormap decoder -/

theorem colorLoop_triples (old : Bool) (i : Nat) :
    ∀ (n j : Nat) (cs : List Color) (s : File) (dst : Frame) (rest : List Nat),
    s.ok = true → HoldsAt s.data s.pos (colorTriples cs ++ rest) →
    (∀ c ∈ cs, c.r < 256 ∧ c.g < 256 ∧ c.b < 256) →
    cs.length = min n (256 - (i + j)) →
    (colorLoop old i n j s dst).1 = { s with pos := s.pos + (colorTriples cs).length } ∧
    (colorLoop old i n j s dst).2.pixels = dst.pixels ∧
    (colorLoop old i n j s dst).2.rowstride = dst.rowstride ∧
    (colorLoop old i n j s dst).2.oob = dst.oob ∧
    ∀ k, (colorLoop old i n j s dst).2.colormap k =
      if i + j ≤ k ∧ k < i + j + cs.length then scaleColor old (cs.getD (k - (i + j)) Color.zero)
      else dst.colormap k := by
  intro n
  induction n with
  | zero =>
    intro j cs s dst rest _ _ _ hl
    have hcs : cs = [] := List.length_eq_zero.mp (by omega)
    subst hcs
    unfold colorLoop
    refine ⟨by simp [colorTriples, file_pos_zero], rfl, rfl, rfl, ?_⟩
    intro k
    rw [if_neg (by simp)]
  | succ n ih =>
    intro j cs s dst rest hok hh hb hl
    by_cases hij : i + j < 256
    · cases cs with
      | nil => simp only [List.length_nil] at hl; omega
      | cons c cs =>
        simp only [colorTriples, List.cons_append] at hh
        obtain ⟨hr1, h1⟩ := read8_holds s _ _ hok hh
        obtain ⟨hr2, h2⟩ := read8_holds { s with pos := s.pos + 1 } _ _ hok h1
        obtain ⟨hr3, h3⟩ := read8_holds { s with pos := s.pos + 1 + 1 } _ _ hok h2
        obtain ⟨hb1, hb2, hb3⟩ := hb c (List.mem_cons_self _ _)
        have e1 : c.r % 256 = c.r := by omega
        have e2 : c.g % 256 = c.g := by omega
        have e3 : c.b % 256 = c.b := by omega
        rw [e1] at hr1
        rw [e2] at hr2
        rw [e3] at hr3
        have hc : (if old = true then
              ({ r := (255 * c.r / 63) % 256, g := (255 * c.g / 63) % 256,
                 b := (255 * c.b / 63) % 256 } : Color)
            else { r := c.r, g := c.g, b := c.b }) = scaleColor old c := by
          unfold scaleColor scaleChannel
          cases old <;> simp
        simp only [List.length_cons] at hl
        obtain ⟨f1, f2, f3, f4⟩ := setColor_fields dst (i + j) (scaleColor old c) hij
        obtain ⟨a1, a2, a3, a4, a5⟩ := ih (j + 1) cs { s with pos := s.pos + 1 + 1 + 1 }
          (dst.setColor (i + j) (scaleColor old c)) rest hok h3
          (fun c2 hc2 => hb c2 (List.mem_cons_of_mem _ hc2)) (by omega)
        unfold colorLoop
        rw [if_pos hij, hr1]
        simp only []
        rw [hr2]
        simp only []
        rw [hr3]
        simp only []
        rw [hc]
        refine ⟨?_, by rw [a2, f1], by rw [a3, f2], by rw [a4, f3], ?_⟩
        · rw [a1]
          simp only [colorTriples, List.length_cons, File.mk.injEq, true_and, and_true]
          omega
        · intro k
          rw [a5 k, f4 k]
          simp only [List.length_cons]
          by_cases hk : k = i + j
          · subst hk
            rw [if_neg (by omega), if_pos rfl, if_pos (by omega)]
            simp
          · rw [if_neg hk]
            by_cases h4 : i + (j + 1) ≤ k ∧ k < i + (j + 1) + cs.length
            · rw [if_pos h4, if_pos (by omega)]
              have : k - (i + j) = (k - (i + (j + 1))) + 1 := by omega
              rw [this, List.getD_cons_succ]
            · rw [if_neg h4, if_neg (by omega)]
    · have hcs : cs = [] := List.length_eq_zero.mp (by omega)
      subst hcs
      unfold colorLoop
      rw [if_neg hij]
      refine ⟨by simp [colorTriples, file_pos_zero], rfl, rfl, rfl, ?_⟩
      intro k
      rw [if_neg (by simp)]

theorem colorPackets_succ (old : Bool) (n i : Nat) (f : File) (fr : Frame) :
    colorPackets old (n + 1) i f fr =
      colorPackets old n (i + f.read8.1)
        (colorLoop old (i + f.read8.1)
          (if f.read8.2.read8.1 = 0 then 256 else f.read8.2.read8.1) 0 f.read8.2.read8.2 fr).1
        (colorLoop old (i + f.read8.1)
          (if f.read8.2.read8.1 = 0 then 256 else f.read8.2.read8.1) 0 f.read8.2.read8.2 fr).2 :=
  rfl

theorem colorPackets_list (old : Bool) :
    ∀ (ps : List ColorPacket) (i : Nat) (s : File) (fr : Frame) (rest : List Nat),
    s.ok = true → ColorPacketsOk i ps →
    HoldsAt s.data s.pos (colorPacketsBytes ps ++ rest) →
    (colorPackets old ps.length i s fr).1 =
        { s with pos := s.pos + (colorPacketsBytes ps).length } ∧
    (colorPackets old ps.length i s fr).2.pixels = fr.pixels ∧
    (colorPackets old ps.length i s fr).2.rowstride = fr.rowstride ∧
    (colorPackets old ps.length i s fr).2.oob = fr.oob ∧
    (colorPackets old ps.length i s fr).2.colormap = applyColorPackets old i ps fr.colormap := by
  intro ps
  induction ps with
  | nil =>
    intro i s fr rest _ _ _
    refine ⟨?_, rfl, rfl, rfl, rfl⟩
    simp only [colorPackets, List.length_nil, colorPacketsBytes, file_pos_zero]
  | cons p ps ih =>
    intro i s fr rest hok hps hh
    obtain ⟨hsk, hcn, hl, hb, hrest⟩ := hps
    simp only [colorPacketsBytes, List.cons_append, List.append_assoc] at hh
    obtain ⟨hr1, h1⟩ := read8_holds s _ _ hok hh
    obtain ⟨hr2, h2⟩ := read8_holds { s with pos := s.pos + 1 } _ _ hok h1
    have e1 : p.skip % 256 = p.skip := by omega
    have e2 : p.count % 256 = p.count := by omega
    rw [e1] at hr1
    rw [e2] at hr2
    obtain ⟨n, hn⟩ : ∃ n, n = p.ncolors := ⟨_, rfl⟩
    have hn2 : (if p.count = 0 then 256 else p.count) = n := by rw [hn]; rfl
    rw [← hn] at hl
    obtain ⟨a1, a2, a3, a4, a5⟩ := colorLoop_triples old (i + p.skip) n 0 p.colors
      { s with pos := s.pos + 1 + 1 } fr (colorPacketsBytes ps ++ rest) hok h2 hb
      (by rw [Nat.add_zero]; exact hl)
    obtain ⟨b1, b2, b3, b4, b5⟩ := ih (i + p.skip)
      { s with pos := s.pos + 1 + 1 + (colorTriples p.colors).length }
      (colorLoop old (i + p.skip) n 0 { s with pos := s.pos + 1 + 1 } fr).2 rest hok hrest
      (holdsAt_append h2).2
    have hstep : colorPackets old (p :: ps).length i s fr =
        colorPackets old ps.length (i + p.skip)
          { s with pos := s.pos + 1 + 1 + (colorTriples p.colors).length }
          (colorLoop old (i + p.skip) n 0 { s with pos := s.pos + 1 + 1 } fr).2 := by
      rw [List.length_cons, colorPackets_succ, hr1]
      simp only []
      rw [hr2]
      simp only []
      rw [hn2, a1]
    rw [hstep]
    refine ⟨?_, by rw [b2, a2], by rw [b3, a3], by rw [b4, a4], ?_⟩
    · rw [b1]
      simp only [colorPacketsBytes, List.length_cons, List.length_append, File.mk.injEq,
        true_and, and_true]
      omega
    · have hcm : (colorLoop old (i + p.skip) n 0 { s with pos := s.pos + 1 + 1 } fr).2.colormap =
          applyColorPacket old i p fr.colormap := by
        funext k
        rw [a5 k]
        unfold applyColorPacket
        rw [← hn, Nat.add_zero]
        by_cases hk : i + p.skip ≤ k ∧ k < i + p.skip + p.colors.length
        · rw [if_pos hk, if_pos (by omega)]
        · rw [if_neg hk, if_neg (by omega)]
      rw [b5, hcm]
      rfl

/-! ## The packet count of an LC line -/

theorem lcLineLoop_count_le (w : Nat) (prev : List Nat) (fr : Frame) (base : Nat) :
    ∀ (fuel x np skip : Nat) (f : File), f.ok = true → x ≤ w →
    ∀ r, lcLineLoop w prev fr base fuel x np skip f = some r → r.1 ≤ np + (w - x) + skip := by
  intro fuel
  induction fuel with
  | zero =>
    intro x np skip f _ _ r hr
    unfold lcLineLoop at hr
    split at hr
    · exact absurd hr (by simp)
    · simp only [Option.some.injEq] at hr
      rw [← hr]
      simp only []
      omega
  | succ fuel ih =>
    intro x np skip f hok hxw r hr
    by_cases hx : x < w
    · by_cases hne : prev.getD (base + x) 0 ≠ fr.px (base + x)
      · obtain ⟨q, f2, len, pk, hq, hstep, hfw, hlen, hxl, _⟩ :=
          lcLineLoop_changed w prev fr base fuel x np skip f hx hne hok
        rw [hstep] at hr
        have := ih (x + len) (np + q + 1) 0 f2 hfw.1 hxl r hr
        omega
      · rw [lcLineLoop_succ, if_pos hx, if_neg hne] at hr
        have := ih (x + 1) np (skip + 1) f hok (by omega) r hr
        omega
    · rw [lcLineLoop_succ, if_neg hx] at hr
      simp only [Option.some.injEq] at hr
      rw [← hr]
      simp only []
      omega

theorem writeLcLineChunk_bytes (w : Nat) (prev : List Nat) (src : Frame) (y : Nat) (f : File)
    (hok : f.ok = true) (hpx : src.Bytes) :
    ∃ f2 k bs, writeLcLineChunk w prev src y f = some f2 ∧
      FW f f2 ((if k < 255 then k else 255) :: bs) ∧ k = lcPacketCount w prev src y ∧ k ≤ w ∧
      LcRowCode w prev src (src.rowOff y) 0 k bs := by
  have h1 := FW_write8 f 0 hok
  obtain ⟨k, skip2, f2, bs, he, hfw, _, hk, _, hcode⟩ :=
    lcLineLoop_sim w prev src (src.rowOff y) hpx w 0 0 0 (f.write8 0) (by omega) h1.1
      (Nat.le_refl _) (Nat.zero_le _) (by intro j _ h2; omega)
  rw [Nat.zero_add] at he
  rw [Nat.sub_zero] at hcode
  have hkw : k ≤ w := by
    have := lcLineLoop_count_le w prev src (src.rowOff y) w 0 0 0 (f.write8 0) h1.1
      (Nat.zero_le _) _ he
    simp only [] at this
    omega
  have hcount : k = lcPacketCount w prev src y := by
    have hc := lcLineLoop_count w prev src (src.rowOff y) w 0 0 0 (f.write8 0) emptyFile
    rw [he] at hc
    unfold lcPacketCount
    cases hg : lcLineLoop w prev src (src.rowOff y) w 0 0 0 emptyFile with
    | none => rw [hg] at hc; simp at hc
    | some r =>
      rw [hg] at hc
      simp only [Option.map_some', Option.some.injEq, Prod.mk.injEq] at hc
      exact hc.1
  have h2 := FW_trans h1 hfw
  by_cases hsw : skip2 ≠ w
  · have h3 := FW_write8 (f2.seek f.pos) (if k < 255 then k else 255) h2.1
    have h4 := FW_patch h2 h3 rfl
    have e : (if k < 255 then k else 255) % 256 = (if k < 255 then k else 255) := by
      split <;> omega
    rw [e] at h4
    refine ⟨_, k, bs, ?_, h4, hcount, hkw, hcode⟩
    unfold writeLcLineChunk
    simp only [File.tell]
    rw [he]
    simp only []
    rw [if_pos hsw]
  · have hk0 : k = 0 := by omega
    subst hk0
    refine ⟨f2, 0, bs, ?_, h2, hcount, hkw, hcode⟩
    unfold writeLcLineChunk
    simp only [File.tell]
    rw [he]
    simp only []
    rw [if_neg hsw]

theorem lcFar_count_byte (c w : Nat) (hc : c = 65026) (hw : w = c + 1) :
    lcPacketCount w (lcFarEncoder c).m_prevFrameData (lcFarNew c) 0 = 256 ∧
    ∃ f2, writeLcLineChunk w (lcFarEncoder c).m_prevFrameData (lcFarNew c) 0 emptyFile =
        some f2 ∧ f2.data.getD 0 0 = 255 := by
  subst hw
  refine ⟨lcFar_count c hc, ?_⟩
  obtain ⟨f2, he, hfw⟩ := lcFar_line c hc emptyFile rfl
  refine ⟨f2, he, ?_⟩
  have := hfw.2.2.1 0
  rw [this, if_pos (by simp [emptyFile])]
  rfl

/-! ## The run that `count_max_consecutive_values` reports -/

theorem cmcvLoop_run (win : List Nat) :
    ∀ (rest : List Nat) (prev cs ms : Option Nat) (max same it : Nat),
    rest = win.drop it → it ≤ win.length →
    (prev = none → it = 0) → (∀ p, prev = some p → 1 ≤ it ∧ win.getD (it - 1) 0 = p) →
    (cs = none → same = 0) →
    (∀ c, cs = some c → c + same = it ∧ ∀ j, c ≤ j → j < it → win.getD j 0 = win.getD c 0) →
    (∀ d, ms = some d → d + max ≤ it ∧ ∀ j, j < max → win.getD (d + j) 0 = win.getD d 0) →
    ∀ d, (cmcvLoop prev cs ms max same it rest).2 = some d →
      d + (cmcvLoop prev cs ms max same it rest).1 ≤ win.length ∧
      ∀ j, j < (cmcvLoop prev cs ms max same it rest).1 → win.getD (d + j) 0 = win.getD d 0 := by
  intro rest
  induction rest with
  | nil =>
    intro prev cs ms max same it _ hit _ _ _ _ hms d hd
    simp only [cmcvLoop] at hd ⊢
    obtain ⟨h1, h2⟩ := hms d hd
    exact ⟨by omega, h2⟩
  | cons v rest ih =>
    intro prev cs ms max same it hrest hit hpn hps hcn hcs hms
    have hlt : it < win.length := by
      by_contra hc
      rw [List.drop_eq_nil_of_le (by omega)] at hrest
      exact absurd hrest (by simp)
    have hv : win.getD it 0 = v := by
      have h1 : (win.drop it).getD 0 0 = v := by rw [← hrest]; rfl
      rw [List.getD_eq_getElem?_getD, List.getElem?_drop] at h1
      rw [List.getD_eq_getElem?_getD]
      simpa using h1
    have hrest2 : rest = win.drop (it + 1) := by
      have h1 : (win.drop it).drop 1 = rest := by rw [← hrest]; rfl
      rw [List.drop_drop] at h1
      rw [← h1]
    have hprev2 : ∀ p, (some v : Option Nat) = some p →
        1 ≤ it + 1 ∧ win.getD (it + 1 - 1) 0 = p := by
      intro p hp
      simp only [Option.some.injEq] at hp
      refine ⟨by omega, ?_⟩
      rw [Nat.add_sub_cancel, hv, hp]
    unfold cmcvLoop
    by_cases hp : prev = none ∨ prev = some v
    · rw [if_pos hp]
      simp only []
      have hcs2 : ∀ c, (if cs = none then some it else cs) = some c →
          c + (same + 1) = it + 1 ∧
          ∀ j, c ≤ j → j < it + 1 → win.getD j 0 = win.getD c 0 := by
        intro c hc
        cases hcsv : cs with
        | none =>
          rw [hcsv] at hc
          simp only [if_true, Option.some.injEq] at hc
          have hs : same = 0 := hcn hcsv
          subst hc
          refine ⟨by omega, ?_⟩
          intro j h1 h2
          have : j = it := by omega
          rw [this]
        | some c0 =>
          rw [hcsv] at hc
          simp only [reduceCtorEq, if_false, Option.some.injEq] at hc
          subst hc
          obtain ⟨h1, h2⟩ := hcs c0 hcsv
          refine ⟨by omega, ?_⟩
          intro j h3 h4
          by_cases hj : j < it
          · exact h2 j h3 hj
          · have hje : j = it := by omega
            rw [hje]
            by_cases hc0 : c0 = it
            · rw [hc0]
            · have hit1 : 1 ≤ it := by omega
              have hpv : prev = some v := by
                rcases hp with hp | hp
                · have := hpn hp; omega
                · exact hp
              have h5 := (hps v hpv).2
              have h6 := h2 (it - 1) (by omega) (by omega)
              rw [hv, ← h5, h6]
      have hcn2 : (if cs = none then some it else cs) = none → same + 1 = 0 := by
        intro h
        split at h
        · exact absurd h (by simp)
        · rename_i hne; exact absurd h hne
      by_cases hm : max < same + 1
      · rw [if_pos hm]
        exact ih (some v) _ _ (same + 1) (same + 1) (it + 1) hrest2 hlt (by simp) hprev2 hcn2
          hcs2 (fun d hd => ⟨by have := (hcs2 d hd).1; omega,
            fun j hj => (hcs2 d hd).2 (d + j) (by omega) (by have := (hcs2 d hd).1; omega)⟩)
      · rw [if_neg hm]
        exact ih (some v) _ ms max (same + 1) (it + 1) hrest2 hlt (by simp) hprev2 hcn2 hcs2
          (fun d hd => ⟨by have := (hms d hd).1; omega, (hms d hd).2⟩)
    · rw [if_neg hp]
      exact ih (some v) none ms max 0 (it + 1) hrest2 hlt (by simp) hprev2 (fun _ => rfl)
        (by simp) (fun d hd => ⟨by have := (hms d hd).1; omega, (hms d hd).2⟩)

theorem cmcv_run (win : List Nat) (m d : Nat)
    (h : count_max_consecutive_values win = (m, some d)) :
    d + m ≤ win.length ∧ ∀ j, j < m → win.getD (d + j) 0 = win.getD d 0 := by
  have := cmcvLoop_run win win none none none 0 0 0 (by simp) (Nat.zero_le _) (fun _ => rfl)
    (by simp) (fun _ => rfl) (by simp) (by simp) d
    (by unfold count_max_consecutive_values at h; rw [h])
  unfold count_max_consecutive_values at h
  rw [h] at this
  exact this

theorem ccvLoop_ge : ∀ (rest : List Nat) (p same m : Nat), m ≤ rest.length →
    (∀ j, j < m → rest.getD j 0 = p) → same + m ≤ ccvLoop (some p) same rest := by
  intro rest
  induction rest with
  | nil => intro p same m hm _; simp only [List.length_nil] at hm; simp [ccvLoop]; omega
  | cons v rest ih =>
    intro p same m hm hall
    cases m with
    | zero => exact (ccvLoop_bounds _ _ _).1
    | succ m =>
      have hv : v = p := by simpa using hall 0 (by omega)
      subst hv
      unfold ccvLoop
      rw [if_pos (Or.inr rfl)]
      have := ih v (same + 1) m (by simpa using hm) (by
        intro j hj
        have := hall (j + 1) (by omega)
        simpa using this)
      omega

theorem ccv_ge (win : List Nat) (m : Nat) (hm : m ≤ win.length)
    (hall : ∀ j, j < m → win.getD j 0 = win.getD 0 0) : m ≤ count_consecutive_values win := by
  unfold count_consecutive_values
  cases win with
  | nil => simp only [List.length_nil] at hm; omega
  | cons v rest =>
    cases m with
    | zero => exact Nat.zero_le _
    | succ m =>
      unfold ccvLoop
      rw [if_pos (Or.inl rfl)]
      have := ccvLoop_ge rest v (0 + 1) m (by simpa using hm) (by
        intro j hj
        have := hall (j + 1) (by omega)
        simpa using this)
      omega

/-! ## The layout of the chunks the encoder writes -/

theorem chunkSize_even (bs : List Nat) : chunkSize bs % 2 = 0 := by
  unfold chunkSize; omega

theorem chunkSize_bounds (bs : List Nat) :
    6 + bs.length ≤ chunkSize bs ∧ chunkSize bs ≤ 6 + bs.length + 1 := by
  unfold chunkSize; omega

theorem evenEnd_chunk (p n : Nat) : evenEnd p (p + n) = p + (n + n % 2) := by
  unfold evenEnd
  have : p + n - p = n := by omega
  rw [this]
  split <;> omega

theorem wrote_below {d1 d2 : List Nat} {p : Nat} {bs : List Nat} (h : Wrote d1 d2 p bs)
    (i : Nat) (hi : i < p) : d2.getD i 0 = d1.getD i 0 := by
  rw [h.1 i, if_neg (by omega)]

theorem wrote_length_ge {d1 d2 : List Nat} {p : Nat} {bs : List Nat} (h : Wrote d1 d2 p bs) :
    d1.length ≤ d2.length := by
  rw [h.2]
  split
  · omega
  · exact Nat.le_max_left _ _

theorem countColors_ge (prev cur : Colormap) : ∀ (n j c : Nat), c ≤ countColors prev cur n j c := by
  intro n
  induction n with
  | zero => intro j c; exact Nat.le_refl _
  | succ n ih =>
    intro j c
    unfold countColors
    by_cases h : prev j ≠ cur j
    · rw [if_pos h]
      have := ih (j + 1) (c + 1)
      omega
    · rw [if_neg h]
      exact ih (j + 1) c

theorem colorChunkLoop_FW (first : Bool) (prev cur : Colormap) :
    ∀ (fuel i np skip : Nat) (f : File), 256 - i ≤ fuel → f.ok = true →
    ∃ np2 g bs, colorChunkLoop first prev cur fuel i np skip f = some (np2, g) ∧ FW f g bs := by
  intro fuel
  induction fuel with
  | zero =>
    intro i np skip f hf hok
    refine ⟨np, f, [], ?_, FW_refl f hok⟩
    unfold colorChunkLoop
    rw [if_neg (by omega)]
  | succ fuel ih =>
    intro i np skip f hf hok
    unfold colorChunkLoop
    by_cases hi : i < 256
    · rw [if_pos hi]
      by_cases hc : first = true ∨ prev i ≠ cur i
      · rw [if_pos hc]
        simp only []
        obtain ⟨n, hn⟩ : ∃ n, n = (if first = true then 256
            else countColors prev cur (256 - (i + 1)) (i + 1) 1) := ⟨_, rfl⟩
        rw [← hn]
        have hn1 : 1 ≤ n := by
          rw [hn]
          split
          · omega
          · exact countColors_ge _ _ _ _ _
        have h1 := FW_write8 f skip hok
        have h2 := FW_write8 _ (if n = 256 then 0 else n) h1.1
        have h3 := writeColors_FW cur (n - i) i _ h2.1
        obtain ⟨np2, g, bs, he, hfw⟩ := ih (i + n) (np + 1) 0 _ (by omega) h3.1
        exact ⟨np2, g, _, he, FW_trans (FW_trans (FW_trans h1 h2) h3) hfw⟩
      · rw [if_neg hc]
        exact ih (i + 1) np (skip + 1) f (by omega) hok
    · rw [if_neg hi]
      exact ⟨np, f, [], rfl, FW_refl f hok⟩

theorem le32_mod (v : Nat) : le32 (v % 4294967296) = le32 v := by
  unfold le32
  rw [Nat.mod_mod]

theorem le32_length (v : Nat) : (le32 v).length = 4 := rfl

theorem le16_length (v : Nat) : (le16 v).length = 2 := rfl

theorem writeColorChunk_layout (e : Encoder) (frame : Frame) (hok : e.m_file.ok = true) :
    ∃ e2 bs, e.writeColorChunk frame = some e2 ∧
      ChunkWritten e.m_file e2.m_file FLI_COLOR_256_CHUNK bs ∧
      e2.m_width = e.m_width ∧ e2.m_height = e.m_height ∧ e2.m_frameCount = e.m_frameCount ∧
      e2.m_offsetFrame1 = e.m_offsetFrame1 ∧ e2.m_offsetFrame2 = e.m_offsetFrame2 ∧
      e2.m_prevFrameData = e.m_prevFrameData ∧ e2.m_prevColormap = frame.colormap := by
  have h1 := FW_write32 e.m_file 0 hok
  have h2 := FW_write16 _ 0 h1.1
  have h3 := FW_write16 _ 0 h2.1
  obtain ⟨np, g, bs, hg, h6⟩ := colorChunkLoop_FW (decide (e.m_frameCount = 0))
    e.m_prevColormap frame.colormap 256 0 0 0 _ (by omega) h3.1
  have h7 := FW_trans h1 (FW_trans h2 (FW_trans h3 h6))
  have hpos : g.pos = e.m_file.pos + (8 + bs.length) := by
    have := h7.2.1
    simp only [List.length_append, le32_length, le16_length] at this
    omega
  have hev : evenEnd e.m_file.pos g.pos = e.m_file.pos + chunkSize (le16 np ++ bs) := by
    rw [hpos, evenEnd_chunk]
    unfold chunkSize
    simp only [List.length_append, le16_length]
    omega
  have hsz : evenEnd e.m_file.pos g.pos - e.m_file.pos = chunkSize (le16 np ++ bs) := by
    rw [hev]; omega
  have g1 := FW_write32 (g.seek e.m_file.pos) (chunkSize (le16 np ++ bs)) h7.1
  have g2 := FW_write16 _ FLI_COLOR_256_CHUNK g1.1
  have g3 := FW_write16 _ np g2.1
  have g4 := FW_trans g1 (FW_trans g2 g3)
  have h8 : Wrote e.m_file.data
      (write16 (write16 (write32 (g.seek e.m_file.pos) (chunkSize (le16 np ++ bs)))
        FLI_COLOR_256_CHUNK) np).data
      e.m_file.pos
      ((le32 (chunkSize (le16 np ++ bs)) ++ (le16 FLI_COLOR_256_CHUNK ++ le16 np)) ++ bs) := by
    refine @wrote_patch _ _ _ _ (le32 0 ++ (le16 0 ++ le16 0)) _ _ ?_ g4.2.2 rfl
    have := h7.2.2
    simp only [List.append_assoc] at this ⊢
    exact this
  refine ⟨{ e with
      m_file := (write16 (write16 (write32 (g.seek e.m_file.pos) (chunkSize (le16 np ++ bs)))
        FLI_COLOR_256_CHUNK) np).seek (e.m_file.pos + chunkSize (le16 np ++ bs)),
      m_prevColormap := frame.colormap }, le16 np ++ bs, ?_, ⟨g3.1, rfl, ?_⟩, rfl, rfl, rfl, rfl,
      rfl, rfl, rfl⟩
  · unfold Encoder.writeColorChunk
    simp only [File.tell]
    rw [hg]
    simp only []
    rw [hsz, hev]
  · simp only [File.seek_data]
    simp only [List.append_assoc] at h8 ⊢
    exact h8

theorem writeBrunChunk_layout (e : Encoder) (src : Frame) (hok : e.m_file.ok = true)
    (hpx : src.Bytes) :
    ∃ e2 bs, e.writeBrunChunk src = some e2 ∧
      ChunkWritten e.m_file e2.m_file FLI_BRUN_CHUNK bs ∧
      e2.m_width = e.m_width ∧ e2.m_height = e.m_height ∧ e2.m_frameCount = e.m_frameCount ∧
      e2.m_offsetFrame1 = e.m_offsetFrame1 ∧ e2.m_offsetFrame2 = e.m_offsetFrame2 ∧
      e2.m_prevFrameData = e.m_prevFrameData ∧ e2.m_prevColormap = e.m_prevColormap := by
  have h1 := FW_write32 e.m_file 0 hok
  have h2 := FW_write16 _ FLI_BRUN_CHUNK h1.1
  obtain ⟨f3, bs, he, hfw, _⟩ := brunLines_code e.m_width src hpx e.m_height 0 _ h2.1
  have h3 := FW_trans h1 (FW_trans h2 hfw)
  have hpos : f3.pos = e.m_file.pos + (6 + bs.length) := by
    have := h3.2.1
    simp only [List.length_append, le32_length, le16_length] at this
    omega
  have hev : evenEnd e.m_file.pos f3.pos = e.m_file.pos + chunkSize bs := by
    rw [hpos, evenEnd_chunk]
    rfl
  have hsz : evenEnd e.m_file.pos f3.pos - e.m_file.pos = chunkSize bs := by
    rw [hev]; omega
  have h4 := FW_write32 (f3.seek e.m_file.pos) (chunkSize bs) h3.1
  have h5 := wrote_patch h3.2.2 h4.2.2 rfl
  obtain ⟨g, hg⟩ : ∃ g, g = (write32 (f3.seek e.m_file.pos) (chunkSize bs)).seek
      (e.m_file.pos + chunkSize bs) := ⟨_, rfl⟩
  refine ⟨{ e with m_file := g }, bs, ?_, ?_, rfl, rfl, rfl, rfl, rfl, rfl, rfl⟩
  swap
  · rw [hg]
    exact ⟨h4.1, rfl, h5⟩
  rw [hg]
  unfold Encoder.writeBrunChunk
  simp only [File.tell]
  rw [he]
  simp only []
  rw [hsz, hev]

theorem lcChunkLines_FW (w : Nat) (prev : List Nat) (src : Frame) (hpx : src.Bytes) :
    ∀ (n y : Nat) (f : File), f.ok = true →
    ∃ f2 bs, lcChunkLines w prev src n y f = some f2 ∧ FW f f2 bs := by
  intro n
  induction n with
  | zero =>
    intro y f hok
    exact ⟨f, [], rfl, FW_refl f hok⟩
  | succ n ih =>
    intro y f hok
    obtain ⟨f1, k, bs1, he1, hfw1, _⟩ := writeLcLineChunk_bytes w prev src y f hok hpx
    obtain ⟨f2, bs2, he2, hfw2⟩ := ih (y + 1) f1 hfw1.1
    refine ⟨f2, _, ?_, FW_trans hfw1 hfw2⟩
    rw [lcChunkLines_succ, he1]
    exact he2

theorem writeLcChunk_layout (e : Encoder) (src : Frame) (hok : e.m_file.ok = true)
    (hpx : src.Bytes) :
    ∃ e2 bs, e.writeLcChunk src = some e2 ∧
      ChunkWritten e.m_file e2.m_file FLI_LC_CHUNK bs ∧
      e2.m_width = e.m_width ∧ e2.m_height = e.m_height ∧ e2.m_frameCount = e.m_frameCount ∧
      e2.m_offsetFrame1 = e.m_offsetFrame1 ∧ e2.m_offsetFrame2 = e.m_offsetFrame2 ∧
      e2.m_prevColormap = e.m_prevColormap := by
  obtain ⟨sl, hsl⟩ : ∃ sl, sl = firstScan e.m_prevFrameData src e.m_width e.m_height 0 0 :=
    ⟨_, rfl⟩
  obtain ⟨se, hse⟩ : ∃ se, se = secondScan e.m_prevFrameData src e.m_width
      (e.m_height - 1 - sl) (e.m_height - 1) 0 := ⟨_, rfl⟩
  have h1 := FW_write32 e.m_file 0 hok
  have h2 := FW_write16 _ FLI_LC_CHUNK h1.1
  have h2a := FW_write16 _ sl h2.1
  have h2b := FW_write16 _ (e.m_height - se - sl) h2a.1
  obtain ⟨f3, bs, he, hfw⟩ := lcChunkLines_FW e.m_width e.m_prevFrameData src hpx
    (e.m_height - se - sl) sl _ h2b.1
  have h3 := FW_trans h1 (FW_trans h2 (FW_trans h2a (FW_trans h2b hfw)))
  obtain ⟨pl, hpl⟩ : ∃ pl, pl = le16 sl ++ (le16 (e.m_height - se - sl) ++ bs) := ⟨_, rfl⟩
  rw [← hpl] at h3
  have hpos : f3.pos = e.m_file.pos + (6 + pl.length) := by
    have := h3.2.1
    simp only [List.length_append, le32_length, le16_length] at this
    omega
  have hev : evenEnd e.m_file.pos f3.pos = e.m_file.pos + chunkSize pl := by
    rw [hpos, evenEnd_chunk]
    rfl
  have hsz : evenEnd e.m_file.pos f3.pos - e.m_file.pos = chunkSize pl := by
    rw [hev]; omega
  have h4 := FW_write32 (f3.seek e.m_file.pos) (chunkSize pl) h3.1
  have h5 := wrote_patch h3.2.2 h4.2.2 rfl
  refine ⟨{ e with
      m_file := (write32 (f3.seek e.m_file.pos) (chunkSize pl)).seek
        (e.m_file.pos + chunkSize pl),
      m_prevFrameData :=
        if e.m_height - se - sl > 0 then
          copyRange e.m_prevFrameData src (src.rowOff sl)
            (src.rowOff (sl + (e.m_height - se - sl)))
        else e.m_prevFrameData },
    pl, ?_, ⟨h4.1, rfl, h5⟩, rfl, rfl, rfl, rfl, rfl, rfl⟩
  unfold Encoder.writeLcChunk
  simp only [File.tell]
  rw [← hsl, ← hse, he]
  simp only []
  rw [hsz, hev]

theorem chunksWritten_at : ∀ (cs : List (Nat × List Nat)) (f1 f2 : File), f1.ok = true →
    ChunksWritten f1 f2 cs →
    f2.ok = true ∧ f2.pos = f1.pos + chunksSize cs ∧ ChunksAt f2.data f1.pos cs ∧
    (∀ q bs, HoldsAt f1.data q bs → q + bs.length ≤ f1.pos → HoldsAt f2.data q bs) ∧
    (∀ i, i < f1.pos → f2.data.getD i 0 = f1.data.getD i 0) := by
  intro cs
  induction cs with
  | nil =>
    intro f1 f2 hok h
    simp only [ChunksWritten] at h
    subst h
    exact ⟨hok, rfl, trivial, fun _ _ h _ => h, fun _ _ => rfl⟩
  | cons c cs ih =>
    intro f1 f3 hok h
    obtain ⟨f2, ⟨hok2, hpos2, hw⟩, hrest⟩ := h
    obtain ⟨a1, a2, a3, a4, a5⟩ := ih f2 f3 hok2 hrest
    have hb := chunkSize_bounds c.2
    have hlen : (le32 (chunkSize c.2) ++ (le16 c.1 ++ c.2)).length = 6 + c.2.length := by
      simp only [List.length_append, le32_length, le16_length]
      omega
    refine ⟨a1, ?_, ⟨?_, ?_⟩, ?_, ?_⟩
    · rw [a2, hpos2]
      simp only [chunksSize]
      omega
    · apply a4 _ _ (holdsAt_of_wrote hw (by simp [le32]))
      rw [hlen, hpos2]
      omega
    · rw [← hpos2]
      exact a3
    · intro q bs hh hq
      exact a4 q bs (holdsAt_keep hw hh (Or.inl hq)) (by rw [hpos2]; omega)
    · intro i hi
      rw [a5 i (by rw [hpos2]; omega), wrote_below hw i hi]

theorem colormap_eq_false_of_ne_true (a b : Colormap) (h : ¬Colormap.eq a b = true) :
    Colormap.eq a b = false := by
  cases hc : Colormap.eq a b
  · rfl
  · exact absurd hc h

theorem writeFrame_stages (e : Encoder) (src : Frame) (hok : e.m_file.ok = true)
    (hpx : src.Bytes) :
    ∃ e2 f2 cs, e.writeFrame src = some e2 ∧
      ChunksWritten (write32 (write32 (write16 (write16 (write32 e.m_file 0) 0) 0) 0) 0) f2 cs ∧
      cs.map Prod.fst = frameTags e src ∧
      e2.m_file = (write16 (write16 (write32 (f2.seek (e.m_file.pos % 4294967296))
        (u32 ((f2.pos : Int) - ((e.m_file.pos % 4294967296 : Nat) : Int)))) FLI_FRAME_MAGIC_NUMBER) cs.length).seek
          f2.pos ∧
      e2.m_width = e.m_width ∧ e2.m_height = e.m_height ∧
      e2.m_frameCount = wrapInt32 (e.m_frameCount + 1) ∧
      e2.m_offsetFrame1 =
        (if e.m_frameCount = 0 then toInt32 (e.m_file.pos % 4294967296) else e.m_offsetFrame1) ∧
      e2.m_offsetFrame2 =
        (if e.m_frameCount = 1 then toInt32 (e.m_file.pos % 4294967296) else e.m_offsetFrame2) := by
  have h1 := FW_write32 e.m_file 0 hok
  have h2 := FW_write16 _ 0 h1.1
  have h3 := FW_write16 _ 0 h2.1
  have h4 := FW_write32 _ 0 h3.1
  have h5 := FW_write32 _ 0 h4.1
  obtain ⟨fh, hfh⟩ : ∃ fh, fh = write32 (write32 (write16 (write16 (write32 e.m_file 0) 0) 0) 0) 0 :=
    ⟨_, rfl⟩
  rw [← hfh] at h5 ⊢
  obtain ⟨e1, he1⟩ : ∃ e1 : Encoder, e1 =
      (if e.m_frameCount = 0 then { e with m_offsetFrame1 := toInt32 (e.m_file.pos % 4294967296) }
       else if e.m_frameCount = 1 then { e with m_offsetFrame2 := toInt32 (e.m_file.pos % 4294967296) }
       else e) := ⟨_, rfl⟩
  have hf1 : e1.m_file = e.m_file := by rw [he1]; split; rfl; split <;> rfl
  have hw1 : e1.m_width = e.m_width := by rw [he1]; split; rfl; split <;> rfl
  have hh1 : e1.m_height = e.m_height := by rw [he1]; split; rfl; split <;> rfl
  have hc1 : e1.m_frameCount = e.m_frameCount := by rw [he1]; split; rfl; split <;> rfl
  have hp1 : e1.m_prevColormap = e.m_prevColormap := by rw [he1]; split; rfl; split <;> rfl
  have ho1 : e1.m_offsetFrame1 =
      (if e.m_frameCount = 0 then toInt32 (e.m_file.pos % 4294967296) else e.m_offsetFrame1) := by
    rw [he1]
    by_cases h0 : e.m_frameCount = 0
    · rw [if_pos h0, if_pos h0]
    · rw [if_neg h0, if_neg h0]; split <;> rfl
  have ho2 : e1.m_offsetFrame2 =
      (if e.m_frameCount = 1 then toInt32 (e.m_file.pos % 4294967296) else e.m_offsetFrame2) := by
    rw [he1]
    by_cases h0 : e.m_frameCount = 0
    · rw [if_pos h0, if_neg (by omega)]
    · rw [if_neg h0]
      by_cases h1 : e.m_frameCount = 1
      · rw [if_pos h1, if_pos h1]
      · rw [if_neg h1, if_neg h1]
  have hstart : e.writeFrame src =
      (match (if e1.m_frameCount = 0 ∨ Colormap.eq e1.m_prevColormap src.colormap = false then
          match ({ e1 with m_file := fh } : Encoder).writeColorChunk src with
          | none => none
          | some e => some (e, 1)
        else some ({ e1 with m_file := fh }, 0) : Option (Encoder × Nat)) with
      | none => none
      | some (e3, nchunks) =>
        match (if e3.m_frameCount = 0 then
            match e3.writeBrunChunk src with
            | none => none
            | some e =>
              some { e with m_prevFrameData :=
                (List.range ((e.m_height * src.rowstride) % 4294967296)).map src.px }
          else e3.writeLcChunk src : Option Encoder) with
        | none => none
        | some e4 =>
          some { e4 with
            m_file := (write16 (write16 (write32 (e4.m_file.seek (e.m_file.pos % 4294967296))
              (u32 ((e4.m_file.pos : Int) - ((e.m_file.pos % 4294967296 : Nat) : Int)))) FLI_FRAME_MAGIC_NUMBER)
                (nchunks + 1)).seek e4.m_file.pos,
            m_frameCount := wrapInt32 (e4.m_frameCount + 1) }) := by
    unfold Encoder.writeFrame
    simp only [File.tell]
    rw [← he1, hf1, ← hfh]
  rw [hstart]
  by_cases hcol : e1.m_frameCount = 0 ∨ Colormap.eq e1.m_prevColormap src.colormap = false
  · rw [if_pos hcol]
    obtain ⟨e3, bs1, he3, hcw3, hw3, hh3, hc3, ho13, ho23, _, _⟩ :=
      writeColorChunk_layout { e1 with m_file := fh } src h5.1
    simp only [] at hcw3 hw3 hh3 hc3 ho13 ho23
    rw [he3]
    simp only []
    by_cases hfirst : e3.m_frameCount = 0
    · rw [if_pos hfirst]
      obtain ⟨e4, bs2, he4, hcw4, hw4, hh4, hc4, ho14, ho24, _, _⟩ :=
        writeBrunChunk_layout e3 src hcw3.1 hpx
      rw [he4]
      simp only []
      refine ⟨_, e4.m_file, [(FLI_COLOR_256_CHUNK, bs1), (FLI_BRUN_CHUNK, bs2)], rfl,
        ⟨e3.m_file, hcw3, e4.m_file, hcw4, rfl⟩, ?_, rfl, ?_, ?_, ?_, ?_, ?_⟩
      · unfold frameTags
        rw [if_pos (by rw [← hc1, ← hc3]; exact hfirst)]
        rfl
      · simp only []; rw [hw4, hw3, hw1]
      · simp only []; rw [hh4, hh3, hh1]
      · simp only []; rw [hc4, hc3, hc1]
      · simp only []; rw [ho14, ho13, ho1]
      · simp only []; rw [ho24, ho23, ho2]
    · rw [if_neg hfirst]
      obtain ⟨e4, bs2, he4, hcw4, hw4, hh4, hc4, ho14, ho24, _⟩ :=
        writeLcChunk_layout e3 src hcw3.1 hpx
      rw [he4]
      simp only []
      have hne : ¬e.m_frameCount = 0 := by rw [← hc1, ← hc3]; exact hfirst
      have hneq : Colormap.eq e.m_prevColormap src.colormap = false := by
        rcases hcol with h | h
        · rw [hc3] at hfirst; exact absurd h hfirst
        · rw [← hp1]; exact h
      refine ⟨_, e4.m_file, [(FLI_COLOR_256_CHUNK, bs1), (FLI_LC_CHUNK, bs2)], rfl,
        ⟨e3.m_file, hcw3, e4.m_file, hcw4, rfl⟩, ?_, rfl, ?_, ?_, ?_, ?_, ?_⟩
      · unfold frameTags
        rw [if_neg hne, if_neg (by rw [hneq]; simp)]
        rfl
      · simp only []; rw [hw4, hw3, hw1]
      · simp only []; rw [hh4, hh3, hh1]
      · simp only []; rw [hc4, hc3, hc1]
      · simp only []; rw [ho14, ho13, ho1]
      · simp only []; rw [ho24, ho23, ho2]
  · rw [if_neg hcol]
    simp only []
    have hne1 : ¬e1.m_frameCount = 0 := fun h => hcol (Or.inl h)
    have hne : ¬e.m_frameCount = 0 := by rw [← hc1]; exact hne1
    have heq : Colormap.eq e.m_prevColormap src.colormap = true := by
      rw [← hp1]
      cases hc : Colormap.eq e1.m_prevColormap src.colormap
      · exact absurd (Or.inr hc) hcol
      · rfl
    rw [if_neg hne1]
    obtain ⟨e4, bs2, he4, hcw4, hw4, hh4, hc4, ho14, ho24, _⟩ :=
      writeLcChunk_layout { e1 with m_file := fh } src h5.1 hpx
    simp only [] at hcw4 hw4 hh4 hc4 ho14 ho24
    rw [he4]
    simp only []
    refine ⟨_, e4.m_file, [(FLI_LC_CHUNK, bs2)], rfl, ⟨e4.m_file, hcw4, rfl⟩, ?_, rfl, ?_, ?_, ?_,
      ?_, ?_⟩
    · unfold frameTags
      rw [if_neg hne, if_pos heq]
      rfl
    · simp only []; rw [hw4, hw1]
    · simp only []; rw [hh4, hh1]
    · simp only []; rw [hc4, hc1]
    · simp only []; rw [ho14, ho1]
    · simp only []; rw [ho24, ho2]

theorem le32_u32_sub (a b : Nat) (h : b ≤ a) : le32 (u32 ((a : Int) - (b : Int))) = le32 (a - b) := by
  have : u32 ((a : Int) - (b : Int)) = (a - b) % 4294967296 := by
    unfold u32
    omega
  rw [this, le32_mod]

theorem chunksAt_keep {d1 d2 : List Nat} {p : Nat} {bs : List Nat} :
    ∀ (cs : List (Nat × List Nat)) (q : Nat), Wrote d1 d2 p bs → ChunksAt d1 q cs →
    (cs = [] ∨ p + bs.length ≤ q) → ChunksAt d2 q cs
  | [], _, _, _, _ => trivial
  | c :: cs, q, hw, h, hd => by
    have hq : p + bs.length ≤ q := by
      rcases hd with h0 | h0
      · exact absurd h0 (List.cons_ne_nil _ _)
      · exact h0
    exact ⟨holdsAt_keep hw h.1 (Or.inr hq),
      chunksAt_keep cs _ hw h.2 (Or.inr (by omega))⟩

/-- What `writeFrame` leaves in the stream: the frame record with its chunks
at the position the stream had, the bytes before it unchanged, and the
position after the last chunk. -/
theorem writeFrame_layout (e : Encoder) (src : Frame) (hok : e.m_file.ok = true)
    (hpos : e.m_file.pos < 4294967296) (hpx : src.Bytes) :
    ∃ e2 cs, e.writeFrame src = some e2 ∧ e2.m_file.ok = true ∧
      cs.map Prod.fst = frameTags e src ∧
      FrameAt e2.m_file.data e.m_file.pos cs ∧
      e2.m_file.pos = e.m_file.pos + 16 + chunksSize cs ∧
      (∀ i, i < e.m_file.pos → e2.m_file.data.getD i 0 = e.m_file.data.getD i 0) ∧
      e2.m_width = e.m_width ∧ e2.m_height = e.m_height ∧
      e2.m_frameCount = wrapInt32 (e.m_frameCount + 1) ∧
      e2.m_offsetFrame1 =
        (if e.m_frameCount = 0 then toInt32 e.m_file.pos else e.m_offsetFrame1) ∧
      e2.m_offsetFrame2 =
        (if e.m_frameCount = 1 then toInt32 e.m_file.pos else e.m_offsetFrame2) := by
  obtain ⟨e2, f2, cs, he, hcw, htags, hfile, hw, hh, hc, ho1, ho2⟩ :=
    writeFrame_stages e src hok hpx
  have hmod : e.m_file.pos % 4294967296 = e.m_file.pos := Nat.mod_eq_of_lt hpos
  rw [hmod] at hfile ho1 ho2
  have h1 := FW_write32 e.m_file 0 hok
  have h2 := FW_write16 _ 0 h1.1
  have h3 := FW_write16 _ 0 h2.1
  have h4 := FW_write32 _ 0 h3.1
  have h5 := FW_write32 _ 0 h4.1
  have h6 := FW_trans (FW_trans h1 (FW_trans h2 h3)) (FW_trans h4 h5)
  obtain ⟨fh, hfh⟩ : ∃ fh, fh = write32 (write32 (write16 (write16 (write32 e.m_file 0) 0) 0) 0) 0 :=
    ⟨_, rfl⟩
  rw [← hfh] at h6 hcw
  have hp6 : fh.pos = e.m_file.pos + 16 := by
    rw [h6.2.1]; rfl
  obtain ⟨a1, a2, a3, a4, a5⟩ := chunksWritten_at cs fh f2 h6.1 hcw
  have hz : HoldsAt fh.data (e.m_file.pos + 8) [0, 0, 0, 0, 0, 0, 0, 0] := by
    have := (holdsAt_append (holdsAt_of_wrote h6.2.2 (by simp [le32]))).2
    exact this
  have hz2 := a4 _ _ hz (by rw [hp6]; simp)
  have g1 := FW_write32 (f2.seek e.m_file.pos)
    (u32 ((f2.pos : Int) - (e.m_file.pos : Int))) a1
  have g2 := FW_write16 _ FLI_FRAME_MAGIC_NUMBER g1.1
  have g3 := FW_write16 _ cs.length g2.1
  have g4 := FW_trans g1 (FW_trans g2 g3)
  have hsz : le32 (u32 ((f2.pos : Int) - (e.m_file.pos : Int))) = le32 (16 + chunksSize cs) := by
    rw [le32_u32_sub _ _ (by omega)]
    congr 1
    omega
  rw [hsz] at g4
  have hw8 := g4.2.2
  simp only [File.seek_data, File.seek_pos] at hw8
  have hl8 : (le32 (16 + chunksSize cs) ++ (le16 FLI_FRAME_MAGIC_NUMBER ++ le16 cs.length)).length
      = 8 := rfl
  have hdata : e2.m_file.data = (write16 (write16 (write32 (f2.seek e.m_file.pos)
      (u32 ((f2.pos : Int) - (e.m_file.pos : Int)))) FLI_FRAME_MAGIC_NUMBER) cs.length).data := by
    rw [hfile]; rfl
  rw [← hdata] at hw8
  refine ⟨e2, cs, he, ?_, htags, ⟨?_, ?_⟩, ?_, ?_, hw, hh, hc, ho1, ho2⟩
  · rw [hfile]; exact g3.1
  · have hj := holdsAt_join (holdsAt_of_wrote hw8 (by simp [le32]))
      (by rw [hl8]; exact holdsAt_keep hw8 hz2 (Or.inr (by rw [hl8])))
    simp only [List.append_assoc] at hj
    exact hj
  · have hca : ChunksAt f2.data (e.m_file.pos + 16) cs := by rw [← hp6]; exact a3
    exact chunksAt_keep cs _ hw8 hca (Or.inr (by rw [hl8]; omega))
  · rw [hfile]
    simp only [File.seek_pos]
    omega
  · intro i hi
    rw [wrote_below hw8 i hi, a5 i (by omega), wrote_below h6.2.2 i hi]

theorem holdsAt_le16At {d : List Nat} {p v : Nat} (h : HoldsAt d p (le16 v)) :
    le16At d p = v % 65536 := by
  obtain ⟨_, g⟩ := h
  have g0 := g 0 (by simp [le16])
  have g1 := g 1 (by simp [le16])
  simp only [le16, List.getD_cons_zero, List.getD_cons_succ, Nat.add_zero] at g0 g1
  unfold le16At byteAt
  rw [g0, g1]
  omega

theorem holdsAt_le32At {d : List Nat} {p v : Nat} (h : HoldsAt d p (le32 v)) :
    le32At d p = v % 4294967296 := by
  obtain ⟨_, g⟩ := h
  have g0 := g 0 (by simp [le32])
  have g1 := g 1 (by simp [le32])
  have g2 := g 2 (by simp [le32])
  have g3 := g 3 (by simp [le32])
  simp only [le32, List.getD_cons_zero, List.getD_cons_succ, Nat.add_zero] at g0 g1 g2 g3
  unfold le32At byteAt
  rw [g0, g1, g2, g3]
  omega

theorem chunksSize_even : ∀ cs : List (Nat × List Nat), chunksSize cs % 2 = 0
  | [] => rfl
  | c :: cs => by
    have h1 := chunkSize_even c.2
    have h2 := chunksSize_even cs
    unfold chunksSize
    omega

/-- `writeFrame` returns on every ok stream, leaves it ok and at least 16
bytes further, and counts the frame. -/
theorem writeFrame_total (e : Encoder) (src : Frame) (hok : e.m_file.ok = true)
    (hpx : src.Bytes) :
    ∃ e2, e.writeFrame src = some e2 ∧ e2.m_file.ok = true ∧
      e.m_file.pos + 16 ≤ e2.m_file.pos ∧
      e2.m_frameCount = wrapInt32 (e.m_frameCount + 1) ∧
      e2.m_offsetFrame1 =
        (if e.m_frameCount = 0 then toInt32 (e.m_file.pos % 4294967296) else e.m_offsetFrame1) ∧
      e2.m_offsetFrame2 =
        (if e.m_frameCount = 1 then toInt32 (e.m_file.pos % 4294967296) else e.m_offsetFrame2) := by
  obtain ⟨e2, f2, cs, he, hcw, _, hfile, _, _, hc, ho1, ho2⟩ := writeFrame_stages e src hok hpx
  have h1 := FW_write32 e.m_file 0 hok
  have h2 := FW_write16 _ 0 h1.1
  have h3 := FW_write16 _ 0 h2.1
  have h4 := FW_write32 _ 0 h3.1
  have h5 := FW_write32 _ 0 h4.1
  have h6 := FW_trans (FW_trans h1 (FW_trans h2 h3)) (FW_trans h4 h5)
  obtain ⟨fh, hfh⟩ : ∃ fh, fh = write32 (write32 (write16 (write16 (write32 e.m_file 0) 0) 0) 0) 0 :=
    ⟨_, rfl⟩
  rw [← hfh] at h6 hcw
  have hp6 : fh.pos = e.m_file.pos + 16 := by
    rw [h6.2.1]; rfl
  obtain ⟨a1, a2, _⟩ := chunksWritten_at cs fh f2 h6.1 hcw
  have g1 := FW_write32 (f2.seek (e.m_file.pos % 4294967296))
    (u32 ((f2.pos : Int) - ((e.m_file.pos % 4294967296 : Nat) : Int))) a1
  have g2 := FW_write16 _ FLI_FRAME_MAGIC_NUMBER g1.1
  have g3 := FW_write16 _ cs.length g2.1
  refine ⟨e2, he, ?_, ?_, hc, ho1, ho2⟩
  · rw [hfile]; exact g3.1
  · rw [hfile]
    simp only [File.seek_pos]
    omega

theorem u32_toInt32 (v : Nat) : u32 (toInt32 v) = v % 4294967296 := by
  unfold u32 toInt32
  split <;> omega

theorem u32_lt (v : Int) : u32 v < 4294967296 := by
  unfold u32
  omega

/-- The header fields after `~Encoder` on an ok stream. -/
theorem destroy_fields (e : Encoder) (hok : e.m_file.ok = true) :
    e.destroy.ok = true ∧
    le32At e.destroy.data 0 = e.m_file.pos % 4294967296 ∧
    le16At e.destroy.data 4 = FLC_MAGIC_NUMBER ∧
    le16At e.destroy.data 6 = u32 e.m_frameCount % 65536 ∧
    le32At e.destroy.data 80 = u32 e.m_offsetFrame1 ∧
    le32At e.destroy.data 84 = u32 e.m_offsetFrame2 := by
  obtain ⟨ho, d, w1, w2⟩ := destroy_code e hok
  have a := holdsAt_of_wrote w1 (by simp [le32])
  have a1 := holdsAt_append a
  have a2 := holdsAt_append a1.2
  have b := holdsAt_of_wrote w2 (by simp [le32])
  have b1 := holdsAt_append b
  have k1 := holdsAt_keep w2 a1.1 (Or.inl (by simp [le32]))
  have k2 := holdsAt_keep w2 a2.1 (Or.inl (by simp [le32, le16]))
  have k3 := holdsAt_keep w2 a2.2 (Or.inl (by simp [le32, le16]))
  have e1 := holdsAt_le32At k1
  have e2 := holdsAt_le16At k2
  have e3 := holdsAt_le16At k3
  have e4 := holdsAt_le32At b1.1
  have e5 := holdsAt_le32At b1.2
  have l4 : (le32 (e.m_file.pos % 4294967296)).length = 4 := rfl
  have l2 : (le16 FLC_MAGIC_NUMBER).length = 2 := rfl
  have l5 : (le32 (u32 e.m_offsetFrame1)).length = 4 := rfl
  rw [l4] at e2 e3
  rw [l2] at e3
  rw [l5] at e5
  have m1 := u32_lt e.m_offsetFrame1
  have m2 := u32_lt e.m_offsetFrame2
  refine ⟨ho, ?_, ?_, ?_, ?_, ?_⟩
  · rw [e1]; omega
  · rw [e2]; rfl
  · rw [e3]
  · rw [e4]; omega
  · rw [e5]; omega

/-- The frame counter after a sequence of calls counts the `writeFrame`
calls only. -/
theorem calls_count : ∀ (cs : List FrameCall) (e : Encoder), e.m_file.ok = true →
    (∀ c ∈ cs, c.arg.Bytes) → 0 ≤ e.m_frameCount →
    e.m_frameCount + countFrames cs < 2147483647 →
    ∃ e3, e.calls cs = some e3 ∧ e3.m_file.ok = true ∧
      e3.m_frameCount = e.m_frameCount + countFrames cs
  | [], e, hok, _, _, _ => ⟨e, rfl, hok, by simp [countFrames]⟩
  | .frame fr :: cs, e, hok, hb, h0, h1 => by
    have hfr : fr.Bytes := hb (.frame fr) (List.mem_cons_self _ _)
    obtain ⟨e2, he, hok2, _, hc, _⟩ := writeFrame_total e fr hok hfr
    have hcf : countFrames (.frame fr :: cs) = countFrames cs + 1 := rfl
    rw [hcf] at h1
    rw [wrapInt32_id _ (by omega) (by omega)] at hc
    obtain ⟨e3, he3, hok3, hc3⟩ := calls_count cs e2 hok2
      (fun c hc => hb c (List.mem_cons_of_mem _ hc)) (by omega) (by rw [hc]; omega)
    refine ⟨e3, ?_, hok3, ?_⟩
    · show (match e.writeFrame fr with
        | none => none
        | some e2 => e2.calls cs) = some e3
      rw [he]
      exact he3
    · rw [hc3, hc, hcf]
      push_cast
      omega
  | .ring fr :: cs, e, hok, hb, h0, h1 => by
    have hfr : fr.Bytes := hb (.ring fr) (List.mem_cons_self _ _)
    obtain ⟨e2, he, hok2, _, hc, _⟩ := writeFrame_total e fr hok hfr
    have hcf : countFrames (.ring fr :: cs) = countFrames cs := rfl
    rw [hcf] at h1
    rw [wrapInt32_id _ (by omega) (by omega)] at hc
    have hr : e.writeRingFrame fr = some { e2 with m_frameCount := e.m_frameCount } := by
      unfold Encoder.writeRingFrame
      rw [he]
      simp only []
      rw [hc, wrapInt32_id _ (by omega) (by omega)]
      congr 2
      omega
    obtain ⟨e3, he3, hok3, hc3⟩ := calls_count cs { e2 with m_frameCount := e.m_frameCount } hok2
      (fun c hc => hb c (List.mem_cons_of_mem _ hc)) h0 h1
    refine ⟨e3, ?_, hok3, ?_⟩
    · show (match e.writeRingFrame fr with
        | none => none
        | some e2 => e2.calls cs) = some e3
      rw [hr]
      exact he3
    · rw [hc3, hcf]

/-- Bytes that lie before the start of a frame record are kept by
`writeFrame`. -/
theorem writeFrame_keeps (e e2 : Encoder) (src : Frame) (hok : e.m_file.ok = true)
    (hpos : e.m_file.pos < 4294967296) (hpx : src.Bytes) (he : e.writeFrame src = some e2)
    (q : Nat) (bs : List Nat) (h : HoldsAt e.m_file.data q bs)
    (hq : q + bs.length ≤ e.m_file.pos) : HoldsAt e2.m_file.data q bs := by
  obtain ⟨e3, cs, he3, _, _, hfr, _, hsame, _⟩ := writeFrame_layout e src hok hpos hpx
  rw [he] at he3
  cases he3
  have hlen := hfr.1.1
  constructor
  · omega
  · intro j hj
    rw [hsame (q + j) (by omega)]
    exact h.2 j hj

/-- A run of `writeFrame` calls from the third frame on: every call returns,
the counter counts them, the two recorded frame offsets stay, and on a stream
that ends below 4 GiB the bytes before the first of these frames are kept. -/
theorem writeFrames_count : ∀ (frs : List Frame) (e : Encoder), e.m_file.ok = true →
    (∀ fr ∈ frs, fr.Bytes) → 2 ≤ e.m_frameCount →
    e.m_frameCount + frs.length < 2147483648 →
    ∃ ek, e.writeFrames frs = some ek ∧ ek.m_file.ok = true ∧
      e.m_file.pos ≤ ek.m_file.pos ∧
      ek.m_frameCount = e.m_frameCount + frs.length ∧
      ek.m_offsetFrame1 = e.m_offsetFrame1 ∧ ek.m_offsetFrame2 = e.m_offsetFrame2 ∧
      (ek.m_file.pos ≤ 4294967296 → ∀ q bs, HoldsAt e.m_file.data q bs →
        q + bs.length ≤ e.m_file.pos → HoldsAt ek.m_file.data q bs)
  | [], e, hok, _, _, _ =>
    ⟨e, rfl, hok, Nat.le_refl _, by simp, rfl, rfl, fun _ _ _ h _ => h⟩
  | fr :: frs, e, hok, hb, h0, h1 => by
    have hfr : fr.Bytes := hb fr (List.mem_cons_self _ _)
    obtain ⟨e2, he, hok2, hp2, hc, ho1, ho2⟩ := writeFrame_total e fr hok hfr
    rw [List.length_cons] at h1
    push_cast at h1
    rw [wrapInt32_id _ (by omega) (by omega)] at hc
    rw [if_neg (by omega)] at ho1 ho2
    obtain ⟨ek, hek, hokk, hpk, hck, hk1, hk2, hkeep⟩ := writeFrames_count frs e2 hok2
      (fun c hc => hb c (List.mem_cons_of_mem _ hc)) (by omega) (by rw [hc]; omega)
    refine ⟨ek, ?_, hokk, by omega, ?_, by rw [hk1, ho1], by rw [hk2, ho2], ?_⟩
    · show (match e.writeFrame fr with
        | none => none
        | some e2 => e2.writeFrames frs) = some ek
      rw [he]
      exact hek
    · rw [hck, hc, List.length_cons]
      push_cast
      omega
    · intro hlt q bs h hq
      exact hkeep hlt q bs (writeFrame_keeps e e2 fr hok (by omega) hfr he q bs h hq) (by omega)

theorem brunRowLoop_notok (w base fuel x : Nat) (f : File) (fr : Frame) (h : f.ok = false) :
    brunRowLoop w base fuel x f fr = some (f, fr) := by
  cases fuel with
  | zero => unfold brunRowLoop; rw [if_neg (by rw [h]; simp)]
  | succ n => rw [brunRowLoop_succ, if_neg (by rw [h]; simp)]

theorem toInt8_zero : toInt8 0 = 0 := by decide

/-- Repeat packets of count zero up to the end of the stream: the packet loop
of a row reads them all, then a read fails and the loop is left. -/
theorem brunRowLoop_zero_packets (w base : Nat) (data : List Nat) (x : Nat) (fr : Frame)
    (hx : x < w) : ∀ (k fuel pos : Nat), k + 1 ≤ fuel → pos + 2 * k = data.length →
    (∀ j, j < k → byteAt data (pos + 2 * j) = 0) →
    brunRowLoop w base fuel x { data := data, pos := pos, ok := true } fr =
      some ({ data := data, pos := data.length, ok := false }, fr) := by
  intro k
  induction k with
  | zero =>
    intro fuel pos hf hp _
    cases fuel with
    | zero => omega
    | succ fuel =>
      have hp2 : pos = data.length := by omega
      subst hp2
      have r1 : File.read8 { data := data, pos := data.length, ok := true } =
          (0, { data := data, pos := data.length, ok := false }) :=
        File.read8_fail _ (by simp)
      have r2 : File.read8 { data := data, pos := data.length, ok := false } =
          (0, { data := data, pos := data.length, ok := false }) :=
        File.read8_notok _ rfl
      rw [brunRowLoop_succ, if_pos ⟨rfl, hx⟩, r1]
      simp only [r2, toInt8_zero]
      rw [if_pos (Int.le_refl 0)]
      exact brunRowLoop_notok _ _ _ _ _ _ rfl
  | succ k ih =>
    intro fuel pos hf hp hz
    cases fuel with
    | zero => omega
    | succ fuel =>
      have r1 := File.read8_mk data pos (by omega)
      have r2 := File.read8_mk data (pos + 1) (by omega)
      have hz0 : byteAt data pos = 0 := by
        have := hz 0 (by omega)
        simpa using this
      rw [hz0] at r1
      rw [brunRowLoop_succ, if_pos ⟨rfl, hx⟩, r1]
      simp only [r2, toInt8_zero]
      rw [if_pos (Int.le_refl 0)]
      have e0 : (0 : Int).toNat = 0 := rfl
      rw [e0]
      simp only [brunRepeat]
      apply ih fuel (pos + 1 + 1) (by omega) (by omega)
      intro j hj
      have := hz (j + 1) (by omega)
      have e : pos + 2 * (j + 1) = pos + 1 + 1 + 2 * j := by omega
      rw [e] at this
      exact this

theorem zeroRepeatPackets_length : ∀ (k c : Nat), (zeroRepeatPackets k c).length = 2 * k
  | 0, _ => rfl
  | k + 1, c => by
    simp only [zeroRepeatPackets, List.length_cons, zeroRepeatPackets_length k c]
    omega

theorem zeroRepeatPackets_getD : ∀ (k c j : Nat), j < k →
    (zeroRepeatPackets k c).getD (2 * j) 0 = 0
  | 0, _, _, h => by omega
  | k + 1, c, 0, _ => rfl
  | k + 1, c, j + 1, h => by
    have e : 2 * (j + 1) = 2 * j + 1 + 1 := by omega
    rw [e]
    simp only [zeroRepeatPackets, List.getD_cons_succ]
    exact zeroRepeatPackets_getD k c j (by omega)

theorem readBrunRow_zero_packets (w y k c : Nat) (fr : Frame) :
    readBrunRow (w + 1) y (zeroRepeatStream k c) fr =
      some ({ data := (zeroRepeatStream k c).data, pos := 2 * k + 1, ok := false }, fr) := by
  have hl : (zeroRepeatStream k c).data.length = 2 * k + 1 := by
    simp only [zeroRepeatStream, List.length_cons, zeroRepeatPackets_length]
  have r0 : (zeroRepeatStream k c).read8 =
      (byteAt (zeroRepeatStream k c).data 0,
        { data := (zeroRepeatStream k c).data, pos := 0 + 1, ok := true }) :=
    File.read8_mk (zeroRepeatStream k c).data 0 (by rw [hl]; omega)
  unfold readBrunRow
  rw [r0]
  simp only []
  rw [brunRowLoop_zero_packets (w + 1) _ (zeroRepeatStream k c).data 0 fr (by omega) k _ (0 + 1)
    (by rw [hl]; omega)
    (by rw [hl]; omega)]
  · rw [hl]
  · intro j hj
    unfold byteAt
    have e : 0 + 1 + 2 * j = 2 * j + 1 := by omega
    rw [e]
    simp only [zeroRepeatStream, List.getD_cons_succ]
    rw [zeroRepeatPackets_getD k c j hj]

theorem readFrame_some (d : Decoder) (fr : Frame) : ∃ r, d.readFrame fr = some r := by
  unfold Decoder.readFrame
  simp only []
  obtain ⟨r, hr, _⟩ := readChunks_some (read16 (read16 (read32 d.seekAnchor).2).2).1
    { d with m_file := skip8 (read16 (read16 (read32 d.seekAnchor).2).2).2 } fr
  rw [hr]
  exact ⟨_, rfl⟩

theorem lineDiffers_exists (prev : List Nat) (fr : Frame) (base w : Nat)
    (h : lineDiffers prev fr base w = true) :
    ∃ x, x < w ∧ prev.getD (base + x) 0 ≠ fr.px (base + x) := by
  unfold lineDiffers at h
  rw [List.any_eq_true] at h
  obtain ⟨x, hx, hd⟩ := h
  exact ⟨x, List.mem_range.mp hx, by simpa using hd⟩

theorem firstScan_full (prev : List Nat) (fr : Frame) (w : Nat) :
    ∀ (n y sk : Nat), ∃ m, firstScan prev fr w n y sk = sk + m ∧ m ≤ n ∧
      (∀ j, j < m → lineDiffers prev fr (fr.rowOff (y + j)) w = false) ∧
      (m < n → lineDiffers prev fr (fr.rowOff (y + m)) w = true) := by
  intro n
  induction n with
  | zero =>
    intro y sk
    exact ⟨0, rfl, Nat.le_refl _, fun j hj => by omega, fun h => by omega⟩
  | succ n ih =>
    intro y sk
    unfold firstScan
    by_cases hd : lineDiffers prev fr (fr.rowOff y) w = true
    · rw [if_pos hd]
      exact ⟨0, rfl, Nat.zero_le _, fun j hj => by omega, fun _ => hd⟩
    · rw [if_neg hd]
      obtain ⟨m, he, hm, hall, hstop⟩ := ih (y + 1) (sk + 1)
      refine ⟨m + 1, by rw [he]; omega, by omega, ?_, ?_⟩
      · intro j hj
        cases j with
        | zero => simpa using hd
        | succ j =>
          have := hall j (by omega)
          have e : y + 1 + j = y + (j + 1) := by omega
          rw [e] at this
          exact this
      · intro hlt
        have := hstop (by omega)
        have e : y + 1 + m = y + (m + 1) := by omega
        rw [e] at this
        exact this

theorem secondScan_full (prev : List Nat) (fr : Frame) (w : Nat) :
    ∀ (n y sk : Nat), n ≤ y → ∃ m, secondScan prev fr w n y sk = sk + m ∧ m ≤ n ∧
      (∀ j, j < m → lineDiffers prev fr (fr.rowOff (y - j)) w = false) ∧
      (m < n → lineDiffers prev fr (fr.rowOff (y - m)) w = true) := by
  intro n
  induction n with
  | zero =>
    intro y sk _
    exact ⟨0, rfl, Nat.le_refl _, fun j hj => by omega, fun h => by omega⟩
  | succ n ih =>
    intro y sk hy
    unfold secondScan
    by_cases hd : lineDiffers prev fr (fr.rowOff y) w = true
    · rw [if_pos hd]
      exact ⟨0, rfl, Nat.zero_le _, fun j hj => by omega, fun _ => hd⟩
    · rw [if_neg hd]
      obtain ⟨m, he, hm, hall, hstop⟩ := ih (y - 1) (sk + 1) (by omega)
      refine ⟨m + 1, by rw [he]; omega, by omega, ?_, ?_⟩
      · intro j hj
        cases j with
        | zero => simpa using hd
        | succ j =>
          have := hall j (by omega)
          have e : y - 1 - j = y - (j + 1) := by omega
          rw [e] at this
          exact this
      · intro hlt
        have := hstop (by omega)
        have e : y - 1 - m = y - (m + 1) := by omega
        rw [e] at this
        exact this

/-- The line range `writeLcChunk` computes: the lines before it and after it
equal the snapshot, its first and its last line differ from it. -/
theorem lcRange_spec (prev : List Nat) (fr : Frame) (w h : Nat) :
    lcSkipLines prev fr w h ≤ h ∧
    lcSkipLines prev fr w h + lcLineCount prev fr w h ≤ h ∧
    (∀ y, y < lcSkipLines prev fr w h → lineDiffers prev fr (fr.rowOff y) w = false) ∧
    (lcSkipLines prev fr w h < h →
      lineDiffers prev fr (fr.rowOff (lcSkipLines prev fr w h)) w = true ∧
      1 ≤ lcLineCount prev fr w h ∧
      lineDiffers prev fr
        (fr.rowOff (lcSkipLines prev fr w h + lcLineCount prev fr w h - 1)) w = true) ∧
    (∀ y, lcSkipLines prev fr w h + lcLineCount prev fr w h ≤ y → y < h →
      lineDiffers prev fr (fr.rowOff y) w = false) ∧
    (lcSkipLines prev fr w h = h → lcLineCount prev fr w h = 0) := by
  obtain ⟨m1, hs1, hm1, hall1, hstop1⟩ := firstScan_full prev fr w h 0 0
  rw [Nat.zero_add] at hs1
  have hsl : lcSkipLines prev fr w h = m1 := hs1
  obtain ⟨m2, hs2, hm2, hall2, hstop2⟩ := secondScan_full prev fr w (h - 1 - m1) (h - 1) 0
    (by omega)
  rw [Nat.zero_add] at hs2
  have hnl : lcLineCount prev fr w h = h - m2 - m1 := by
    unfold lcLineCount
    rw [hsl, hs2]
  rw [hsl, hnl]
  refine ⟨hm1, by omega, ?_, ?_, ?_, by omega⟩
  · intro y hy
    have := hall1 y hy
    rw [Nat.zero_add] at this
    exact this
  · intro hlt
    have hd1 := hstop1 hlt
    rw [Nat.zero_add] at hd1
    refine ⟨hd1, by omega, ?_⟩
    by_cases hm : m2 < h - 1 - m1
    · have := hstop2 hm
      have e : m1 + (h - m2 - m1) - 1 = h - 1 - m2 := by omega
      rw [e]
      exact this
    · have e : m1 + (h - m2 - m1) - 1 = m1 := by omega
      rw [e]
      exact hd1
  · intro y hy1 hy2
    have := hall2 (h - 1 - y) (by omega)
    have e : h - 1 - (h - 1 - y) = y := by omega
    rw [e] at this
    exact this

theorem FW_nil_of_eq {f : File} {bs : List Nat} (h : FW f f bs) : bs = [] := by
  have := h.2.1
  exact List.length_eq_zero.mp (by omega)

/-- The fields and the snapshot `writeLcChunk` leaves. -/
theorem writeLcChunk_fields (e : Encoder) (src : Frame) (hok : e.m_file.ok = true)
    (hpx : src.Bytes) :
    ∃ e2 size bs, e.writeLcChunk src = some e2 ∧ e2.m_file.ok = true ∧
      Wrote e.m_file.data e2.m_file.data e.m_file.pos
        (le32 size ++ (le16 FLI_LC_CHUNK ++
          (le16 (lcSkipLines e.m_prevFrameData src e.m_width e.m_height) ++
            (le16 (lcLineCount e.m_prevFrameData src e.m_width e.m_height) ++ bs)))) ∧
      (lcLineCount e.m_prevFrameData src e.m_width e.m_height = 0 → bs = []) ∧
      e2.m_prevFrameData = lcRetained e.m_prevFrameData src e.m_width e.m_height ∧
      e2.m_prevColormap = e.m_prevColormap ∧
      e2.m_width = e.m_width ∧ e2.m_height = e.m_height := by
  obtain ⟨sl, hsl⟩ : ∃ sl, sl = lcSkipLines e.m_prevFrameData src e.m_width e.m_height :=
    ⟨_, rfl⟩
  obtain ⟨nl, hnl⟩ : ∃ nl, nl = lcLineCount e.m_prevFrameData src e.m_width e.m_height :=
    ⟨_, rfl⟩
  have h1 := FW_write32 e.m_file 0 hok
  have h2 := FW_write16 _ FLI_LC_CHUNK h1.1
  have h2a := FW_write16 _ sl h2.1
  have h2b := FW_write16 _ nl h2a.1
  obtain ⟨f3, bs, he, hfw⟩ := lcChunkLines_FW e.m_width e.m_prevFrameData src hpx nl sl _ h2b.1
  have h3 := FW_trans h1 (FW_trans h2 (FW_trans h2a (FW_trans h2b hfw)))
  have h4 := FW_write32 (f3.seek e.m_file.pos) (evenEnd e.m_file.pos f3.pos - e.m_file.pos) h3.1
  have h5 := wrote_patch h3.2.2 h4.2.2 rfl
  rw [← hsl, ← hnl]
  refine ⟨{ e with
      m_file := (write32 (f3.seek e.m_file.pos) (evenEnd e.m_file.pos f3.pos - e.m_file.pos)).seek
        (evenEnd e.m_file.pos f3.pos),
      m_prevFrameData := lcRetained e.m_prevFrameData src e.m_width e.m_height },
    _, bs, ?_, h4.1, h5, ?_, rfl, rfl, rfl, rfl⟩
  · unfold Encoder.writeLcChunk lcRetained
    simp only [File.tell]
    have hsl2 : firstScan e.m_prevFrameData src e.m_width e.m_height 0 0 = sl := by
      rw [hsl]; rfl
    have hnl2 : e.m_height - secondScan e.m_prevFrameData src e.m_width (e.m_height - 1 - sl)
        (e.m_height - 1) 0 - sl = nl := by
      rw [hnl, hsl]; rfl
    rw [hsl2, hnl2, he, ← hsl, ← hnl]
  · intro h0
    rw [h0] at he
    have hf3 : f3 = write16 (write16 (write16 (write32 e.m_file 0) FLI_LC_CHUNK) sl) nl := by
      have : lcChunkLines e.m_width e.m_prevFrameData src 0 sl
          (write16 (write16 (write16 (write32 e.m_file 0) FLI_LC_CHUNK) sl) 0) =
          some (write16 (write16 (write16 (write32 e.m_file 0) FLI_LC_CHUNK) sl) 0) := rfl
      rw [this] at he
      rw [h0]
      exact (Option.some.inj he).symm
    rw [hf3] at hfw
    exact FW_nil_of_eq hfw

theorem rowOff_le (fr : Frame) (y H : Nat) (h : H * fr.rowstride < 4294967296) (hy : y ≤ H) :
    fr.rowOff y = y * fr.rowstride := by
  unfold Frame.rowOff
  apply Nat.mod_eq_of_lt
  have h1 : y * fr.rowstride ≤ H * fr.rowstride := Nat.mul_le_mul_right _ hy
  omega

theorem lineSame_of_not_differs (prev : List Nat) (fr : Frame) (w y H : Nat)
    (hsz : H * fr.rowstride < 4294967296) (hy : y ≤ H)
    (h : lineDiffers prev fr (fr.rowOff y) w = false) : LineSame prev fr w y := by
  intro x hx
  have := lineDiffers_false prev fr _ w h x hx
  rw [rowOff_le fr y H hsz hy] at this
  exact this

theorem not_lineSame_of_differs (prev : List Nat) (fr : Frame) (w y H : Nat)
    (hsz : H * fr.rowstride < 4294967296) (hy : y ≤ H)
    (h : lineDiffers prev fr (fr.rowOff y) w = true) : ¬LineSame prev fr w y := by
  intro hs
  obtain ⟨x, hx, hd⟩ := lineDiffers_exists prev fr _ w h
  rw [rowOff_le fr y H hsz hy] at hd
  exact hd (hs x hx)

theorem copyRange_length (prev : List Nat) (fr : Frame) (a b : Nat) :
    (copyRange prev fr a b).length = prev.length := by
  unfold copyRange
  simp

theorem copyRange_getD (prev : List Nat) (fr : Frame) (a b i : Nat) (hi : i < prev.length) :
    (copyRange prev fr a b).getD i 0 = if a ≤ i ∧ i < b then fr.px i else prev.getD i 0 := by
  have hl : i < (copyRange prev fr a b).length := by rw [copyRange_length]; exact hi
  rw [List.getD_eq_getElem _ _ hl]
  unfold copyRange
  simp

theorem idx_lt (y H x rs : Nat) (hy : y < H) (hx : x < rs) : y * rs + x < H * rs := by
  have h1 : (y + 1) * rs ≤ H * rs := Nat.mul_le_mul_right _ hy
  rw [Nat.add_mul] at h1
  omega

/-- The snapshot `writeLcChunk` leaves holds the first `w` pixels of every
scanline of the frame. -/
theorem lcRetained_spec (prev : List Nat) (fr : Frame) (w h : Nat) (hw : w ≤ fr.rowstride)
    (hsz : h * fr.rowstride < 4294967296) (hlen : prev.length = h * fr.rowstride) :
    (lcRetained prev fr w h).length = h * fr.rowstride ∧
    ∀ y x, y < h → x < w →
      (lcRetained prev fr w h).getD (y * fr.rowstride + x) 0 = fr.px (y * fr.rowstride + x) := by
  obtain ⟨r1, r2, r3, r4, r5, r6⟩ := lcRange_spec prev fr w h
  obtain ⟨sl, hsl⟩ : ∃ sl, sl = lcSkipLines prev fr w h := ⟨_, rfl⟩
  obtain ⟨nl, hnl⟩ : ∃ nl, nl = lcLineCount prev fr w h := ⟨_, rfl⟩
  unfold lcRetained
  rw [← hsl, ← hnl] at r2 r4 r5 ⊢
  rw [← hsl] at r1 r3
  by_cases hn : nl > 0
  · rw [if_pos hn, copyRange_length]
    refine ⟨hlen, ?_⟩
    intro y x hy hx
    have hi := idx_lt y h x fr.rowstride hy (by omega)
    rw [copyRange_getD _ _ _ _ _ (by rw [hlen]; exact hi), rowOff_le fr sl h hsz r1,
      rowOff_le fr (sl + nl) h hsz r2]
    by_cases h1 : y < sl
    · have := idx_lt y sl x fr.rowstride h1 (by omega)
      rw [if_neg (by omega)]
      exact lineSame_of_not_differs _ _ _ _ _ hsz (by omega) (r3 y h1) x hx
    · by_cases h2 : y < sl + nl
      · have := idx_lt y (sl + nl) x fr.rowstride h2 (by omega)
        have h3 : sl * fr.rowstride ≤ y * fr.rowstride := Nat.mul_le_mul_right _ (by omega)
        rw [if_pos ⟨by omega, this⟩]
      · have h3 : (sl + nl) * fr.rowstride ≤ y * fr.rowstride :=
          Nat.mul_le_mul_right _ (by omega)
        rw [if_neg (by omega)]
        exact lineSame_of_not_differs _ _ _ _ _ hsz (by omega) (r5 y (by omega) hy) x hx
  · rw [if_neg hn]
    refine ⟨hlen, ?_⟩
    intro y x hy hx
    have hslh : sl = h := by
      by_cases hlt : sl < h
      · have := (r4 hlt).2.1
        omega
      · omega
    exact lineSame_of_not_differs _ _ _ _ _ hsz (by omega) (r3 y (by omega)) x hx

theorem colormap_eq_true (a b : Colormap) (h : Colormap.eq a b = true) :
    ∀ i, i < 256 → a i = b i := by
  intro i hi
  unfold Colormap.eq at h
  rw [List.all_eq_true] at h
  have := h i (List.mem_range.mpr hi)
  simpa using this

/-- The snapshot and the colormap `writeFrame` retains. -/
theorem writeFrame_retained (e : Encoder) (src : Frame) (hok : e.m_file.ok = true)
    (hpx : src.Bytes) :
    ∃ e2, e.writeFrame src = some e2 ∧
      e2.m_width = e.m_width ∧ e2.m_height = e.m_height ∧
      e2.m_prevColormap =
        (if e.m_frameCount = 0 ∨ Colormap.eq e.m_prevColormap src.colormap = false
         then src.colormap else e.m_prevColormap) ∧
      e2.m_prevFrameData =
        (if e.m_frameCount = 0 then
          (List.range ((e.m_height * src.rowstride) % 4294967296)).map src.px
         else lcRetained e.m_prevFrameData src e.m_width e.m_height) := by
  have h1 := FW_write32 e.m_file 0 hok
  have h2 := FW_write16 _ 0 h1.1
  have h3 := FW_write16 _ 0 h2.1
  have h4 := FW_write32 _ 0 h3.1
  have h5 := FW_write32 _ 0 h4.1
  obtain ⟨fh, hfh⟩ : ∃ fh, fh = write32 (write32 (write16 (write16 (write32 e.m_file 0) 0) 0) 0) 0 :=
    ⟨_, rfl⟩
  rw [← hfh] at h5
  obtain ⟨e1, he1⟩ : ∃ e1 : Encoder, e1 =
      (if e.m_frameCount = 0 then
        { e with m_offsetFrame1 := toInt32 (e.m_file.pos % 4294967296) }
       else if e.m_frameCount = 1 then
        { e with m_offsetFrame2 := toInt32 (e.m_file.pos % 4294967296) }
       else e) := ⟨_, rfl⟩
  have hf1 : e1.m_file = e.m_file := by rw [he1]; split; rfl; split <;> rfl
  have hw1 : e1.m_width = e.m_width := by rw [he1]; split; rfl; split <;> rfl
  have hh1 : e1.m_height = e.m_height := by rw [he1]; split; rfl; split <;> rfl
  have hc1 : e1.m_frameCount = e.m_frameCount := by rw [he1]; split; rfl; split <;> rfl
  have hp1 : e1.m_prevColormap = e.m_prevColormap := by rw [he1]; split; rfl; split <;> rfl
  have hd1 : e1.m_prevFrameData = e.m_prevFrameData := by
    rw [he1]; split; rfl; split <;> rfl
  have hstart : e.writeFrame src =
      (match (if e1.m_frameCount = 0 ∨ Colormap.eq e1.m_prevColormap src.colormap = false then
          match ({ e1 with m_file := fh } : Encoder).writeColorChunk src with
          | none => none
          | some e => some (e, 1)
        else some ({ e1 with m_file := fh }, 0) : Option (Encoder × Nat)) with
      | none => none
      | some (e3, nchunks) =>
        match (if e3.m_frameCount = 0 then
            match e3.writeBrunChunk src with
            | none => none
            | some e =>
              some { e with m_prevFrameData :=
                (List.range ((e.m_height * src.rowstride) % 4294967296)).map src.px }
          else e3.writeLcChunk src : Option Encoder) with
        | none => none
        | some e4 =>
          some { e4 with
            m_file := (write16 (write16 (write32 (e4.m_file.seek (e.m_file.pos % 4294967296))
              (u32 ((e4.m_file.pos : Int) - ((e.m_file.pos % 4294967296 : Nat) : Int))))
                FLI_FRAME_MAGIC_NUMBER) (nchunks + 1)).seek e4.m_file.pos,
            m_frameCount := wrapInt32 (e4.m_frameCount + 1) }) := by
    unfold Encoder.writeFrame
    simp only [File.tell]
    rw [← he1, hf1, ← hfh]
  rw [hstart]
  by_cases hcol : e1.m_frameCount = 0 ∨ Colormap.eq e1.m_prevColormap src.colormap = false
  · have hcol2 : e.m_frameCount = 0 ∨ Colormap.eq e.m_prevColormap src.colormap = false := by
      rw [← hc1, ← hp1]; exact hcol
    rw [if_pos hcol, if_pos hcol2]
    obtain ⟨e3, bs1, he3, hcw3, hw3, hh3, hc3, _, _, hd3, hp3⟩ :=
      writeColorChunk_layout { e1 with m_file := fh } src h5.1
    simp only [] at hcw3 hw3 hh3 hc3 hd3 hp3
    rw [he3]
    simp only []
    by_cases hfirst : e3.m_frameCount = 0
    · rw [if_pos hfirst, if_pos (by rw [← hc1, ← hc3]; exact hfirst)]
      obtain ⟨e4, bs2, he4, _, hw4, hh4, _, _, _, _, hp4⟩ :=
        writeBrunChunk_layout e3 src hcw3.1 hpx
      rw [he4]
      simp only []
      refine ⟨_, rfl, ?_, ?_, ?_, ?_⟩
      · simp only []; rw [hw4, hw3, hw1]
      · simp only []; rw [hh4, hh3, hh1]
      · simp only []; rw [hp4, hp3]
      · simp only []; rw [hh4, hh3, hh1]
    · rw [if_neg hfirst, if_neg (by rw [← hc1, ← hc3]; exact hfirst)]
      obtain ⟨e4, _, _, he4, _, _, _, hd4, hp4, hw4, hh4⟩ :=
        writeLcChunk_fields e3 src hcw3.1 hpx
      rw [he4]
      simp only []
      refine ⟨_, rfl, ?_, ?_, ?_, ?_⟩
      · simp only []; rw [hw4, hw3, hw1]
      · simp only []; rw [hh4, hh3, hh1]
      · simp only []; rw [hp4, hp3]
      · simp only []; rw [hd4, hd3, hw3, hh3, hd1, hw1, hh1]
  · have hcol2 : ¬(e.m_frameCount = 0 ∨ Colormap.eq e.m_prevColormap src.colormap = false) := by
      rw [← hc1, ← hp1]; exact hcol
    rw [if_neg hcol, if_neg hcol2]
    simp only []
    have hne1 : ¬e1.m_frameCount = 0 := fun h => hcol (Or.inl h)
    rw [if_neg hne1, if_neg (by rw [← hc1]; exact hne1)]
    obtain ⟨e4, _, _, he4, _, _, _, hd4, hp4, hw4, hh4⟩ :=
      writeLcChunk_fields { e1 with m_file := fh } src h5.1 hpx
    simp only [] at hd4 hp4 hw4 hh4
    rw [he4]
    simp only []
    refine ⟨_, rfl, ?_, ?_, ?_, ?_⟩
    · simp only []; rw [hw4, hw1]
    · simp only []; rw [hh4, hh1]
    · simp only []; rw [hp4, hp1]
    · simp only []; rw [hd4, hd1, hw1, hh1]

/-- One `writeFrame` call leaves the encoder retaining the frame. -/
theorem writeFrame_retains (e : Encoder) (src : Frame) (hok : e.m_file.ok = true)
    (hpx : src.Bytes) (hw : e.m_width ≤ src.rowstride)
    (hsz : e.m_height * src.rowstride < 4294967296)
    (hprev : e.m_frameCount ≠ 0 → e.m_prevFrameData.length = e.m_height * src.rowstride) :
    ∃ e2, e.writeFrame src = some e2 ∧ e2.m_width = e.m_width ∧ e2.m_height = e.m_height ∧
      e2.Retains src := by
  obtain ⟨e2, he, hw2, hh2, hcm, hdata⟩ := writeFrame_retained e src hok hpx
  refine ⟨e2, he, hw2, hh2, ?_, ?_, ?_⟩
  · rw [hdata, hh2]
    by_cases h0 : e.m_frameCount = 0
    · rw [if_pos h0, Nat.mod_eq_of_lt hsz]
      simp
    · rw [if_neg h0]
      exact (lcRetained_spec _ _ _ _ hw hsz (hprev h0)).1
  · intro x y hx hy
    rw [hw2] at hx
    rw [hh2] at hy
    rw [hdata]
    by_cases h0 : e.m_frameCount = 0
    · rw [if_pos h0, Nat.mod_eq_of_lt hsz]
      have hi := idx_lt y e.m_height x src.rowstride hy (by omega)
      rw [List.getD_eq_getElem _ _ (by simp; exact hi)]
      simp
    · rw [if_neg h0]
      exact (lcRetained_spec _ _ _ _ hw hsz (hprev h0)).2 y x hy hx
  · intro i hi
    rw [hcm]
    by_cases hc : e.m_frameCount = 0 ∨ Colormap.eq e.m_prevColormap src.colormap = false
    · rw [if_pos hc]
    · rw [if_neg hc]
      have heq : Colormap.eq e.m_prevColormap src.colormap = true := by
        cases hq : Colormap.eq e.m_prevColormap src.colormap
        · exact absurd (Or.inr hq) hc
        · rfl
      exact colormap_eq_true _ _ heq i hi

/-- After a run of `writeFrame` calls with frames of one row stride the
encoder retains the last frame. -/
theorem writeFrames_retains (rs : Nat) : ∀ (frs : List Frame) (e : Encoder),
    e.m_file.ok = true → (∀ fr ∈ frs, fr.Bytes ∧ fr.rowstride = rs) →
    e.m_width ≤ rs → e.m_height * rs < 4294967296 →
    0 ≤ e.m_frameCount → e.m_frameCount + frs.length < 2147483648 →
    (e.m_frameCount ≠ 0 → e.m_prevFrameData.length = e.m_height * rs) →
    ∃ ek, e.writeFrames frs = some ek ∧ ek.m_width = e.m_width ∧ ek.m_height = e.m_height ∧
      ∀ last, frs.getLast? = some last → ek.Retains last
  | [], e, _, _, _, _, _, _, _ => ⟨e, rfl, rfl, rfl, fun _ h => by simp at h⟩
  | fr :: rest, e, hok, hall, hw, hsz, hc0, hc1, hprev => by
    obtain ⟨hfb, hfr⟩ := hall fr (List.mem_cons_self _ _)
    rw [List.length_cons] at hc1
    push_cast at hc1
    obtain ⟨e2, he, hw2, hh2, hret⟩ := writeFrame_retains e fr hok hfb (by rw [hfr]; exact hw)
      (by rw [hfr]; exact hsz) (by rw [hfr]; exact hprev)
    obtain ⟨e3, he3, hok3, _, hc3, _⟩ := writeFrame_total e fr hok hfb
    rw [he] at he3
    cases he3
    rw [wrapInt32_id _ (by omega) (by omega)] at hc3
    have hstep : e.writeFrames (fr :: rest) = e2.writeFrames rest := by
      show (match e.writeFrame fr with
        | none => none
        | some e2 => e2.writeFrames rest) = e2.writeFrames rest
      rw [he]
    rw [hstep]
    cases rest with
    | nil =>
      refine ⟨e2, rfl, hw2, hh2, ?_⟩
      intro last hl
      simp only [List.getLast?_singleton, Option.some.injEq] at hl
      rw [← hl]
      exact hret
    | cons r rest2 =>
      obtain ⟨ek, hek, hwk, hhk, hlast⟩ := writeFrames_retains rs (r :: rest2) e2 hok3
        (fun f hf => hall f (List.mem_cons_of_mem _ hf)) (by rw [hw2]; exact hw)
        (by rw [hh2]; exact hsz) (by omega) (by rw [hc3]; omega)
        (fun _ => by rw [hret.1, hfr])
      refine ⟨ek, hek, by rw [hwk, hw2], by rw [hhk, hh2], ?_⟩
      intro last hl
      rw [List.getLast?_cons_cons] at hl
      exact hlast last hl

theorem pxBytes_append (fr : Frame) : ∀ (a b it : Nat),
    pxBytes fr (a + b) it = pxBytes fr a it ++ pxBytes fr b (it + a)
  | 0, b, it => by simp [pxBytes]
  | a + 1, b, it => by
    have e : a + 1 + b = (a + b) + 1 := by omega
    rw [e]
    simp only [pxBytes, List.cons_append]
    rw [pxBytes_append fr a b (it + 1)]
    have e2 : it + 1 + a = it + (a + 1) := by omega
    rw [e2]

theorem pxBytes_const (fr : Frame) (v : Nat) : ∀ (c it : Nat),
    (∀ j, j < c → fr.px (it + j) = v) → pxBytes fr c it = List.replicate c (v % 256)
  | 0, _, _ => rfl
  | c + 1, it, h => by
    simp only [pxBytes, List.replicate_succ]
    have h0 := h 0 (by omega)
    rw [Nat.add_zero] at h0
    rw [h0, pxBytes_const fr v c (it + 1) (fun j hj => by
      have := h (j + 1) (by omega)
      have e : it + (j + 1) = it + 1 + j := by omega
      rw [e] at this
      exact this)]

/-- The packets of the pixel loop of `writeBrunLineChunk`. -/
theorem brunLineLoop_packets (w : Nat) (src : Frame) (sbase : Nat) (hpx : src.Bytes) :
    ∀ (fuel x np : Nat) (f : File), w - x ≤ fuel → f.ok = true →
    ∃ f2 ps, brunLineLoop w src sbase fuel x np f = some (np + ps.length, f2) ∧
      FW f f2 (brunPacketsBytes ps) ∧ (∀ p ∈ ps, p.WellFormed) ∧
      brunPacketsLen ps = w - x ∧
      brunPacketsPixels ps = pxBytes src (w - x) (sbase + x) := by
  intro fuel
  induction fuel with
  | zero =>
    intro x np f hf hok
    have hz : w - x = 0 := by omega
    refine ⟨f, [], ?_, FW_refl f hok, fun p hp => by simp at hp, by rw [hz]; rfl,
      by rw [hz]; rfl⟩
    unfold brunLineLoop; rw [if_neg (by omega)]; rfl
  | succ fuel ih =>
    intro x np f hf hok
    by_cases hx : x < w
    · rw [brunLineLoop_succ, if_pos hx]
      obtain ⟨win, hwin⟩ : ∃ win, win = window src.pixels (sbase + x) (w - x) := ⟨_, rfl⟩
      have hwl : win.length ≤ w - x := by rw [hwin, window_length]; omega
      have hwg : ∀ j, j < w - x → win.getD j 0 = src.px (sbase + x + j) := by
        intro j hj; rw [hwin, window_getD _ _ _ _ hj]; rfl
      rw [← hwin]
      obtain ⟨c, hc⟩ : ∃ c, c = (if count_consecutive_values win > 127 then 127
          else count_consecutive_values win) := ⟨_, rfl⟩
      rw [← hc]
      have hccv := ccv_le_length win
      by_cases hc4 : c ≥ 4
      · rw [if_pos hc4]
        have hcl : c ≤ w - x := by rw [hc]; split <;> omega
        have hc127 : c ≤ 127 := by rw [hc]; split <;> omega
        have hcc : c ≤ count_consecutive_values win := by rw [hc]; split <;> omega
        have hv := px_lt src hpx (sbase + x)
        have h1 := FW_write8 f c hok
        have h2 := FW_write8 _ (src.px (sbase + x)) h1.1
        obtain ⟨f2, ps, he, hfw, hwf, hlen, hpix⟩ := ih (x + c) (np + 1) _ (by omega) h2.1
        have hfw2 := FW_trans (FW_trans h1 h2) hfw
        have e1 : c % 256 = c := by omega
        have e2 : src.px (sbase + x) % 256 = src.px (sbase + x) := by omega
        rw [e1, e2] at hfw2
        refine ⟨f2, BrunPacket.rep c (src.px (sbase + x)) :: ps, ?_, hfw2, ?_, ?_, ?_⟩
        · rw [he, List.length_cons]
          congr 2
          omega
        · intro p hp
          rcases List.mem_cons.mp hp with h | h
          · rw [h]; exact ⟨hc4, hc127, hv⟩
          · exact hwf p h
        · show c + brunPacketsLen ps = w - x
          rw [hlen]; omega
        · show List.replicate c (src.px (sbase + x)) ++ brunPacketsPixels ps =
            pxBytes src (w - x) (sbase + x)
          have e3 : w - x = c + (w - (x + c)) := by omega
          have e4 : sbase + (x + c) = sbase + x + c := by omega
          rw [hpix, e3, pxBytes_append, e4]
          congr 1
          · rw [pxBytes_const src (src.px (sbase + x)) c (sbase + x) (fun j hj => by
              have hj2 : j < count_consecutive_values win := by omega
              have q := ccv_equal win j hj2
              rw [hwg _ (by omega), hwg 0 (by omega), Nat.add_zero] at q
              exact q), e2]
      · rw [if_neg hc4]
        obtain ⟨r, hr⟩ : ∃ r, r = cutRemain 4 (count_max_consecutive_values win)
            (if w - x > 128 then 128 else w - x) := ⟨_, rfl⟩
        rw [← hr]
        have hm : (if w - x > 128 then 128 else w - x) ≤ 128 ∧
            (if w - x > 128 then 128 else w - x) ≤ w - x ∧
            0 < (if w - x > 128 then 128 else w - x) := by split <;> omega
        have hrle : r ≤ (if w - x > 128 then 128 else w - x) := by
          rw [hr]; exact cutRemain_le _ _ _
        have hccv4 : count_consecutive_values win < 4 := by
          have : c < 4 := by omega
          rw [hc] at this
          split at this <;> omega
        have hrpos : 0 < r := by
          rw [hr]
          apply cutRemain_pos _ _ _ _ hm.2.2
          intro hge hst
          have := cmcv_start win hst
          omega
        have h1 := FW_write8 f (u8 (-(r : Int))) hok
        have h2 := writePixels_FW src r (sbase + x) _ h1.1
        obtain ⟨f2, ps, he, hfw, hwf, hlen, hpix⟩ := ih (x + r) (np + 1) _ (by omega) h2.1
        have hfw2 := FW_trans (FW_trans h1 h2) hfw
        have e1 : u8 (-(r : Int)) % 256 = 256 - r := by
          rw [u8_neg r hrpos (by omega)]; omega
        rw [e1] at hfw2
        have hl := pxBytes_length src r (sbase + x)
        refine ⟨f2, BrunPacket.lit (pxBytes src r (sbase + x)) :: ps, ?_, ?_, ?_, ?_, ?_⟩
        · rw [he, List.length_cons]
          congr 2
          omega
        · show FW f f2 (((256 - (pxBytes src r (sbase + x)).length) :: pxBytes src r (sbase + x))
            ++ brunPacketsBytes ps)
          rw [hl]
          simp only [List.singleton_append, List.cons_append] at hfw2 ⊢
          exact hfw2
        · intro p hp
          rcases List.mem_cons.mp hp with h | h
          · rw [h]
            show 1 ≤ (pxBytes src r (sbase + x)).length ∧ (pxBytes src r (sbase + x)).length ≤ 128
            rw [hl]; omega
          · exact hwf p h
        · show (pxBytes src r (sbase + x)).length + brunPacketsLen ps = w - x
          rw [hl, hlen]; omega
        · show pxBytes src r (sbase + x) ++ brunPacketsPixels ps =
            pxBytes src (w - x) (sbase + x)
          have e3 : w - x = r + (w - (x + r)) := by omega
          have e4 : sbase + (x + r) = sbase + x + r := by omega
          rw [hpix, e3, pxBytes_append, e4]
    · have hz : w - x = 0 := by omega
      refine ⟨f, [], ?_, FW_refl f hok, fun p hp => by simp at hp, by rw [hz]; rfl,
        by rw [hz]; rfl⟩
      rw [brunLineLoop_succ, if_neg hx]; rfl

set_option maxRecDepth 100000 in
/-- C1 fails on the code at the second frame of a 1x1 animation whose frames
have the same pixel and colormaps that differ at index 1 only: `writeFrame`
emits a colormap chunk that announces one colour and stores none, and
`readFrame` takes the three colour bytes from the header of the next chunk, so
the decoded entry 1 is `(10, 0, 0)` where the encoded frame has `(1, 2, 3)`. -/
theorem two_frame_roundtrip_fails :
    (exEncoderAfterFrame0.writeFrame exFrameChanged).map (fun e => e.m_file.data) =
      some exSecondFrameBytes ∧
    ((exDecoderAfterFrame0 exSecondFrameBytes).readFrame exFrameBlack).map
      (fun r => (r.1, r.2.2.pixels, r.2.2.colormap 1)) =
      some (true, [5], { r := 10, g := 0, b := 0 }) ∧
    exFrameChanged.colormap 1 = { r := 1, g := 2, b := 3 } := by
  decide

/-- C2: first-frame round trip.  For every width and height in 1..65535,
every source frame of byte pixels with `rowstride >= width` and a buffer of
`rowstride*height` bytes, and every colormap of byte channels: `writeHeader`,
`writeFrame` (as frame 0) and finalization on an ok stream at position 0
succeed, and on the resulting stream `readHeader` returns true with the same
width and height (and frame count 1) and `readFrame`, into any buffer with
`rowstride >= width` and `rowstride*height` bytes below `2^32`, returns true
with every pixel `(x, y)`, `x < width`, `y < height`, and all 256 colormap
entries equal to those of the encoded frame, without any out-of-bounds
write. -/
theorem first_frame_roundtrip (f0 : File) (header header0 : Header) (src dst : Frame)
    (hok : f0.ok = true) (hpos : f0.pos = 0)
    (hw : 1 ≤ header.width ∧ header.width ≤ 65535)
    (hh : 1 ≤ header.height ∧ header.height ≤ 65535)
    (_hsw : header.width ≤ src.rowstride)
    (_hsl : src.pixels.length = src.rowstride * header.height)
    (hpx : src.Bytes) (hcm : src.colormap.Bytes)
    (hdw : header.width ≤ dst.rowstride)
    (hdl : dst.pixels.length = dst.rowstride * header.height)
    (hdn : dst.rowstride * header.height < 4294967296) :
    ∃ e, ((Encoder.new f0).writeHeader header).writeFrame src = some e ∧
      ((Decoder.new (e.destroy.seek 0)).readHeader header0).1 = true ∧
      ((Decoder.new (e.destroy.seek 0)).readHeader header0).2.1.width = header.width ∧
      ((Decoder.new (e.destroy.seek 0)).readHeader header0).2.1.height = header.height ∧
      ((Decoder.new (e.destroy.seek 0)).readHeader header0).2.1.frames = 1 ∧
      ∃ d2 dst2,
        ((Decoder.new (e.destroy.seek 0)).readHeader header0).2.2.readFrame dst =
          some (true, d2, dst2) ∧
        (∀ x y, x < header.width → y < header.height → dst2.pixelAt x y = src.pixelAt x y) ∧
        (∀ k, k < 256 → dst2.colormap k = src.colormap k) ∧
        dst2.oob = dst.oob ∧ dst2.pixels.length = dst.pixels.length :=
  first_frame_pipeline f0 header header0 src dst hok hpos hw hh hpx hcm hdw hdl hdn

set_option maxRecDepth 8192 in
theorem first_frame_roundtrip_witness :
    (emptyFile.ok = true ∧ emptyFile.pos = 0 ∧
      (1 ≤ exHeader10.width ∧ exHeader10.width ≤ 65535) ∧
      (1 ≤ exHeader10.height ∧ exHeader10.height ≤ 65535) ∧
      exHeader10.width ≤ exFrame10.rowstride ∧
      exFrame10.pixels.length = exFrame10.rowstride * exHeader10.height ∧
      exFrame10.Bytes ∧ exFrame10.colormap.Bytes ∧
      exHeader10.width ≤ exBuffer10.rowstride ∧
      exBuffer10.pixels.length = exBuffer10.rowstride * exHeader10.height ∧
      exBuffer10.rowstride * exHeader10.height < 4294967296) ∧
    ∃ e, ((Encoder.new emptyFile).writeHeader exHeader10).writeFrame exFrame10 = some e ∧
      ((Decoder.new (e.destroy.seek 0)).readHeader exHeader).1 = true ∧
      ((Decoder.new (e.destroy.seek 0)).readHeader exHeader).2.1.width = exHeader10.width ∧
      ((Decoder.new (e.destroy.seek 0)).readHeader exHeader).2.1.height = exHeader10.height ∧
      ((Decoder.new (e.destroy.seek 0)).readHeader exHeader).2.1.frames = 1 ∧
      ∃ d2 dst2,
        ((Decoder.new (e.destroy.seek 0)).readHeader exHeader).2.2.readFrame exBuffer10 =
          some (true, d2, dst2) ∧
        (∀ x y, x < exHeader10.width → y < exHeader10.height →
          dst2.pixelAt x y = exFrame10.pixelAt x y) ∧
        (∀ k, k < 256 → dst2.colormap k = exFrame10.colormap k) ∧
        dst2.oob = exBuffer10.oob ∧ dst2.pixels.length = exBuffer10.pixels.length :=
  ⟨⟨by decide, by decide, by decide, by decide, by decide, by decide,
    by unfold Frame.Bytes; decide, by unfold Colormap.Bytes; decide, by decide, by decide,
    by decide⟩,
   first_frame_roundtrip emptyFile exHeader10 exHeader exFrame10 exBuffer10 (by decide)
     (by decide) (by decide) (by decide) (by decide) (by decide)
     (by unfold Frame.Bytes; decide) (by unfold Colormap.Bytes; decide) (by decide) (by decide)
     (by decide)⟩

/-- C3: intraframe RLE (BRUN) scanline round trip.  For every width, row of
byte pixels and ok stream, `writeBrunLineChunk` returns and emits bytes `bs`
(the packet count byte followed by the packets) at the position of the
stream; one row iteration of `readBrunChunk` with the same width, on any ok
stream holding `bs` at its position, consumes exactly `bs` and writes exactly
the `w` pixels of the source row into the destination row, changing nothing
else and raising no out-of-bounds flag. -/
theorem brun_line_roundtrip (w : Nat) (src : Frame) (y : Nat) (f : File)
    (hok : f.ok = true) (hpx : src.Bytes) (_hsrc : src.rowOff y + w ≤ src.pixels.length) :
    ∃ f2 bs, writeBrunLineChunk w src y f = some f2 ∧
      f2.ok = true ∧ f2.pos = f.pos + bs.length ∧ HoldsAt f2.data f.pos bs ∧
      ∀ (s : File) (dst : Frame) (y2 : Nat),
        s.ok = true → HoldsAt s.data s.pos bs → dst.rowOff y2 + w ≤ dst.pixels.length →
        ∃ dst2, readBrunRow w y2 s dst = some ({ s with pos := s.pos + bs.length }, dst2) ∧
          dst2.pixels.length = dst.pixels.length ∧ dst2.oob = dst.oob ∧
          (∀ x, x < w → dst2.px (dst.rowOff y2 + x) = src.px (src.rowOff y + x)) ∧
          (∀ i, ¬(dst.rowOff y2 ≤ i ∧ i < dst.rowOff y2 + w) → dst2.px i = dst.px i) := by
  obtain ⟨f2, bs, he, hfw, hne, hcode⟩ := writeBrunLineChunk_code w src y f hok hpx
  refine ⟨f2, bs, he, hfw.1, hfw.2.1, holdsAt_of_wrote hfw.2.2 hne, ?_⟩
  intro s dst y2 hsok hh hfit
  obtain ⟨dst2, hd, hl, _, _, ho, hp⟩ := hcode s dst y2 hsok hh hfit
  refine ⟨dst2, hd, hl, ho, ?_, ?_⟩
  · intro x hx
    rw [hp, if_pos (by omega)]
    congr 1
    omega
  · intro i hi
    rw [hp, if_neg (by omega)]

theorem brun_line_roundtrip_witness :
    (emptyFile.ok = true ∧ exRowFrame.Bytes ∧
      exRowFrame.rowOff 0 + 8 ≤ exRowFrame.pixels.length) ∧
    ∃ f2 bs, writeBrunLineChunk 8 exRowFrame 0 emptyFile = some f2 ∧
      f2.ok = true ∧ f2.pos = emptyFile.pos + bs.length ∧ HoldsAt f2.data emptyFile.pos bs ∧
      ∀ (s : File) (dst : Frame) (y2 : Nat),
        s.ok = true → HoldsAt s.data s.pos bs → dst.rowOff y2 + 8 ≤ dst.pixels.length →
        ∃ dst2, readBrunRow 8 y2 s dst = some ({ s with pos := s.pos + bs.length }, dst2) ∧
          dst2.pixels.length = dst.pixels.length ∧ dst2.oob = dst.oob ∧
          (∀ x, x < 8 → dst2.px (dst.rowOff y2 + x) = exRowFrame.px (exRowFrame.rowOff 0 + x)) ∧
          (∀ i, ¬(dst.rowOff y2 ≤ i ∧ i < dst.rowOff y2 + 8) → dst2.px i = dst.px i) :=
  ⟨⟨by decide, by unfold Frame.Bytes; decide, by decide⟩,
   brun_line_roundtrip 8 exRowFrame 0 emptyFile (by decide) (by unfold Frame.Bytes; decide)
     (by decide)⟩

/-- C4, as stated, fails: for the width 65027 and the height 1, the snapshot
all zero and the new frame zero except for the last pixel, which is 9, the
line needs 256 packets (255 fillers that skip 255 pixels each and the packet
of the last pixel), `writeLcLineChunk` stores the packet count 255, and
`readLcChunk`, run on the payload of the emitted chunk with a buffer that
holds the snapshot, leaves 0 at the last pixel instead of 9. -/
theorem lc_roundtrip_counterexample :
    (∀ x, x < 65027 → (lcFarOld 65026).pixelAt x 0 =
      (lcFarEncoder 65026).m_prevFrameData.getD ((lcFarNew 65026).rowOff 0 + x) 0) ∧
    lcPacketCount 65027 (lcFarEncoder 65026).m_prevFrameData (lcFarNew 65026) 0 = 256 ∧
    ∃ e2, (lcFarEncoder 65026).writeLcChunk (lcFarNew 65026) = some e2 ∧
      (readLcChunk 65027 1 { data := e2.m_file.data, pos := 6, ok := true }
        (lcFarOld 65026)).2.pixelAt 65026 0 = 0 ∧
      (lcFarNew 65026).pixelAt 65026 0 = 9 :=
  lcFar_fails 65026 65027 rfl rfl

/-- C4, amended: interframe line-change (LC) round trip under two
restrictions.  For every width of at least 1, height of at most 65535,
snapshot and new frame of byte pixels such that no line needs more than 255
packets, `writeLcChunk` returns, and `readLcChunk`, run on the payload of the
emitted chunk with a buffer of less than 2^32 bytes that holds the snapshot,
leaves the new frame at every pixel `(x, y)` with `x < width`, `y < height`,
with the buffer length kept and no out-of-bounds write. -/
theorem lc_roundtrip (e : Encoder) (src dst : Frame)
    (hok : e.m_file.ok = true) (hw : 1 ≤ e.m_width) (hh : e.m_height ≤ 65535)
    (hpx : src.Bytes)
    (hcnt : ∀ y, y < e.m_height → lcPacketCount e.m_width e.m_prevFrameData src y ≤ 255)
    (hdw : e.m_width ≤ dst.rowstride)
    (hdl : dst.pixels.length = dst.rowstride * e.m_height)
    (hdn : dst.rowstride * e.m_height < 4294967296)
    (hold : ∀ y, y < e.m_height → ∀ x, x < e.m_width →
      dst.pixelAt x y = e.m_prevFrameData.getD (src.rowOff y + x) 0) :
    ∃ e2, e.writeLcChunk src = some e2 ∧
      (readLcChunk e.m_width e.m_height
        { data := e2.m_file.data, pos := e.m_file.pos + 6, ok := true } dst).2.pixels.length =
          dst.pixels.length ∧
      (readLcChunk e.m_width e.m_height
        { data := e2.m_file.data, pos := e.m_file.pos + 6, ok := true } dst).2.oob = dst.oob ∧
      ∀ y, y < e.m_height → ∀ x, x < e.m_width →
        (readLcChunk e.m_width e.m_height
          { data := e2.m_file.data, pos := e.m_file.pos + 6, ok := true } dst).2.pixelAt x y =
          src.pixelAt x y := by
  obtain ⟨e2, size, sl, nl, bs, he, _, hwr, hsl, hcode, hout⟩ :=
    writeLcChunk_code e src hok hpx hw hcnt
  refine ⟨e2, he, ?_⟩
  have hh0 := holdsAt_of_wrote hwr (by simp [le32])
  obtain ⟨_, hh1⟩ := holdsAt_append hh0
  obtain ⟨_, hh2⟩ := holdsAt_append hh1
  simp only [le32, le16, List.length_cons, List.length_nil] at hh2
  have ep : e.m_file.pos + (0 + 1 + 1 + 1 + 1) + (0 + 1 + 1) = e.m_file.pos + 6 := by omega
  rw [ep] at hh2
  obtain ⟨hr1, hh3⟩ := read16_holds { data := e2.m_file.data, pos := e.m_file.pos + 6, ok := true }
    sl _ rfl hh2
  obtain ⟨hr2, hh4⟩ := read16_holds
    { data := e2.m_file.data, pos := e.m_file.pos + 6 + 2, ok := true } nl _ rfl hh3
  have esl : sl % 65536 = sl := by omega
  have enl : nl % 65536 = nl := by omega
  have hmul : e.m_height * dst.rowstride = dst.rowstride * e.m_height := Nat.mul_comm _ _
  have hro : ∀ y, y < e.m_height → dst.rowOff y = y * dst.rowstride := by
    intro y hy
    exact rowOff_eq dst y e.m_height (by omega) hy
  obtain ⟨dst2, hd, hl2, hrs2, _, ho2, hp2, hq2⟩ := hcode
    { data := e2.m_file.data, pos := e.m_file.pos + 6 + 2 + 2, ok := true } dst rfl hh4 hdw
    (by omega) (by omega)
    (by
      intro y2 x h1 h2 hx
      have := hold y2 (by omega) x hx
      unfold Frame.pixelAt at this
      rw [hro y2 (by omega)] at this
      exact this)
  have hres : readLcChunk e.m_width e.m_height
      { data := e2.m_file.data, pos := e.m_file.pos + 6, ok := true } dst =
      ({ data := e2.m_file.data, pos := e.m_file.pos + 6 + 2 + 2 + bs.length, ok := true },
        dst2) := by
    unfold readLcChunk
    rw [hr1]
    simp only []
    rw [hr2]
    simp only [esl, enl]
    rw [hd]
  rw [hres]
  refine ⟨hl2, ho2, ?_⟩
  intro y hy x hx
  unfold Frame.pixelAt
  have hro2 : dst2.rowOff y = y * dst.rowstride := by
    have := hro y hy
    unfold Frame.rowOff at this ⊢
    rw [hrs2]
    exact this
  simp only []
  rw [hro2]
  by_cases hin : sl ≤ y ∧ y < sl + nl
  · exact hp2 y x hin.1 hin.2 hx
  · have hi : y * dst.rowstride + x < sl * dst.rowstride ∨
        (sl + nl) * dst.rowstride ≤ y * dst.rowstride + x := by
      by_cases hlt : y < sl
      · left
        have h1 : (y + 1) * dst.rowstride ≤ sl * dst.rowstride := Nat.mul_le_mul_right _ hlt
        rw [Nat.add_mul] at h1
        omega
      · right
        have h1 : (sl + nl) * dst.rowstride ≤ y * dst.rowstride :=
          Nat.mul_le_mul_right _ (by omega)
        omega
    rw [hq2 _ hi]
    have := hold y hy x hx
    unfold Frame.pixelAt at this
    rw [hro y hy] at this
    rw [this]
    exact hout y x hy (by omega) hx

set_option maxRecDepth 8192 in
theorem lc_roundtrip_witness :
    (exLcEncoder.m_file.ok = true ∧ 1 ≤ exLcEncoder.m_width ∧ exLcEncoder.m_height ≤ 65535 ∧
      exLcNew.Bytes ∧
      (∀ y, y < exLcEncoder.m_height →
        lcPacketCount exLcEncoder.m_width exLcEncoder.m_prevFrameData exLcNew y ≤ 255) ∧
      exLcEncoder.m_width ≤ exLcOld.rowstride ∧
      exLcOld.pixels.length = exLcOld.rowstride * exLcEncoder.m_height ∧
      exLcOld.rowstride * exLcEncoder.m_height < 4294967296 ∧
      (∀ y, y < exLcEncoder.m_height → ∀ x, x < exLcEncoder.m_width →
        exLcOld.pixelAt x y = exLcEncoder.m_prevFrameData.getD (exLcNew.rowOff y + x) 0)) ∧
    ∃ e2, exLcEncoder.writeLcChunk exLcNew = some e2 ∧
      (readLcChunk exLcEncoder.m_width exLcEncoder.m_height
        { data := e2.m_file.data, pos := exLcEncoder.m_file.pos + 6, ok := true }
          exLcOld).2.pixels.length = exLcOld.pixels.length ∧
      (readLcChunk exLcEncoder.m_width exLcEncoder.m_height
        { data := e2.m_file.data, pos := exLcEncoder.m_file.pos + 6, ok := true }
          exLcOld).2.oob = exLcOld.oob ∧
      ∀ y, y < exLcEncoder.m_height → ∀ x, x < exLcEncoder.m_width →
        (readLcChunk exLcEncoder.m_width exLcEncoder.m_height
          { data := e2.m_file.data, pos := exLcEncoder.m_file.pos + 6, ok := true }
            exLcOld).2.pixelAt x y = exLcNew.pixelAt x y :=
  ⟨⟨by decide, by decide, by decide, by unfold Frame.Bytes; decide, by decide, by decide,
      by decide, by decide, by decide⟩,
   lc_roundtrip exLcEncoder exLcNew exLcOld (by decide) (by decide) (by decide)
     (by unfold Frame.Bytes; decide) (by decide) (by decide) (by decide) (by decide)
     (by decide)⟩

set_option maxRecDepth 100000 in
/-- C5 fails on the code: with the previous colormap all black and the new
colormap differing at index 1 only, `writeColorChunk` on a non-first frame
emits the chunk header and one packet with skip 1 and count 1 but no colour
bytes (its colour loop runs `for (j=i; j<ncolors; ++j)`), so `readColorChunk`,
started on the black colormap, leaves entry 1 at `(0, 0, 0)` where the new
colormap has `(1, 2, 3)`. -/
theorem colormap_chunk_roundtrip_fails :
    (exEncoderAfterFrame0.writeColorChunk exFrameChanged).map (fun e => e.m_file.data) =
      some [10, 0, 0, 0, 4, 0, 1, 0, 1, 1] ∧
    (readColorChunk false { data := [10, 0, 0, 0, 4, 0, 1, 0, 1, 1], pos := 6, ok := true }
      exFrameBlack).2.colormap 1 = { r := 0, g := 0, b := 0 } ∧
    exFrameChanged.colormap 1 = { r := 1, g := 2, b := 3 } ∧
    (readColorChunk false { data := [10, 0, 0, 0, 4, 0, 1, 0, 1, 1], pos := 6, ok := true }
      exFrameBlack).2.colormap 1 ≠ exFrameChanged.colormap 1 := by
  decide

/-- C6, as stated, fails for `readDeltaChunk`.  Width 1, height 1, a buffer of
one byte with row stride 1, and the payload of `deltaWrapStream 131071`: the
line count 1, then 131072 control words `0xC000`, each adding 16384 to the
`int` line counter `y`, which reaches 2^31 and wraps to -2^31; the test
`y >= m_height` before the packets does not stop a negative `y`, and the one
packet that follows stores its first colour at the offset
`uint32_t(y) * rowstride + 0 = 2^31`, outside the buffer: the out-of-range
branch of the index-checked write is taken. -/
theorem readDeltaChunk_out_of_bounds :
    1 ≤ exFrameBlack.rowstride ∧
    exFrameBlack.pixels.length = exFrameBlack.rowstride * 1 ∧
    exFrameBlack.oob = false ∧
    (readDeltaChunk 1 1 (deltaWrapStream 131071) exFrameBlack).map (fun r => r.2.oob) =
      some true :=
  ⟨by decide, by decide, rfl, deltaWrap_oob 131071 rfl exFrameBlack rfl rfl⟩

/-- C7: resynchronisation.  After `readChunk` the stream position is
`(chunkStart + declaredSize) mod 2^32`, whatever the chunk decoder consumed;
`readFrame` runs the chunk loop exactly the declared number of times, ends at
`(frameStart + declaredFrameSize) mod 2^32`, increments the frame counter by
one and returns true.  The frame counter is an `int` below its maximum. -/
theorem readChunk_readFrame_resync (d : Decoder) (fr : Frame)
    (hlo : -2147483648 ≤ d.m_frameCount) (hhi : d.m_frameCount < 2147483647) :
    (∃ r, d.readChunk fr = some r ∧
      r.1.m_file.pos = (d.m_file.pos + (read32 d.m_file).1) % 4294967296) ∧
    (∃ r, Decoder.readChunks (read16 (read16 (read32 d.seekAnchor).2).2).1
          { d with m_file := skip8 (read16 (read16 (read32 d.seekAnchor).2).2).2 } fr = some r ∧
      ∃ d2, d.readFrame fr = some (true, d2, r.2) ∧
        d2.m_file.pos = (d.seekAnchor.pos + (read32 d.seekAnchor).1) % 4294967296 ∧
        d2.m_frameCount = d.m_frameCount + 1) := by
  constructor
  · obtain ⟨r, hr, hp, _⟩ := readChunk_some d fr
    exact ⟨r, hr, hp⟩
  · obtain ⟨r, hr, hc⟩ := readChunks_some (read16 (read16 (read32 d.seekAnchor).2).2).1
      { d with m_file := skip8 (read16 (read16 (read32 d.seekAnchor).2).2).2 } fr
    refine ⟨r, hr, ?_⟩
    unfold Decoder.readFrame
    simp only [File.tell]
    rw [hr]
    refine ⟨_, rfl, ?_, ?_⟩
    · simp only [File.seek_pos]; omega
    · simp only [hc]
      exact wrapInt32_id _ (by omega) (by omega)

theorem readChunk_readFrame_resync_witness :
    (-2147483648 ≤ (Decoder.new exStream).m_frameCount ∧
      (Decoder.new exStream).m_frameCount < 2147483647) ∧
    ((∃ r, (Decoder.new exStream).readChunk exFrame = some r ∧
      r.1.m_file.pos =
        ((Decoder.new exStream).m_file.pos + (read32 (Decoder.new exStream).m_file).1) % 4294967296) ∧
    (∃ r, Decoder.readChunks
          (read16 (read16 (read32 (Decoder.new exStream).seekAnchor).2).2).1
          { Decoder.new exStream with
            m_file := skip8 (read16 (read16 (read32 (Decoder.new exStream).seekAnchor).2).2).2 }
          exFrame = some r ∧
      ∃ d2, (Decoder.new exStream).readFrame exFrame = some (true, d2, r.2) ∧
        d2.m_file.pos = ((Decoder.new exStream).seekAnchor.pos +
          (read32 (Decoder.new exStream).seekAnchor).1) % 4294967296 ∧
        d2.m_frameCount = (Decoder.new exStream).m_frameCount + 1)) :=
  ⟨⟨by decide, by decide⟩,
   readChunk_readFrame_resync (Decoder.new exStream) exFrame (by decide) (by decide)⟩

/-- C8: `readHeader` on a fresh stream returns true exactly when the
little-endian 16 bit value at bytes 4..5 is `0xAF11` or `0xAF12`; on success
the stream position is 128, and a stored width of 0 is reported as 320, a
stored height of 0 as 200, and nonzero stored values unchanged (the stored
width and height are bytes 8..9 and 10..11). -/
theorem readHeader_magic (d : Decoder) (header : Header)
    (hpos : d.m_file.pos = 0) (hok : d.m_file.ok = true) :
    ((d.readHeader header).1 = true ↔
      (le16At d.m_file.data 4 = 0xAF11 ∨ le16At d.m_file.data 4 = 0xAF12)) ∧
    ((d.readHeader header).1 = true →
      (d.readHeader header).2.2.m_file.pos = 128 ∧
      (12 ≤ d.m_file.data.length →
        (d.readHeader header).2.1.width =
          (if le16At d.m_file.data 8 = 0 then 320 else le16At d.m_file.data 8) ∧
        (d.readHeader header).2.1.height =
          (if le16At d.m_file.data 10 = 0 then 200 else le16At d.m_file.data 10))) := by
  obtain ⟨hiff, himp⟩ := readHeader_result d header
  obtain ⟨⟨data, pos, ok⟩, mw, mh, mc, o1, o2⟩ := d
  simp only at hpos hok hiff himp ⊢
  subst hpos hok
  constructor
  · rw [hiff]
    by_cases hlen : 6 ≤ data.length
    · simp (disch := omega) only [read32_mk, read16_mk, FLI_MAGIC_NUMBER, FLC_MAGIC_NUMBER]
    · have h0 : (read16 (read32 { data := data, pos := 0, ok := true }).2).1 = 0 := by
        by_cases h4 : 4 ≤ data.length
        · rw [read32_mk _ _ (by omega)]
          exact (read16_fail _ (by simp only [not_and]; intro _; omega)).1
        · have h5 := (read32_fail { data := data, pos := 0, ok := true }
            (by simp only [not_and]; intro _; omega)).2
          exact (read16_fail _ (by simp only [not_and]; intro hh; rw [h5] at hh; cases hh)).1
      rw [h0]
      have h1 := le16At_short data 4 0xAF11 (by omega) (by decide)
      have h2 := le16At_short data 4 0xAF12 (by omega) (by decide)
      simp only [FLI_MAGIC_NUMBER, FLC_MAGIC_NUMBER]
      constructor
      · intro h; rcases h with h | h <;> cases h
      · intro h; rcases h with h | h
        · exact absurd h h1
        · exact absurd h h2
  · intro ht
    obtain ⟨hp, hw, hh⟩ := himp ht
    refine ⟨hp, ?_⟩
    intro hlen
    rw [hw, hh]
    simp (disch := omega) only [read32_mk, read16_mk, and_self]

theorem readHeader_magic_witness :
    ((Decoder.new exHeaderStream).m_file.pos = 0 ∧ (Decoder.new exHeaderStream).m_file.ok = true) ∧
    (((Decoder.new exHeaderStream).readHeader exHeader).1 = true ↔
      (le16At (Decoder.new exHeaderStream).m_file.data 4 = 0xAF11 ∨
       le16At (Decoder.new exHeaderStream).m_file.data 4 = 0xAF12)) ∧
    (((Decoder.new exHeaderStream).readHeader exHeader).1 = true →
      ((Decoder.new exHeaderStream).readHeader exHeader).2.2.m_file.pos = 128 ∧
      (12 ≤ (Decoder.new exHeaderStream).m_file.data.length →
        ((Decoder.new exHeaderStream).readHeader exHeader).2.1.width =
          (if le16At (Decoder.new exHeaderStream).m_file.data 8 = 0 then 320
           else le16At (Decoder.new exHeaderStream).m_file.data 8) ∧
        ((Decoder.new exHeaderStream).readHeader exHeader).2.1.height =
          (if le16At (Decoder.new exHeaderStream).m_file.data 10 = 0 then 200
           else le16At (Decoder.new exHeaderStream).m_file.data 10))) :=
  ⟨⟨by decide, by decide⟩,
   readHeader_magic (Decoder.new exHeaderStream) exHeader (by decide) (by decide)⟩

/-- C9: speed normalisation in `readHeader`.  With the legacy magic `0xAF11`
and stored speed `s`, the decoded speed is 70 when `s = 0` and
`floor(1000*s/70)` when `s > 0` and `1000*s < 2^31`; with the magic `0xAF12`
the decoded speed is `s` unchanged. -/
theorem readHeader_speed (d : Decoder) (header : Header)
    (hpos : d.m_file.pos = 0) (hok : d.m_file.ok = true) (hlen : 20 ≤ d.m_file.data.length) :
    (le16At d.m_file.data 4 = 0xAF11 → storedSpeed d.m_file.data = 0 →
      (d.readHeader header).2.1.speed = 70) ∧
    (le16At d.m_file.data 4 = 0xAF11 → 0 < storedSpeed d.m_file.data →
      1000 * storedSpeed d.m_file.data < 2147483648 →
      (d.readHeader header).2.1.speed = 1000 * storedSpeed d.m_file.data / 70) ∧
    (le16At d.m_file.data 4 = 0xAF12 →
      (d.readHeader header).2.1.speed = storedSpeed d.m_file.data) := by
  obtain ⟨⟨data, pos, ok⟩, mw, mh, mc, o1, o2⟩ := d
  simp only at hpos hok hlen ⊢
  subst hpos hok
  unfold Decoder.readHeader storedSpeed
  simp (disch := omega) only [read32_mk, read16_mk, FLI_MAGIC_NUMBER, FLC_MAGIC_NUMBER,
    Nat.reduceAdd]
  refine ⟨?_, ?_, ?_⟩
  · intro hm hs
    simp [hm, hs]
  · intro hm hs hlt
    have hne : toInt32 (le32At data 16) ≠ 0 := by omega
    simp only [hm, hne, if_false, if_true, ne_eq, not_true_eq_false, false_and]
    rw [wrapInt32_id _ (by omega) (by omega)]
    exact Int.tdiv_eq_ediv (by omega) (by omega)
  · intro hm
    simp [hm]

theorem readHeader_speed_witness :
    ((Decoder.new exHeaderStream).m_file.pos = 0 ∧ (Decoder.new exHeaderStream).m_file.ok = true ∧
      20 ≤ (Decoder.new exHeaderStream).m_file.data.length) ∧
    (le16At (Decoder.new exHeaderStream).m_file.data 4 = 0xAF11 ∧
      0 < storedSpeed (Decoder.new exHeaderStream).m_file.data ∧
      1000 * storedSpeed (Decoder.new exHeaderStream).m_file.data < 2147483648) ∧
    ((Decoder.new exHeaderStream).readHeader exHeader).2.1.speed =
      1000 * storedSpeed (Decoder.new exHeaderStream).m_file.data / 70 ∧
    (le16At (Decoder.new exHeaderStreamFlc).m_file.data 4 = 0xAF12 ∧
      ((Decoder.new exHeaderStreamFlc).readHeader exHeader).2.1.speed =
        storedSpeed (Decoder.new exHeaderStreamFlc).m_file.data) :=
  ⟨⟨by decide, by decide, by decide⟩, ⟨by decide, by decide, by decide⟩,
   (readHeader_speed (Decoder.new exHeaderStream) exHeader (by decide) (by decide)
      (by decide)).2.1 (by decide) (by decide) (by decide),
   by decide,
   (readHeader_speed (Decoder.new exHeaderStreamFlc) exHeader (by decide) (by decide)
      (by decide)).2.2 (by decide)⟩

/-- C10, as stated, fails: the chunk at position 1 with declared size
`0xFFFFFFFF` and the unknown tag 99 leaves the stream at position 0, not at
`chunkStart + declaredSize = 4294967296`. -/
theorem readChunk_unknown_tag_counterexample :
    chunkTag exWrapDecoder.m_file = 99 ∧ chunkDeclaredSize exWrapDecoder.m_file = 4294967295 ∧
    (exWrapDecoder.readChunk exFrame).map (fun r => r.1.m_file.pos) = some 0 ∧
    (exWrapDecoder.readChunk exFrame).map (fun r => r.1.m_file.pos) ≠
      some (exWrapDecoder.m_file.pos + chunkDeclaredSize exWrapDecoder.m_file) := by
  decide

/-- C10, amended: for a chunk whose tag is none of 4, 7, 11, 12, 13, 15, 16,
`readChunk` returns, leaves the whole frame (pixel buffer and colormap) and
the bytes of the stream unchanged, keeps the stream ok when the six header
bytes are there, and moves the position to
`(chunkStart + declaredSize) mod 2^32`. -/
theorem readChunk_unknown_tag (d : Decoder) (fr : Frame)
    (htag : chunkTag d.m_file ∉ knownTags) :
    ∃ r, d.readChunk fr = some r ∧ r.2 = fr ∧
      r.1.m_file.data = d.m_file.data ∧
      r.1.m_file.pos = (d.m_file.pos + chunkDeclaredSize d.m_file) % 4294967296 ∧
      (d.m_file.ok = true → d.m_file.pos + 6 ≤ d.m_file.data.length → r.1.m_file.ok = true) := by
  unfold chunkTag knownTags at htag
  simp only [List.mem_cons, List.mem_singleton, List.not_mem_nil, or_false, not_or] at htag
  obtain ⟨h4, h7, h11, h12, h13, h15, h16⟩ := htag
  unfold Decoder.readChunk
  simp only [FLI_COLOR_256_CHUNK, FLI_DELTA_CHUNK, FLI_COLOR_64_CHUNK, FLI_LC_CHUNK,
    FLI_BLACK_CHUNK, FLI_BRUN_CHUNK, FLI_COPY_CHUNK, h4, h7, h11, h12, h13, h15, h16, if_false,
    File.tell, chunkDeclaredSize]
  refine ⟨_, rfl, rfl, by simp, by simp only [File.seek_pos]; omega, ?_⟩
  intro hok hlen
  obtain ⟨⟨data, pos, ok⟩, mw, mh, mc, o1, o2⟩ := d
  simp only at hok hlen ⊢
  subst hok
  simp (disch := omega) only [read32_mk, read16_mk, File.seek_ok]

theorem readChunk_unknown_tag_witness :
    chunkTag exWrapDecoder.m_file ∉ knownTags ∧
    ∃ r, exWrapDecoder.readChunk exFrame = some r ∧ r.2 = exFrame ∧
      r.1.m_file.data = exWrapDecoder.m_file.data ∧
      r.1.m_file.pos =
        (exWrapDecoder.m_file.pos + chunkDeclaredSize exWrapDecoder.m_file) % 4294967296 ∧
      (exWrapDecoder.m_file.ok = true →
        exWrapDecoder.m_file.pos + 6 ≤ exWrapDecoder.m_file.data.length → r.1.m_file.ok = true) :=
  ⟨by decide, readChunk_unknown_tag exWrapDecoder exFrame (by decide)⟩

/-- C11: chunk emission policy of `writeFrame`.  On an ok stream below 4 GiB
and for a frame of byte pixels, `writeFrame` returns and leaves at the
position `P` the stream had a frame record made of the 16 byte frame header
and the chunks `cs`, which end where the stream position is left.  The first
frame (frame counter 0) has exactly the two chunks colormap (tag 4) and BRUN
(tag 15), in this order; a later frame whose colormap equals the previously
written one has exactly one chunk, the line-change chunk (tag 12); a later
frame whose colormap differs has the colormap chunk followed by one
line-change chunk.  The magic field of the frame header (bytes `P+4..P+5`) is
`0xF1FA` and the chunk count field (bytes `P+6..P+7`) is the number of chunks
written. -/
theorem writeFrame_chunk_policy (e : Encoder) (src : Frame) (hok : e.m_file.ok = true)
    (hpos : e.m_file.pos < 4294967296) (hpx : src.Bytes) :
    ∃ e2 cs, e.writeFrame src = some e2 ∧
      FrameAt e2.m_file.data e.m_file.pos cs ∧
      e2.m_file.pos = e.m_file.pos + 16 + chunksSize cs ∧
      (e.m_frameCount = 0 → cs.map Prod.fst = [4, 15]) ∧
      (e.m_frameCount ≠ 0 → Colormap.eq e.m_prevColormap src.colormap = true →
        cs.map Prod.fst = [12]) ∧
      (e.m_frameCount ≠ 0 → Colormap.eq e.m_prevColormap src.colormap = false →
        cs.map Prod.fst = [4, 12]) ∧
      le16At e2.m_file.data (e.m_file.pos + 4) = 0xF1FA ∧
      le16At e2.m_file.data (e.m_file.pos + 6) = cs.length := by
  obtain ⟨e2, cs, he, _, htags, hfr, hp, _⟩ := writeFrame_layout e src hok hpos hpx
  have hlen : cs.length ≤ 2 := by
    have h := congrArg List.length htags
    rw [List.length_map] at h
    rw [h]
    unfold frameTags
    split
    · simp
    · split <;> simp
  have hhdr := holdsAt_append (holdsAt_append hfr.1).2
  have hmagic := holdsAt_le16At hhdr.1
  have hcount := holdsAt_le16At (holdsAt_append hhdr.2).1
  refine ⟨e2, cs, he, hfr, hp, ?_, ?_, ?_, ?_, ?_⟩
  · intro h0
    rw [htags]
    unfold frameTags
    rw [if_pos h0]
    rfl
  · intro h0 heq
    rw [htags]
    unfold frameTags
    rw [if_neg h0, if_pos heq]
    rfl
  · intro h0 hne
    rw [htags]
    unfold frameTags
    rw [if_neg h0, if_neg (by rw [hne]; simp)]
    rfl
  · have e0 : e.m_file.pos + (le32 (16 + chunksSize cs)).length = e.m_file.pos + 4 := rfl
    rw [e0] at hmagic
    rw [hmagic]
    rfl
  · have e1 : e.m_file.pos + (le32 (16 + chunksSize cs)).length +
        (le16 FLI_FRAME_MAGIC_NUMBER).length = e.m_file.pos + 6 := rfl
    rw [e1] at hcount
    rw [hcount]
    omega

theorem writeFrame_chunk_policy_witness :
    ((Encoder.new emptyFile).m_file.ok = true ∧ (Encoder.new emptyFile).m_file.pos < 4294967296 ∧
      exFrame.Bytes) ∧
    ∃ e2 cs, (Encoder.new emptyFile).writeFrame exFrame = some e2 ∧
      FrameAt e2.m_file.data (Encoder.new emptyFile).m_file.pos cs ∧
      e2.m_file.pos = (Encoder.new emptyFile).m_file.pos + 16 + chunksSize cs ∧
      ((Encoder.new emptyFile).m_frameCount = 0 → cs.map Prod.fst = [4, 15]) ∧
      ((Encoder.new emptyFile).m_frameCount ≠ 0 →
        Colormap.eq (Encoder.new emptyFile).m_prevColormap exFrame.colormap = true →
        cs.map Prod.fst = [12]) ∧
      ((Encoder.new emptyFile).m_frameCount ≠ 0 →
        Colormap.eq (Encoder.new emptyFile).m_prevColormap exFrame.colormap = false →
        cs.map Prod.fst = [4, 12]) ∧
      le16At e2.m_file.data ((Encoder.new emptyFile).m_file.pos + 4) = 0xF1FA ∧
      le16At e2.m_file.data ((Encoder.new emptyFile).m_file.pos + 6) = cs.length :=
  ⟨⟨by decide, by decide, by unfold Frame.Bytes; decide⟩,
   writeFrame_chunk_policy (Encoder.new emptyFile) exFrame (by decide) (by decide)
     (by unfold Frame.Bytes; decide)⟩

set_option maxRecDepth 100000 in
/-- C12 fails on the code: with the previous colormap all black and the new
colormap differing at the indices 10, 11 and 200, `writeColorChunk` on a
non-first frame emits two packets, but the first has skip 10 and count 3 (the
count loop adds every later differing index) and the second has skip 187 and
count 1, and neither is followed by any colour byte (the colour loop runs
`for (j=i; j<ncolors; ++j)`); the claim asks for skip 10, count 2 and two
triples, then skip 188, count 1 and one triple. -/
theorem colormap_chunk_packets_fail :
    (exEncoderAfterFrame0.writeColorChunk exFrameThree).map (fun e => e.m_file.data) =
      some [12, 0, 0, 0, 4, 0, 2, 0, 10, 3, 187, 1] ∧
    (exEncoderAfterFrame0.writeColorChunk exFrameThree).map (fun e => e.m_file.data) ≠
      some [24, 0, 0, 0, 4, 0, 2, 0, 10, 2, 1, 2, 3, 4, 5, 6, 188, 1, 7, 8, 9] := by
  decide

/-- C13: even-size invariant.  On an ok stream and for a frame of byte pixels,
each of `writeColorChunk`, `writeBrunChunk` and `writeLcChunk` returns, having
written at the chunk start `P` the four bytes of a size `size`, the two bytes
of its tag and a payload `bs`, that is `6 + bs.length` bytes, where `size` is
even, at least `6 + bs.length` and at most one more, and the stream is left at
`P + size`; the size field read back is `size` modulo `2^32` (`size` itself
for a chunk below 4 GiB) and is even.  With the stream below 4 GiB,
`writeFrame` returns and leaves at its start `P` a frame record with chunks
`cs` whose size field is `16 + chunksSize cs` modulo `2^32`, the 16 header
bytes plus the sizes recorded in the chunks, which is even, and the stream is
left at `P + 16 + chunksSize cs`. -/
theorem even_size_invariant (e : Encoder) (frame : Frame) (hok : e.m_file.ok = true)
    (hpos : e.m_file.pos < 4294967296) (hpx : frame.Bytes) :
    (∃ e2 bs size, e.writeColorChunk frame = some e2 ∧
      Wrote e.m_file.data e2.m_file.data e.m_file.pos (le32 size ++ (le16 4 ++ bs)) ∧
      le32At e2.m_file.data e.m_file.pos = size % 4294967296 ∧
      le32At e2.m_file.data e.m_file.pos % 2 = 0 ∧
      size % 2 = 0 ∧ 6 + bs.length ≤ size ∧ size ≤ 6 + bs.length + 1 ∧
      e2.m_file.pos = e.m_file.pos + size) ∧
    (∃ e2 bs size, e.writeBrunChunk frame = some e2 ∧
      Wrote e.m_file.data e2.m_file.data e.m_file.pos (le32 size ++ (le16 15 ++ bs)) ∧
      le32At e2.m_file.data e.m_file.pos = size % 4294967296 ∧
      le32At e2.m_file.data e.m_file.pos % 2 = 0 ∧
      size % 2 = 0 ∧ 6 + bs.length ≤ size ∧ size ≤ 6 + bs.length + 1 ∧
      e2.m_file.pos = e.m_file.pos + size) ∧
    (∃ e2 bs size, e.writeLcChunk frame = some e2 ∧
      Wrote e.m_file.data e2.m_file.data e.m_file.pos (le32 size ++ (le16 12 ++ bs)) ∧
      le32At e2.m_file.data e.m_file.pos = size % 4294967296 ∧
      le32At e2.m_file.data e.m_file.pos % 2 = 0 ∧
      size % 2 = 0 ∧ 6 + bs.length ≤ size ∧ size ≤ 6 + bs.length + 1 ∧
      e2.m_file.pos = e.m_file.pos + size) ∧
    (∃ e2 cs, e.writeFrame frame = some e2 ∧
      FrameAt e2.m_file.data e.m_file.pos cs ∧
      le32At e2.m_file.data e.m_file.pos = (16 + chunksSize cs) % 4294967296 ∧
      le32At e2.m_file.data e.m_file.pos % 2 = 0 ∧
      (16 + chunksSize cs) % 2 = 0 ∧
      e2.m_file.pos = e.m_file.pos + (16 + chunksSize cs)) := by
  have key : ∀ (f1 f2 : File) (tag : Nat) (bs : List Nat), ChunkWritten f1 f2 tag bs →
      Wrote f1.data f2.data f1.pos (le32 (chunkSize bs) ++ (le16 tag ++ bs)) ∧
      le32At f2.data f1.pos = chunkSize bs % 4294967296 ∧
      le32At f2.data f1.pos % 2 = 0 ∧
      chunkSize bs % 2 = 0 ∧ 6 + bs.length ≤ chunkSize bs ∧ chunkSize bs ≤ 6 + bs.length + 1 ∧
      f2.pos = f1.pos + chunkSize bs := by
    intro f1 f2 tag bs h
    have hf := holdsAt_le32At (holdsAt_append (holdsAt_of_wrote h.2.2 (by simp [le32]))).1
    have hev := chunkSize_even bs
    refine ⟨h.2.2, hf, ?_, hev, (chunkSize_bounds bs).1, (chunkSize_bounds bs).2, h.2.1⟩
    rw [hf]
    omega
  refine ⟨?_, ?_, ?_, ?_⟩
  · obtain ⟨e2, bs, he, hcw, _⟩ := writeColorChunk_layout e frame hok
    exact ⟨e2, bs, chunkSize bs, he, key _ _ _ _ hcw⟩
  · obtain ⟨e2, bs, he, hcw, _⟩ := writeBrunChunk_layout e frame hok hpx
    exact ⟨e2, bs, chunkSize bs, he, key _ _ _ _ hcw⟩
  · obtain ⟨e2, bs, he, hcw, _⟩ := writeLcChunk_layout e frame hok hpx
    exact ⟨e2, bs, chunkSize bs, he, key _ _ _ _ hcw⟩
  · obtain ⟨e2, cs, he, _, _, hfr, hp, _⟩ := writeFrame_layout e frame hok hpos hpx
    have hf := holdsAt_le32At (holdsAt_append hfr.1).1
    have hev := chunksSize_even cs
    refine ⟨e2, cs, he, hfr, hf, ?_, by omega, by omega⟩
    rw [hf]
    omega

theorem even_size_invariant_witness :
    (exLcEncoder.m_file.ok = true ∧ exLcEncoder.m_file.pos < 4294967296 ∧ exLcNew.Bytes) ∧
    ∃ e2 cs, exLcEncoder.writeFrame exLcNew = some e2 ∧
      FrameAt e2.m_file.data exLcEncoder.m_file.pos cs ∧
      le32At e2.m_file.data exLcEncoder.m_file.pos = (16 + chunksSize cs) % 4294967296 ∧
      le32At e2.m_file.data exLcEncoder.m_file.pos % 2 = 0 ∧
      (16 + chunksSize cs) % 2 = 0 ∧
      e2.m_file.pos = exLcEncoder.m_file.pos + (16 + chunksSize cs) :=
  ⟨⟨by decide, by decide, by unfold Frame.Bytes; decide⟩,
   (even_size_invariant exLcEncoder exLcNew (by decide) (by decide)
     (by unfold Frame.Bytes; decide)).2.2.2⟩

/-- C14: `writeRingFrame` does not count.  On an ok stream, for a frame of
byte pixels and a frame counter in the range of the calls (not negative, and
below the `int` maximum after the `writeFrame` calls that follow), both
`writeFrame` and `writeRingFrame` return; `writeRingFrame` leaves the encoder
exactly as `writeFrame` does, the stream with its bytes and position
included, except for the frame counter, which `writeFrame` increments by one
and `writeRingFrame` leaves at its value before the call.  After any sequence
of `writeFrame` and `writeRingFrame` calls the counter has grown by the number
of `writeFrame` calls, and finalization records the counter in the frame
count field at bytes 6..7 (16 bits): for an encoder that started at 0, the
number of `writeFrame` calls modulo `2^16`. -/
theorem writeRingFrame_not_counted (e : Encoder) (frame : Frame) (cs : List FrameCall)
    (hok : e.m_file.ok = true) (hpx : frame.Bytes) (hcs : ∀ c ∈ cs, c.arg.Bytes)
    (hlo : 0 ≤ e.m_frameCount) (hhi : e.m_frameCount + countFrames cs < 2147483647) :
    (∃ e2, e.writeFrame frame = some e2 ∧
      e.writeRingFrame frame = some { e2 with m_frameCount := e.m_frameCount } ∧
      e2.m_frameCount = e.m_frameCount + 1) ∧
    (∃ e3, e.calls cs = some e3 ∧
      e3.m_frameCount = e.m_frameCount + countFrames cs ∧
      le16At e3.destroy.data 6 = (e.m_frameCount + countFrames cs).toNat % 65536 ∧
      (e.m_frameCount = 0 → le16At e3.destroy.data 6 = countFrames cs % 65536)) := by
  constructor
  · obtain ⟨e2, he, _, _, hc, _⟩ := writeFrame_total e frame hok hpx
    rw [wrapInt32_id _ (by omega) (by omega)] at hc
    refine ⟨e2, he, ?_, hc⟩
    unfold Encoder.writeRingFrame
    rw [he]
    simp only []
    rw [hc, wrapInt32_id _ (by omega) (by omega)]
    congr 2
    omega
  · obtain ⟨e3, he3, hok3, hc3⟩ := calls_count cs e hok hcs hlo hhi
    have hf := (destroy_fields e3 hok3).2.2.2.1
    have hu : u32 e3.m_frameCount = (e.m_frameCount + countFrames cs).toNat := by
      rw [hc3]
      unfold u32
      omega
    refine ⟨e3, he3, hc3, ?_, ?_⟩
    · rw [hf, hu]
    · intro h0
      rw [hf, hu, h0]
      simp

theorem writeRingFrame_not_counted_witness :
    ((Encoder.new emptyFile).m_file.ok = true ∧ exFrame.Bytes ∧
      (∀ c ∈ [FrameCall.frame exFrame, FrameCall.ring exFrame, FrameCall.frame exFrame],
        c.arg.Bytes) ∧
      0 ≤ (Encoder.new emptyFile).m_frameCount ∧
      (Encoder.new emptyFile).m_frameCount +
        countFrames [FrameCall.frame exFrame, FrameCall.ring exFrame, FrameCall.frame exFrame]
          < 2147483647) ∧
    ∃ e3, (Encoder.new emptyFile).calls
        [FrameCall.frame exFrame, FrameCall.ring exFrame, FrameCall.frame exFrame] = some e3 ∧
      e3.m_frameCount = 2 ∧ le16At e3.destroy.data 6 = 2 :=
  have hb : ∀ c ∈ [FrameCall.frame exFrame, FrameCall.ring exFrame, FrameCall.frame exFrame],
      c.arg.Bytes := by
    intro c hc
    simp only [List.mem_cons, List.mem_singleton, List.not_mem_nil, or_false] at hc
    rcases hc with h | h | h <;> rw [h] <;> unfold FrameCall.arg Frame.Bytes <;> decide
  ⟨⟨by decide, by unfold Frame.Bytes; decide, hb, by decide, by decide⟩,
   (writeRingFrame_not_counted (Encoder.new emptyFile) exFrame
      [FrameCall.frame exFrame, FrameCall.ring exFrame, FrameCall.frame exFrame]
      (by decide) (by unfold Frame.Bytes; decide) hb (by decide) (by decide)).2.imp
    (fun _ h => ⟨h.1, h.2.1, h.2.2.2 rfl⟩)⟩

/-- C15: finalization postcondition.  On a fresh ok stream, `writeHeader`,
then `k >= 2` calls of `writeFrame` with frames of byte pixels (`k` an `int`)
all return and leave the stream ok, and finalization then stores: at bytes
0..3 the stream position at which it began (32 bits, so modulo `2^32`), at
bytes 4..5 `0xAF12`, at bytes 6..7 `k` modulo `2^16`, at bytes 80..83 the
start of frame 0, which is 128, and at bytes 84..87 the start of frame 1 (the
position the stream has after frame 0, modulo `2^32`).  When the stream is
found not ok at finalization, whatever its position, finalization returns it
as it is, no byte changed; and the bytes 0..7 the frames have left, on a
stream that did not grow beyond 4 GiB, are the zero placeholders of
`writeHeader`. -/
theorem finalization_postcondition (f0 : File) (header : Header) (fr0 fr1 : Frame)
    (others : List Frame) (hok : f0.ok = true) (hpos : f0.pos = 0)
    (h0 : fr0.Bytes) (h1 : fr1.Bytes) (hr : ∀ fr ∈ others, fr.Bytes)
    (hk : others.length + 2 < 2147483648) :
    ∃ e1 ek, ((Encoder.new f0).writeHeader header).writeFrame fr0 = some e1 ∧
      e1.writeFrames (fr1 :: others) = some ek ∧ ek.m_file.ok = true ∧
      le32At ek.destroy.data 0 = ek.m_file.pos % 4294967296 ∧
      le16At ek.destroy.data 4 = 0xAF12 ∧
      le16At ek.destroy.data 6 = (others.length + 2) % 65536 ∧
      le32At ek.destroy.data 80 = 128 ∧
      le32At ek.destroy.data 84 = e1.m_file.pos % 4294967296 ∧
      (∀ g : File, g.ok = false → ({ ek with m_file := g } : Encoder).destroy = g) ∧
      (ek.m_file.pos ≤ 4294967296 → HoldsAt ek.m_file.data 0 [0, 0, 0, 0, 0, 0, 0, 0]) := by
  obtain ⟨hok0, hp0, hw0, _, _, hc0, ho10, ho20⟩ := writeHeader_code (Encoder.new f0) header hok
  obtain ⟨e0, he0⟩ : ∃ e0, e0 = (Encoder.new f0).writeHeader header := ⟨_, rfl⟩
  rw [← he0] at hok0 hp0 hw0 hc0 ho10 ho20 ⊢
  have hc0z : e0.m_frameCount = 0 := hc0
  have hz0 : HoldsAt e0.m_file.data 0 [0, 0, 0, 0, 0, 0, 0, 0] := by
    have hw : Wrote f0.data e0.m_file.data 0 ((le32 0 ++ (le16 0 ++ le16 0)) ++ headerTail header) := by
      have := hw0
      rw [show (Encoder.new f0).m_file.pos = 0 from hpos] at this
      exact this
    exact (holdsAt_append (holdsAt_of_wrote hw (by simp [le32]))).1
  obtain ⟨e1, he1, hok1, hp1, hc1, ho11, ho21⟩ := writeFrame_total e0 fr0 hok0 h0
  rw [hc0z] at hc1 ho11 ho21
  rw [if_pos rfl, hp0] at ho11
  rw [if_neg (by omega)] at ho21
  have hc1v : e1.m_frameCount = 1 := by rw [hc1]; rfl
  obtain ⟨e2, he2, hok2, hp2, hc2, ho12, ho22⟩ := writeFrame_total e1 fr1 hok1 h1
  rw [hc1v] at hc2 ho12 ho22
  rw [if_neg (by omega)] at ho12
  rw [if_pos rfl] at ho22
  have hc2v : e2.m_frameCount = 2 := by rw [hc2]; rfl
  obtain ⟨ek, hek, hokk, hpk, hck, hk1, hk2, hkeep⟩ := writeFrames_count others e2 hok2 hr
    (by omega) (by rw [hc2v]; omega)
  obtain ⟨_, d1, d2, d3, d4, d5⟩ := destroy_fields ek hokk
  refine ⟨e1, ek, he1, ?_, hokk, d1, d2, ?_, ?_, ?_, ?_, ?_⟩
  · show (match e1.writeFrame fr1 with
      | none => none
      | some e2 => e2.writeFrames others) = some ek
    rw [he2]
    exact hek
  · rw [d3, hck, hc2v]
    unfold u32
    omega
  · rw [d4, hk1, ho12, ho11]
    rfl
  · rw [d5, hk2, ho22, u32_toInt32]
    omega
  · intro g hg
    unfold Encoder.destroy
    rw [if_neg (by simp only []; rw [hg]; simp)]
  · intro hlt
    have k1 := writeFrame_keeps e0 e1 fr0 hok0 (by omega) h0 he1 0 _ hz0
      (by rw [hp0]; simp)
    have k2 := writeFrame_keeps e1 e2 fr1 hok1 (by omega) h1 he2 0 _ k1
      (by simp only [List.length_cons, List.length_nil]; omega)
    exact hkeep hlt 0 _ k2 (by simp only [List.length_cons, List.length_nil]; omega)

theorem finalization_postcondition_witness :
    (emptyFile.ok = true ∧ emptyFile.pos = 0 ∧ exFrame10.Bytes ∧ exFrame10.Bytes ∧
      (∀ fr ∈ ([] : List Frame), fr.Bytes) ∧ ([] : List Frame).length + 2 < 2147483648) ∧
    ∃ e1 ek, ((Encoder.new emptyFile).writeHeader exHeader10).writeFrame exFrame10 = some e1 ∧
      e1.writeFrames (exFrame10 :: []) = some ek ∧ ek.m_file.ok = true ∧
      le32At ek.destroy.data 0 = ek.m_file.pos % 4294967296 ∧
      le16At ek.destroy.data 4 = 0xAF12 ∧
      le16At ek.destroy.data 6 = (([] : List Frame).length + 2) % 65536 ∧
      le32At ek.destroy.data 80 = 128 ∧
      le32At ek.destroy.data 84 = e1.m_file.pos % 4294967296 ∧
      (∀ g : File, g.ok = false → ({ ek with m_file := g } : Encoder).destroy = g) ∧
      (ek.m_file.pos ≤ 4294967296 → HoldsAt ek.m_file.data 0 [0, 0, 0, 0, 0, 0, 0, 0]) :=
  ⟨⟨by decide, by decide, by unfold Frame.Bytes; decide, by unfold Frame.Bytes; decide,
    by simp, by decide⟩,
   finalization_postcondition emptyFile exHeader10 exFrame10 exFrame10 [] (by decide) (by decide)
     (by unfold Frame.Bytes; decide) (by unfold Frame.Bytes; decide) (by simp) (by decide)⟩

/-- C16 fails on the code: for the window `[1, 2, 2, 2, 2]`
`count_max_consecutive_values` returns 3 with the start offset 2, where the
longest run has length 4 and begins at offset 1: the element that ends a run
resets the counter to 0 and is not counted as the first element of the next
run.  The leading run is counted in full, and the empty window gives 0. -/
theorem count_max_consecutive_values_short :
    count_max_consecutive_values [1, 2, 2, 2, 2] = (3, some 2) ∧
    count_max_consecutive_values [1, 2, 2, 2, 2] ≠ (4, some 1) ∧
    count_max_consecutive_values [2, 2, 2, 2, 1] = (4, some 0) ∧
    count_max_consecutive_values [] = (0, none) := by
  decide

/-- C17 fails on the code.  In the row `[1, 2, 2, 2, 2, 2]` the leading run
at the cursor has length 1 and the run of five 2s, the only other run, begins
1 byte after the cursor; the literal packet should cover that one byte and a
repeat packet of five 2s should follow, the bytes `[2, 255, 1, 5, 2]`.
`writeBrunLineChunk` writes `[2, 254, 1, 2, 4, 2]`: the literal packet covers
2 bytes, the first 2 of the run among them, and the repeat packet starts at
the second pixel of the run, because `count_max_consecutive_values` reports
the run as 4 pixels from offset 2.  In the row `[1, 2, 2, 2, 2]` the run of
four 2s is reported as 3 pixels, the lookahead does not see it, and the whole
row goes into one literal packet, `[1, 251, 1, 2, 2, 2, 2]` in place of
`[2, 255, 1, 4, 2]`. -/
theorem brun_lookahead_truncation_fails :
    count_consecutive_values exRunSixFrame.pixels = 1 ∧
    count_max_consecutive_values exRunSixFrame.pixels = (4, some 2) ∧
    (writeBrunLineChunk 6 exRunSixFrame 0 emptyFile).map (fun f => f.data) =
      some [2, 254, 1, 2, 4, 2] ∧
    (writeBrunLineChunk 6 exRunSixFrame 0 emptyFile).map (fun f => f.data) ≠
      some [2, 255, 1, 5, 2] ∧
    count_consecutive_values exShortRunFrame.pixels = 1 ∧
    count_max_consecutive_values exShortRunFrame.pixels = (3, some 2) ∧
    (writeBrunLineChunk 5 exShortRunFrame 0 emptyFile).map (fun f => f.data) =
      some [1, 251, 1, 2, 2, 2, 2] ∧
    (writeBrunLineChunk 5 exShortRunFrame 0 emptyFile).map (fun f => f.data) ≠
      some [2, 255, 1, 4, 2] := by
  decide

/-- With two runs in the row `[1, 2, 2, 2, 2, 2, 3, 4, 4, 4, 4, 4, 4, 4]` the
first literal packet of `writeBrunLineChunk` covers 8 bytes (count byte 248):
it is cut at the start `count_max_consecutive_values` reports for the longest
run, here offset 8. -/
theorem brun_lookahead_longest_run :
    (writeBrunLineChunk 14 exRunFrame 0 emptyFile).map (fun f => f.data) =
      some [2, 248, 1, 2, 2, 2, 2, 2, 3, 4, 6, 4] ∧
    count_max_consecutive_values exRunFrame.pixels = (6, some 8) := by
  decide

/-- The lookahead of `writeBrunLineChunk` as the code has it.  Whenever the cursor
`x < w` is at a position whose leading run is shorter than 4, one turn of the
packet loop emits a literal packet of `r` bytes, `1 ≤ r ≤ min(w - x, 128)`.
When `count_max_consecutive_values` on the remaining scanline reports a
maximum `m ≥ 4` with a start offset `d < min(w - x, 128)`, the packet covers
exactly the `d` bytes before that offset, and the next turn of the loop, at
`x + d`, emits a repeat packet of `c` pixels with `4 ≤ c ≤ 127`.  In every
other case the packet covers `min(w - x, 128)` bytes. -/
theorem brun_literal_lookahead (w : Nat) (fr : Frame) (base fuel x np : Nat) (f : File)
    (hx : x < w)
    (hlead : count_consecutive_values (window fr.pixels (base + x) (w - x)) < 4) :
    ∃ r, 1 ≤ r ∧ r ≤ min (w - x) 128 ∧
      brunLineLoop w fr base (fuel + 1) x np f =
        brunLineLoop w fr base fuel (x + r) (np + 1)
          (writePixels fr r (base + x) (f.write8 (u8 (-(r : Int))))) ∧
      (∀ m d, count_max_consecutive_values (window fr.pixels (base + x) (w - x)) = (m, some d) →
        4 ≤ m → d < min (w - x) 128 →
        r = d ∧ ∃ c, 4 ≤ c ∧ c ≤ 127 ∧ ∀ fuel2 np2 f2,
          brunLineLoop w fr base (fuel2 + 1) (x + d) np2 f2 =
            brunLineLoop w fr base fuel2 (x + d + c) (np2 + 1)
              ((f2.write8 c).write8 (fr.px (base + (x + d))))) ∧
      ((¬∃ d, (count_max_consecutive_values (window fr.pixels (base + x) (w - x))).2 = some d ∧
          4 ≤ (count_max_consecutive_values (window fr.pixels (base + x) (w - x))).1 ∧
          d < min (w - x) 128) →
        r = min (w - x) 128) := by
  obtain ⟨win, hwin⟩ : ∃ win, win = window fr.pixels (base + x) (w - x) := ⟨_, rfl⟩
  rw [← hwin] at hlead ⊢
  obtain ⟨lim, hlim⟩ : ∃ lim, lim = (if w - x > 128 then 128 else w - x) := ⟨_, rfl⟩
  have hmin : min (w - x) 128 = lim := by rw [hlim]; split <;> omega
  have hlpos : 0 < lim := by rw [hlim]; split <;> omega
  rw [hmin]
  have hstep : brunLineLoop w fr base (fuel + 1) x np f =
      brunLineLoop w fr base fuel (x + cutRemain 4 (count_max_consecutive_values win) lim)
        (np + 1)
        (writePixels fr (cutRemain 4 (count_max_consecutive_values win) lim) (base + x)
          (f.write8 (u8 (-((cutRemain 4 (count_max_consecutive_values win) lim : Nat) : Int))))) := by
    rw [brunLineLoop_succ, if_pos hx, ← hwin, ← hlim, if_neg (by split <;> omega)]
  refine ⟨cutRemain 4 (count_max_consecutive_values win) lim, ?_, cutRemain_le _ _ _, hstep,
    ?_, ?_⟩
  · apply cutRemain_pos _ _ _ _ hlpos
    intro hge hst
    have := cmcv_start win hst
    omega
  · intro m d hs hm hd
    have hrun := cmcv_run win m d hs
    refine ⟨?_, ?_⟩
    · unfold cutRemain
      rw [hs]
      simp only []
      rw [if_pos ⟨hm, hd⟩]
    · have hwl : win.length = min (w - x) (fr.pixels.length - (base + x)) := by
        rw [hwin, window_length]
      have hxd : x + d < w := by
        rw [hlim] at hd
        split at hd <;> omega
      obtain ⟨win2, hwin2⟩ : ∃ win2, win2 = window fr.pixels (base + (x + d)) (w - (x + d)) :=
        ⟨_, rfl⟩
      have hge : m ≤ count_consecutive_values win2 := by
        apply ccv_ge
        · rw [hwin2, window_length]
          omega
        · intro j hj
          rw [hwin2, window_getD _ _ _ _ (by omega), window_getD _ _ _ _ (by omega)]
          have h1 := hrun.2 j hj
          have h2 := hrun.2 0 (by omega)
          rw [hwin, window_getD _ _ _ _ (by omega), window_getD _ _ _ _ (by omega)] at h1
          have e1 : base + x + (d + j) = base + (x + d) + j := by omega
          have e2 : base + x + d = base + (x + d) + 0 := by omega
          rw [e1, e2] at h1
          exact h1
      refine ⟨if count_consecutive_values win2 > 127 then 127 else count_consecutive_values win2,
        by split <;> omega, by split <;> omega, ?_⟩
      intro fuel2 np2 f2
      rw [brunLineLoop_succ, if_pos hxd, ← hwin2, if_pos (by split <;> omega)]
  · intro hno
    unfold cutRemain
    cases hs : (count_max_consecutive_values win).2 with
    | none => rfl
    | some st =>
      simp only []
      rw [if_neg]
      intro hc
      exact hno ⟨st, hs, hc.1, hc.2⟩

theorem brun_literal_lookahead_witness :
    (0 < 14 ∧ count_consecutive_values (window exRunFrame.pixels (0 + 0) (14 - 0)) < 4) ∧
    ∃ r, 1 ≤ r ∧ r ≤ min (14 - 0) 128 ∧
      brunLineLoop 14 exRunFrame 0 (3 + 1) 0 0 emptyFile =
        brunLineLoop 14 exRunFrame 0 3 (0 + r) (0 + 1)
          (writePixels exRunFrame r (0 + 0) (emptyFile.write8 (u8 (-(r : Int))))) ∧
      (∀ m d,
        count_max_consecutive_values (window exRunFrame.pixels (0 + 0) (14 - 0)) = (m, some d) →
        4 ≤ m → d < min (14 - 0) 128 →
        r = d ∧ ∃ c, 4 ≤ c ∧ c ≤ 127 ∧ ∀ fuel2 np2 f2,
          brunLineLoop 14 exRunFrame 0 (fuel2 + 1) (0 + d) np2 f2 =
            brunLineLoop 14 exRunFrame 0 fuel2 (0 + d + c) (np2 + 1)
              ((f2.write8 c).write8 (exRunFrame.px (0 + (0 + d))))) ∧
      ((¬∃ d,
          (count_max_consecutive_values (window exRunFrame.pixels (0 + 0) (14 - 0))).2 = some d ∧
          4 ≤ (count_max_consecutive_values (window exRunFrame.pixels (0 + 0) (14 - 0))).1 ∧
          d < min (14 - 0) 128) →
        r = min (14 - 0) 128) :=
  ⟨⟨by decide, by decide⟩,
   brun_literal_lookahead 14 exRunFrame 0 3 0 0 emptyFile (by decide) (by decide)⟩

/-- C18, as stated, fails: for the width 65027, the previous scanline all
zero and the new scanline zero except for its last pixel, `writeLcLineChunk`
emits 256 packets (255 fillers and the packet of the last pixel), and the
packet count byte it writes at the start of the line is 255. -/
theorem lc_packet_count_counterexample :
    lcPacketCount 65027 (lcFarEncoder 65026).m_prevFrameData (lcFarNew 65026) 0 = 256 ∧
    ∃ f2, writeLcLineChunk 65027 (lcFarEncoder 65026).m_prevFrameData (lcFarNew 65026) 0
        emptyFile = some f2 ∧ f2.data.getD 0 0 = 255 :=
  lcFar_count_byte 65026 65027 rfl rfl

/-- C18, amended: for every width, snapshot, new frame of byte pixels, line
and ok stream, `writeLcLineChunk` returns and writes at the position of the
stream one byte followed by the packets of the line; the number `k` of
packets it emits (fillers included) is at most the width, hence at most 255
for every width up to 255; the byte is `k` when `k < 255` and 255 otherwise;
and the packet loop of `readLcChunk`, run with the count `k` on a row that
holds the snapshot, consumes exactly the packets and leaves the new line, so
that the byte is the number of packets the decoder has to consume whenever
`k ≤ 255`. -/
theorem lc_line_packet_count (w : Nat) (prev : List Nat) (src : Frame) (y : Nat) (f : File)
    (hok : f.ok = true) (hpx : src.Bytes) :
    ∃ f2 k bs, writeLcLineChunk w prev src y f = some f2 ∧
      f2.ok = true ∧ f2.pos = f.pos + (1 + bs.length) ∧
      HoldsAt f2.data f.pos ((if k < 255 then k else 255) :: bs) ∧
      k = lcPacketCount w prev src y ∧ k ≤ w ∧ (w ≤ 255 → k ≤ 255) ∧
      (k ≤ 255 → (if k < 255 then k else 255) = k) ∧
      LcRowCode w prev src (src.rowOff y) 0 k bs := by
  obtain ⟨f2, k, bs, he, hfw, hk, hkw, hcode⟩ := writeLcLineChunk_bytes w prev src y f hok hpx
  refine ⟨f2, k, bs, he, hfw.1, ?_, holdsAt_of_wrote hfw.2.2 (by simp), hk, hkw,
    fun h => by omega, fun h => by split <;> omega, hcode⟩
  have := hfw.2.1
  simp only [List.length_cons] at this
  omega

theorem lc_line_packet_count_witness :
    (emptyFile.ok = true ∧ exLcNew.Bytes) ∧
    ∃ f2 k bs, writeLcLineChunk 4 exLcEncoder.m_prevFrameData exLcNew 1 emptyFile = some f2 ∧
      f2.ok = true ∧ f2.pos = emptyFile.pos + (1 + bs.length) ∧
      HoldsAt f2.data emptyFile.pos ((if k < 255 then k else 255) :: bs) ∧
      k = lcPacketCount 4 exLcEncoder.m_prevFrameData exLcNew 1 ∧ k ≤ 4 ∧ (4 ≤ 255 → k ≤ 255) ∧
      (k ≤ 255 → (if k < 255 then k else 255) = k) ∧
      LcRowCode 4 exLcEncoder.m_prevFrameData exLcNew (exLcNew.rowOff 1) 0 k bs :=
  ⟨⟨by decide, by unfold Frame.Bytes; decide⟩,
   lc_line_packet_count 4 exLcEncoder.m_prevFrameData exLcNew 1 emptyFile (by decide)
     (by unfold Frame.Bytes; decide)⟩

/-- C19, as stated, fails in two places.  In the 6 bit variant the raw
channel value 64 is stored as 3, not as `255 * 64 / 63 = 259`: the quotient is
converted to `uint8_t`.  And a packet that runs past entry 255 stores the
entries below 256 only and leaves its other triples in the stream, where the
decoder takes them for the next packet: for the packets skip 255, count 2 and
skip 0, count 1 the decoder leaves the first triple in entry 255, where
applying the packets in order leaves the triple of the second packet. -/
theorem readColorChunk_semantics_counterexample :
    (readColorChunk true exOldColorStream exFrameBlack).2.colormap 0 =
      { r := 3, g := 0, b := 255 } ∧
    255 * 64 / 63 = 259 ∧
    (readColorChunk false exOverflowStream exFrameBlack).2.colormap 255 =
      { r := 1, g := 2, b := 3 } ∧
    applyColorPackets false 0 exOverflowPackets exFrameBlack.colormap 255 =
      { r := 7, g := 8, b := 9 } := by
  decide

/-- C19, amended: colormap chunk decoding semantics.  For every list of fewer
than 65536 packets made of bytes in which each packet carries one RGB triple
for every entry below 256 that it announces and no other triple,
`readColorChunk`, on an ok stream that holds the packet count and the packets,
consumes exactly these bytes, changes no pixel and sets no out-of-bounds flag,
and leaves the colormap that results from applying the packets in order with a
running index that starts at 0 and advances by the skip bytes only: a packet
with count byte `c` (0 meaning 256) at running index `i` sets entry `i + j` to
its `j`-th triple for exactly the `j < c` with `i + j < 256`.  In the 6 bit
variant each stored channel is `255 * v / 63` modulo 256 for the raw value
`v`, which for every `v` in 0..63 is `255 * v / 63`, lies in 0..255, maps 0
to 0 and 63 to 255. -/
theorem readColorChunk_packets (old : Bool) (ps : List ColorPacket) (s : File) (fr : Frame)
    (rest : List Nat) (hok : s.ok = true) (hn : ps.length < 65536)
    (hps : ColorPacketsOk 0 ps)
    (hh : HoldsAt s.data s.pos (le16 ps.length ++ (colorPacketsBytes ps ++ rest))) :
    (readColorChunk old s fr).1 =
        { s with pos := s.pos + 2 + (colorPacketsBytes ps).length } ∧
    (readColorChunk old s fr).2.pixels = fr.pixels ∧
    (readColorChunk old s fr).2.rowstride = fr.rowstride ∧
    (readColorChunk old s fr).2.oob = fr.oob ∧
    (readColorChunk old s fr).2.colormap = applyColorPackets old 0 ps fr.colormap ∧
    (∀ v, v ≤ 63 → scaleChannel true v = 255 * v / 63 ∧ scaleChannel true v ≤ 255) ∧
    scaleChannel true 0 = 0 ∧ scaleChannel true 63 = 255 := by
  obtain ⟨hr, h1⟩ := read16_holds s ps.length _ hok hh
  have e : ps.length % 65536 = ps.length := by omega
  rw [e] at hr
  obtain ⟨a1, a2, a3, a4, a5⟩ := colorPackets_list old ps 0 { s with pos := s.pos + 2 } fr rest
    hok hps h1
  have hres : readColorChunk old s fr =
      colorPackets old ps.length 0 { s with pos := s.pos + 2 } fr := by
    unfold readColorChunk
    rw [hr]
  rw [hres]
  refine ⟨a1, a2, a3, a4, a5, ?_, by decide, by decide⟩
  intro v hv
  unfold scaleChannel
  simp only [if_true]
  omega

theorem readColorChunk_packets_witness :
    (exColorStream.ok = true ∧ exColorPackets.length < 65536 ∧ ColorPacketsOk 0 exColorPackets ∧
      HoldsAt exColorStream.data exColorStream.pos
        (le16 exColorPackets.length ++ (colorPacketsBytes exColorPackets ++ []))) ∧
    ((readColorChunk false exColorStream exFrameBlack).1 =
        { exColorStream with
          pos := exColorStream.pos + 2 + (colorPacketsBytes exColorPackets).length } ∧
    (readColorChunk false exColorStream exFrameBlack).2.pixels = exFrameBlack.pixels ∧
    (readColorChunk false exColorStream exFrameBlack).2.rowstride = exFrameBlack.rowstride ∧
    (readColorChunk false exColorStream exFrameBlack).2.oob = exFrameBlack.oob ∧
    (readColorChunk false exColorStream exFrameBlack).2.colormap =
      applyColorPackets false 0 exColorPackets exFrameBlack.colormap ∧
    (∀ v, v ≤ 63 → scaleChannel true v = 255 * v / 63 ∧ scaleChannel true v ≤ 255) ∧
    scaleChannel true 0 = 0 ∧ scaleChannel true 63 = 255) :=
  ⟨⟨by decide, by decide, by simp [ColorPacketsOk, exColorPackets, ColorPacket.ncolors],
      holdsAt_self _⟩,
   readColorChunk_packets false exColorPackets exColorStream exFrameBlack [] (by decide)
     (by decide) (by simp [ColorPacketsOk, exColorPackets, ColorPacket.ncolors])
     (holdsAt_self _)⟩

/-- C20: the control words of `readDeltaChunk`.  With the stream ok, the
width at least 1, a buffer that holds `h` rows of the row stride, and the
line counter `y` a line number (not negative and at least 16384 below the
`int` maximum), one turn of the control word loop on the word `v` it reads
does the following.  With bits 15 and 14 set it goes on with the same frame
and the line `y + (65536 - v)`.  With bit 15 set and bit 14 clear it stores
the low byte of the word at column `w - 1` of line `y` when `y < h`, and
nothing otherwise, changes no other pixel and no other field, advances the
line by one, and returns from the chunk when no line is left.  With bit 15
clear it leaves the loop with `v` as the packet count, the line and the frame
unchanged. -/
theorem deltaWords_control_word (w h fuel nlines : Nat) (y : Int) (f : File) (fr : Frame)
    (hok : f.ok = true) (hw : 1 ≤ w) (hrs : w ≤ fr.rowstride)
    (hlen : fr.rowstride * h ≤ fr.pixels.length) (hy0 : 0 ≤ y)
    (hy1 : y + 16384 < 2147483648) :
    (49152 ≤ (read16 f).1 →
      deltaWords w h (fuel + 1) nlines y f fr =
        deltaWords w h fuel nlines (y + (65536 - ((read16 f).1 : Int))) (read16 f).2 fr) ∧
    (32768 ≤ (read16 f).1 → (read16 f).1 < 49152 →
      ∃ fr2,
        deltaWords w h (fuel + 1) nlines y f fr =
          (if nlines = 0 then
            some { returned := true, npackets := 0, nlines := nlines, y := y + 1,
                   file := (read16 f).2, frame := fr2 }
          else deltaWords w h fuel (nlines - 1) (y + 1) (read16 f).2 fr2) ∧
        fr2.pixels.length = fr.pixels.length ∧ fr2.rowstride = fr.rowstride ∧
        fr2.colormap = fr.colormap ∧ fr2.oob = fr.oob ∧
        ∀ i, fr2.px i =
          if y < h ∧ i = fr.rowOff y.toNat + (w - 1) then (read16 f).1 % 256 else fr.px i) ∧
    ((read16 f).1 < 32768 →
      deltaWords w h (fuel + 1) nlines y f fr =
        some { returned := false, npackets := (read16 f).1, nlines := nlines, y := y,
               file := (read16 f).2, frame := fr }) := by
  have hv := read16_lt f
  have hstep := deltaWords_read w h fuel nlines y f fr (read16 f).1 (read16 f).2 hok rfl
  obtain ⟨v, hvd⟩ : ∃ v, v = (read16 f).1 := ⟨_, rfl⟩
  rw [← hvd] at hstep hv ⊢
  refine ⟨?_, ?_, ?_⟩
  · intro h1
    have e1 : toInt16 v = (v : Int) - 65536 := by unfold toInt16; omega
    rw [hstep, e1, if_pos (by omega), if_pos (by omega),
      wrapInt32_id _ (by omega) (by omega)]
    congr 1
    omega
  · intro h1 h2
    have e1 : toInt16 v = (v : Int) - 65536 := by unfold toInt16; omega
    rw [hstep, e1, if_pos (by omega), if_neg (by omega),
      wrapInt32_id _ (by omega) (by omega)]
    by_cases hyh : y < h
    · have hro : fr.rowOffI y = fr.rowOff y.toNat := rowOffI_nat fr y hy0 (by omega)
      have hidx : (fr.rowOffI y : Int) + w - 1 = ((fr.rowOff y.toNat + (w - 1) : Nat) : Int) := by
        rw [hro]; omega
      have hin : fr.rowOff y.toNat + (w - 1) < fr.pixels.length := by
        have h3 : fr.rowOff y.toNat ≤ y.toNat * fr.rowstride := by
          unfold Frame.rowOff
          exact Nat.mod_le _ _
        have h4 : (y.toNat + 1) * fr.rowstride ≤ h * fr.rowstride :=
          Nat.mul_le_mul_right _ (by omega)
        rw [Nat.add_mul] at h4
        rw [Nat.mul_comm] at hlen
        omega
      have hf := setPixel_fields fr (fr.rowOff y.toNat + (w - 1)) (v % 256) hin
      have hfr : (if 0 ≤ y ∧ y < (h : Int) then
            fr.setPixelI ((fr.rowOffI y : Int) + w - 1) (v % 256) else fr) =
          fr.setPixel (fr.rowOff y.toNat + (w - 1)) (v % 256) := by
        rw [if_pos ⟨hy0, hyh⟩, hidx, setPixelI_nat]
      refine ⟨fr.setPixel (fr.rowOff y.toNat + (w - 1)) (v % 256), ?_, hf.1, hf.2.1, hf.2.2.1,
        hf.2.2.2, ?_⟩
      · rw [hfr]
      · intro i
        rw [setPixel_px _ _ _ _ hin]
        by_cases hi : i = fr.rowOff y.toNat + (w - 1)
        · rw [if_pos hi, if_pos ⟨hyh, hi⟩]
        · rw [if_neg hi, if_neg (fun hc => hi hc.2)]
    · have hfr : (if 0 ≤ y ∧ y < (h : Int) then
            fr.setPixelI ((fr.rowOffI y : Int) + w - 1) (v % 256) else fr) = fr := by
        rw [if_neg (fun hc => hyh hc.2)]
      refine ⟨fr, ?_, rfl, rfl, rfl, rfl, ?_⟩
      · rw [hfr]
      · intro i
        rw [if_neg (fun hc => hyh hc.1)]
  · intro h1
    have e1 : toInt16 v = (v : Int) := by unfold toInt16; omega
    rw [hstep, e1, if_neg (by omega)]
    simp only [Int.toNat_ofNat]

theorem deltaWords_control_word_witness :
    (exDeltaWordStream.ok = true ∧ 1 ≤ 2 ∧ 2 ≤ exDeltaFrame.rowstride ∧
      exDeltaFrame.rowstride * 2 ≤ exDeltaFrame.pixels.length ∧ (0 : Int) ≤ 1 ∧
      (1 : Int) + 16384 < 2147483648) ∧
    ((49152 ≤ (read16 exDeltaWordStream).1 →
      deltaWords 2 2 (3 + 1) 0 1 exDeltaWordStream exDeltaFrame =
        deltaWords 2 2 3 0 (1 + (65536 - ((read16 exDeltaWordStream).1 : Int)))
          (read16 exDeltaWordStream).2 exDeltaFrame) ∧
    (32768 ≤ (read16 exDeltaWordStream).1 → (read16 exDeltaWordStream).1 < 49152 →
      ∃ fr2,
        deltaWords 2 2 (3 + 1) 0 1 exDeltaWordStream exDeltaFrame =
          (if 0 = 0 then
            some { returned := true, npackets := 0, nlines := 0, y := 1 + 1,
                   file := (read16 exDeltaWordStream).2, frame := fr2 }
          else deltaWords 2 2 3 (0 - 1) (1 + 1) (read16 exDeltaWordStream).2 fr2) ∧
        fr2.pixels.length = exDeltaFrame.pixels.length ∧
        fr2.rowstride = exDeltaFrame.rowstride ∧
        fr2.colormap = exDeltaFrame.colormap ∧ fr2.oob = exDeltaFrame.oob ∧
        ∀ i, fr2.px i =
          if (1 : Int) < (2 : Nat) ∧ i = exDeltaFrame.rowOff (1 : Int).toNat + (2 - 1) then
            (read16 exDeltaWordStream).1 % 256
          else exDeltaFrame.px i) ∧
    ((read16 exDeltaWordStream).1 < 32768 →
      deltaWords 2 2 (3 + 1) 0 1 exDeltaWordStream exDeltaFrame =
        some { returned := false, npackets := (read16 exDeltaWordStream).1, nlines := 0, y := 1,
               file := (read16 exDeltaWordStream).2, frame := exDeltaFrame })) :=
  ⟨⟨by decide, by decide, by decide, by decide, by decide, by decide⟩,
   deltaWords_control_word 2 2 3 0 1 exDeltaWordStream exDeltaFrame (by decide) (by decide)
     (by decide) (by decide) (by decide) (by decide)⟩

/-- C21: well-formedness of the BRUN packet stream.  For every width, every
scanline of a frame of byte pixels and every ok stream, `writeBrunLineChunk`
returns (its loop ends within `width` turns) and the bytes it has written
are the packet count byte (the number of packets, at most 255) followed by
the bytes of a sequence of packets `ps`.  Every packet is a repeat packet
with a count from 4 to 127 or a literal packet carrying from 1 to 128 bytes,
as many as its length byte says; the packets cover `width` pixels in all, and
the pixels they stand for, the value of a repeat packet taken `count` times
and the bytes of a literal packet, are the pixels of the scanline in order. -/
theorem brun_packets_wellformed (w : Nat) (fr : Frame) (y : Nat) (f : File)
    (hok : f.ok = true) (hpx : fr.Bytes) :
    ∃ f2 ps, writeBrunLineChunk w fr y f = some f2 ∧
      FW f f2 ((if ps.length < 255 then ps.length else 255) :: brunPacketsBytes ps) ∧
      (∀ p ∈ ps, p.WellFormed) ∧
      brunPacketsLen ps = w ∧
      (brunPacketsPixels ps).length = w ∧
      ∀ x, x < w → (brunPacketsPixels ps).getD x 0 = fr.px (fr.rowOff y + x) := by
  have h1 := FW_write8 f 0 hok
  obtain ⟨f2, ps, he, hfw, hwf, hlen, hpix⟩ :=
    brunLineLoop_packets w fr (fr.rowOff y) hpx w 0 0 (f.write8 0) (by omega) h1.1
  rw [Nat.zero_add] at he
  rw [Nat.sub_zero] at hlen hpix
  rw [Nat.add_zero] at hpix
  have h2 := FW_trans h1 hfw
  have h3 := FW_write8 (f2.seek f.pos) (if ps.length < 255 then ps.length else 255) h2.1
  have h4 := FW_patch h2 h3 rfl
  have e : (if ps.length < 255 then ps.length else 255) % 256 =
      (if ps.length < 255 then ps.length else 255) := by split <;> omega
  rw [e] at h4
  refine ⟨_, ps, ?_, h4, hwf, hlen, by rw [hpix, pxBytes_length], ?_⟩
  · unfold writeBrunLineChunk
    simp only [File.tell]
    rw [he]
  · intro x hx
    rw [hpix, pxBytes_getD _ _ _ _ hx]
    have := px_lt fr hpx (fr.rowOff y + x)
    omega

theorem brun_packets_wellformed_witness :
    (emptyFile.ok = true ∧ exRowFrame.Bytes) ∧
    ∃ f2 ps, writeBrunLineChunk 8 exRowFrame 0 emptyFile = some f2 ∧
      FW emptyFile f2 ((if ps.length < 255 then ps.length else 255) :: brunPacketsBytes ps) ∧
      (∀ p ∈ ps, p.WellFormed) ∧
      brunPacketsLen ps = 8 ∧
      (brunPacketsPixels ps).length = 8 ∧
      ∀ x, x < 8 → (brunPacketsPixels ps).getD x 0 = exRowFrame.px (exRowFrame.rowOff 0 + x) :=
  ⟨⟨by decide, by unfold Frame.Bytes; decide⟩,
   brun_packets_wellformed 8 exRowFrame 0 emptyFile (by decide) (by unfold Frame.Bytes; decide)⟩

/-- C22: the line range of `writeLcChunk`.  On an ok stream, for a frame of
byte pixels, a height of at most 65535 and line offsets within 32 bits,
`writeLcChunk` returns, having written at the chunk start the size, the tag
12, the skip-lines field `sl`, the line-count field `nl` and the line data
`bs`.  All scanlines before `sl` agree with the snapshot in their first
`width` pixels and, when `sl` is below the height, scanline `sl` does not:
`sl` is the number of leading identical scanlines.  When some scanline
differs (`sl` below the height), `nl` is at least 1, scanline `sl + nl - 1`
differs and every later scanline agrees, so `sl + nl - 1` is the last
differing scanline.  When no scanline differs, `sl` is the height, `nl` is 0
and no line data is written. -/
theorem writeLcChunk_line_range (e : Encoder) (src : Frame) (hok : e.m_file.ok = true)
    (hpx : src.Bytes) (hh : e.m_height ≤ 65535)
    (hsz : e.m_height * src.rowstride < 4294967296) :
    ∃ e2 size sl nl bs, e.writeLcChunk src = some e2 ∧
      Wrote e.m_file.data e2.m_file.data e.m_file.pos
        (le32 size ++ (le16 12 ++ (le16 sl ++ (le16 nl ++ bs)))) ∧
      le16At e2.m_file.data (e.m_file.pos + 6) = sl ∧
      le16At e2.m_file.data (e.m_file.pos + 8) = nl ∧
      sl ≤ e.m_height ∧ sl + nl ≤ e.m_height ∧
      (∀ y, y < sl → LineSame e.m_prevFrameData src e.m_width y) ∧
      (sl < e.m_height →
        ¬LineSame e.m_prevFrameData src e.m_width sl ∧ 1 ≤ nl ∧
        ¬LineSame e.m_prevFrameData src e.m_width (sl + nl - 1) ∧
        ∀ y, sl + nl ≤ y → y < e.m_height → LineSame e.m_prevFrameData src e.m_width y) ∧
      (sl = e.m_height → nl = 0 ∧ bs = []) := by
  obtain ⟨e2, size, bs, he, _, hw, hnil, _⟩ := writeLcChunk_fields e src hok hpx
  obtain ⟨r1, r2, r3, r4, r5, r6⟩ := lcRange_spec e.m_prevFrameData src e.m_width e.m_height
  obtain ⟨sl, hsl⟩ : ∃ sl, sl = lcSkipLines e.m_prevFrameData src e.m_width e.m_height :=
    ⟨_, rfl⟩
  obtain ⟨nl, hnl⟩ : ∃ nl, nl = lcLineCount e.m_prevFrameData src e.m_width e.m_height :=
    ⟨_, rfl⟩
  rw [← hsl, ← hnl] at hw r2 r4 r5
  rw [← hsl] at r1 r3 r6
  rw [← hnl] at hnil r6
  have ha := holdsAt_append (holdsAt_append (holdsAt_of_wrote hw (by simp [le32]))).2
  have hb := holdsAt_append ha.2
  have f1 := holdsAt_le16At hb.1
  have f2 := holdsAt_le16At (holdsAt_append hb.2).1
  have l1 : e.m_file.pos + (le32 size).length + (le16 FLI_LC_CHUNK).length = e.m_file.pos + 6 :=
    rfl
  have l2 : e.m_file.pos + 6 + (le16 sl).length = e.m_file.pos + 8 := rfl
  rw [l1] at f1 f2
  rw [l2] at f2
  refine ⟨e2, size, sl, nl, bs, he, hw, by rw [f1]; omega, by rw [f2]; omega, r1, r2, ?_, ?_, ?_⟩
  · intro y hy
    exact lineSame_of_not_differs _ _ _ _ _ hsz (by omega) (r3 y hy)
  · intro hlt
    obtain ⟨d1, d2, d3⟩ := r4 hlt
    refine ⟨not_lineSame_of_differs _ _ _ _ _ hsz (by omega) d1, d2,
      not_lineSame_of_differs _ _ _ _ _ hsz (by omega) d3, ?_⟩
    intro y hy1 hy2
    exact lineSame_of_not_differs _ _ _ _ _ hsz (by omega) (r5 y hy1 hy2)
  · intro heq
    have := r6 heq
    exact ⟨this, hnil this⟩

theorem writeLcChunk_line_range_witness :
    (exLcEncoder.m_file.ok = true ∧ exLcNew.Bytes ∧ exLcEncoder.m_height ≤ 65535 ∧
      exLcEncoder.m_height * exLcNew.rowstride < 4294967296) ∧
    ∃ e2 size sl nl bs, exLcEncoder.writeLcChunk exLcNew = some e2 ∧
      Wrote exLcEncoder.m_file.data e2.m_file.data exLcEncoder.m_file.pos
        (le32 size ++ (le16 12 ++ (le16 sl ++ (le16 nl ++ bs)))) ∧
      le16At e2.m_file.data (exLcEncoder.m_file.pos + 6) = sl ∧
      le16At e2.m_file.data (exLcEncoder.m_file.pos + 8) = nl ∧
      sl ≤ exLcEncoder.m_height ∧ sl + nl ≤ exLcEncoder.m_height ∧
      (∀ y, y < sl → LineSame exLcEncoder.m_prevFrameData exLcNew exLcEncoder.m_width y) ∧
      (sl < exLcEncoder.m_height →
        ¬LineSame exLcEncoder.m_prevFrameData exLcNew exLcEncoder.m_width sl ∧ 1 ≤ nl ∧
        ¬LineSame exLcEncoder.m_prevFrameData exLcNew exLcEncoder.m_width (sl + nl - 1) ∧
        ∀ y, sl + nl ≤ y → y < exLcEncoder.m_height →
          LineSame exLcEncoder.m_prevFrameData exLcNew exLcEncoder.m_width y) ∧
      (sl = exLcEncoder.m_height → nl = 0 ∧ bs = []) :=
  ⟨⟨by decide, by unfold Frame.Bytes; decide, by decide, by decide⟩,
   writeLcChunk_line_range exLcEncoder exLcNew (by decide) (by unfold Frame.Bytes; decide)
     (by decide) (by decide)⟩

/-- C23: the previous-frame invariant of the encoder.  One call: on an ok
stream, for a frame of byte pixels whose row stride is at least the width and
whose lines lie within 32 bit offsets, and, unless this is the first frame, a
snapshot of the size of the frames, `writeFrame` returns and the encoder
then retains the frame: the snapshot has the size of the frames and holds the
pixel of the frame at every `(x, y)`, `x < width`, `y < height`, and the
previous colormap has the 256 entries of the colormap of the frame, whether
a colormap chunk was written or not and whichever lines were encoded.  A
session: after `writeHeader` and any run of `writeFrame` calls with frames of
one row stride, the encoder retains the frame of the last call. -/
theorem previous_frame_invariant (e : Encoder) (src : Frame) (f0 : File) (header : Header)
    (frs : List Frame) (rs : Nat)
    (hok : e.m_file.ok = true) (hpx : src.Bytes) (hw : e.m_width ≤ src.rowstride)
    (hsz : e.m_height * src.rowstride < 4294967296)
    (_hsrc : src.pixels.length = e.m_height * src.rowstride)
    (hprev : e.m_frameCount ≠ 0 → e.m_prevFrameData.length = e.m_height * src.rowstride)
    (hok0 : f0.ok = true) (hall : ∀ fr ∈ frs, fr.Bytes ∧ fr.rowstride = rs)
    (hw0 : header.width ≤ rs) (hsz0 : header.height * rs < 4294967296)
    (hn : frs.length < 2147483648) :
    (∃ e2, e.writeFrame src = some e2 ∧ e2.m_width = e.m_width ∧ e2.m_height = e.m_height ∧
      e2.m_prevFrameData.length = e.m_height * src.rowstride ∧
      (∀ x y, x < e.m_width → y < e.m_height →
        e2.m_prevFrameData.getD (y * src.rowstride + x) 0 = src.px (y * src.rowstride + x)) ∧
      (∀ i, i < 256 → e2.m_prevColormap i = src.colormap i)) ∧
    (∃ ek, ((Encoder.new f0).writeHeader header).writeFrames frs = some ek ∧
      ek.m_width = header.width ∧ ek.m_height = header.height ∧
      ∀ last, frs.getLast? = some last → ek.Retains last) := by
  constructor
  · obtain ⟨e2, he, hw2, hh2, r1, r2, r3⟩ := writeFrame_retains e src hok hpx hw hsz hprev
    rw [hw2, hh2] at r2
    rw [hh2] at r1
    exact ⟨e2, he, hw2, hh2, r1, r2, r3⟩
  · obtain ⟨hok1, _, _, hw1, hh1, hc1, _⟩ := writeHeader_code (Encoder.new f0) header hok0
    have hc : ((Encoder.new f0).writeHeader header).m_frameCount = 0 := hc1
    obtain ⟨ek, hek, hwk, hhk, hlast⟩ := writeFrames_retains rs frs
      ((Encoder.new f0).writeHeader header) hok1 hall (by rw [hw1]; exact hw0)
      (by rw [hh1]; exact hsz0) (by rw [hc]) (by rw [hc]; omega)
      (fun h => absurd hc h)
    exact ⟨ek, hek, by rw [hwk, hw1], by rw [hhk, hh1], hlast⟩

theorem previous_frame_invariant_witness :
    (exLcEncoder.m_file.ok = true ∧ exLcNew.Bytes ∧ exLcEncoder.m_width ≤ exLcNew.rowstride ∧
      exLcEncoder.m_height * exLcNew.rowstride < 4294967296 ∧
      exLcNew.pixels.length = exLcEncoder.m_height * exLcNew.rowstride ∧
      (exLcEncoder.m_frameCount ≠ 0 →
        exLcEncoder.m_prevFrameData.length = exLcEncoder.m_height * exLcNew.rowstride) ∧
      emptyFile.ok = true ∧ (∀ fr ∈ [exFrame10, exFrame10], fr.Bytes ∧ fr.rowstride = 10) ∧
      exHeader10.width ≤ 10 ∧ exHeader10.height * 10 < 4294967296 ∧
      [exFrame10, exFrame10].length < 2147483648) ∧
    (∃ e2, exLcEncoder.writeFrame exLcNew = some e2 ∧ e2.m_width = exLcEncoder.m_width ∧
      e2.m_height = exLcEncoder.m_height ∧
      e2.m_prevFrameData.length = exLcEncoder.m_height * exLcNew.rowstride ∧
      (∀ x y, x < exLcEncoder.m_width → y < exLcEncoder.m_height →
        e2.m_prevFrameData.getD (y * exLcNew.rowstride + x) 0 =
          exLcNew.px (y * exLcNew.rowstride + x)) ∧
      (∀ i, i < 256 → e2.m_prevColormap i = exLcNew.colormap i)) ∧
    (∃ ek, ((Encoder.new emptyFile).writeHeader exHeader10).writeFrames [exFrame10, exFrame10] =
        some ek ∧
      ek.m_width = exHeader10.width ∧ ek.m_height = exHeader10.height ∧
      ∀ last, [exFrame10, exFrame10].getLast? = some last → ek.Retains last) :=
  have hall : ∀ fr ∈ [exFrame10, exFrame10], fr.Bytes ∧ fr.rowstride = 10 := by
    intro fr hfr
    simp only [List.mem_cons, List.mem_singleton, List.not_mem_nil, or_false, or_self] at hfr
    rw [hfr]
    exact ⟨by unfold Frame.Bytes; decide, by decide⟩
  ⟨⟨by decide, by unfold Frame.Bytes; decide, by decide, by decide, by decide,
    fun _ => by decide, by decide, hall, by decide, by decide, by decide⟩,
   previous_frame_invariant exLcEncoder exLcNew emptyFile exHeader10 [exFrame10, exFrame10] 10
     (by decide) (by unfold Frame.Bytes; decide) (by decide) (by decide) (by decide)
     (fun _ => by decide) (by decide) hall (by decide) (by decide) (by decide)⟩

/-- C24: the decoder terminates on every finite stream, truncated or not.
The loops whose number of turns is not fixed by a counter are modelled with
fuel taken from the length of the stream, and they return within it for every
decoder state, stream, frame, width and height: `readFrame`, `readChunk`,
`readBrunChunk` and each of its rows, `readDeltaChunk` and its control word
loop, which leaves the count of lines still to do no larger than it found it
(the count is decremented only after it was found nonzero, so it is a natural
number throughout).  The decoders of the other chunks run loops bounded by
the counts they read.  In particular, on a stream that supplies `k` repeat
packets of count zero and then ends, a row of `readBrunChunk` with a width of
at least 1 reads the packets, finds the stream not ok at the read after the
last of them and returns, the frame unchanged. -/
theorem decoder_terminates (d : Decoder) (fr : Frame) (w h : Nat) (f : File) (nlines : Nat)
    (y0 : Int) (k c : Nat) :
    (∃ r, d.readFrame fr = some r) ∧
    (∃ r, d.readChunk fr = some r) ∧
    (∃ r, readBrunChunk w h f fr = some r) ∧
    (∀ y, ∃ r, readBrunRow w y f fr = some r) ∧
    (∃ r, readDeltaChunk w h f fr = some r) ∧
    (∃ r, deltaWords w h (f.data.length + 1) nlines y0 f fr = some r ∧ r.nlines ≤ nlines) ∧
    readBrunRow (w + 1) 0 (zeroRepeatStream k c) fr =
      some ({ data := (zeroRepeatStream k c).data, pos := 2 * k + 1, ok := false }, fr) := by
  refine ⟨readFrame_some d fr, ?_, readBrunChunk_some w h f fr,
    fun y => readBrunRow_some w y f fr, readDeltaChunk_some w h f fr, ?_,
    readBrunRow_zero_packets w 0 k c fr⟩
  · obtain ⟨r, hr, _⟩ := readChunk_some d fr
    exact ⟨r, hr⟩
  · obtain ⟨r, hr, hn, _⟩ := deltaWords_some w h (f.data.length + 1) nlines y0 f fr (room_le f)
    exact ⟨r, hr, hn⟩

end flic
